import Mathlib

/-!
DijkHeap-Explorer: a verification development.

A shallow embedding of the C++ sources under `cpp_ver/` (graph, the binary,
d-ary, Fibonacci and radix heaps, and the four Dijkstra bindings), followed
by theorems about them.

Conventions of the embedding.

* A C++ `int` is a Lean `Int`; where the program adds or multiplies, the
  result is reduced by `wrap32` (two's complement, 32 bits).
* Vertices are `Nat` (the claims only concern vertices in range); keys,
  distances, weights and array indices are `Int`.
* An operation returns `Except Fault _`.  `Fault.runtime_error` is the
  `std::runtime_error` the program throws; `Fault.out_of_range` is an access
  outside a vector or through a null or freed pointer (undefined behaviour in
  C++); `Fault.out_of_fuel` is a loop that did not finish within the fuel
  given to the model.
-/

set_option autoImplicit false

namespace DijkHeap

/-! ## Machine integers and faults -/

/-- The largest `int`. -/
def INT_MAX : Int := 2147483647

/-- Two's complement reduction of an integer to 32 bits. -/
def wrap32 (x : Int) : Int := (x + 2147483648) % 4294967296 - 2147483648

/-- The ways an operation can fail to return a value. -/
inductive Fault where
  | runtime_error
  | out_of_range
  | out_of_fuel
deriving DecidableEq, Repr

/-- Read `v[i]` of a vector, `i` an `int`. -/
def at? {α : Type} (l : List α) (i : Int) : Except Fault α :=
  if 0 ≤ i then
    match l[i.toNat]? with
    | some a => .ok a
    | none => .error .out_of_range
  else .error .out_of_range

/-- Write `v[i] = a` of a vector, `i` an `int`. -/
def setAt {α : Type} (l : List α) (i : Int) (a : α) : Except Fault (List α) :=
  if 0 ≤ i ∧ i.toNat < l.length then .ok (l.set i.toNat a) else .error .out_of_range

instance instDecidableEqExcept {ε α : Type} [DecidableEq ε] [DecidableEq α] :
    DecidableEq (Except ε α)
  | .ok a, .ok b => if h : a = b then isTrue (by rw [h]) else isFalse (by intro h2; cases h2; exact h rfl)
  | .error a, .error b => if h : a = b then isTrue (by rw [h]) else isFalse (by intro h2; cases h2; exact h rfl)
  | .ok _, .error _ => isFalse (by intro h; cases h)
  | .error _, .ok _ => isFalse (by intro h; cases h)

/-! ## graph.cpp -/

/-- The class `Graph`: `V`, `E` and the adjacency lists. -/
structure Graph where
  V : Nat
  E : Int
  adj : List (List (Nat × Int))
deriving DecidableEq, Repr

/-- The constructor `Graph::Graph(int vertices)`. -/
def Graph.new (vertices : Nat) : Graph :=
  { V := vertices, E := 0, adj := List.replicate vertices [] }

/-- The method `adj[u].emplace_back(v, weight)`. -/
def emplace_back (adj : List (List (Nat × Int))) (u : Nat) (e : Nat × Int) :
    Except Fault (List (List (Nat × Int))) :=
  match adj[u]? with
  | some l => .ok (adj.set u (l ++ [e]))
  | none => .error .out_of_range

/-- The method `Graph::addEdge`. -/
def Graph.addEdge (g : Graph) (u v : Nat) (weight : Int) : Except Fault Graph := do
  let adj ← emplace_back g.adj u (v, weight)
  let adj ← emplace_back adj v (u, weight)
  .ok { g with adj := adj, E := wrap32 (g.E + 1) }

/-- The method `Graph::getV`. -/
def Graph.getV (g : Graph) : Nat := g.V

/-- The method `Graph::getE`. -/
def Graph.getE (g : Graph) : Int := g.E

/-- The method `Graph::getAdjList`. -/
def Graph.getAdjList (g : Graph) : List (List (Nat × Int)) := g.adj

/-- A graph built by `Graph(vertices)` and one `addEdge` call per record. -/
def Graph.build (vertices : Nat) (edges : List (Nat × Nat × Int)) : Except Fault Graph :=
  edges.foldlM (fun g e => g.addEdge e.1 e.2.1 e.2.2) (Graph.new vertices)

/-! ## d_heap.cpp -/

/-- The class `DHeap`. -/
structure DHeap where
  d : Int
  heap : List (Int × Nat)
  vertex_to_index : List Int
deriving DecidableEq, Repr

namespace DHeap

/-- The constructor `DHeap::DHeap(int max_vertices, int heap_degree)`. -/
def new (max_vertices : Nat) (heap_degree : Int) : DHeap :=
  { d := max 2 heap_degree, heap := [], vertex_to_index := List.replicate max_vertices (-1) }

/-- The method `DHeap::contains`. -/
def contains (h : DHeap) (vertex : Nat) : Except Fault Bool := do
  let i ← at? h.vertex_to_index vertex
  .ok (i != -1)

/-- The method `DHeap::empty`. -/
def empty (h : DHeap) : Bool := h.heap.isEmpty

/-- The method `DHeap::parent`. -/
def parent (h : DHeap) (i : Int) : Int := Int.tdiv (i - 1) h.d

/-- The method `DHeap::first_child`. -/
def first_child (h : DHeap) (i : Int) : Int := wrap32 (h.d * i + 1)

/-- The body of `std::swap(heap[i], heap[j])` followed by the two
`vertex_to_index` assignments of `heapify_up` and `heapify_down`. -/
def swap_entries (h : DHeap) (i j : Int) : Except Fault DHeap := do
  let a ← at? h.heap i
  let b ← at? h.heap j
  let heap ← setAt h.heap i b
  let heap ← setAt heap j a
  let hi ← at? heap i
  let vti ← setAt h.vertex_to_index hi.2 i
  let hj ← at? heap j
  let vti ← setAt vti hj.2 j
  .ok { h with heap := heap, vertex_to_index := vti }

/-- The loop of `DHeap::heapify_up`; the index strictly decreases, so `index`
iterations are enough. -/
def heapify_up_loop : Nat → DHeap → Int → Except Fault DHeap
  | 0, h, index => if index > 0 then .error .out_of_fuel else .ok h
  | fuel + 1, h, index =>
    if index > 0 then do
      let p := h.parent index
      let a ← at? h.heap index
      let b ← at? h.heap p
      if a.1 < b.1 then do
        let h ← h.swap_entries index p
        heapify_up_loop fuel h p
      else .ok h
    else .ok h

/-- The method `DHeap::heapify_up`. -/
def heapify_up (h : DHeap) (index : Int) : Except Fault DHeap :=
  heapify_up_loop index.toNat h index

/-- The `for` loop of `DHeap::heapify_down`: `count` iterations from `i`. -/
def smallest_loop (heap : List (Int × Nat)) : Nat → Int → Int → Except Fault Int
  | 0, _, smallest => .ok smallest
  | count + 1, i, smallest => do
    let a ← at? heap i
    let b ← at? heap smallest
    smallest_loop heap count (i + 1) (if a.1 < b.1 then i else smallest)

/-- The method `DHeap::heapify_down`; it calls itself on a later slot, so
`heap.size()` calls are enough when no index wraps. -/
def heapify_down_loop : Nat → DHeap → Int → Except Fault DHeap
  | 0, _, _ => .error .out_of_fuel
  | fuel + 1, h, index => do
    let child := h.first_child index
    let last_child := min (wrap32 (child + h.d)) (wrap32 h.heap.length)
    let smallest ← smallest_loop h.heap (last_child - child).toNat child index
    if smallest ≠ index then do
      let h ← h.swap_entries index smallest
      heapify_down_loop fuel h smallest
    else .ok h

/-- The method `DHeap::heapify_down`. -/
def heapify_down (h : DHeap) (index : Int) : Except Fault DHeap :=
  heapify_down_loop (h.heap.length + 1) h index

/-- The method `DHeap::push`. -/
def push (h : DHeap) (distance : Int) (vertex : Nat) : Except Fault DHeap := do
  let i ← at? h.vertex_to_index vertex
  if i ≠ -1 then .ok h
  else do
    let heap := h.heap ++ [(distance, vertex)]
    let vti ← setAt h.vertex_to_index vertex (wrap32 (heap.length - 1))
    heapify_up { h with heap := heap, vertex_to_index := vti } (wrap32 (heap.length - 1))

/-- The method `DHeap::pop`. -/
def pop (h : DHeap) : Except Fault ((Int × Nat) × DHeap) :=
  match h.heap with
  | [] => .error .runtime_error
  | min :: rest => do
    let vti ← setAt h.vertex_to_index min.2 (-1)
    let last := (min :: rest).getLast (List.cons_ne_nil _ _)
    let heap := if rest.length + 1 > 1 then last :: rest else min :: rest
    let vti ← if rest.length + 1 > 1 then setAt vti last.2 0 else .ok vti
    let heap := heap.dropLast
    let h := { h with heap := heap, vertex_to_index := vti }
    if heap ≠ [] then do
      let h ← h.heapify_down 0
      .ok (min, h)
    else .ok (min, h)

/-- The method `DHeap::decrease_key`. -/
def decrease_key (h : DHeap) (vertex : Nat) (new_distance : Int) : Except Fault DHeap := do
  let index ← at? h.vertex_to_index vertex
  if index = -1 then .ok h
  else do
    let e ← at? h.heap index
    if new_distance > e.1 then .ok h
    else do
      let heap ← setAt h.heap index (new_distance, e.2)
      heapify_up { h with heap := heap } index

end DHeap

/-! ## binary_heap.cpp -/

/-- The class `BinaryHeap`. -/
structure BinaryHeap where
  heap : List (Int × Nat)
  vertex_to_index : List Int
deriving DecidableEq, Repr

namespace BinaryHeap

/-- The constructor `BinaryHeap::BinaryHeap(int max_vertices)`. -/
def new (max_vertices : Nat) : BinaryHeap :=
  { heap := [], vertex_to_index := List.replicate max_vertices (-1) }

/-- The method `BinaryHeap::empty`. -/
def empty (h : BinaryHeap) : Bool := h.heap.isEmpty

/-- The body of `std::swap(heap[i], heap[j])` followed by the two
`vertex_to_index` assignments. -/
def swap_entries (h : BinaryHeap) (i j : Int) : Except Fault BinaryHeap := do
  let a ← at? h.heap i
  let b ← at? h.heap j
  let heap ← setAt h.heap i b
  let heap ← setAt heap j a
  let hi ← at? heap i
  let vti ← setAt h.vertex_to_index hi.2 i
  let hj ← at? heap j
  let vti ← setAt vti hj.2 j
  .ok { h with heap := heap, vertex_to_index := vti }

/-- The loop of `BinaryHeap::heapify_up`. -/
def heapify_up_loop : Nat → BinaryHeap → Int → Except Fault BinaryHeap
  | 0, h, index => if index > 0 then .error .out_of_fuel else .ok h
  | fuel + 1, h, index =>
    if index > 0 then do
      let parent := Int.tdiv (index - 1) 2
      let a ← at? h.heap index
      let b ← at? h.heap parent
      if a.1 < b.1 then do
        let h ← h.swap_entries index parent
        heapify_up_loop fuel h parent
      else .ok h
    else .ok h

/-- The method `BinaryHeap::heapify_up`. -/
def heapify_up (h : BinaryHeap) (index : Int) : Except Fault BinaryHeap :=
  heapify_up_loop index.toNat h index

/-- The test `i < heap.size()` of an `int` against a `size_t`: the `int` is
converted to unsigned, so a negative `i` is not below the size. -/
def below_size (i : Int) (heap : List (Int × Nat)) : Bool :=
  decide (0 ≤ i) && decide (i < heap.length)

/-- One child test of `BinaryHeap::heapify_down`:
`if (c < heap.size() && heap[c].first < heap[smallest].first) smallest = c`. -/
def pick_child (heap : List (Int × Nat)) (c smallest : Int) : Except Fault Int :=
  if below_size c heap then do
    let a ← at? heap c
    let b ← at? heap smallest
    .ok (if a.1 < b.1 then c else smallest)
  else .ok smallest

/-- The loop of `BinaryHeap::heapify_down`. -/
def heapify_down_loop : Nat → BinaryHeap → Int → Except Fault BinaryHeap
  | 0, _, _ => .error .out_of_fuel
  | fuel + 1, h, index => do
    let left := wrap32 (2 * index + 1)
    let right := wrap32 (2 * index + 2)
    let smallest ← pick_child h.heap left index
    let smallest ← pick_child h.heap right smallest
    if smallest ≠ index then do
      let h ← h.swap_entries index smallest
      heapify_down_loop fuel h smallest
    else .ok h

/-- The method `BinaryHeap::heapify_down`. -/
def heapify_down (h : BinaryHeap) (index : Int) : Except Fault BinaryHeap :=
  heapify_down_loop (h.heap.length + 1) h index

/-- The method `BinaryHeap::push`. -/
def push (h : BinaryHeap) (distance : Int) (vertex : Nat) : Except Fault BinaryHeap := do
  let i ← at? h.vertex_to_index vertex
  if i ≠ -1 then .ok h
  else do
    let heap := h.heap ++ [(distance, vertex)]
    let vti ← setAt h.vertex_to_index vertex (wrap32 (heap.length - 1))
    heapify_up { h with heap := heap, vertex_to_index := vti } (wrap32 (heap.length - 1))

/-- The method `BinaryHeap::pop`. -/
def pop (h : BinaryHeap) : Except Fault ((Int × Nat) × BinaryHeap) :=
  match h.heap with
  | [] => .error .runtime_error
  | min :: rest => do
    let vti ← setAt h.vertex_to_index min.2 (-1)
    let last := (min :: rest).getLast (List.cons_ne_nil _ _)
    let heap := if rest.length + 1 > 1 then last :: rest else min :: rest
    let vti ← if rest.length + 1 > 1 then setAt vti last.2 0 else .ok vti
    let heap := heap.dropLast
    let h := { h with heap := heap, vertex_to_index := vti }
    if heap ≠ [] then do
      let h ← h.heapify_down 0
      .ok (min, h)
    else .ok (min, h)

/-- The method `BinaryHeap::decrease_key`. -/
def decrease_key (h : BinaryHeap) (vertex : Nat) (new_distance : Int) :
    Except Fault BinaryHeap := do
  let index ← at? h.vertex_to_index vertex
  if index = -1 then .ok h
  else do
    let e ← at? h.heap index
    if new_distance > e.1 then .ok h
    else do
      let heap ← setAt h.heap index (new_distance, e.2)
      heapify_up { h with heap := heap } index

end BinaryHeap

/-! ## radix_heap.cpp

`fastFindBucket` has two bodies, chosen by `#ifdef __GNUC__`; the embedding
takes the choice as the parameter `gnuc`. -/

/-- The constant `OptimizedRadixHeap::BUCKETS`, `sizeof(int) * 8 + 1`. -/
def BUCKETS : Nat := 33

/-- The class `OptimizedRadixHeap`; a bucket is a queue, front first. -/
structure OptimizedRadixHeap where
  last_deleted : Int
  buckets : List (List (Int × Nat))
  size_ : Nat
deriving DecidableEq, Repr

namespace OptimizedRadixHeap

/-- The constructor `OptimizedRadixHeap::OptimizedRadixHeap()`. -/
def new : OptimizedRadixHeap :=
  { last_deleted := 0, buckets := List.replicate BUCKETS [], size_ := 0 }

/-- The method `OptimizedRadixHeap::empty`. -/
def empty (h : OptimizedRadixHeap) : Bool := h.size_ == 0

/-- The method `OptimizedRadixHeap::size`. -/
def size (h : OptimizedRadixHeap) : Nat := h.size_

/-- The loop `while (diff >>= 1) msb++` of the fallback body, on a 32-bit
unsigned `diff`. -/
def msb_loop : Nat → Nat → Nat → Nat
  | 0, _, msb => msb
  | fuel + 1, diff, msb => if diff / 2 ≠ 0 then msb_loop fuel (diff / 2) (msb + 1) else msb

/-- The compiler builtin `__builtin_clz` on a non-zero 32-bit unsigned value:
the number of zero bits above its highest set bit. -/
def builtin_clz (diff : Nat) : Nat := 31 - msb_loop 32 diff 0

/-- The method `OptimizedRadixHeap::fastFindBucket`. -/
def fastFindBucket (gnuc : Bool) (h : OptimizedRadixHeap) (key : Int) : Int :=
  if key ≤ h.last_deleted then 0
  else
    let diff : Nat := ((key - h.last_deleted) % 4294967296).toNat
    if gnuc then
      if builtin_clz diff ≠ 0 then 0 else (31 - (builtin_clz diff : Int)) + 1
    else
      (msb_loop 32 diff 0 : Int) + 1

/-- The statement `buckets[bucket].push(item)`. -/
def bucket_push (buckets : List (List (Int × Nat))) (bucket : Int) (item : Int × Nat) :
    Except Fault (List (List (Int × Nat))) := do
  let q ← at? buckets bucket
  setAt buckets bucket (q ++ [item])

/-- The method `OptimizedRadixHeap::push`. -/
def push (gnuc : Bool) (h : OptimizedRadixHeap) (item : Int × Nat) :
    Except Fault OptimizedRadixHeap := do
  let bucket := fastFindBucket gnuc h item.1
  let buckets ← bucket_push h.buckets bucket item
  .ok { h with buckets := buckets, size_ := h.size_ + 1 }

/-- The scan `while (buckets[bucket].empty()) bucket++` of `pop`, from
`bucket`: the index of the first non-empty bucket, or an access past the
vector when there is none. -/
def first_nonempty : List (List (Int × Nat)) → Int → Except Fault Int
  | [], _ => .error .out_of_range
  | q :: rest, bucket => if q.isEmpty then first_nonempty rest (bucket + 1) else .ok bucket

/-- The method `OptimizedRadixHeap::findMinInBucket`; the bucket is emptied
into `temp` and swapped back, in the same order. -/
def findMinInBucket (h : OptimizedRadixHeap) (bucket : Int) : Except Fault Int := do
  let q ← at? h.buckets bucket
  .ok (q.foldl (fun min_val item => min min_val item.1) INT_MAX)

/-- The method `OptimizedRadixHeap::redistribute`. -/
def redistribute (gnuc : Bool) : Nat → OptimizedRadixHeap → Int → Except Fault OptimizedRadixHeap
  | 0, _, _ => .error .out_of_fuel
  | fuel + 1, h, bucket => do
    let q ← at? h.buckets bucket
    match q with
    | [] => .ok h
    | item :: rest => do
      let buckets ← setAt h.buckets bucket rest
      let h := { h with buckets := buckets }
      let new_bucket := fastFindBucket gnuc h item.1
      let buckets ← bucket_push h.buckets new_bucket item
      redistribute gnuc fuel { h with buckets := buckets } bucket

/-- The method `OptimizedRadixHeap::pop`; `fuel` bounds both the recursive
calls of `pop` and the iterations of each `redistribute`. -/
def pop (gnuc : Bool) : Nat → OptimizedRadixHeap →
    Except Fault ((Int × Nat) × OptimizedRadixHeap)
  | 0, _ => .error .out_of_fuel
  | fuel + 1, h =>
    if h.empty then .error .runtime_error
    else do
      let bucket ← first_nonempty h.buckets 0
      if bucket > 0 then do
        let m ← findMinInBucket h bucket
        let h := { h with last_deleted := m }
        let h ← redistribute gnuc fuel h bucket
        pop gnuc fuel h
      else do
        let q ← at? h.buckets 0
        match q with
        | [] => .error .out_of_range
        | item :: rest => do
          let buckets ← setAt h.buckets 0 rest
          .ok (item, { h with buckets := buckets, size_ := h.size_ - 1, last_deleted := item.1 })

end OptimizedRadixHeap

/-! ## fibonacci_heap.cpp

Every live node belongs to one vertex (`push` refuses a vertex that has a
node), so the embedding takes the vertex as the node's address: `mem` is the
free store, `mem[a]` the node at address `a`, and a `Node*` is an
`Option Nat`.  Reading or writing through an address that holds no node is
`Fault.out_of_range`. -/

/-- The struct `FibonacciHeap::Node`. -/
structure Node where
  key : Int
  vertex : Nat
  degree : Int
  marked : Bool
  parent : Option Nat
  child : Option Nat
  left : Nat
  right : Nat
deriving DecidableEq, Repr

/-- The class `FibonacciHeap`, with the free store its nodes live in. -/
structure FibonacciHeap where
  min_node : Option Nat
  size : Int
  node_table : List (Option Nat)
  mem : List (Option Node)
deriving DecidableEq, Repr

namespace FibonacciHeap

/-- The constructor `FibonacciHeap::FibonacciHeap(int max_vertices)`. -/
def new (max_vertices : Nat) : FibonacciHeap :=
  { min_node := none, size := 0, node_table := List.replicate max_vertices none,
    mem := List.replicate max_vertices none }

/-- The method `FibonacciHeap::empty`. -/
def empty (h : FibonacciHeap) : Bool := h.min_node.isNone

/-- The method `FibonacciHeap::get_size`. -/
def get_size (h : FibonacciHeap) : Int := h.size

/-- Read the node at address `p`. -/
def deref (h : FibonacciHeap) (p : Nat) : Except Fault Node :=
  match h.mem[p]? with
  | some (some n) => .ok n
  | _ => .error .out_of_range

/-- Assign to fields of the node at address `p`. -/
def store (h : FibonacciHeap) (p : Nat) (f : Node → Node) : Except Fault FibonacciHeap := do
  let n ← h.deref p
  .ok { h with mem := h.mem.set p (some (f n)) }

/-- The four statements that splice `x` into the root list after `min_node`:
`x->left = min_node; x->right = min_node->right;
min_node->right->left = x; min_node->right = x;`. -/
def insert_after_min (h : FibonacciHeap) (x : Nat) : Except Fault FibonacciHeap :=
  match h.min_node with
  | none => .error .out_of_range
  | some m => do
    let h ← h.store x (fun n => { n with left := m })
    let mn ← h.deref m
    let h ← h.store x (fun n => { n with right := mn.right })
    let mn ← h.deref m
    let h ← h.store mn.right (fun n => { n with left := x })
    h.store m (fun n => { n with right := x })

/-- The method `FibonacciHeap::push`. -/
def push (h : FibonacciHeap) (key : Int) (vertex : Nat) : Except Fault FibonacciHeap :=
  match h.node_table[vertex]? with
  | none => .error .out_of_range
  | some (some _) => .error .runtime_error
  | some none => do
    let node := vertex
    let h := { h with
      mem := h.mem.set node (some { key := key, vertex := vertex, degree := 0, marked := false,
                                    parent := none, child := none, left := node, right := node }),
      node_table := h.node_table.set vertex (some node) }
    match h.min_node with
    | none => .ok { h with min_node := some node, size := wrap32 (h.size + 1) }
    | some m => do
      let h ← h.insert_after_min node
      let n ← h.deref node
      let mn ← h.deref m
      let h := if n.key < mn.key then { h with min_node := some node } else h
      .ok { h with size := wrap32 (h.size + 1) }

/-- The method `FibonacciHeap::link`. -/
def link (h : FibonacciHeap) (y x : Nat) : Except Fault FibonacciHeap := do
  let yn ← h.deref y
  let h ← h.store yn.left (fun n => { n with right := yn.right })
  let yn ← h.deref y
  let h ← h.store yn.right (fun n => { n with left := yn.left })
  let h ← h.store y (fun n => { n with parent := some x })
  let xn ← h.deref x
  let h ← match xn.child with
    | none => do
      let h ← h.store x (fun n => { n with child := some y })
      let h ← h.store y (fun n => { n with right := y })
      h.store y (fun n => { n with left := y })
    | some c => do
      let h ← h.store y (fun n => { n with left := c })
      let cn ← h.deref c
      let h ← h.store y (fun n => { n with right := cn.right })
      let cn ← h.deref c
      let h ← h.store cn.right (fun n => { n with left := y })
      h.store c (fun n => { n with right := y })
  let h ← h.store x (fun n => { n with degree := wrap32 (n.degree + 1) })
  h.store y (fun n => { n with marked := false })

/-- The least `k` with `n ≤ 2 ^ k`, by doubling: `ceil(log2(n))` for `n ≥ 1`. -/
def ceil_log2_loop : Nat → Nat → Nat → Nat → Nat
  | 0, _, k, _ => k
  | fuel + 1, n, k, p => if n ≤ p then k else ceil_log2_loop fuel n (k + 1) (2 * p)

/-- The value `ceil(log2(n))` for `n ≥ 1`. -/
def ceil_log2 (n : Nat) : Nat := ceil_log2_loop 64 n 0 1

/-- The first loop of `consolidate`:
`do { roots.push_back(current); current = current->right; } while (current != min_node)`. -/
def collect_roots : Nat → FibonacciHeap → Nat → Nat → List Nat → Except Fault (List Nat)
  | 0, _, _, _, _ => .error .out_of_fuel
  | fuel + 1, h, m, current, roots => do
    let roots := roots ++ [current]
    let c ← h.deref current
    if c.right ≠ m then collect_roots fuel h m c.right roots else .ok roots

/-- The loop `while (A[d]) { ... d++; }` of `consolidate` followed by
`A[d] = x`. -/
def consolidate_while : Nat → FibonacciHeap → List (Option Nat) → Nat → Int →
    Except Fault (FibonacciHeap × List (Option Nat))
  | 0, _, _, _, _ => .error .out_of_fuel
  | fuel + 1, h, A, x, d => do
    let Ad ← at? A d
    match Ad with
    | none => do
      let A ← setAt A d (some x)
      .ok (h, A)
    | some y => do
      let xn ← h.deref x
      let yn ← h.deref y
      let x1 := if xn.key > yn.key then y else x
      let y1 := if xn.key > yn.key then x else y
      let h ← h.link y1 x1
      let A ← setAt A d none
      consolidate_while fuel h A x1 (wrap32 (d + 1))

/-- The loop `for (Node* w : roots)` of `consolidate`. -/
def consolidate_roots : List Nat → FibonacciHeap → List (Option Nat) →
    Except Fault (FibonacciHeap × List (Option Nat))
  | [], h, A => .ok (h, A)
  | w :: roots, h, A => do
    let xn ← h.deref w
    let (h, A) ← consolidate_while (A.length + 1) h A w xn.degree
    consolidate_roots roots h A

/-- The last loop of `consolidate`, `for (Node* a : A)`: rebuild the root
list. -/
def rebuild_roots : List (Option Nat) → FibonacciHeap → Except Fault FibonacciHeap
  | [], h => .ok h
  | none :: A, h => rebuild_roots A h
  | some a :: A, h =>
    match h.min_node with
    | none => do
      let h := { h with min_node := some a }
      let h ← h.store a (fun n => { n with right := a })
      let h ← h.store a (fun n => { n with left := a })
      rebuild_roots A h
    | some m => do
      let h ← h.insert_after_min a
      let an ← h.deref a
      let mn ← h.deref m
      let h := if an.key < mn.key then { h with min_node := some a } else h
      rebuild_roots A h

/-- The method `FibonacciHeap::consolidate`; the vector `A` has
`ceil(log2(size)) + 1` entries. -/
def consolidate (h : FibonacciHeap) : Except Fault FibonacciHeap :=
  match h.min_node with
  | none => .ok h
  | some m =>
    if h.size ≤ 0 then .error .out_of_range
    else do
      let A : List (Option Nat) := List.replicate (ceil_log2 h.size.toNat + 1) none
      let roots ← collect_roots (h.mem.length + 1) h m m []
      let (h, A) ← consolidate_roots roots h A
      rebuild_roots A { h with min_node := none }

/-- The loop of `pop` over the children of `z`:
`do { ... child = next_child; } while (child != z->child)`. -/
def pop_children : Nat → FibonacciHeap → Nat → Nat → Except Fault FibonacciHeap
  | 0, _, _, _ => .error .out_of_fuel
  | fuel + 1, h, z, child => do
    let c ← h.deref child
    let next_child := c.right
    let h ← h.store child (fun n => { n with parent := none })
    let h ← h.insert_after_min child
    let zn ← h.deref z
    if some next_child ≠ zn.child then pop_children fuel h z next_child else .ok h

/-- The method `FibonacciHeap::pop`. -/
def pop (h : FibonacciHeap) : Except Fault ((Int × Nat) × FibonacciHeap) :=
  match h.min_node with
  | none => .error .runtime_error
  | some z => do
    let zn ← h.deref z
    let result := (zn.key, zn.vertex)
    let node_table ← setAt h.node_table zn.vertex none
    let h := { h with node_table := node_table }
    let h ← match zn.child with
      | some c => pop_children (h.mem.length + 1) h z c
      | none => .ok h
    let zn ← h.deref z
    let h ← h.store zn.left (fun n => { n with right := zn.right })
    let zn ← h.deref z
    let h ← h.store zn.right (fun n => { n with left := zn.left })
    let zn ← h.deref z
    let h ← if z = zn.right then .ok { h with min_node := none }
      else consolidate { h with min_node := some zn.right }
    let h := { h with mem := h.mem.set z none }
    .ok (result, { h with size := wrap32 (h.size - 1) })

/-- The method `FibonacciHeap::cut`. -/
def cut (h : FibonacciHeap) (x y : Nat) : Except Fault FibonacciHeap := do
  let xn ← h.deref x
  let h ← if xn.right = x then h.store y (fun n => { n with child := none })
    else do
      let h ← h.store xn.left (fun n => { n with right := xn.right })
      let xn ← h.deref x
      let h ← h.store xn.right (fun n => { n with left := xn.left })
      let yn ← h.deref y
      let xn ← h.deref x
      if yn.child = some x then h.store y (fun n => { n with child := some xn.right })
      else .ok h
  let h ← h.store y (fun n => { n with degree := wrap32 (n.degree - 1) })
  let h ← h.insert_after_min x
  let h ← h.store x (fun n => { n with parent := none })
  h.store x (fun n => { n with marked := false })

/-- The method `FibonacciHeap::cascading_cut`. -/
def cascading_cut : Nat → FibonacciHeap → Nat → Except Fault FibonacciHeap
  | 0, _, _ => .error .out_of_fuel
  | fuel + 1, h, y => do
    let yn ← h.deref y
    match yn.parent with
    | none => .ok h
    | some z =>
      if !yn.marked then h.store y (fun n => { n with marked := true })
      else do
        let h ← h.cut y z
        cascading_cut fuel h z

/-- The method `FibonacciHeap::decrease_key`. -/
def decrease_key (h : FibonacciHeap) (vertex : Nat) (new_key : Int) :
    Except Fault FibonacciHeap :=
  match h.node_table[vertex]? with
  | none => .error .out_of_range
  | some none => .ok h
  | some (some node) => do
    let n ← h.deref node
    if new_key > n.key then .ok h
    else do
      let h ← h.store node (fun x => { x with key := new_key })
      let n ← h.deref node
      let h ← match n.parent with
        | none => .ok h
        | some parent => do
          let pn ← h.deref parent
          if n.key < pn.key then do
            let h ← h.cut node parent
            cascading_cut (h.mem.length + 1) h parent
          else .ok h
      match h.min_node with
      | none => .ok { h with min_node := some node }
      | some m => do
        let n ← h.deref node
        let mn ← h.deref m
        .ok (if n.key < mn.key then { h with min_node := some node } else h)

end FibonacciHeap

/-! ## The standard library's `std::priority_queue`

`dijkstraPriorityQueue` uses
`std::priority_queue<pair<int,int>, vector<pair<int,int>>, greater<pair<int,int>>>`.
The embedding keeps the entries in a list sorted by `(key, vertex)`: `top` is
the head, the least pair, which is all the binding observes. -/

/-- The order `std::greater` puts on the queue: the least pair is on top. -/
def pair_le (a b : Int × Nat) : Bool :=
  decide (a.1 < b.1) || (decide (a.1 = b.1) && decide (a.2 ≤ b.2))

/-- The method `std::priority_queue::push`. -/
def pq_push (e : Int × Nat) : List (Int × Nat) → List (Int × Nat)
  | [] => [e]
  | a :: q => if pair_le e a then e :: a :: q else a :: pq_push e q

/-! ## dijkstra.cpp -/

/-- The relaxation loop `for (const auto& edge : adj[u])` of
`dijkstraPriorityQueue`. -/
def relax_pq (u : Nat) : List (Nat × Int) → List Int → List (Int × Nat) →
    Except Fault (List Int × List (Int × Nat))
  | [], dist, pq => .ok (dist, pq)
  | (v, weight) :: edges, dist, pq => do
    let dv ← at? dist v
    let du ← at? dist u
    if dv > wrap32 (du + weight) then do
      let dist ← setAt dist v (wrap32 (du + weight))
      let dv ← at? dist v
      relax_pq u edges dist (pq_push (dv, v) pq)
    else relax_pq u edges dist pq

/-- The loop `while (!pq.empty())` of `dijkstraPriorityQueue`. -/
def loop_pq (adj : List (List (Nat × Int))) : Nat → List Int → List (Int × Nat) →
    Except Fault (List Int)
  | 0, _, _ => .error .out_of_fuel
  | fuel + 1, dist, pq =>
    match pq with
    | [] => .ok dist
    | current :: pq => do
      let u := current.2
      let current_dist := current.1
      let du ← at? dist u
      if current_dist > du then loop_pq adj fuel dist pq
      else do
        let edges ← at? adj u
        let (dist, pq) ← relax_pq u edges dist pq
        loop_pq adj fuel dist pq

/-- The function `dijkstraPriorityQueue`. -/
def dijkstraPriorityQueue (fuel : Nat) (graph : Graph) (src : Nat) : Except Fault (List Int) := do
  let V := graph.getV
  let adj := graph.getAdjList
  let dist := List.replicate V INT_MAX
  let dist ← setAt dist src 0
  loop_pq adj fuel dist (pq_push (0, src) [])

/-- The relaxation loop of `dijkstraDHeap`. -/
def relax_dheap (u : Nat) : List (Nat × Int) → List Int → DHeap →
    Except Fault (List Int × DHeap)
  | [], dist, heap => .ok (dist, heap)
  | (v, weight) :: edges, dist, heap => do
    let dv ← at? dist v
    let du ← at? dist u
    if dv > wrap32 (du + weight) then do
      let dist ← setAt dist v (wrap32 (du + weight))
      let dv ← at? dist v
      let c ← heap.contains v
      let heap ← if c then heap.decrease_key v dv else heap.push dv v
      relax_dheap u edges dist heap
    else relax_dheap u edges dist heap

/-- The loop `while (!heap.empty())` of `dijkstraDHeap`. -/
def loop_dheap (adj : List (List (Nat × Int))) : Nat → List Int → DHeap →
    Except Fault (List Int)
  | 0, _, _ => .error .out_of_fuel
  | fuel + 1, dist, heap =>
    if heap.empty then .ok dist
    else do
      let (current, heap) ← heap.pop
      let u := current.2
      let current_dist := current.1
      let du ← at? dist u
      if current_dist > du then loop_dheap adj fuel dist heap
      else do
        let edges ← at? adj u
        let (dist, heap) ← relax_dheap u edges dist heap
        loop_dheap adj fuel dist heap

/-- The function `dijkstraDHeap`. -/
def dijkstraDHeap (fuel : Nat) (graph : Graph) (src : Nat) (d : Int) :
    Except Fault (List Int) := do
  let V := graph.getV
  let adj := graph.getAdjList
  let dist := List.replicate V INT_MAX
  let dist ← setAt dist src 0
  let heap := DHeap.new V d
  let heap ← heap.push 0 src
  loop_dheap adj fuel dist heap

/-- The relaxation loop of `dijkstraFibonacciHeap`. -/
def relax_fib (u : Nat) : List (Nat × Int) → List Int → FibonacciHeap →
    Except Fault (List Int × FibonacciHeap)
  | [], dist, fh => .ok (dist, fh)
  | (v, weight) :: edges, dist, fh => do
    let dv ← at? dist v
    let du ← at? dist u
    if dv > wrap32 (du + weight) then do
      let dist ← setAt dist v (wrap32 (du + weight))
      let dv ← at? dist v
      let fh ← fh.decrease_key v dv
      relax_fib u edges dist fh
    else relax_fib u edges dist fh

/-- The loop `while (!fh.empty())` of `dijkstraFibonacciHeap`. -/
def loop_fib (adj : List (List (Nat × Int))) : Nat → List Int → FibonacciHeap →
    Except Fault (List Int)
  | 0, _, _ => .error .out_of_fuel
  | fuel + 1, dist, fh =>
    if fh.empty then .ok dist
    else do
      let (current, fh) ← fh.pop
      let u := current.2
      let edges ← at? adj u
      let (dist, fh) ← relax_fib u edges dist fh
      loop_fib adj fuel dist fh

/-- The loop `for (int i = 0; i < V; ++i) fh.push(i == src ? 0 : INT_MAX, i)`
of `dijkstraFibonacciHeap`, over the vertices `is`. -/
def push_all_fib (src : Nat) : List Nat → FibonacciHeap → Except Fault FibonacciHeap
  | [], fh => .ok fh
  | i :: is, fh => do
    let fh ← fh.push (if i = src then 0 else INT_MAX) i
    push_all_fib src is fh

/-- The function `dijkstraFibonacciHeap`. -/
def dijkstraFibonacciHeap (fuel : Nat) (graph : Graph) (src : Nat) :
    Except Fault (List Int) := do
  let V := graph.getV
  let adj := graph.getAdjList
  let dist := List.replicate V INT_MAX
  let dist ← setAt dist src 0
  let fh ← push_all_fib src (List.range V) (FibonacciHeap.new V)
  loop_fib adj fuel dist fh

/-- The relaxation loop of `dijkstraRadixHeap`. -/
def relax_radix (gnuc : Bool) (u : Nat) : List (Nat × Int) → List Int → OptimizedRadixHeap →
    Except Fault (List Int × OptimizedRadixHeap)
  | [], dist, rh => .ok (dist, rh)
  | (v, weight) :: edges, dist, rh => do
    let dv ← at? dist v
    let du ← at? dist u
    if dv > wrap32 (du + weight) then do
      let dist ← setAt dist v (wrap32 (du + weight))
      let dv ← at? dist v
      let rh ← rh.push gnuc (dv, v)
      relax_radix gnuc u edges dist rh
    else relax_radix gnuc u edges dist rh

/-- The loop `while (!rh.empty())` of `dijkstraRadixHeap`; `fuel` also bounds
each `pop`. -/
def loop_radix (gnuc : Bool) (adj : List (List (Nat × Int))) : Nat → List Int →
    OptimizedRadixHeap → Except Fault (List Int)
  | 0, _, _ => .error .out_of_fuel
  | fuel + 1, dist, rh =>
    if rh.empty then .ok dist
    else do
      let (current, rh) ← rh.pop gnuc fuel
      let u := current.2
      let current_dist := current.1
      let du ← at? dist u
      if current_dist > du then loop_radix gnuc adj fuel dist rh
      else do
        let edges ← at? adj u
        let (dist, rh) ← relax_radix gnuc u edges dist rh
        loop_radix gnuc adj fuel dist rh

/-- The function `dijkstraRadixHeap`. -/
def dijkstraRadixHeap (gnuc : Bool) (fuel : Nat) (graph : Graph) (src : Nat) :
    Except Fault (List Int) := do
  let V := graph.getV
  let adj := graph.getAdjList
  let dist := List.replicate V INT_MAX
  let dist ← setAt dist src 0
  let rh ← OptimizedRadixHeap.new.push gnuc (0, src)
  loop_radix gnuc adj fuel dist rh

/-! ## Runs used in the statements -/

/-- Push the entries of a list into a `DHeap`, in order. -/
def DHeap.push_all : List (Int × Nat) → DHeap → Except Fault DHeap
  | [], h => .ok h
  | e :: es, h => do
    let h ← h.push e.1 e.2
    DHeap.push_all es h

/-- Pop a `DHeap` until it is empty, at most `fuel` times, and list what
the pops returned. -/
def DHeap.drain : Nat → DHeap → Except Fault (List (Int × Nat))
  | 0, h => if h.empty then .ok [] else .error .out_of_fuel
  | fuel + 1, h =>
    if h.empty then .ok []
    else do
      let (e, h) ← h.pop
      let es ← DHeap.drain fuel h
      .ok (e :: es)

/-- Push the entries of a list into a `FibonacciHeap`, in order. -/
def FibonacciHeap.push_all : List (Int × Nat) → FibonacciHeap → Except Fault FibonacciHeap
  | [], h => .ok h
  | e :: es, h => do
    let h ← h.push e.1 e.2
    FibonacciHeap.push_all es h

/-- Call `decrease_key(v, k)` for each `(k, v)` of a list, in order. -/
def FibonacciHeap.decrease_all : List (Int × Nat) → FibonacciHeap → Except Fault FibonacciHeap
  | [], h => .ok h
  | e :: es, h => do
    let h ← h.decrease_key e.2 e.1
    FibonacciHeap.decrease_all es h

/-- Pop a `FibonacciHeap` `count` times and list what the pops returned. -/
def FibonacciHeap.pop_many : Nat → FibonacciHeap →
    Except Fault (List (Int × Nat) × FibonacciHeap)
  | 0, h => .ok ([], h)
  | count + 1, h => do
    let (e, h) ← h.pop
    let (es, h) ← FibonacciHeap.pop_many count h
    .ok (e :: es, h)

/-- Push the entries of a list into an `OptimizedRadixHeap`, in order. -/
def OptimizedRadixHeap.push_all (gnuc : Bool) : List (Int × Nat) → OptimizedRadixHeap →
    Except Fault OptimizedRadixHeap
  | [], h => .ok h
  | e :: es, h => do
    let h ← h.push gnuc e
    OptimizedRadixHeap.push_all gnuc es h

/-- Pop an `OptimizedRadixHeap` until it is empty, at most `fuel` times (each
`pop` with fuel `fuel`), and list what the pops returned. -/
def OptimizedRadixHeap.drain (gnuc : Bool) : Nat → OptimizedRadixHeap →
    Except Fault (List (Int × Nat))
  | 0, h => if h.empty then .ok [] else .error .out_of_fuel
  | fuel + 1, h =>
    if h.empty then .ok []
    else do
      let (e, h) ← h.pop gnuc (fuel + 1)
      let es ← OptimizedRadixHeap.drain gnuc fuel h
      .ok (e :: es)

/-- The value `d_recommended = (2 * m) / n` that `main` passes to
`dijkstraDHeap`. -/
def d_recommended (g : Graph) : Int := Int.tdiv (wrap32 (2 * g.getE)) g.getV

/-- The 5-vertex graph of the spec's first scenario. -/
def exampleGraph : Except Fault Graph := do
  let g := Graph.new 5
  let g ← g.addEdge 0 1 4
  let g ← g.addEdge 0 2 1
  let g ← g.addEdge 2 1 2
  let g ← g.addEdge 1 3 1
  let g ← g.addEdge 2 3 5
  g.addEdge 3 4 3

/-- A 3-vertex graph whose vertices 1 and 2 are joined by an edge of weight 1
and cannot be reached from vertex 0. -/
def disconnectedGraph : Except Fault Graph :=
  (Graph.new 3).addEdge 1 2 1

/-- A 4-vertex graph with the edges `(0,1,4)`, `(0,2,3)`, `(2,3,7)`. -/
def radixGraph : Except Fault Graph := do
  let g := Graph.new 4
  let g ← g.addEdge 0 1 4
  let g ← g.addEdge 0 2 3
  g.addEdge 2 3 7

/-- The vertices joined to vertex 0 in `fibGraph`. -/
def fibNeighbours : List Nat :=
  [4, 7, 8, 13, 14, 15, 16, 23, 24, 25, 26, 27, 28, 29, 30, 31, 32]

/-- A 33-vertex star: vertex 0 is joined to each `i` of `fibNeighbours` by an
edge of weight `i`; the other 15 vertices are isolated. -/
def fibGraph : Except Fault Graph :=
  Graph.build 33 (fibNeighbours.map (fun i => (0, i, (i : Int))))

/-- A run of a `FibonacciHeap`: push vertex `i` with key `100 + i` for
`i = 0, ..., 32`, pop once, lower the key of each `i` of `fibNeighbours` to
`i`, and pop 16 times. -/
def fibRun : Except Fault (List (Int × Nat) × FibonacciHeap) := do
  let h ← FibonacciHeap.push_all ((List.range 33).map (fun i => (((100 + i : Nat) : Int), i)))
    (FibonacciHeap.new 33)
  let (_, h) ← h.pop
  let h ← FibonacciHeap.decrease_all (fibNeighbours.map (fun (i : Nat) => ((i : Int), i))) h
  FibonacciHeap.pop_many 16 h

/-! ## States of the radix heap on `radixGraph` -/

/-- The radix heap of the run on `radixGraph` after `last_deleted` has become 4
and `redistribute(3)` has moved `(4, 1)` to bucket 0: `(10, 3)` is alone in
bucket 3. -/
def radixStuck : OptimizedRadixHeap :=
  { last_deleted := 4,
    buckets := [[(4, 1)], [], [], [(10, 3)]] ++ List.replicate 29 [],
    size_ := 2 }

/-- The radix heap of the run on `radixGraph` before its third `pop`. -/
def radixBefore : OptimizedRadixHeap :=
  { last_deleted := 3,
    buckets := [[], [], [], [(4, 1), (10, 3)]] ++ List.replicate 29 [],
    size_ := 2 }

/-- The adjacency lists of `radixGraph`. -/
def radixAdj : List (List (Nat × Int)) :=
  [[(1, 4), (2, 3)], [(0, 4)], [(0, 3), (3, 7)], [(2, 7)]]

/-- The radix heap of the run on `radixGraph` before its second `pop`. -/
def radixSecond : OptimizedRadixHeap :=
  { last_deleted := 0,
    buckets := [[], [], [(3, 2)], [(4, 1)]] ++ List.replicate 29 [],
    size_ := 2 }

/-- The radix heap of the run on `radixGraph` before its first `pop`. -/
def radixFirst : OptimizedRadixHeap :=
  { last_deleted := 0,
    buckets := [[(0, 0)]] ++ List.replicate 32 [],
    size_ := 1 }

/-! ## Invariants and reachable states of `DHeap` and `BinaryHeap` -/

/-- The `vertex_to_index` vector of a heap over `n` vertices agrees with its
array: slot `i` holds a vertex whose map entry is `i`, and a map entry is `-1`
or a slot that holds that vertex. -/
structure Indexed (n : Nat) (heap : List (Int × Nat)) (vti : List Int) : Prop where
  len : vti.length = n
  slot : ∀ (i : Nat) (e : Int × Nat), heap[i]? = some e → vti[e.2]? = some (i : Int)
  back : ∀ (v : Nat) (x : Int), vti[v]? = some x →
    x = -1 ∨ ∃ (i : Nat) (e : Int × Nat), x = (i : Int) ∧ heap[i]? = some e ∧ e.2 = v

/-- Heap order of a `D`-ary array heap: no entry is below its parent. -/
def Ordered (D : Nat) (heap : List (Int × Nat)) : Prop :=
  ∀ (i : Nat) (e p : Int × Nat), 0 < i → heap[i]? = some e →
    heap[((i - 1) / D)]? = some p → p.1 ≤ e.1

/-- The invariant of a `DHeap` over `n` vertices: a branching factor of at
least 2 for which no index computation leaves the range of `int`, a consistent
vertex map, and heap order. -/
structure DHeap.Inv (n : Nat) (h : DHeap) : Prop where
  d_ge : 2 ≤ h.d
  small : h.d * n < 2147483647
  indexed : Indexed n h.heap h.vertex_to_index
  ordered : Ordered h.d.toNat h.heap

/-- A call of a public operation of `DHeap`, with its arguments. -/
inductive HeapCall where
  | push (key : Int) (vertex : Nat)
  | pop
  | decrease_key (vertex : Nat) (new_key : Int)
deriving DecidableEq, Repr

/-- The state a `DHeap` over `n` vertices is left in by a call that returns;
vertices are in range. -/
def DHeap.step (n : Nat) (h : DHeap) : HeapCall → Option DHeap
  | .push key vertex =>
    if vertex < n then
      match h.push key vertex with
      | .ok h1 => some h1
      | .error _ => none
    else none
  | .pop =>
    match h.pop with
    | .ok r => some r.2
    | .error _ => none
  | .decrease_key vertex new_key =>
    if vertex < n then
      match h.decrease_key vertex new_key with
      | .ok h1 => some h1
      | .error _ => none
    else none

/-- The states of `DHeap(n, d)` reachable from the empty heap by a sequence
of `push`, `pop` and `decrease_key` calls that return, vertices in range. -/
inductive DHeap.Reachable (n : Nat) (d : Int) : DHeap → Prop where
  | init : DHeap.Reachable n d (DHeap.new n d)
  | step (h h1 : DHeap) (c : HeapCall) :
      DHeap.Reachable n d h → DHeap.step n h c = some h1 → DHeap.Reachable n d h1

/-- The entry of vertex `v` in a heap array, if it has one. -/
def entry_of (heap : List (Int × Nat)) (v : Nat) : Option (Int × Nat) :=
  heap.find? (fun e => e.2 == v)

/-- Heap order everywhere except between slot `i` and its parent; the
children of `i` are not below the parent of `i`.  The loop invariant of
`heapify_up`. -/
def UpInv (D : Nat) (heap : List (Int × Nat)) (i : Nat) : Prop :=
  (∀ (j : Nat) (e p : Int × Nat), 0 < j → j ≠ i → heap[j]? = some e →
    heap[(j - 1) / D]? = some p → p.1 ≤ e.1) ∧
  (∀ (j : Nat) (e g : Int × Nat), 0 < j → 0 < i → (j - 1) / D = i → heap[j]? = some e →
    heap[(i - 1) / D]? = some g → g.1 ≤ e.1)

/-- Heap order everywhere except between slot `i` and its children; the
children of `i` are not below the parent of `i`.  The invariant of
`heapify_down`. -/
def DownInv (D : Nat) (heap : List (Int × Nat)) (i : Nat) : Prop :=
  (∀ (j : Nat) (e p : Int × Nat), 0 < j → (j - 1) / D ≠ i → heap[j]? = some e →
    heap[(j - 1) / D]? = some p → p.1 ≤ e.1) ∧
  (∀ (j : Nat) (e g : Int × Nat), 0 < j → 0 < i → (j - 1) / D = i → heap[j]? = some e →
    heap[(i - 1) / D]? = some g → g.1 ≤ e.1)

/-- A `BinaryHeap` read as a `DHeap` of branching factor 2. -/
def BinaryHeap.toDHeap (b : BinaryHeap) : DHeap :=
  { d := 2, heap := b.heap, vertex_to_index := b.vertex_to_index }

/-- The state a `BinaryHeap` over `n` vertices is left in by a call that
returns; vertices are in range. -/
def BinaryHeap.step (n : Nat) (b : BinaryHeap) : HeapCall → Option BinaryHeap
  | .push key vertex =>
    if vertex < n then
      match b.push key vertex with
      | .ok b1 => some b1
      | .error _ => none
    else none
  | .pop =>
    match b.pop with
    | .ok r => some r.2
    | .error _ => none
  | .decrease_key vertex new_key =>
    if vertex < n then
      match b.decrease_key vertex new_key with
      | .ok b1 => some b1
      | .error _ => none
    else none

/-- The states of `BinaryHeap(n)` reachable from the empty heap by a sequence
of `push`, `pop` and `decrease_key` calls that return, vertices in range. -/
inductive BinaryHeap.Reachable (n : Nat) : BinaryHeap → Prop where
  | init : BinaryHeap.Reachable n (BinaryHeap.new n)
  | step (b b1 : BinaryHeap) (c : HeapCall) :
      BinaryHeap.Reachable n b → BinaryHeap.step n b c = some b1 → BinaryHeap.Reachable n b1

/-- Run a sequence of calls on a `DHeap`; `none` when one of them fails. -/
def DHeap.run (n : Nat) : List HeapCall → DHeap → Option DHeap
  | [], h => some h
  | c :: cs, h =>
    match DHeap.step n h c with
    | some h1 => DHeap.run n cs h1
    | none => none

/-- Run a sequence of calls on a `BinaryHeap`; `none` when one of them fails. -/
def BinaryHeap.run (n : Nat) : List HeapCall → BinaryHeap → Option BinaryHeap
  | [], b => some b
  | c :: cs, b =>
    match BinaryHeap.step n b c with
    | some b1 => BinaryHeap.run n cs b1
    | none => none

/-- The heap `DHeap(3, 3)` after `push(5, 0)`, `push(3, 1)`, `push(8, 2)`. -/
def sampleDHeap : DHeap :=
  { d := 3, heap := [(3, 1), (5, 0), (8, 2)], vertex_to_index := [1, 0, 2] }

/-- The heap `BinaryHeap(3)` after `push(5, 0)`, `push(3, 1)`, `push(8, 2)`. -/
def sampleBinaryHeap : BinaryHeap :=
  { heap := [(3, 1), (5, 0), (8, 2)], vertex_to_index := [1, 0, 2] }

/-- The heap `DHeap(3, INT_MAX)` after `push(1, 0)`, `push(2, 1)`, `push(3, 2)`
and `pop()`: the last entry has been moved to the root and `heapify_down` has
left it there. -/
def wideDHeap : DHeap :=
  { d := 2147483647, heap := [(3, 2), (2, 1)], vertex_to_index := [-1, 1, 0] }

/-- The heap `DHeap(4, INT_MAX)` after `push(1, 0)`, `push(2, 1)`, `push(3, 2)`,
`push(5, 3)` and `pop()`. -/
def wideDHeap4 : DHeap :=
  { d := 2147483647, heap := [(5, 3), (2, 1), (3, 2)], vertex_to_index := [-1, 1, 2, 0] }

/-! ## Invariants and reachable states of `FibonacciHeap`

The nodes of a `FibonacciHeap` are read through a node map, address to
node.  The nodes with one parent field form a sibling group (the parentless
nodes the root list); a group is read as a ring map, address to the pair of
the `left` and `right` fields. -/

/-- The node at address `a` of the free store, where the address `dead`, if
there is one, holds a node that is on its way to `delete` and is left out. -/
def FibonacciHeap.view (h : FibonacciHeap) (dead : Option Nat) (a : Nat) : Option Node :=
  if dead = some a then none else (h.mem[a]?).join

/-- The state with the node at address `p` replaced. -/
def FibonacciHeap.put (h : FibonacciHeap) (p : Nat) (n : Node) : FibonacciHeap :=
  { h with mem := h.mem.set p (some n) }

/-- The `left` and `right` fields of the nodes whose parent field is `g`. -/
def grp (σ : Nat → Option Node) (g : Option Nat) (a : Nat) : Option (Nat × Nat) :=
  (σ a).bind (fun n => if n.parent = g then some (n.left, n.right) else none)

/-- The `child` field of the node at address `p`. -/
def childOf (σ : Nat → Option Node) (p : Nat) : Option Nat :=
  (σ p).bind (fun n => n.child)

/-- The key and vertex of the node at an address. -/
def kv (σ : Nat → Option Node) (a : Nat) : Option (Int × Nat) :=
  (σ a).map (fun n => (n.key, n.vertex))

/-- The parent field of the node at an address. -/
def parentOf (σ : Nat → Option Node) (a : Nat) : Option (Option Nat) :=
  (σ a).map (fun n => n.parent)

/-- The `left` field of the node at an address. -/
def leftOf (σ : Nat → Option Node) (a : Nat) : Option Nat :=
  (σ a).map (fun n => n.left)

/-- The `right` field of the node at an address. -/
def rightOf (σ : Nat → Option Node) (a : Nat) : Option Nat :=
  (σ a).map (fun n => n.right)

/-- The `child` field of the node at an address, when there is a node. -/
def childPtr (σ : Nat → Option Node) (a : Nat) : Option (Option Nat) :=
  (σ a).map (fun n => n.child)

/-- A field map after an assignment to the field of the node at `p`, if
there was one. -/
def upd {α : Type} (u : Option α) (p a : Nat) (old : Option α) : Option α :=
  match u with
  | some v => if a = p then some v else old
  | none => old

/-- The node map `σ'` is `σ` after assignments to fields of the node at `p`:
`ul`, `ur`, `up`, `uc` are the values assigned to `left`, `right`, `parent`
and `child`, if any; keys and vertices are kept. -/
structure Edit (σ σ' : Nat → Option Node) (p : Nat) (ul ur : Option Nat)
    (up uc : Option (Option Nat)) : Prop where
  left : ∀ (a : Nat), leftOf σ' a = upd ul p a (leftOf σ a)
  right : ∀ (a : Nat), rightOf σ' a = upd ur p a (rightOf σ a)
  parent : ∀ (a : Nat), parentOf σ' a = upd up p a (parentOf σ a)
  child : ∀ (a : Nat), childPtr σ' a = upd uc p a (childPtr σ a)
  kv : ∀ (a : Nat), kv σ' a = kv σ a

/-- The state `h1` has the `min_node`, `size` and `node_table` of `h`, and a
free store of the same length. -/
def FibonacciHeap.Frame (h h1 : FibonacciHeap) : Prop :=
  h1.min_node = h.min_node ∧ h1.size = h.size ∧ h1.node_table = h.node_table ∧
    h1.mem.length = h.mem.length

/-- In a ring map, `a` is reached from `c` by following `right` fields. -/
inductive RReach (ρ : Nat → Option (Nat × Nat)) (c : Nat) : Nat → Prop where
  | refl : RReach ρ c c
  | step (u l r : Nat) : RReach ρ c u → ρ u = some (l, r) → RReach ρ c r

/-- The `left` and `right` fields of a ring map are inverse to each other and
stay in the ring. -/
structure RingLR (ρ : Nat → Option (Nat × Nat)) : Prop where
  right_ok : ∀ (a l r : Nat), ρ a = some (l, r) → ∃ rr, ρ r = some (a, rr)
  left_ok : ∀ (a l r : Nat), ρ a = some (l, r) → ∃ ll, ρ l = some (ll, a)

/-- A ring map is one circular doubly linked list, entered at `anchor`; the
empty ring has no anchor. -/
structure RingOk (ρ : Nat → Option (Nat × Nat)) (anchor : Option Nat)
    extends RingLR ρ : Prop where
  reach : ∀ (a : Nat) (lr : Nat × Nat), ρ a = some lr → ∃ c, anchor = some c ∧ RReach ρ c a
  anchor_in : ∀ (c : Nat), anchor = some c → ∃ lr, ρ c = some lr

/-- The rest of a child list that the loop of `pop` is walking: the ring map
holds the children not yet moved to the root list, `child` is the next one and
`c0` the one the walk started from. -/
structure RingPath (ρ : Nat → Option (Nat × Nat)) (child c0 : Nat) : Prop where
  cur : ∃ lr, ρ child = some lr
  reach : ∀ (a : Nat) (lr : Nat × Nat), ρ a = some lr → RReach ρ child a
  next : ∀ (a l r : Nat), ρ a = some (l, r) → (∃ lr, ρ r = some lr) ∨ r = c0
  inj : ∀ (a b la lb r : Nat), ρ a = some (la, r) → ρ b = some (lb, r) → a = b
  first : ∀ (lr : Nat × Nat), ρ c0 = some lr → child = c0
  last : ∃ a l, ρ a = some (l, c0)
  head : ∀ (a l : Nat), ρ a = some (l, child) → child = c0

/-- Following parent fields from `a` ends at a parentless node. -/
inductive Rooted (σ : Nat → Option Node) : Nat → Prop where
  | root (a : Nat) (n : Node) : σ a = some n → n.parent = none → Rooted σ a
  | child (a : Nat) (n : Node) (p : Nat) :
      σ a = some n → n.parent = some p → Rooted σ p → Rooted σ a

/-- The trees below the root list: the children of every node, the node `skip`
apart, form a ring entered at its `child` field, and parent chains end. -/
structure Forest (σ : Nat → Option Node) (skip : Option Nat) : Prop where
  groups : ∀ (p : Nat), skip ≠ some p → RingOk (grp σ (some p)) (childOf σ p)
  rooted : ∀ (a : Nat) (n : Node), σ a = some n → Rooted σ a

/-- Heap order: no node has a key below the key of its parent. -/
def HeapOrder (σ : Nat → Option Node) : Prop :=
  ∀ (a p : Nat) (n pn : Node), σ a = some n → n.parent = some p → σ p = some pn →
    pn.key ≤ n.key

/-- The node map `σ'` differs from `σ` only at parentless nodes, in fields
other than `key`, `vertex` and `child`, and by new parentless nodes without children. -/
def RootChange (σ σ' : Nat → Option Node) : Prop :=
  ∀ (a : Nat), σ' a = σ a ∨ ∃ n', σ' a = some n' ∧ n'.parent = none ∧
    ((σ a = none ∧ n'.child = none) ∨
      ∃ n, σ a = some n ∧ n.parent = none ∧ n.child = n'.child ∧ n.key = n'.key ∧
        n.vertex = n'.vertex)

/-- The state of `consolidate` in its second loop: the trees are in order,
the links of the parentless nodes are consistent, and the parentless nodes
are the entries of the degree array `A` and the roots `S` still to come, each
once. -/
structure Pending (σ : Nat → Option Node) (A : List (Option Nat)) (S : List Nat) : Prop where
  forest : Forest σ none
  order : HeapOrder σ
  lr : RingLR (grp σ none)
  part : ∀ (a : Nat), parentOf σ a = some none ↔ (some a ∈ A ∨ a ∈ S)
  distinct : ∀ (i j a : Nat), A[i]? = some (some a) → A[j]? = some (some a) → i = j
  nodup : S.Nodup
  disj : ∀ (a : Nat), some a ∈ A → a ∉ S

/-- The node map without the parentless nodes outside the list `P`. -/
def hideRoots (σ : Nat → Option Node) (P : List Nat) (a : Nat) : Option Node :=
  match σ a with
  | some n => if n.parent = none ∧ a ∉ P then none else some n
  | none => none

/-- No parentless node has a key below that of `min_node`. -/
def MinLe (σ : Nat → Option Node) (m : Option Nat) : Prop :=
  ∀ (m0 a : Nat) (mn n : Node), m = some m0 → σ m0 = some mn → σ a = some n →
    n.parent = none → mn.key ≤ n.key

/-- The state of `consolidate` in its last loop: the parentless nodes are
the nodes `P` already in the new root list and the entries of the rest `A` of
the degree array, each once; the new root list is a ring entered at
`min_node`, which has the least key in it. -/
structure Rebuilt (σ : Nat → Option Node) (m : Option Nat) (A : List (Option Nat))
    (P : List Nat) : Prop where
  forest : Forest σ none
  order : HeapOrder σ
  part : ∀ (a : Nat), parentOf σ a = some none ↔ (a ∈ P ∨ some a ∈ A)
  distinct : ∀ (i j a : Nat), A[i]? = some (some a) → A[j]? = some (some a) → i = j
  disj : ∀ (a : Nat), a ∈ P → some a ∉ A
  ring : RingOk (grp (hideRoots σ P) none) m
  min_le : MinLe (hideRoots σ P) m

/-- The vector `node_table` and the free store hold the same vertices, each
at the address that is its number. -/
def Tabled (N : Nat) (tab : List (Option Nat)) (σ : Nat → Option Node) : Prop :=
  tab.length = N ∧
  ∀ (v : Nat), (tab[v]? = some (some v) ∧ ∃ n, σ v = some n ∧ n.vertex = v) ∨
    ((tab[v]? = some none ∨ tab[v]? = none) ∧ σ v = none)

/-- The invariant of a `FibonacciHeap` over `N` vertices. -/
structure FibonacciHeap.Inv (N : Nat) (h : FibonacciHeap) : Prop where
  mem_len : h.mem.length = N
  tabled : Tabled N h.node_table (h.view none)
  forest : Forest (h.view none) none
  order : HeapOrder (h.view none)
  roots : RingOk (grp (h.view none) none) h.min_node
  min_le : MinLe (h.view none) h.min_node

/-- The state a `FibonacciHeap` over `n` vertices is left in by a call that
returns; vertices are in range. -/
def FibonacciHeap.step (n : Nat) (h : FibonacciHeap) : HeapCall → Option FibonacciHeap
  | .push key vertex =>
    if vertex < n then
      match h.push key vertex with
      | .ok h1 => some h1
      | .error _ => none
    else none
  | .pop =>
    match h.pop with
    | .ok r => some r.2
    | .error _ => none
  | .decrease_key vertex new_key =>
    if vertex < n then
      match h.decrease_key vertex new_key with
      | .ok h1 => some h1
      | .error _ => none
    else none

/-- The states of `FibonacciHeap(n)` reachable from the empty heap by a
sequence of `push`, `pop` and `decrease_key` calls that return, vertices in
range. -/
inductive FibonacciHeap.Reachable (n : Nat) : FibonacciHeap → Prop where
  | init : FibonacciHeap.Reachable n (FibonacciHeap.new n)
  | step (h h1 : FibonacciHeap) (c : HeapCall) :
      FibonacciHeap.Reachable n h → FibonacciHeap.step n h c = some h1 →
      FibonacciHeap.Reachable n h1

/-- Run a sequence of calls on a `FibonacciHeap`; `none` when one of them
fails. -/
def FibonacciHeap.run (n : Nat) : List HeapCall → FibonacciHeap → Option FibonacciHeap
  | [], h => some h
  | c :: cs, h =>
    match FibonacciHeap.step n h c with
    | some h1 => FibonacciHeap.run n cs h1
    | none => none

/-- The heap `FibonacciHeap(4)` after `push(5, 0)`, `push(3, 1)`, `push(8, 2)`,
`push(1, 3)` and `pop()`: `consolidate` has made the node of vertex 2 the child
of the node of vertex 0. -/
def sampleFibonacciHeap : FibonacciHeap :=
  { min_node := some 1, size := 3, node_table := [some 0, some 1, some 2, none],
    mem := [some { key := 5, vertex := 0, degree := 1, marked := false, parent := none,
                   child := some 2, left := 1, right := 1 },
            some { key := 3, vertex := 1, degree := 0, marked := false, parent := none,
                   child := none, left := 0, right := 0 },
            some { key := 8, vertex := 2, degree := 0, marked := false, parent := some 0,
                   child := none, left := 2, right := 2 },
            none] }

/-! ## The vertex map of `DHeap` and `BinaryHeap`, whatever the branching factor -/

/-- The part of the invariant of a `DHeap` over `n` vertices that does not
depend on the index arithmetic of `heapify_down`: a branching factor of at
least 2 and a vertex map that agrees with the array. -/
structure DHeap.Consistent (n : Nat) (h : DHeap) : Prop where
  d_ge : 2 ≤ h.d
  indexed : Indexed n h.heap h.vertex_to_index

/-! ## Calls that throw

An operation of the embedding returns `Except Fault _`, which says that a
call threw but not in which state it left the object.  For the methods that
throw `std::runtime_error`, the definitions below also give the state at the
`throw`. -/

/-- How a call of a method that can throw `std::runtime_error` ends: it
returns a value and leaves the object in a state, or it throws and leaves the
object in the state it had at the `throw`. -/
inductive Exit (α σ : Type) where
  | returned (a : α) (s : σ)
  | thrown (s : σ)
deriving DecidableEq, Repr

/-- The method `FibonacciHeap::push` with the state it leaves behind when it
throws: the test `node_table[vertex] != nullptr` and its `throw` are the first
statement of the method, before any assignment. -/
def FibonacciHeap.push_exit (h : FibonacciHeap) (key : Int) (vertex : Nat) :
    Except Fault (Exit Unit FibonacciHeap) :=
  match h.node_table[vertex]? with
  | none => .error .out_of_range
  | some (some _) => .ok (.thrown h)
  | some none => do
    let h1 ← h.push key vertex
    .ok (.returned () h1)

/-- The method `DHeap::pop` with the state it leaves behind when it throws:
`if (heap.empty()) throw` is the first statement of the method. -/
def DHeap.pop_exit (h : DHeap) : Except Fault (Exit (Int × Nat) DHeap) :=
  if h.heap.isEmpty then .ok (.thrown h)
  else do
    let (min, h1) ← h.pop
    .ok (.returned min h1)

/-- The method `BinaryHeap::pop` with the state it leaves behind when it
throws: `if (heap.empty()) throw` is the first statement of the method. -/
def BinaryHeap.pop_exit (b : BinaryHeap) : Except Fault (Exit (Int × Nat) BinaryHeap) :=
  if b.heap.isEmpty then .ok (.thrown b)
  else do
    let (min, b1) ← b.pop
    .ok (.returned min b1)

/-- The method `FibonacciHeap::pop` with the state it leaves behind when it
throws: `if (!min_node) throw` is the first statement of the method. -/
def FibonacciHeap.pop_exit (h : FibonacciHeap) :
    Except Fault (Exit (Int × Nat) FibonacciHeap) :=
  match h.min_node with
  | none => .ok (.thrown h)
  | some _ => do
    let (result, h1) ← h.pop
    .ok (.returned result h1)

/-- The method `OptimizedRadixHeap::pop` with the state it leaves behind when
it throws.  The method calls itself after `redistribute`, so the state at a
`throw` is the state of the call that throws. -/
def OptimizedRadixHeap.pop_exit (gnuc : Bool) : Nat → OptimizedRadixHeap →
    Except Fault (Exit (Int × Nat) OptimizedRadixHeap)
  | 0, _ => .error .out_of_fuel
  | fuel + 1, h =>
    if h.empty then .ok (.thrown h)
    else do
      let bucket ← OptimizedRadixHeap.first_nonempty h.buckets 0
      if bucket > 0 then do
        let m ← OptimizedRadixHeap.findMinInBucket h bucket
        let h := { h with last_deleted := m }
        let h ← OptimizedRadixHeap.redistribute gnuc fuel h bucket
        OptimizedRadixHeap.pop_exit gnuc fuel h
      else do
        let q ← at? h.buckets 0
        match q with
        | [] => .error .out_of_range
        | item :: rest => do
          let buckets ← setAt h.buckets 0 rest
          .ok (.returned item
            { h with buckets := buckets, size_ := h.size_ - 1, last_deleted := item.1 })

/-- The result of a call is not the `std::runtime_error` of the program. -/
def NoThrow {α : Type} (x : Except Fault α) : Prop := x ≠ .error .runtime_error

/-- The states of an `OptimizedRadixHeap` reachable from a fresh heap by
`push` and `pop` calls that return. -/
inductive OptimizedRadixHeap.Reachable (gnuc : Bool) : OptimizedRadixHeap → Prop where
  | init : OptimizedRadixHeap.Reachable gnuc OptimizedRadixHeap.new
  | push (h h1 : OptimizedRadixHeap) (item : Int × Nat) :
      OptimizedRadixHeap.Reachable gnuc h → h.push gnuc item = .ok h1 →
      OptimizedRadixHeap.Reachable gnuc h1
  | pop (h h1 : OptimizedRadixHeap) (fuel : Nat) (item : Int × Nat) :
      OptimizedRadixHeap.Reachable gnuc h → h.pop gnuc fuel = .ok (item, h1) →
      OptimizedRadixHeap.Reachable gnuc h1

/-- The counter `size_` of an `OptimizedRadixHeap` is the number of entries in
its `BUCKETS` buckets. -/
structure OptimizedRadixHeap.Counted (h : OptimizedRadixHeap) : Prop where
  len : h.buckets.length = BUCKETS
  count : h.size_ = (h.buckets.map List.length).sum

/-! ## The calls `dijkstraRadixHeap` makes

The statements about what happens during a run of `dijkstraRadixHeap` are
about the sequence of queue calls the function makes.  `RadixEvent` names the
events, and the functions below follow `relax_radix`, `loop_radix` and
`dijkstraRadixHeap` statement by statement, listing the events in the order
they happen.  The list is a value also for a run that fails or that is cut
off by the fuel: it then holds the events up to that point. -/

/-- An event of a run of `dijkstraRadixHeap`: the evaluation of
`dist[u] + weight` with the two operands, the call `rh.push({key, vertex})`
with the value `last_deleted` has when the call is made, and the return of
`rh.pop()` with the pair it returns. -/
inductive RadixEvent where
  | add (du weight : Int)
  | push (key : Int) (vertex : Nat) (last_deleted : Int)
  | pop (key : Int) (vertex : Nat)
deriving DecidableEq, Repr

/-- The events of the relaxation loop of `dijkstraRadixHeap`, see
`relax_radix`. -/
def relax_radix_events (gnuc : Bool) (u : Nat) : List (Nat × Int) → List Int →
    OptimizedRadixHeap → List RadixEvent
  | [], _, _ => []
  | (v, weight) :: edges, dist, rh =>
    match at? dist v with
    | .error _ => []
    | .ok dv =>
      match at? dist u with
      | .error _ => []
      | .ok du =>
        RadixEvent.add du weight ::
          (if dv > wrap32 (du + weight) then
            match setAt dist v (wrap32 (du + weight)) with
            | .error _ => []
            | .ok dist1 =>
              match at? dist1 v with
              | .error _ => []
              | .ok dv1 =>
                RadixEvent.push dv1 v rh.last_deleted ::
                  (match rh.push gnuc (dv1, v) with
                  | .error _ => []
                  | .ok rh1 => relax_radix_events gnuc u edges dist1 rh1)
          else relax_radix_events gnuc u edges dist rh)

/-- The events of the loop `while (!rh.empty())` of `dijkstraRadixHeap`, see
`loop_radix`. -/
def loop_radix_events (gnuc : Bool) (adj : List (List (Nat × Int))) : Nat → List Int →
    OptimizedRadixHeap → List RadixEvent
  | 0, _, _ => []
  | fuel + 1, dist, rh =>
    if rh.empty then []
    else
      match rh.pop gnuc fuel with
      | .error _ => []
      | .ok (current, rh1) =>
        RadixEvent.pop current.1 current.2 ::
          (match at? dist current.2 with
          | .error _ => []
          | .ok du =>
            if current.1 > du then loop_radix_events gnuc adj fuel dist rh1
            else
              match at? adj current.2 with
              | .error _ => []
              | .ok edges =>
                relax_radix_events gnuc current.2 edges dist rh1 ++
                  (match relax_radix gnuc current.2 edges dist rh1 with
                  | .error _ => []
                  | .ok (dist2, rh2) => loop_radix_events gnuc adj fuel dist2 rh2))

/-- The events of `dijkstraRadixHeap`. -/
def dijkstraRadixHeap_events (gnuc : Bool) (fuel : Nat) (graph : Graph) (src : Nat) :
    List RadixEvent :=
  match setAt (List.replicate graph.getV INT_MAX) src 0 with
  | .error _ => []
  | .ok dist =>
    RadixEvent.push 0 src OptimizedRadixHeap.new.last_deleted ::
      (match OptimizedRadixHeap.new.push gnuc (0, src) with
      | .error _ => []
      | .ok rh => loop_radix_events gnuc graph.getAdjList fuel dist rh)

/-- The pairs returned by `rh.pop()` in a list of events, in order. -/
def RadixEvent.pops : List RadixEvent → List (Int × Nat)
  | [] => []
  | RadixEvent.pop key vertex :: es => (key, vertex) :: RadixEvent.pops es
  | _ :: es => RadixEvent.pops es

/-- The pairs passed to `rh.push` in a list of events, in order. -/
def RadixEvent.pushes : List RadixEvent → List (Int × Nat)
  | [] => []
  | RadixEvent.push key vertex _ :: es => (key, vertex) :: RadixEvent.pushes es
  | _ :: es => RadixEvent.pushes es

/-- The value of `exampleGraph`: five vertices, six edges, and the adjacency
lists the six `addEdge` calls build. -/
def exampleBuilt : Graph :=
  ⟨5, 6, [[(1, 4), (2, 1)], [(0, 4), (2, 2), (3, 1)], [(0, 1), (1, 2), (3, 5)],
    [(1, 1), (2, 5), (4, 3)], [(3, 3)]]⟩

/-- The states of an `OptimizedRadixHeap` reachable from a fresh heap by
calls `push` whose key is neither negative nor below `last_deleted`, and calls
`pop`, that return. -/
inductive OptimizedRadixHeap.Monotone (gnuc : Bool) : OptimizedRadixHeap → Prop where
  | init : OptimizedRadixHeap.Monotone gnuc OptimizedRadixHeap.new
  | push (h h1 : OptimizedRadixHeap) (item : Int × Nat) :
      OptimizedRadixHeap.Monotone gnuc h → 0 ≤ item.1 → h.last_deleted ≤ item.1 →
      h.push gnuc item = .ok h1 → OptimizedRadixHeap.Monotone gnuc h1
  | pop (h h1 : OptimizedRadixHeap) (fuel : Nat) (item : Int × Nat) :
      OptimizedRadixHeap.Monotone gnuc h → h.pop gnuc fuel = .ok (item, h1) →
      OptimizedRadixHeap.Monotone gnuc h1

/-! ## Runs of the radix heap with keys in range -/

/-- The states of an `OptimizedRadixHeap` reachable from a fresh heap by
calls `push` with a key that is not negative (and, being an `int`, at most
`INT_MAX`) and calls `pop`, that return. -/
inductive OptimizedRadixHeap.Bounded (gnuc : Bool) : OptimizedRadixHeap → Prop where
  | init : OptimizedRadixHeap.Bounded gnuc OptimizedRadixHeap.new
  | push (h h1 : OptimizedRadixHeap) (item : Int × Nat) :
      OptimizedRadixHeap.Bounded gnuc h → 0 ≤ item.1 → item.1 ≤ 2147483647 →
      h.push gnuc item = .ok h1 → OptimizedRadixHeap.Bounded gnuc h1
  | pop (h h1 : OptimizedRadixHeap) (fuel : Nat) (item : Int × Nat) :
      OptimizedRadixHeap.Bounded gnuc h → h.pop gnuc fuel = .ok (item, h1) →
      OptimizedRadixHeap.Bounded gnuc h1

/-! ## The indices of the degree array in `consolidate`

The functions below follow `consolidate_while`, `consolidate_roots`,
`consolidate` and `pop` and list the values of `d` at which the vector `A` is
read or written, in order, up to the point where the call returns or
fails. -/

/-- The values of `d` in `while (A[d]) { ... d++; } A[d] = x;` for one root,
see `consolidate_while`; the last one is the index of the final read of
`A[d]` and, if that read is within the vector and finds null, of the write. -/
def FibonacciHeap.consolidate_while_indices : Nat → FibonacciHeap → List (Option Nat) → Nat →
    Int → List Int
  | 0, _, _, _, _ => []
  | fuel + 1, h, A, x, d =>
    d ::
      (match at? A d with
      | .error _ => []
      | .ok none => []
      | .ok (some y) =>
        match h.deref x with
        | .error _ => []
        | .ok xn =>
          match h.deref y with
          | .error _ => []
          | .ok yn =>
            match h.link (if xn.key > yn.key then x else y) (if xn.key > yn.key then y else x) with
            | .error _ => []
            | .ok h1 =>
              match setAt A d none with
              | .error _ => []
              | .ok A1 =>
                FibonacciHeap.consolidate_while_indices fuel h1 A1
                  (if xn.key > yn.key then y else x) (wrap32 (d + 1)))

/-- The values of `d` in the loop `for (Node* w : roots)` of `consolidate`,
see `consolidate_roots`. -/
def FibonacciHeap.consolidate_roots_indices : List Nat → FibonacciHeap → List (Option Nat) →
    List Int
  | [], _, _ => []
  | w :: roots, h, A =>
    match h.deref w with
    | .error _ => []
    | .ok xn =>
      FibonacciHeap.consolidate_while_indices (A.length + 1) h A w xn.degree ++
        (match FibonacciHeap.consolidate_while (A.length + 1) h A w xn.degree with
        | .error _ => []
        | .ok r => FibonacciHeap.consolidate_roots_indices roots r.1 r.2)

/-- The indices at which a call of `consolidate` reads or writes its vector
`A`, in order. -/
def FibonacciHeap.consolidate_indices (h : FibonacciHeap) : List Int :=
  match h.min_node with
  | none => []
  | some m =>
    if h.size ≤ 0 then []
    else
      match FibonacciHeap.collect_roots (h.mem.length + 1) h m m [] with
      | .error _ => []
      | .ok roots =>
        FibonacciHeap.consolidate_roots_indices roots h
          (List.replicate (FibonacciHeap.ceil_log2 h.size.toNat + 1) none)

/-- The state in which `pop` calls `consolidate`, if it calls it: `pop` up to
the statement `min_node = z->right`. -/
def FibonacciHeap.pop_to_consolidate (h : FibonacciHeap) :
    Except Fault (Option FibonacciHeap) :=
  match h.min_node with
  | none => .error .runtime_error
  | some z => do
    let zn ← h.deref z
    let node_table ← setAt h.node_table zn.vertex none
    let h := { h with node_table := node_table }
    let h ← match zn.child with
      | some c => FibonacciHeap.pop_children (h.mem.length + 1) h z c
      | none => .ok h
    let zn ← h.deref z
    let h ← h.store zn.left (fun n => { n with right := zn.right })
    let zn ← h.deref z
    let h ← h.store zn.right (fun n => { n with left := zn.left })
    let zn ← h.deref z
    if z = zn.right then .ok none
    else .ok (some { h with min_node := some zn.right })

/-- Every entry of the radix heap is in bucket 0 and no key and no
`last_deleted` is negative: the states of a heap whose `fastFindBucket` has
the `__GNUC__` body. -/
structure OptimizedRadixHeap.Flat (h : OptimizedRadixHeap) : Prop where
  last : 0 ≤ h.last_deleted
  rest : ∀ (i : Nat) (q : List (Int × Nat)), 0 < i → h.buckets[i]? = some q → q = []
  keys : ∀ (q : List (Int × Nat)), h.buckets[0]? = some q → ∀ e ∈ q, 0 ≤ e.1

/-! ## Sequences of calls of `BinaryHeap` and `DHeap` -/

/-- A call of a public operation of `BinaryHeap` or `DHeap`, with its
arguments. -/
inductive QueueCall where
  | push (key : Int) (vertex : Nat)
  | pop
  | decrease_key (vertex : Nat) (new_key : Int)
  | empty
deriving DecidableEq, Repr

/-- What a call gives back to its caller: nothing (`push`, `decrease_key`),
the pair `pop` returns, the `std::runtime_error` of `pop`, or the answer of
`empty`. -/
inductive QueueResult where
  | done
  | popped (entry : Int × Nat)
  | raised
  | answer (is_empty : Bool)
deriving DecidableEq, Repr

/-- The vertex of the call, if it has one, is below `n`. -/
def QueueCall.in_range (n : Nat) : QueueCall → Prop
  | .push _ vertex => vertex < n
  | .pop => True
  | .decrease_key vertex _ => vertex < n
  | .empty => True

/-- One call on a `DHeap`: its result and the state it leaves; a `pop` that
throws leaves the state of `DHeap.pop_exit`. -/
def DHeap.call (h : DHeap) : QueueCall → Except Fault (QueueResult × DHeap)
  | .push key vertex => do
    let h1 ← h.push key vertex
    .ok (.done, h1)
  | .pop => do
    let x ← h.pop_exit
    match x with
    | .returned min h1 => .ok (.popped min, h1)
    | .thrown s => .ok (.raised, s)
  | .decrease_key vertex new_key => do
    let h1 ← h.decrease_key vertex new_key
    .ok (.done, h1)
  | .empty => .ok (.answer h.empty, h)

/-- One call on a `BinaryHeap`: its result and the state it leaves; a `pop`
that throws leaves the state of `BinaryHeap.pop_exit`. -/
def BinaryHeap.call (b : BinaryHeap) : QueueCall → Except Fault (QueueResult × BinaryHeap)
  | .push key vertex => do
    let b1 ← b.push key vertex
    .ok (.done, b1)
  | .pop => do
    let x ← b.pop_exit
    match x with
    | .returned min b1 => .ok (.popped min, b1)
    | .thrown s => .ok (.raised, s)
  | .decrease_key vertex new_key => do
    let b1 ← b.decrease_key vertex new_key
    .ok (.done, b1)
  | .empty => .ok (.answer b.empty, b)

/-- A sequence of calls on a `DHeap`: the results in order and the final
state. -/
def DHeap.calls : List QueueCall → DHeap → Except Fault (List QueueResult × DHeap)
  | [], h => .ok ([], h)
  | c :: cs, h => do
    let r ← h.call c
    let rs ← DHeap.calls cs r.2
    .ok (r.1 :: rs.1, rs.2)

/-- A sequence of calls on a `BinaryHeap`: the results in order and the final
state. -/
def BinaryHeap.calls : List QueueCall → BinaryHeap →
    Except Fault (List QueueResult × BinaryHeap)
  | [], b => .ok ([], b)
  | c :: cs, b => do
    let r ← b.call c
    let rs ← BinaryHeap.calls cs r.2
    .ok (r.1 :: rs.1, rs.2)

/-! ## A heap in which `heapify_down` reaches a slot whose child index wraps

A `BinaryHeap` and a `DHeap` with more than `2^30` entries: the child index
`2 * index + 1` of a slot from `2^30` on is above `INT_MAX`. -/

/-- The key 0 at the slots of `path` and the key 1 at every other slot. -/
def pathKey (path : List Nat) (j : Nat) : Int := if j ∈ path then 0 else 1

/-- The calls `push(key 0, 0)`, ..., `push(key (k - 1), k - 1)`. -/
def pushCalls (key : Nat → Int) (k : Nat) : List QueueCall :=
  (List.range k).map (fun (j : Nat) => QueueCall.push (key j) j)

/-- The state of a `BinaryHeap(n)` in which slot `j` holds vertex `j` with key
`key j`, for `j < k`: what the calls `pushCalls key k` leave when no key is
below the key of the parent slot. -/
def sortedHeap (key : Nat → Int) (n k : Nat) : BinaryHeap :=
  ⟨(List.range k).map (fun (j : Nat) => (key j, j)),
    (List.range k).map (fun (j : Nat) => (j : Int)) ++ List.replicate (n - k) (-1)⟩

/-- An entry of key `x` at slot `a` of a heap of `len` entries, whose slots
after `a` hold the keys `key`, is moved by `heapify_down` along the slots of
the list, by index computations that stay within `int`, and ends at a slot
from `2^30` on: at each slot the test says which child `heapify_down`
chooses. -/
def sinksAlong (key : Nat → Int) (len : Nat) (x : Int) : Nat → List Nat → Bool
  | a, [] => decide (1073741824 ≤ a) && decide (a < len)
  | a, s :: rest =>
    decide (2 * a + 3 < 2147483648) && decide (2 * a + 2 < len) &&
      ((decide (s = 2 * a + 1) && decide (key (2 * a + 1) < x) &&
          !decide (key (2 * a + 2) < key (2 * a + 1))) ||
        (decide (s = 2 * a + 2) && !decide (key (2 * a + 1) < x) &&
          decide (key (2 * a + 2) < x))) &&
      sinksAlong key len x s rest

/-- The slots `2^i - 1` for `i = 0, ..., 29`, each the left child of the one
before, and the slot `2^30`, the right child of `2^29 - 1`. -/
def sinkPath : List Nat :=
  [0, 1, 3, 7, 15, 31, 63, 127, 255, 511, 1023, 2047, 4095, 8191, 16383, 32767, 65535, 131071,
    262143, 524287, 1048575, 2097151, 4194303, 8388607, 16777215, 33554431, 67108863,
    134217727, 268435455, 536870911, 1073741824]

/-- The calls `push(k_j, j)` for `j = 0, ..., 2^30 + 1`, with the key 0 at
the slots of `sinkPath` and the key 1 elsewhere, followed by `pop()`. -/
def sinkCalls : List QueueCall :=
  pushCalls (pathKey sinkPath) 1073741826 ++ [QueueCall.pop]

/-! ## The degrees of the roots of a `FibonacciHeap` -/

/-- The `degree` field of the node at an address. -/
def degreeOf (σ : Nat → Option Node) (a : Nat) : Option Int :=
  (σ a).map (fun n => n.degree)

/-- Every entry `A[i]` of the degree array of `consolidate` is a node whose
`degree` field is `i`. -/
def DegSlot (σ : Nat → Option Node) (A : List (Option Nat)) : Prop :=
  ∀ (i a : Nat), A[i]? = some (some a) → degreeOf σ a = some (i : Int)

/-- No two parentless nodes have the same `degree` field. -/
def RootDegrees (σ : Nat → Option Node) : Prop :=
  ∀ (a b : Nat) (na nb : Node), σ a = some na → σ b = some nb → na.parent = none →
    nb.parent = none → na.degree = nb.degree → a = b

/-- The heap `FibonacciHeap(4)` after `push(5, 0)`, `push(3, 1)`, `push(8, 2)`
and `push(1, 3)`: four roots of degree 0, `min_node` at vertex 3.  Its `pop`
leaves `sampleFibonacciHeap`. -/
def fourRootsFibonacciHeap : FibonacciHeap :=
  ⟨some 3, 4, [some 0, some 1, some 2, some 3],
    [some ⟨5, 0, 0, false, none, none, 2, 1⟩, some ⟨3, 1, 0, false, none, none, 0, 3⟩,
      some ⟨8, 2, 0, false, none, none, 3, 0⟩, some ⟨1, 3, 0, false, none, none, 1, 2⟩]⟩

/-- The calls of `fibRun` as a list: push vertex `i` with key `100 + i` for
`i = 0, ..., 32`, pop once, lower the key of each `i` of `fibNeighbours` to
`i`, and pop 16 times. -/
def fibCalls : List HeapCall :=
  (List.range 33).map (fun (i : Nat) => HeapCall.push ((100 + i : Nat) : Int) i) ++
    [HeapCall.pop] ++
    fibNeighbours.map (fun (i : Nat) => HeapCall.decrease_key i (i : Int)) ++
    List.replicate 16 HeapCall.pop

/-! # Theorems -/

/-! ## The `Except` monad -/

@[simp] theorem ok_bind {α β : Type} (a : α) (f : α → Except Fault β) :
    (Except.ok a >>= f) = f a := rfl

@[simp] theorem error_bind {α β : Type} (e : Fault) (f : α → Except Fault β) :
    (Except.error e >>= f) = Except.error e := rfl

/-! ## Fuel: a loop that finished keeps its result with more fuel -/

theorem loop_pq_stable (adj : List (List (Nat × Int))) :
    ∀ (fuel : Nat) (dist : List Int) (pq : List (Int × Nat)),
      loop_pq adj fuel dist pq ≠ .error .out_of_fuel →
      loop_pq adj (fuel + 1) dist pq = loop_pq adj fuel dist pq := by
  intro fuel
  induction fuel with
  | zero => intro dist pq h; exact absurd rfl h
  | succ n ih =>
    intro dist pq h
    cases pq with
    | nil => rfl
    | cons current pq =>
      simp only [loop_pq] at h ⊢
      cases h1 : at? dist current.2 with
      | error e => simp [h1]
      | ok du =>
        simp only [h1, ok_bind] at h ⊢
        split
        · rename_i hc
          simp only [hc, if_true] at h
          exact ih dist pq h
        · rename_i hc
          simp only [hc, if_false] at h
          cases h2 : at? adj current.2 with
          | error e => simp [h2]
          | ok edges =>
            simp only [h2, ok_bind] at h ⊢
            cases h3 : relax_pq current.2 edges dist pq with
            | error e => simp [h3]
            | ok r2 =>
              obtain ⟨dist2, pq2⟩ := r2
              simp only [h3, ok_bind] at h ⊢
              exact ih dist2 pq2 h

theorem loop_dheap_stable (adj : List (List (Nat × Int))) :
    ∀ (fuel : Nat) (dist : List Int) (heap : DHeap),
      loop_dheap adj fuel dist heap ≠ .error .out_of_fuel →
      loop_dheap adj (fuel + 1) dist heap = loop_dheap adj fuel dist heap := by
  intro fuel
  induction fuel with
  | zero => intro dist heap h; exact absurd rfl h
  | succ n ih =>
    intro dist heap h
    rw [loop_dheap] at h ⊢
    conv_rhs => rw [loop_dheap]
    split
    · rfl
    · rename_i hne
      simp only [hne, Bool.false_eq_true, if_false] at h
      cases h0 : heap.pop with
      | error e => simp [h0]
      | ok r =>
        obtain ⟨current, heap1⟩ := r
        simp only [h0, ok_bind] at h ⊢
        cases h1 : at? dist current.2 with
        | error e => simp [h1]
        | ok du =>
          simp only [h1, ok_bind] at h ⊢
          split
          · rename_i hc
            simp only [hc, if_true] at h
            exact ih dist heap1 h
          · rename_i hc
            simp only [hc, if_false] at h
            cases h2 : at? adj current.2 with
            | error e => simp [h2]
            | ok edges =>
              simp only [h2, ok_bind] at h ⊢
              cases h3 : relax_dheap current.2 edges dist heap1 with
              | error e => simp [h3]
              | ok r2 =>
                obtain ⟨dist2, heap2⟩ := r2
                simp only [h3, ok_bind] at h ⊢
                exact ih dist2 heap2 h

theorem loop_fib_stable (adj : List (List (Nat × Int))) :
    ∀ (fuel : Nat) (dist : List Int) (fh : FibonacciHeap),
      loop_fib adj fuel dist fh ≠ .error .out_of_fuel →
      loop_fib adj (fuel + 1) dist fh = loop_fib adj fuel dist fh := by
  intro fuel
  induction fuel with
  | zero => intro dist fh h; exact absurd rfl h
  | succ n ih =>
    intro dist fh h
    rw [loop_fib] at h ⊢
    conv_rhs => rw [loop_fib]
    split
    · rfl
    · rename_i hne
      simp only [hne, Bool.false_eq_true, if_false] at h
      cases h1 : fh.pop with
      | error e => simp [h1]
      | ok r =>
        obtain ⟨current, fh1⟩ := r
        simp only [h1, ok_bind] at h ⊢
        cases h2 : at? adj current.2 with
        | error e => simp [h2]
        | ok edges =>
          simp only [h2, ok_bind] at h ⊢
          cases h3 : relax_fib current.2 edges dist fh1 with
          | error e => simp [h3]
          | ok r2 =>
            obtain ⟨dist2, fh2⟩ := r2
            simp only [h3, ok_bind] at h ⊢
            exact ih dist2 fh2 h

theorem redistribute_stable (gnuc : Bool) :
    ∀ (fuel : Nat) (h : OptimizedRadixHeap) (bucket : Int),
      OptimizedRadixHeap.redistribute gnuc fuel h bucket ≠ .error .out_of_fuel →
      OptimizedRadixHeap.redistribute gnuc (fuel + 1) h bucket =
        OptimizedRadixHeap.redistribute gnuc fuel h bucket := by
  intro fuel
  induction fuel with
  | zero => intro h bucket hne; exact absurd rfl hne
  | succ n ih =>
    intro h bucket hne
    rw [OptimizedRadixHeap.redistribute] at hne ⊢
    conv_rhs => rw [OptimizedRadixHeap.redistribute]
    cases h1 : at? h.buckets bucket with
    | error e => simp [h1]
    | ok q =>
      simp only [h1, ok_bind] at hne ⊢
      cases q with
      | nil => rfl
      | cons item rest =>
        simp only at hne ⊢
        cases h2 : setAt h.buckets bucket rest with
        | error e => simp [h2]
        | ok buckets =>
          simp only [h2, ok_bind] at hne ⊢
          cases h3 : OptimizedRadixHeap.bucket_push buckets
              (OptimizedRadixHeap.fastFindBucket gnuc { h with buckets := buckets } item.1) item with
          | error e => simp [h3]
          | ok buckets2 =>
            simp only [h3, ok_bind] at hne ⊢
            exact ih _ _ hne

theorem radix_pop_stable (gnuc : Bool) :
    ∀ (fuel : Nat) (h : OptimizedRadixHeap),
      OptimizedRadixHeap.pop gnuc fuel h ≠ .error .out_of_fuel →
      OptimizedRadixHeap.pop gnuc (fuel + 1) h = OptimizedRadixHeap.pop gnuc fuel h := by
  intro fuel
  induction fuel with
  | zero => intro h hne; exact absurd rfl hne
  | succ n ih =>
    intro h hne
    rw [OptimizedRadixHeap.pop] at hne ⊢
    conv_rhs => rw [OptimizedRadixHeap.pop]
    split
    · rfl
    · rename_i hemp
      simp only [hemp, Bool.false_eq_true, if_false] at hne
      cases h1 : OptimizedRadixHeap.first_nonempty h.buckets 0 with
      | error e => simp [h1]
      | ok bucket =>
        simp only [h1, ok_bind] at hne ⊢
        split
        · rename_i hb
          simp only [hb, if_true] at hne
          cases h2 : OptimizedRadixHeap.findMinInBucket h bucket with
          | error e => simp [h2]
          | ok m =>
            simp only [h2, ok_bind] at hne ⊢
            cases h3 : OptimizedRadixHeap.redistribute gnuc n { h with last_deleted := m } bucket with
            | error e =>
              simp only [h3, error_bind] at hne
              have h4 := redistribute_stable gnuc n { h with last_deleted := m } bucket
                (by rw [h3]; intro hh; cases hh; exact hne rfl)
              rw [h4, h3]
              rfl
            | ok h5 =>
              have h4 := redistribute_stable gnuc n { h with last_deleted := m } bucket
                (by rw [h3]; intro hh; cases hh)
              simp only [h3, ok_bind] at hne
              rw [h4, h3]
              simp only [ok_bind]
              exact ih h5 hne
        · rfl

theorem loop_radix_stable (gnuc : Bool) (adj : List (List (Nat × Int))) :
    ∀ (fuel : Nat) (dist : List Int) (rh : OptimizedRadixHeap),
      loop_radix gnuc adj fuel dist rh ≠ .error .out_of_fuel →
      loop_radix gnuc adj (fuel + 1) dist rh = loop_radix gnuc adj fuel dist rh := by
  intro fuel
  induction fuel with
  | zero => intro dist rh h; exact absurd rfl h
  | succ n ih =>
    intro dist rh h
    rw [loop_radix] at h ⊢
    conv_rhs => rw [loop_radix]
    split
    · rfl
    · rename_i hne
      simp only [hne, Bool.false_eq_true, if_false] at h
      cases h0 : rh.pop gnuc n with
      | error e =>
        simp only [h0, error_bind] at h
        rw [radix_pop_stable gnuc n rh (by rw [h0]; intro hh; cases hh; exact h rfl), h0]
        rfl
      | ok r =>
        rw [radix_pop_stable gnuc n rh (by rw [h0]; intro hh; cases hh), h0]
        obtain ⟨current, rh1⟩ := r
        simp only [h0, ok_bind] at h ⊢
        cases h1 : at? dist current.2 with
        | error e => simp [h1]
        | ok du =>
          simp only [h1, ok_bind] at h ⊢
          split
          · rename_i hc
            simp only [hc, if_true] at h
            exact ih dist rh1 h
          · rename_i hc
            simp only [hc, if_false] at h
            cases h2 : at? adj current.2 with
            | error e => simp [h2]
            | ok edges =>
              simp only [h2, ok_bind] at h ⊢
              cases h3 : relax_radix gnuc current.2 edges dist rh1 with
              | error e => simp [h3]
              | ok r2 =>
                obtain ⟨dist2, rh2⟩ := r2
                simp only [h3, ok_bind] at h ⊢
                exact ih dist2 rh2 h

theorem loop_pq_add (adj : List (List (Nat × Int))) (fuel k : Nat) (dist : List Int)
    (pq : List (Int × Nat)) (h : loop_pq adj fuel dist pq ≠ .error .out_of_fuel) :
    loop_pq adj (fuel + k) dist pq = loop_pq adj fuel dist pq := by
  induction k with
  | zero => rfl
  | succ k ih => rw [← Nat.add_assoc, loop_pq_stable adj (fuel + k) dist pq (by rw [ih]; exact h), ih]

theorem loop_dheap_add (adj : List (List (Nat × Int))) (fuel k : Nat) (dist : List Int)
    (heap : DHeap) (h : loop_dheap adj fuel dist heap ≠ .error .out_of_fuel) :
    loop_dheap adj (fuel + k) dist heap = loop_dheap adj fuel dist heap := by
  induction k with
  | zero => rfl
  | succ k ih =>
    rw [← Nat.add_assoc, loop_dheap_stable adj (fuel + k) dist heap (by rw [ih]; exact h), ih]

theorem loop_fib_add (adj : List (List (Nat × Int))) (fuel k : Nat) (dist : List Int)
    (fh : FibonacciHeap) (h : loop_fib adj fuel dist fh ≠ .error .out_of_fuel) :
    loop_fib adj (fuel + k) dist fh = loop_fib adj fuel dist fh := by
  induction k with
  | zero => rfl
  | succ k ih =>
    rw [← Nat.add_assoc, loop_fib_stable adj (fuel + k) dist fh (by rw [ih]; exact h), ih]

theorem loop_radix_add (gnuc : Bool) (adj : List (List (Nat × Int))) (fuel k : Nat)
    (dist : List Int) (rh : OptimizedRadixHeap)
    (h : loop_radix gnuc adj fuel dist rh ≠ .error .out_of_fuel) :
    loop_radix gnuc adj (fuel + k) dist rh = loop_radix gnuc adj fuel dist rh := by
  induction k with
  | zero => rfl
  | succ k ih =>
    rw [← Nat.add_assoc, loop_radix_stable gnuc adj (fuel + k) dist rh (by rw [ih]; exact h), ih]

theorem radix_pop_add (gnuc : Bool) (fuel k : Nat) (h : OptimizedRadixHeap)
    (hne : OptimizedRadixHeap.pop gnuc fuel h ≠ .error .out_of_fuel) :
    OptimizedRadixHeap.pop gnuc (fuel + k) h = OptimizedRadixHeap.pop gnuc fuel h := by
  induction k with
  | zero => rfl
  | succ k ih =>
    rw [← Nat.add_assoc, radix_pop_stable gnuc (fuel + k) h (by rw [ih]; exact hne), ih]

theorem dijkstraPriorityQueue_add (fuel k : Nat) (g : Graph) (src : Nat)
    (h : dijkstraPriorityQueue fuel g src ≠ .error .out_of_fuel) :
    dijkstraPriorityQueue (fuel + k) g src = dijkstraPriorityQueue fuel g src := by
  unfold dijkstraPriorityQueue at h ⊢
  cases h1 : setAt (List.replicate g.getV INT_MAX) src 0 with
  | error e => simp [h1]
  | ok dist =>
    simp only [h1, ok_bind] at h ⊢
    exact loop_pq_add _ fuel k _ _ h

theorem dijkstraDHeap_add (fuel k : Nat) (g : Graph) (src : Nat) (d : Int)
    (h : dijkstraDHeap fuel g src d ≠ .error .out_of_fuel) :
    dijkstraDHeap (fuel + k) g src d = dijkstraDHeap fuel g src d := by
  unfold dijkstraDHeap at h ⊢
  cases h1 : setAt (List.replicate g.getV INT_MAX) src 0 with
  | error e => simp [h1]
  | ok dist =>
    simp only [h1, ok_bind] at h ⊢
    cases h2 : (DHeap.new g.getV d).push 0 src with
    | error e => simp [h2]
    | ok heap =>
      simp only [h2, ok_bind] at h ⊢
      exact loop_dheap_add _ fuel k _ _ h

theorem dijkstraFibonacciHeap_add (fuel k : Nat) (g : Graph) (src : Nat)
    (h : dijkstraFibonacciHeap fuel g src ≠ .error .out_of_fuel) :
    dijkstraFibonacciHeap (fuel + k) g src = dijkstraFibonacciHeap fuel g src := by
  unfold dijkstraFibonacciHeap at h ⊢
  cases h1 : setAt (List.replicate g.getV INT_MAX) src 0 with
  | error e => simp [h1]
  | ok dist =>
    simp only [h1, ok_bind] at h ⊢
    cases h2 : push_all_fib src (List.range g.getV) (FibonacciHeap.new g.getV) with
    | error e => simp [h2]
    | ok fh =>
      simp only [h2, ok_bind] at h ⊢
      exact loop_fib_add _ fuel k _ _ h

theorem dijkstraRadixHeap_add (gnuc : Bool) (fuel k : Nat) (g : Graph) (src : Nat)
    (h : dijkstraRadixHeap gnuc fuel g src ≠ .error .out_of_fuel) :
    dijkstraRadixHeap gnuc (fuel + k) g src = dijkstraRadixHeap gnuc fuel g src := by
  unfold dijkstraRadixHeap at h ⊢
  cases h1 : setAt (List.replicate g.getV INT_MAX) src 0 with
  | error e => simp [h1]
  | ok dist =>
    simp only [h1, ok_bind] at h ⊢
    cases h2 : OptimizedRadixHeap.new.push gnuc (0, src) with
    | error e => simp [h2]
    | ok rh =>
      simp only [h2, ok_bind] at h ⊢
      exact loop_radix_add gnuc _ fuel k _ _ h

/-! ## The scenarios of the spec, run on the code -/

/-- C4: on the 5-vertex graph built by `addEdge(0,1,4)`, `addEdge(0,2,1)`,
`addEdge(2,1,2)`, `addEdge(1,3,1)`, `addEdge(2,3,5)`, `addEdge(3,4,3)` with
source 0, the value `2E/V` that `main` derives is 2, and each of
`dijkstraPriorityQueue`, `dijkstraDHeap` with `d = 2`, `dijkstraFibonacciHeap`
and `dijkstraRadixHeap` (under either body of `fastFindBucket`) returns
exactly `[0, 3, 1, 4, 7]`, for every fuel from 20 on. -/
theorem example_graph_distances :
    ∃ g : Graph, exampleGraph = .ok g ∧ d_recommended g = 2 ∧
      ∀ k : Nat,
        dijkstraPriorityQueue (20 + k) g 0 = .ok [0, 3, 1, 4, 7] ∧
        dijkstraDHeap (20 + k) g 0 2 = .ok [0, 3, 1, 4, 7] ∧
        dijkstraFibonacciHeap (20 + k) g 0 = .ok [0, 3, 1, 4, 7] ∧
        dijkstraRadixHeap true (20 + k) g 0 = .ok [0, 3, 1, 4, 7] ∧
        dijkstraRadixHeap false (20 + k) g 0 = .ok [0, 3, 1, 4, 7] := by
  refine ⟨⟨5, 6, [[(1, 4), (2, 1)], [(0, 4), (2, 2), (3, 1)], [(0, 1), (1, 2), (3, 5)],
    [(1, 1), (2, 5), (4, 3)], [(3, 3)]]⟩, by decide!, by decide!, ?_⟩
  intro k
  refine ⟨?_, ?_, ?_, ?_, ?_⟩
  · rw [dijkstraPriorityQueue_add 20 k _ _ (by decide!)]; decide!
  · rw [dijkstraDHeap_add 20 k _ _ _ (by decide!)]; decide!
  · rw [dijkstraFibonacciHeap_add 20 k _ _ (by decide!)]; decide!
  · rw [dijkstraRadixHeap_add true 20 k _ _ (by decide!)]; decide!
  · rw [dijkstraRadixHeap_add false 20 k _ _ (by decide!)]; decide!

/-- C2 (the code at the failing input): on the 3-vertex graph with the single
edge `(1,2,1)` and source 0, `dijkstraPriorityQueue`, `dijkstraDHeap` and
`dijkstraRadixHeap` return `[0, INT_MAX, INT_MAX]` while
`dijkstraFibonacciHeap` returns `[0, -2147483647, -2147483648]`: the four
vectors are not pointwise identical. -/
theorem bindings_differ_on_disconnected_graph :
    ∃ g : Graph, disconnectedGraph = .ok g ∧
      dijkstraPriorityQueue 10 g 0 = .ok [0, 2147483647, 2147483647] ∧
      dijkstraDHeap 10 g 0 2 = .ok [0, 2147483647, 2147483647] ∧
      dijkstraRadixHeap true 10 g 0 = .ok [0, 2147483647, 2147483647] ∧
      dijkstraRadixHeap false 10 g 0 = .ok [0, 2147483647, 2147483647] ∧
      dijkstraFibonacciHeap 10 g 0 = .ok [0, -2147483647, -2147483648] := by
  refine ⟨⟨3, 1, [[], [(2, 1)], [(1, 1)]]⟩, by decide!, by decide!, by decide!, by decide!,
    by decide!, by decide!⟩

/-- C3 (the code at the failing input): in the 3-vertex graph with the single
edge `(1,2,1)` no edge touches the source 0, so vertices 1 and 2 are not
reachable from it, and `dijkstraFibonacciHeap` returns there the wrapped sums
`INT_MAX + 1 + 1` and `INT_MAX + 1` instead of the sentinel `INT_MAX`. -/
theorem fibonacci_binding_loses_sentinel :
    ∃ g : Graph, disconnectedGraph = .ok g ∧ g.getAdjList[0]? = some [] ∧
      ∀ k : Nat, dijkstraFibonacciHeap (10 + k) g 0 =
        .ok [0, wrap32 (wrap32 (INT_MAX + 1) + 1), wrap32 (INT_MAX + 1)] ∧
        wrap32 (wrap32 (INT_MAX + 1) + 1) ≠ INT_MAX ∧ wrap32 (INT_MAX + 1) ≠ INT_MAX := by
  refine ⟨⟨3, 1, [[], [(2, 1)], [(1, 1)]]⟩, by decide!, by decide!, ?_⟩
  intro k
  rw [dijkstraFibonacciHeap_add 10 k _ _ (by decide!)]
  decide!

/-- C7 (the code at the failing input): when `__GNUC__` is defined, pushing
`(5, 0)` and then `(3, 1)` into a fresh `OptimizedRadixHeap` and popping until
it is empty returns the key 5 before the key 3. -/
theorem radix_heap_gnuc_pops_in_push_order :
    (do
      let h ← OptimizedRadixHeap.push_all true [(5, 0), (3, 1)] OptimizedRadixHeap.new
      OptimizedRadixHeap.drain true 2 h) = .ok [(5, 0), (3, 1)] := by
  decide!

/-- C6 (the code at the failing input): the run `fibRun` (33 pushes, a pop,
17 `decrease_key` calls, 16 pops) succeeds and leaves a heap of size 16 that is
not empty; the next `pop` reads `A[5]` in `consolidate`, whose vector `A` has
`ceil(log2(16)) + 1 = 5` entries. -/
theorem fibonacci_pop_reads_past_degree_array :
    ∃ (popped : List (Int × Nat)) (h : FibonacciHeap),
      fibRun = .ok (popped, h) ∧ h.empty = false ∧ h.size = 16 ∧
      FibonacciHeap.ceil_log2 h.size.toNat + 1 = 5 ∧
      (h.deref 1).map (fun n => (n.parent, n.degree)) = .ok (none, 5) ∧
      h.pop = .error .out_of_range := by
  have h2 : (match fibRun with
    | .ok r => decide (r.2.empty = false ∧ r.2.size = 16 ∧
        FibonacciHeap.ceil_log2 r.2.size.toNat + 1 = 5 ∧
        (r.2.deref 1).map (fun n => (n.parent, n.degree)) = .ok (none, 5) ∧
        r.2.pop = .error .out_of_range)
    | .error _ => false) = true := by decide!
  have h1 : ∃ r, fibRun = .ok r ∧ r.2.empty = false ∧ r.2.size = 16 ∧
      FibonacciHeap.ceil_log2 r.2.size.toNat + 1 = 5 ∧
      (r.2.deref 1).map (fun n => (n.parent, n.degree)) = .ok (none, 5) ∧
      r.2.pop = .error .out_of_range := by
    cases h0 : fibRun with
    | error e =>
      rw [h0] at h2
      simp at h2
    | ok r =>
      rw [h0] at h2
      exact ⟨r, rfl, of_decide_eq_true h2⟩
  obtain ⟨r, hr, h2⟩ := h1
  exact ⟨r.1, r.2, hr, h2⟩

/-! ## The radix heap's fallback body on `radixGraph` -/

theorem radixStuck_step (fuel : Nat) :
    OptimizedRadixHeap.redistribute false (fuel + 1) radixStuck 3 =
      OptimizedRadixHeap.redistribute false fuel radixStuck 3 := rfl

theorem radixStuck_never (fuel : Nat) :
    OptimizedRadixHeap.redistribute false fuel radixStuck 3 = .error .out_of_fuel := by
  induction fuel with
  | zero => rfl
  | succ n ih => rw [radixStuck_step, ih]

theorem radixBefore_step (fuel : Nat) :
    OptimizedRadixHeap.redistribute false (fuel + 1) { radixBefore with last_deleted := 4 } 3 =
      OptimizedRadixHeap.redistribute false fuel radixStuck 3 := rfl

theorem radixBefore_pop_never (fuel : Nat) :
    OptimizedRadixHeap.pop false fuel radixBefore = .error .out_of_fuel := by
  cases fuel with
  | zero => rfl
  | succ n =>
    have h : OptimizedRadixHeap.pop false (n + 1) radixBefore =
        (OptimizedRadixHeap.redistribute false n { radixBefore with last_deleted := 4 } 3 >>=
          fun h => OptimizedRadixHeap.pop false n h) := rfl
    rw [h]
    cases n with
    | zero => rfl
    | succ m => rw [radixBefore_step, radixStuck_never]; rfl

theorem radix_loop_third (fuel : Nat) :
    loop_radix false radixAdj fuel [0, 4, 3, 10] radixBefore = .error .out_of_fuel := by
  cases fuel with
  | zero => rfl
  | succ n =>
    rw [loop_radix]
    rw [radixBefore_pop_never]
    rfl

theorem radix_loop_second (fuel : Nat) :
    loop_radix false radixAdj fuel [0, 4, 3, INT_MAX] radixSecond = .error .out_of_fuel := by
  by_cases hf : fuel < 4
  · interval_cases fuel <;> decide!
  · obtain ⟨k, rfl⟩ : ∃ k, fuel = (3 + k) + 1 := ⟨fuel - 4, by omega⟩
    rw [loop_radix]
    rw [radix_pop_add false 3 k radixSecond (by decide!)]
    exact radix_loop_third (3 + k)

theorem radix_loop_first (fuel : Nat) :
    loop_radix false radixAdj fuel [0, INT_MAX, INT_MAX, INT_MAX] radixFirst =
      .error .out_of_fuel := by
  by_cases hf : fuel < 2
  · interval_cases fuel <;> decide!
  · obtain ⟨k, rfl⟩ : ∃ k, fuel = (1 + k) + 1 := ⟨fuel - 2, by omega⟩
    rw [loop_radix]
    rw [radix_pop_add false 1 k radixFirst (by decide!)]
    exact radix_loop_second (1 + k)

/-- C1 (the code at two failing inputs).  On `radixGraph` (edges `(0,1,4)`,
`(0,2,3)`, `(2,3,7)`, source 0) `dijkstraRadixHeap` with the fallback body of
`fastFindBucket` returns nothing whatever the fuel: `redistribute(3)` puts
`(10, 3)` back into bucket 3 for ever.  On `fibGraph` (a 33-vertex star with
weights at most 32, source 0) `dijkstraFibonacciHeap` stops, for every fuel
from 20 on, at an access outside the vector `A` of `consolidate`. -/
theorem dijkstra_bindings_fail_to_return :
    (∃ g : Graph, radixGraph = .ok g ∧
      ∀ fuel : Nat, dijkstraRadixHeap false fuel g 0 = .error .out_of_fuel) ∧
    (∃ g : Graph, fibGraph = .ok g ∧
      ∀ k : Nat, dijkstraFibonacciHeap (20 + k) g 0 = .error .out_of_range) := by
  constructor
  · refine ⟨⟨4, 3, radixAdj⟩, by decide!, ?_⟩
    intro fuel
    exact radix_loop_first fuel
  · cases h0 : fibGraph with
    | error e =>
      have h2 : (match fibGraph with | .ok _ => true | .error _ => false) = true := by decide!
      rw [h0] at h2
      simp at h2
    | ok g =>
      refine ⟨g, rfl, ?_⟩
      intro k
      have h2 : (match fibGraph with
        | .ok g => decide (dijkstraFibonacciHeap 20 g 0 = .error .out_of_range)
        | .error _ => false) = true := by decide!
      rw [h0] at h2
      have h3 := of_decide_eq_true h2
      rw [dijkstraFibonacciHeap_add 20 k _ _ (by rw [h3]; intro hh; cases hh), h3]

/-! ## Vectors -/

theorem wrap32_of_range (x : Int) (h1 : -2147483648 ≤ x) (h2 : x < 2147483648) :
    wrap32 x = x := by
  unfold wrap32
  omega

theorem at?_nat {α : Type} (l : List α) (i : Nat) (a : α) (h : l[i]? = some a) :
    at? l (i : Int) = .ok a := by
  unfold at?
  simp [h]

theorem at?_ok {α : Type} (l : List α) (i : Int) (a : α) (h : at? l i = .ok a) :
    0 ≤ i ∧ l[i.toNat]? = some a := by
  unfold at? at h
  split at h
  · rename_i h0
    refine ⟨h0, ?_⟩
    cases h1 : l[i.toNat]? with
    | none => rw [h1] at h; cases h
    | some b => rw [h1] at h; cases h; rfl
  · cases h

theorem setAt_nat {α : Type} (l : List α) (i : Nat) (a : α) (h : i < l.length) :
    setAt l (i : Int) a = .ok (l.set i a) := by
  unfold setAt
  simp [h]

theorem get?_lt {α : Type} (l : List α) (i : Nat) (a : α) (h : l[i]? = some a) :
    i < l.length := by
  by_contra hc
  have h2 : l[i]? = none := by simp; omega
  rw [h2] at h
  cases h

theorem get?_some_of_lt {α : Type} (l : List α) (i : Nat) (h : i < l.length) :
    ∃ a, l[i]? = some a := by
  cases h1 : l[i]? with
  | some a => exact ⟨a, rfl⟩
  | none => simp at h1; omega

/-- Exchanging two entries of a list permutes it. -/
theorem set_head_perm {α : Type} (a : α) :
    ∀ (l : List α) (j : Nat) (b : α), l[j]? = some b → (b :: l.set j a).Perm (a :: l) := by
  intro l
  induction l with
  | nil => intro j b h; simp at h
  | cons c t ih =>
    intro j b h
    cases j with
    | zero =>
      simp at h
      subst h
      simp only [List.set_cons_zero]
      exact List.Perm.swap _ _ _
    | succ k =>
      simp at h
      simp only [List.set_cons_succ]
      have h1 := ih k b (by simpa using h)
      exact (List.Perm.swap c b _).trans (((List.Perm.cons c h1)).trans (List.Perm.swap a c t))

theorem swap_perm_lt {α : Type} :
    ∀ (l : List α) (i j : Nat) (a b : α), i < j → l[i]? = some a → l[j]? = some b →
      ((l.set i b).set j a).Perm l := by
  intro l
  induction l with
  | nil => intro i j a b _ h; simp at h
  | cons c t ih =>
    intro i j a b hij hi hj
    cases j with
    | zero => omega
    | succ k =>
      cases i with
      | zero =>
        simp at hi hj
        subst hi
        simp only [List.set_cons_zero, List.set_cons_succ]
        exact set_head_perm c t k b (by simpa using hj)
      | succ m =>
        simp at hi hj
        simp only [List.set_cons_succ]
        exact List.Perm.cons c (ih m k a b (by omega) (by simpa using hi) (by simpa using hj))

theorem swap_perm {α : Type} (l : List α) (i j : Nat) (a b : α) (hij : i ≠ j)
    (hi : l[i]? = some a) (hj : l[j]? = some b) :
    ((l.set i b).set j a).Perm l := by
  rcases Nat.lt_or_gt_of_ne hij with h | h
  · exact swap_perm_lt l i j a b h hi hj
  · rw [List.set_comm b a l (by omega)]
    exact swap_perm_lt l j i b a h hj hi


theorem get?_set_same {α : Type} (l : List α) (i : Nat) (a : α) (h : i < l.length) :
    (l.set i a)[i]? = some a := by
  simp [List.getElem?_set, h]

theorem get?_set_other {α : Type} (l : List α) (i j : Nat) (a : α) (h : i ≠ j) :
    (l.set i a)[j]? = l[j]? := by
  simp [List.getElem?_set, h]

/-! ## `swap_entries` -/

theorem Indexed.vertex_lt {n : Nat} {heap : List (Int × Nat)} {vti : List Int}
    (hx : Indexed n heap vti) {i : Nat} {e : Int × Nat} (h : heap[i]? = some e) :
    e.2 < vti.length :=
  get?_lt _ _ _ (hx.slot i e h)

theorem Indexed.inj {n : Nat} {heap : List (Int × Nat)} {vti : List Int}
    (hx : Indexed n heap vti) {i j : Nat} {a b : Int × Nat}
    (hi : heap[i]? = some a) (hj : heap[j]? = some b) (hv : a.2 = b.2) : i = j := by
  have h1 := hx.slot i a hi
  have h2 := hx.slot j b hj
  rw [hv, h2] at h1
  simpa using h1.symm

/-- The array after `std::swap(heap[i], heap[j])`. -/
theorem swapped_get? {α : Type} (l : List α) (i j k : Nat) (a b : α) (hij : i ≠ j)
    (hi : l[i]? = some a) (hj : l[j]? = some b) :
    ((l.set i b).set j a)[k]? = if k = j then some a else if k = i then some b else l[k]? := by
  have hil := get?_lt _ _ _ hi
  have hjl := get?_lt _ _ _ hj
  by_cases hkj : k = j
  · subst hkj
    simp only [if_true]
    exact get?_set_same _ _ _ (by simpa using hjl)
  · simp only [hkj, if_false]
    rw [get?_set_other _ _ _ _ (Ne.symm hkj)]
    by_cases hki : k = i
    · subst hki
      simp only [if_true]
      exact get?_set_same _ _ _ hil
    · simp only [hki, if_false]
      exact get?_set_other _ _ _ _ (Ne.symm hki)

theorem Indexed.swap_indexed {n : Nat} {heap : List (Int × Nat)} {vti : List Int}
    (hx : Indexed n heap vti) {i j : Nat} {a b : Int × Nat} (hij : i ≠ j)
    (hi : heap[i]? = some a) (hj : heap[j]? = some b) :
    Indexed n ((heap.set i b).set j a) ((vti.set b.2 i).set a.2 j) := by
  have hil := get?_lt _ _ _ hi
  have hjl := get?_lt _ _ _ hj
  have hal := hx.vertex_lt hi
  have hbl := hx.vertex_lt hj
  have hab : a.2 ≠ b.2 := fun hv => hij (hx.inj hi hj hv)
  have hva : ((vti.set b.2 (i : Int)).set a.2 (j : Int))[a.2]? = some (j : Int) :=
    get?_set_same _ _ _ (by simpa using hal)
  have hvb : ((vti.set b.2 (i : Int)).set a.2 (j : Int))[b.2]? = some (i : Int) := by
    rw [get?_set_other _ _ _ _ hab]
    exact get?_set_same _ _ _ hbl
  have hvo : ∀ v, v ≠ a.2 → v ≠ b.2 →
      ((vti.set b.2 (i : Int)).set a.2 (j : Int))[v]? = vti[v]? := by
    intro v h1 h2
    rw [get?_set_other _ _ _ _ (Ne.symm h1), get?_set_other _ _ _ _ (Ne.symm h2)]
  constructor
  · simp [hx.len]
  · intro k e hk
    rw [swapped_get? heap i j k a b hij hi hj] at hk
    by_cases hkj : k = j
    · subst hkj
      simp only [if_true] at hk
      cases hk
      exact hva
    · simp only [hkj, if_false] at hk
      by_cases hki : k = i
      · subst hki
        simp only [if_true] at hk
        cases hk
        exact hvb
      · simp only [hki, if_false] at hk
        have hea : e.2 ≠ a.2 := fun hv => hki (hx.inj hk hi hv)
        have heb : e.2 ≠ b.2 := fun hv => hkj (hx.inj hk hj hv)
        rw [hvo _ hea heb]
        exact hx.slot k e hk
  · intro v x hv
    by_cases hav : v = a.2
    · subst hav
      rw [hva] at hv
      cases hv
      refine Or.inr ⟨j, a, rfl, ?_, rfl⟩
      rw [swapped_get? heap i j j a b hij hi hj]
      simp
    · by_cases hbv : v = b.2
      · subst hbv
        rw [hvb] at hv
        cases hv
        refine Or.inr ⟨i, b, rfl, ?_, rfl⟩
        rw [swapped_get? heap i j i a b hij hi hj]
        simp [hij]
      · rw [hvo _ hav hbv] at hv
        rcases hx.back v x hv with h1 | ⟨k, e, h1, h2, h3⟩
        · exact Or.inl h1
        · refine Or.inr ⟨k, e, h1, ?_, h3⟩
          have hki : k ≠ i := by
            intro hh
            subst hh
            rw [hi] at h2
            cases h2
            exact hav h3.symm
          have hkj : k ≠ j := by
            intro hh
            subst hh
            rw [hj] at h2
            cases h2
            exact hbv h3.symm
          rw [swapped_get? heap i j k a b hij hi hj]
          simp only [hkj, hki, if_false]
          exact h2

theorem DHeap.swap_entries_eq (h : DHeap) (n i j : Nat) (a b : Int × Nat)
    (hx : Indexed n h.heap h.vertex_to_index) (hij : i ≠ j)
    (hi : h.heap[i]? = some a) (hj : h.heap[j]? = some b) :
    h.swap_entries (i : Int) (j : Int) =
      .ok { h with heap := (h.heap.set i b).set j a,
                   vertex_to_index := (h.vertex_to_index.set b.2 i).set a.2 j } := by
  have hil := get?_lt _ _ _ hi
  have hjl := get?_lt _ _ _ hj
  have hal := hx.vertex_lt hi
  have hbl := hx.vertex_lt hj
  unfold DHeap.swap_entries
  rw [at?_nat _ _ _ hi, at?_nat _ _ _ hj]
  simp only [ok_bind]
  rw [setAt_nat _ _ _ hil]
  simp only [ok_bind]
  rw [setAt_nat _ _ _ (by simpa using hjl)]
  simp only [ok_bind]
  have h1 : ((h.heap.set i b).set j a)[i]? = some b := by
    rw [swapped_get? h.heap i j i a b hij hi hj]
    simp [hij]
  have h2 : ((h.heap.set i b).set j a)[j]? = some a := by
    rw [swapped_get? h.heap i j j a b hij hi hj]
    simp
  rw [at?_nat _ _ _ h1]
  simp only [ok_bind]
  rw [setAt_nat _ _ _ hbl]
  simp only [ok_bind]
  rw [at?_nat _ _ _ h2]
  simp only [ok_bind]
  rw [setAt_nat _ _ _ (by simpa using hal)]
  rfl

/-! ## `heapify_up` -/

theorem parent_lt (D i : Nat) (_hD : 2 ≤ D) (hi : 0 < i) : (i - 1) / D < i := by
  have h1 : (i - 1) / D ≤ i - 1 := Nat.div_le_self _ _
  omega

theorem DHeap.parent_nat (h : DHeap) (D i : Nat) (hd : h.d = (D : Int)) (hi : 0 < i) :
    h.parent (i : Int) = (((i - 1) / D : Nat) : Int) := by
  unfold DHeap.parent
  rw [hd, Int.tdiv_eq_ediv (by omega) (by omega)]
  have h1 : ((i : Int) - 1) = ((i - 1 : Nat) : Int) := by omega
  rw [h1]
  norm_cast

theorem UpInv.swap_up {D : Nat} {heap : List (Int × Nat)} {i : Nat} {a b : Int × Nat}
    (hD : 2 ≤ D) (hu : UpInv D heap i) (hi0 : 0 < i)
    (hi : heap[i]? = some a) (hp : heap[(i - 1) / D]? = some b) (hlt : a.1 < b.1) :
    UpInv D ((heap.set i b).set ((i - 1) / D) a) ((i - 1) / D) := by
  have hpi : (i - 1) / D < i := parent_lt D i hD hi0
  have hne : i ≠ (i - 1) / D := by omega
  have hg := fun k => swapped_get? heap i ((i - 1) / D) k a b hne hi hp
  constructor
  · intro j e p hj0 hjp he hpp
    rw [hg] at he hpp
    simp only [hjp, if_false] at he
    by_cases hji : j = i
    · subst hji
      simp only [if_true] at he hpp
      cases he
      cases hpp
      omega
    · simp only [hji, if_false] at he
      by_cases hq : (j - 1) / D = (i - 1) / D
      · rw [hq] at hpp
        simp only [if_true] at hpp
        cases hpp
        have := hu.1 j e b hj0 hji he (by rw [hq]; exact hp)
        omega
      · simp only [hq, if_false] at hpp
        by_cases hqi : (j - 1) / D = i
        · simp only [hqi, if_true] at hpp
          cases hpp
          exact hu.2 j e _ hj0 hi0 hqi he hp
        · simp only [hqi, if_false] at hpp
          exact hu.1 j e p hj0 hji he hpp
  · intro j e g hj0 hp0 hjp he hgg
    have hqq : ((i - 1) / D - 1) / D < (i - 1) / D := parent_lt D _ hD hp0
    rw [hg] at he hgg
    have h1 : ((i - 1) / D - 1) / D ≠ (i - 1) / D := by omega
    have h2 : ((i - 1) / D - 1) / D ≠ i := by omega
    simp only [h1, h2, if_false] at hgg
    have hjgt : (i - 1) / D < j := by
      have := parent_lt D j hD hj0
      omega
    have h3 : j ≠ (i - 1) / D := by omega
    simp only [h3, if_false] at he
    have hbg := hu.1 ((i - 1) / D) b g hp0 (by omega) hp hgg
    by_cases hji : j = i
    · subst hji
      simp only [if_true] at he
      cases he
      exact hbg
    · simp only [hji, if_false] at he
      have := hu.1 j e b hj0 hji he (by rw [hjp]; exact hp)
      omega

theorem DHeap.heapify_up_loop_spec (n D : Nat) (hD : 2 ≤ D) :
    ∀ (fuel i : Nat) (h : DHeap), h.d = (D : Int) → i ≤ fuel →
      Indexed n h.heap h.vertex_to_index → i < h.heap.length → UpInv D h.heap i →
      ∃ h1, h.heapify_up_loop fuel (i : Int) = .ok h1 ∧ h1.d = h.d ∧
        Indexed n h1.heap h1.vertex_to_index ∧ Ordered D h1.heap ∧ h1.heap.Perm h.heap := by
  intro fuel
  induction fuel with
  | zero =>
    intro i h hd hif hx hil hu
    have hi0 : i = 0 := by omega
    subst hi0
    refine ⟨h, by simp [DHeap.heapify_up_loop], rfl, hx, ?_, List.Perm.refl _⟩
    intro j e p hj0 he hp
    exact hu.1 j e p hj0 (by omega) he hp
  | succ fuel ih =>
    intro i h hd hif hx hil hu
    by_cases hi0 : i = 0
    · subst hi0
      refine ⟨h, by simp [DHeap.heapify_up_loop], rfl, hx, ?_, List.Perm.refl _⟩
      intro j e p hj0 he hp
      exact hu.1 j e p hj0 (by omega) he hp
    · have hipos : 0 < i := by omega
      have hpi : (i - 1) / D < i := parent_lt D i hD hipos
      obtain ⟨a, ha⟩ := get?_some_of_lt h.heap i hil
      obtain ⟨b, hb⟩ := get?_some_of_lt h.heap ((i - 1) / D) (by omega)
      have hcond : ((i : Int) > 0) := by omega
      rw [DHeap.heapify_up_loop]
      simp only [hcond, if_true]
      rw [DHeap.parent_nat h D i hd hipos, at?_nat _ _ _ ha, at?_nat _ _ _ hb]
      simp only [ok_bind]
      by_cases hlt : a.1 < b.1
      · simp only [hlt, if_true]
        rw [DHeap.swap_entries_eq h n i ((i - 1) / D) a b hx (by omega) ha hb]
        simp only [ok_bind]
        obtain ⟨h1, e1, e2, e3, e4, e5⟩ := ih ((i - 1) / D)
          { h with heap := (h.heap.set i b).set ((i - 1) / D) a,
                   vertex_to_index := (h.vertex_to_index.set b.2 i).set a.2 ((i - 1) / D : Nat) }
          hd (by omega) (hx.swap_indexed (by omega) ha hb) (by simp; omega)
          (UpInv.swap_up hD hu hipos ha hb hlt)
        exact ⟨h1, e1, e2, e3, e4, e5.trans (swap_perm _ _ _ _ _ (by omega) ha hb)⟩
      · simp only [hlt, if_false]
        refine ⟨h, rfl, rfl, hx, ?_, List.Perm.refl _⟩
        intro j e p hj0 he hp
        by_cases hji : j = i
        · subst hji
          rw [ha] at he
          rw [hb] at hp
          cases he
          cases hp
          omega
        · exact hu.1 j e p hj0 hji he hp

/-! ## `heapify_down` -/

theorem Indexed.length_le {n : Nat} {heap : List (Int × Nat)} {vti : List Int}
    (hx : Indexed n heap vti) : heap.length ≤ n := by
  have hv : ∀ i : Fin heap.length, (heap.get i).2 < n := by
    intro i
    have h1 : heap[i.1]? = some (heap.get i) := by simp
    have := hx.vertex_lt h1
    rw [hx.len] at this
    exact this
  have hinj : Function.Injective (fun i : Fin heap.length => (⟨(heap.get i).2, hv i⟩ : Fin n)) := by
    intro i j hij
    have h1 : heap[i.1]? = some (heap.get i) := by simp
    have h2 : heap[j.1]? = some (heap.get j) := by simp
    have h3 : (heap.get i).2 = (heap.get j).2 := by
      have := congrArg Fin.val hij
      simpa using this
    exact Fin.ext (hx.inj h1 h2 h3)
  have := Fintype.card_le_of_injective _ hinj
  simpa using this

theorem child_iff (D i j : Nat) (hD : 2 ≤ D) :
    (0 < j ∧ (j - 1) / D = i) ↔ (D * i + 1 ≤ j ∧ j < D * i + 1 + D) := by
  constructor
  · rintro ⟨hj, hq⟩
    have h1 := Nat.div_add_mod (j - 1) D
    have h2 : (j - 1) % D < D := Nat.mod_lt _ (by omega)
    rw [hq] at h1
    omega
  · rintro ⟨h1, h2⟩
    refine ⟨by omega, ?_⟩
    apply Nat.div_eq_of_lt_le
    · rw [Nat.mul_comm]; omega
    · rw [Nat.mul_comm, Nat.mul_add]; omega

theorem DHeap.smallest_loop_spec (heap : List (Int × Nat)) :
    ∀ (count j s : Nat), (∀ t, j ≤ t → t < j + count → t < heap.length) → s < heap.length →
      ∃ s1 : Nat, DHeap.smallest_loop heap count (j : Int) (s : Int) = .ok (s1 : Int) ∧
        (s1 = s ∨ (j ≤ s1 ∧ s1 < j + count)) ∧
        (∀ (t : Nat) (e es : Int × Nat), j ≤ t → t < j + count → heap[t]? = some e →
          heap[s1]? = some es → es.1 ≤ e.1) ∧
        (∀ (e es : Int × Nat), heap[s]? = some e → heap[s1]? = some es →
          es.1 ≤ e.1 ∧ (s1 ≠ s → es.1 < e.1)) := by
  intro count
  induction count with
  | zero =>
    intro j s _ hs
    refine ⟨s, rfl, Or.inl rfl, ?_, ?_⟩
    · intro t e es h1 h2
      omega
    · intro e es h1 h2
      rw [h1] at h2
      cases h2
      exact ⟨le_refl _, fun h => absurd rfl h⟩
  | succ count ih =>
    intro j s hr hs
    obtain ⟨a, ha⟩ := get?_some_of_lt heap j (hr j (le_refl _) (by omega))
    obtain ⟨b, hb⟩ := get?_some_of_lt heap s hs
    rw [DHeap.smallest_loop, at?_nat _ _ _ ha, at?_nat _ _ _ hb]
    simp only [ok_bind]
    have hj1 : ((j : Int) + 1) = ((j + 1 : Nat) : Int) := by push_cast; rfl
    rw [hj1]
    by_cases hlt : a.1 < b.1
    · simp only [hlt, if_true]
      obtain ⟨s1, e1, e2, e3, e4⟩ := ih (j + 1) j (fun t h1 h2 => hr t (by omega) (by omega))
        (hr j (le_refl _) (by omega))
      refine ⟨s1, e1, ?_, ?_, ?_⟩
      · rcases e2 with h | h
        · exact Or.inr ⟨by omega, by omega⟩
        · exact Or.inr ⟨by omega, by omega⟩
      · intro t e es h1 h2 ht hs1
        by_cases htj : t = j
        · subst htj
          exact (e4 e es ht hs1).1
        · exact e3 t e es (by omega) (by omega) ht hs1
      · intro e es h1 h2
        rw [hb] at h1
        cases h1
        have h5 := e4 a es ha h2
        refine ⟨by omega, fun _ => by omega⟩
    · simp only [hlt, if_false]
      obtain ⟨s1, e1, e2, e3, e4⟩ := ih (j + 1) s (fun t h1 h2 => hr t (by omega) (by omega)) hs
      refine ⟨s1, e1, ?_, ?_, ?_⟩
      · rcases e2 with h | h
        · exact Or.inl h
        · exact Or.inr ⟨by omega, by omega⟩
      · intro t e es h1 h2 ht hs1
        by_cases htj : t = j
        · subst htj
          rw [ha] at ht
          cases ht
          have := (e4 b es hb hs1).1
          omega
        · exact e3 t e es (by omega) (by omega) ht hs1
      · exact e4

theorem DownInv.swap_down {D : Nat} {heap : List (Int × Nat)} {i s : Nat} {a b : Int × Nat}
    (hD : 2 ≤ D) (hu : DownInv D heap i) (hsi : (s - 1) / D = i) (hs0 : 0 < s)
    (hi : heap[i]? = some a) (hs : heap[s]? = some b) (hlt : b.1 < a.1)
    (hmin : ∀ (t : Nat) (e : Int × Nat), 0 < t → (t - 1) / D = i → heap[t]? = some e → b.1 ≤ e.1) :
    DownInv D ((heap.set i b).set s a) s := by
  have his : i < s := by
    have := parent_lt D s hD hs0
    omega
  have hne : i ≠ s := by omega
  have hg := fun k => swapped_get? heap i s k a b hne hi hs
  constructor
  · intro j e p hj0 hjp he hpp
    rw [hg] at he hpp
    simp only [hjp, if_false] at hpp
    by_cases hq : (j - 1) / D = i
    · simp only [hq, if_true] at hpp
      cases hpp
      have hji : j ≠ i := by
        have := parent_lt D j hD hj0
        omega
      by_cases hjs : j = s
      · subst hjs
        simp only [if_true] at he
        cases he
        omega
      · simp only [hjs, hji, if_false] at he
        exact hmin j e hj0 hq he
    · simp only [hq, if_false] at hpp
      have hjs : j ≠ s := by
        intro hh
        subst hh
        exact hq hsi
      simp only [hjs, if_false] at he
      by_cases hji : j = i
      · subst hji
        simp only [if_true] at he
        cases he
        exact hu.2 s _ p hs0 hj0 hsi hs hpp
      · simp only [hji, if_false] at he
        exact hu.1 j e p hj0 hq he hpp
  · intro j e g hj0 _ hjp he hgg
    rw [hg] at he hgg
    rw [hsi] at hgg
    simp only [hne, if_true, if_false] at hgg
    cases hgg
    have hjs : s < j := by
      have := parent_lt D j hD hj0
      omega
    have h1 : j ≠ s := by omega
    have h2 : j ≠ i := by omega
    simp only [h1, h2, if_false] at he
    exact hu.1 j e _ hj0 (by omega) he (by rw [hjp]; exact hs)

theorem DHeap.heapify_down_loop_spec (n D : Nat) (hD : 2 ≤ D) (hsmall : D * n < 2147483647) :
    ∀ (fuel i : Nat) (h : DHeap), h.d = (D : Int) → h.heap.length ≤ fuel + i →
      Indexed n h.heap h.vertex_to_index → i < h.heap.length → DownInv D h.heap i →
      ∃ h1, h.heapify_down_loop fuel (i : Int) = .ok h1 ∧ h1.d = h.d ∧
        Indexed n h1.heap h1.vertex_to_index ∧ Ordered D h1.heap ∧ h1.heap.Perm h.heap := by
  intro fuel
  induction fuel with
  | zero =>
    intro i h _ hf _ hil _
    omega
  | succ fuel ih =>
    intro i h hd hf hx hil hu
    have hrange : ∀ t, D * i + 1 ≤ t →
        t < D * i + 1 + (min (D * i + 1 + D) h.heap.length - (D * i + 1)) → t < h.heap.length := by
      intro t h1 h2
      clear hu hx hf hd ih
      omega
    have hlen := hx.length_le
    have hin : D * i + D ≤ D * n := by
      have : D * (i + 1) ≤ D * n := Nat.mul_le_mul_left D (by omega)
      rw [Nat.mul_add] at this
      omega
    have hn2 : n ≤ D * n := Nat.le_mul_of_pos_left n (by omega)
    have hchild : h.first_child (i : Int) = ((D * i + 1 : Nat) : Int) := by
      unfold DHeap.first_child
      rw [hd, wrap32_of_range]
      · push_cast; rfl
      · have : (0 : Int) ≤ (D : Int) * (i : Int) := by positivity
        omega
      · have : (D : Int) * (i : Int) = ((D * i : Nat) : Int) := by push_cast; rfl
        omega
    have hw1 : wrap32 (((D * i + 1 : Nat) : Int) + (D : Int)) = ((D * i + 1 + D : Nat) : Int) := by
      rw [wrap32_of_range]
      · push_cast; rfl
      · omega
      · omega
    have hw2 : wrap32 ((h.heap.length : Nat) : Int) = (h.heap.length : Int) := by
      rw [wrap32_of_range] <;> omega
    have hcount : (min (((D * i + 1 + D : Nat) : Int)) (h.heap.length : Int) -
        ((D * i + 1 : Nat) : Int)).toNat = min (D * i + 1 + D) h.heap.length - (D * i + 1) := by
      clear hw1 hw2 hchild hin hn2 hlen hu hx hf hd
      omega
    obtain ⟨s, e1, e2, e3, e4⟩ := DHeap.smallest_loop_spec h.heap
      (min (D * i + 1 + D) h.heap.length - (D * i + 1)) (D * i + 1) i
      hrange hil
    obtain ⟨a, ha⟩ := get?_some_of_lt h.heap i hil
    rw [DHeap.heapify_down_loop]
    simp only [hchild, hd, hw1, hw2, hcount, e1, ok_bind]
    clear hcount hw1 hw2 hchild
    by_cases hsi : s = i
    · subst hsi
      simp only [ne_eq, not_true_eq_false, if_false]
      refine ⟨h, rfl, hd, hx, ?_, List.Perm.refl _⟩
      intro j e p hj0 he hp
      by_cases hq : (j - 1) / D = s
      · rw [hq] at hp
        have hr := (child_iff D s j hD).1 ⟨hj0, hq⟩
        have hjl := get?_lt _ _ _ he
        exact e3 j e p hr.1 (by omega) he hp
      · exact hu.1 j e p hj0 hq he hp
    · have hsr : D * i + 1 ≤ s ∧ s < D * i + 1 + (min (D * i + 1 + D) h.heap.length - (D * i + 1)) := by
        rcases e2 with h0 | h0
        · exact absurd h0 hsi
        · exact h0
      have hsl : s < h.heap.length := by omega
      obtain ⟨b, hb⟩ := get?_some_of_lt h.heap s hsl
      have hpar := (child_iff D i s hD).2 ⟨hsr.1, by omega⟩
      have his : i < s := by
        have := parent_lt D s hD hpar.1
        omega
      have hcast : ((s : Int) ≠ (i : Int)) := by omega
      simp only [ne_eq, hcast, not_false_eq_true, if_true]
      rw [DHeap.swap_entries_eq h n i s a b hx (by omega) ha hb]
      simp only [ok_bind]
      have hba := (e4 a b ha hb).2 hsi
      have hmin : ∀ (t : Nat) (e : Int × Nat), 0 < t → (t - 1) / D = i → h.heap[t]? = some e →
          b.1 ≤ e.1 := by
        intro t e ht0 htq hte
        have hr := (child_iff D i t hD).1 ⟨ht0, htq⟩
        have htl := get?_lt _ _ _ hte
        exact e3 t e b hr.1 (by omega) hte hb
      obtain ⟨h1, f1, f2, f3, f4, f5⟩ := ih s
        { h with heap := (h.heap.set i b).set s a,
                 vertex_to_index := (h.vertex_to_index.set b.2 i).set a.2 (s : Nat) }
        hd (by simp; omega) (hx.swap_indexed (by omega) ha hb) (by simp; omega)
        (DownInv.swap_down hD hu hpar.2 hpar.1 ha hb hba hmin)
      exact ⟨h1, f1, f2.trans hd, f3, f4, f5.trans (swap_perm _ _ _ _ _ (by omega) ha hb)⟩

/-! ## `push`, `pop` and `decrease_key` keep the invariant -/

theorem DHeap.Inv.nat {n : Nat} {h : DHeap} (hI : DHeap.Inv n h) :
    ∃ D : Nat, h.d = (D : Int) ∧ 2 ≤ D ∧ D * n < 2147483647 ∧ Ordered D h.heap := by
  have h1 := hI.d_ge
  have h2 := hI.small
  refine ⟨h.d.toNat, by omega, by omega, ?_, hI.ordered⟩
  have h3 : (h.d.toNat : Int) = h.d := by omega
  have h4 : ((h.d.toNat * n : Nat) : Int) = h.d * n := by push_cast; rw [h3]
  omega

theorem DHeap.Inv.of_nat {n D : Nat} {h : DHeap} (hd : h.d = (D : Int)) (hD : 2 ≤ D)
    (hs : D * n < 2147483647) (hx : Indexed n h.heap h.vertex_to_index)
    (ho : Ordered D h.heap) : DHeap.Inv n h := by
  refine ⟨by omega, ?_, hx, ?_⟩
  · rw [hd]
    have : ((D * n : Nat) : Int) = (D : Int) * (n : Int) := by push_cast; rfl
    omega
  · rw [hd]
    exact ho

theorem Indexed.absent_iff {n : Nat} {heap : List (Int × Nat)} {vti : List Int}
    (hx : Indexed n heap vti) {v : Nat} (hv : v < n) :
    vti[v]? = some (-1) ↔ ∀ e ∈ heap, e.2 ≠ v := by
  constructor
  · intro h e he hev
    obtain ⟨i, hi⟩ := List.getElem?_of_mem he
    have := hx.slot i e hi
    rw [hev, h] at this
    simp at this
  · intro h
    obtain ⟨x, hx1⟩ := get?_some_of_lt vti v (by rw [hx.len]; exact hv)
    rcases hx.back v x hx1 with h1 | ⟨i, e, _, h2, h3⟩
    · rw [hx1, h1]
    · exact absurd h3 (h e (List.getElem?_mem h2))

theorem Indexed.present {n : Nat} {heap : List (Int × Nat)} {vti : List Int}
    (hx : Indexed n heap vti) {e : Int × Nat} (he : e ∈ heap) :
    ∃ i : Nat, vti[e.2]? = some (i : Int) ∧ heap[i]? = some e := by
  obtain ⟨i, hi⟩ := List.getElem?_of_mem he
  exact ⟨i, hx.slot i e hi, hi⟩

/-- The root of an ordered heap is a least entry. -/
theorem Ordered.root_le {D : Nat} {heap : List (Int × Nat)} (hD : 2 ≤ D) (ho : Ordered D heap)
    (r : Int × Nat) (hr : heap[0]? = some r) :
    ∀ (i : Nat) (e : Int × Nat), heap[i]? = some e → r.1 ≤ e.1 := by
  intro i
  induction i using Nat.strong_induction_on with
  | _ i ih =>
    intro e he
    by_cases hi : i = 0
    · subst hi
      rw [hr] at he
      cases he
      exact le_refl _
    · have hp := parent_lt D i hD (by omega)
      obtain ⟨p, hpp⟩ := get?_some_of_lt heap ((i - 1) / D) (by have := get?_lt _ _ _ he; omega)
      have h1 := ih _ hp p hpp
      have h2 := ho i e p (by omega) he hpp
      omega

theorem DHeap.heapify_up_spec (n D : Nat) (hD : 2 ≤ D) (i : Nat) (h : DHeap)
    (hd : h.d = (D : Int)) (hx : Indexed n h.heap h.vertex_to_index) (hil : i < h.heap.length)
    (hu : UpInv D h.heap i) :
    ∃ h1, h.heapify_up (i : Int) = .ok h1 ∧ h1.d = h.d ∧
      Indexed n h1.heap h1.vertex_to_index ∧ Ordered D h1.heap ∧ h1.heap.Perm h.heap := by
  unfold DHeap.heapify_up
  simp only [Int.toNat_ofNat]
  exact DHeap.heapify_up_loop_spec n D hD i i h hd (le_refl _) hx hil hu

theorem DHeap.push_present (h : DHeap) (k : Int) (v : Nat) (x : Int)
    (h1 : h.vertex_to_index[v]? = some x) (h2 : x ≠ -1) : h.push k v = .ok h := by
  unfold DHeap.push
  rw [at?_nat _ _ _ h1]
  simp [h2]

theorem DHeap.push_absent (n : Nat) (h : DHeap) (hI : DHeap.Inv n h) (k : Int) (v : Nat)
    (h1 : h.vertex_to_index[v]? = some (-1)) :
    ∃ h1, h.push k v = .ok h1 ∧ DHeap.Inv n h1 ∧ h1.heap.Perm ((k, v) :: h.heap) := by
  obtain ⟨D, hd, hD, hs, ho⟩ := hI.nat
  have hx := hI.indexed
  have hlen := hx.length_le
  have hvl := get?_lt _ _ _ h1
  have hn2 : n ≤ D * n := Nat.le_mul_of_pos_left n (by omega)
  have hw : wrap32 (((h.heap ++ [(k, v)]).length : Int) - 1) = (h.heap.length : Int) := by
    rw [wrap32_of_range] <;> simp <;> omega
  unfold DHeap.push
  rw [at?_nat _ _ _ h1]
  simp only [ok_bind, ne_eq, not_true_eq_false, if_false, hw]
  rw [setAt_nat _ _ _ hvl]
  simp only [ok_bind]
  have hx1 : Indexed n (h.heap ++ [(k, v)]) (h.vertex_to_index.set v (h.heap.length : Int)) := by
    constructor
    · simp [hx.len]
    · intro i e hi
      by_cases hil : i < h.heap.length
      · rw [List.getElem?_append_left hil] at hi
        have hev : v ≠ e.2 := by
          intro hh
          have := hx.slot i e hi
          rw [← hh, h1] at this
          simp at this
        rw [get?_set_other _ _ _ _ hev]
        exact hx.slot i e hi
      · have hil2 := get?_lt _ _ _ hi
        simp at hil2
        have hie : i = h.heap.length := by omega
        subst hie
        simp at hi
        subst hi
        exact get?_set_same _ _ _ hvl
    · intro w x hw1
      by_cases hwv : w = v
      · subst hwv
        rw [get?_set_same _ _ _ hvl] at hw1
        cases hw1
        exact Or.inr ⟨h.heap.length, (k, w), rfl, by simp, rfl⟩
      · rw [get?_set_other _ _ _ _ (Ne.symm hwv)] at hw1
        rcases hx.back w x hw1 with h2 | ⟨i, e, h2, h3, h4⟩
        · exact Or.inl h2
        · refine Or.inr ⟨i, e, h2, ?_, h4⟩
          rw [List.getElem?_append_left (get?_lt _ _ _ h3)]
          exact h3
  have hu : UpInv D (h.heap ++ [(k, v)]) h.heap.length := by
    constructor
    · intro j e p hj0 hjl he hp
      have hjl2 := get?_lt _ _ _ he
      simp at hjl2
      have hjlt : j < h.heap.length := by omega
      have hpl := parent_lt D j hD hj0
      rw [List.getElem?_append_left hjlt] at he
      rw [List.getElem?_append_left (by omega)] at hp
      exact ho j e p hj0 he hp
    · intro j e g hj0 _ hjp he _
      have hjl2 := get?_lt _ _ _ he
      simp at hjl2
      have hpl := parent_lt D j hD hj0
      omega
  obtain ⟨h2, e1, e2, e3, e4, e5⟩ := DHeap.heapify_up_spec n D hD h.heap.length
    { h with heap := h.heap ++ [(k, v)],
             vertex_to_index := h.vertex_to_index.set v (h.heap.length : Int) }
    hd hx1 (by simp) hu
  refine ⟨h2, e1, DHeap.Inv.of_nat (e2.trans hd) hD hs e3 e4, e5.trans ?_⟩
  exact List.perm_append_singleton _ _

theorem DHeap.heapify_up_ordered (D : Nat) (hD : 2 ≤ D) (i : Nat) (h : DHeap)
    (hd : h.d = (D : Int)) (ho : Ordered D h.heap) (hil : i < h.heap.length) :
    h.heapify_up (i : Int) = .ok h := by
  unfold DHeap.heapify_up
  simp only [Int.toNat_ofNat]
  cases i with
  | zero => simp [DHeap.heapify_up_loop]
  | succ m =>
    obtain ⟨a, ha⟩ := get?_some_of_lt h.heap (m + 1) hil
    have hpl := parent_lt D (m + 1) hD (by omega)
    obtain ⟨b, hb⟩ := get?_some_of_lt h.heap ((m + 1 - 1) / D) (by omega)
    have hcond : (((m + 1 : Nat) : Int) > 0) := by omega
    rw [DHeap.heapify_up_loop]
    simp only [hcond, if_true]
    rw [DHeap.parent_nat h D (m + 1) hd (by omega), at?_nat _ _ _ ha, at?_nat _ _ _ hb]
    have hle := ho (m + 1) a b (by omega) ha hb
    have hnlt : ¬ a.1 < b.1 := by omega
    simp [hnlt]

theorem DHeap.decrease_key_absent (h : DHeap) (v : Nat) (k : Int)
    (h1 : h.vertex_to_index[v]? = some (-1)) : h.decrease_key v k = .ok h := by
  unfold DHeap.decrease_key
  rw [at?_nat _ _ _ h1]
  simp

theorem DHeap.decrease_key_larger (h : DHeap) (v : Nat) (k : Int) (i : Nat) (e : Int × Nat)
    (h1 : h.vertex_to_index[v]? = some (i : Int)) (h2 : h.heap[i]? = some e) (h3 : e.1 < k) :
    h.decrease_key v k = .ok h := by
  unfold DHeap.decrease_key
  rw [at?_nat _ _ _ h1]
  have hi : ¬ ((i : Int) = -1) := by omega
  simp only [ok_bind, hi, if_false]
  rw [at?_nat _ _ _ h2]
  simp [h3]

theorem DHeap.decrease_key_equal (n : Nat) (h : DHeap) (hI : DHeap.Inv n h) (v : Nat) (k : Int)
    (i : Nat) (e : Int × Nat)
    (h1 : h.vertex_to_index[v]? = some (i : Int)) (h2 : h.heap[i]? = some e) (h3 : k = e.1) :
    h.decrease_key v k = .ok h := by
  obtain ⟨D, hd, hD, hs, ho⟩ := hI.nat
  have hil := get?_lt _ _ _ h2
  unfold DHeap.decrease_key
  rw [at?_nat _ _ _ h1]
  have hi : ¬ ((i : Int) = -1) := by omega
  simp only [ok_bind, hi, if_false]
  rw [at?_nat _ _ _ h2]
  have hk : ¬ (k > e.1) := by omega
  simp only [ok_bind, hk, if_false]
  rw [setAt_nat _ _ _ hil]
  simp only [ok_bind]
  have hset : h.heap.set i (k, e.2) = h.heap := by
    subst h3
    apply List.ext_getElem?
    intro j
    by_cases hji : i = j
    · subst hji
      rw [get?_set_same _ _ _ hil, h2]
    · rw [get?_set_other _ _ _ _ hji]
  rw [hset]
  exact DHeap.heapify_up_ordered D hD i h hd ho hil

theorem DHeap.decrease_key_lower (n : Nat) (h : DHeap) (hI : DHeap.Inv n h) (v : Nat) (k : Int)
    (i : Nat) (e : Int × Nat)
    (h1 : h.vertex_to_index[v]? = some (i : Int)) (h2 : h.heap[i]? = some e) (h3 : k ≤ e.1) :
    ∃ h1, h.decrease_key v k = .ok h1 ∧ DHeap.Inv n h1 ∧
      h1.heap.Perm (h.heap.set i (k, e.2)) := by
  obtain ⟨D, hd, hD, hs, ho⟩ := hI.nat
  have hx := hI.indexed
  have hil := get?_lt _ _ _ h2
  unfold DHeap.decrease_key
  rw [at?_nat _ _ _ h1]
  have hi : ¬ ((i : Int) = -1) := by omega
  simp only [ok_bind, hi, if_false]
  rw [at?_nat _ _ _ h2]
  have hk : ¬ (k > e.1) := by omega
  simp only [ok_bind, hk, if_false]
  rw [setAt_nat _ _ _ hil]
  simp only [ok_bind]
  have hx1 : Indexed n (h.heap.set i (k, e.2)) h.vertex_to_index := by
    constructor
    · exact hx.len
    · intro j e1 hj
      by_cases hji : i = j
      · subst hji
        rw [get?_set_same _ _ _ hil] at hj
        cases hj
        exact hx.slot i e h2
      · rw [get?_set_other _ _ _ _ hji] at hj
        exact hx.slot j e1 hj
    · intro w x hw
      rcases hx.back w x hw with h4 | ⟨j, e1, h4, h5, h6⟩
      · exact Or.inl h4
      · by_cases hji : i = j
        · subst hji
          rw [h2] at h5
          cases h5
          exact Or.inr ⟨i, (k, e.2), h4, get?_set_same _ _ _ hil, h6⟩
        · exact Or.inr ⟨j, e1, h4, by rw [get?_set_other _ _ _ _ hji]; exact h5, h6⟩
  have hu : UpInv D (h.heap.set i (k, e.2)) i := by
    constructor
    · intro j e1 p hj0 hji he hp
      rw [get?_set_other _ _ _ _ (Ne.symm hji)] at he
      by_cases hq : i = (j - 1) / D
      · rw [← hq, get?_set_same _ _ _ hil] at hp
        cases hp
        have := ho j e1 e hj0 he (by rw [← hq]; exact h2)
        simp only
        omega
      · rw [get?_set_other _ _ _ _ hq] at hp
        exact ho j e1 p hj0 he hp
    · intro j e1 g hj0 hi0 hjp he hg
      have hpl := parent_lt D i hD hi0
      have hjl := parent_lt D j hD hj0
      rw [get?_set_other _ _ _ _ (by omega)] at he hg
      have hg1 := ho i e g hi0 h2 hg
      have hg2 := ho j e1 e hj0 he (by rw [hjp]; exact h2)
      omega
  obtain ⟨h4, e1, e2, e3, e4, e5⟩ := DHeap.heapify_up_spec n D hD i
    { h with heap := h.heap.set i (k, e.2) } hd hx1 (by simpa using hil) hu
  exact ⟨h4, e1, DHeap.Inv.of_nat (e2.trans hd) hD hs e3 e4, e5⟩

theorem DHeap.heapify_down_spec (n D : Nat) (hD : 2 ≤ D) (hs : D * n < 2147483647) (i : Nat)
    (h : DHeap) (hd : h.d = (D : Int)) (hx : Indexed n h.heap h.vertex_to_index)
    (hil : i < h.heap.length) (hu : DownInv D h.heap i) :
    ∃ h1, h.heapify_down (i : Int) = .ok h1 ∧ h1.d = h.d ∧
      Indexed n h1.heap h1.vertex_to_index ∧ Ordered D h1.heap ∧ h1.heap.Perm h.heap := by
  unfold DHeap.heapify_down
  exact DHeap.heapify_down_loop_spec n D hD hs (h.heap.length + 1) i h hd (by omega) hx hil hu

theorem DHeap.pop_spec (n : Nat) (h : DHeap) (hI : DHeap.Inv n h) (hne : h.heap ≠ []) :
    ∃ e h1, h.pop = .ok (e, h1) ∧ DHeap.Inv n h1 ∧ h.heap.Perm (e :: h1.heap) ∧
      (∀ x ∈ h.heap, e.1 ≤ x.1) ∧ h.heap[0]? = some e := by
  obtain ⟨D, hd, hD, hs, ho⟩ := hI.nat
  have hx := hI.indexed
  unfold DHeap.pop
  split
  · rename_i heq
    exact absurd heq hne
  · rename_i min rest heq
    have h0 : h.heap[0]? = some min := by rw [heq]; simp
    have hml := hx.vertex_lt h0
    have hroot : ∀ x ∈ h.heap, min.1 ≤ x.1 := by
      intro x hxm
      obtain ⟨i, hi⟩ := List.getElem?_of_mem hxm
      exact ho.root_le hD min h0 i x hi
    rw [show ((min.2 : Nat) : Int) = ((min.2 : Nat) : Int) from rfl, setAt_nat _ _ _ hml]
    simp only [ok_bind]
    by_cases hr : rest = []
    · subst hr
      simp only [List.length_nil, Nat.zero_add, gt_iff_lt, Nat.lt_irrefl, if_false, ok_bind,
        List.dropLast_single, ne_eq, not_true_eq_false]
      refine ⟨min, _, rfl, ?_, by rw [heq], hroot, h0⟩
      refine DHeap.Inv.of_nat hd hD hs ?_ ?_
      · constructor
        · simp [hx.len]
        · intro i e hi
          simp at hi
        · intro w x hw
          by_cases hwm : w = min.2
          · subst hwm
            rw [get?_set_same _ _ _ hml] at hw
            cases hw
            exact Or.inl rfl
          · rw [get?_set_other _ _ _ _ (Ne.symm hwm)] at hw
            rcases hx.back w x hw with h4 | ⟨j, e1, h4, h5, h6⟩
            · exact Or.inl h4
            · rw [heq] at h5
              cases j with
              | zero =>
                simp at h5
                subst h5
                exact absurd h6.symm hwm
              | succ j => simp at h5
      · intro i e p _ hi _
        simp at hi
    · have hm : 0 < rest.length := List.length_pos.2 hr
      have hlast : (min :: rest).getLast (List.cons_ne_nil _ _) = rest.getLast hr :=
        List.getLast_cons hr
      have hgl : h.heap[rest.length]? = some (rest.getLast hr) := by
        rw [heq]
        have : (min :: rest)[rest.length]? = rest[rest.length - 1]? := by
          cases hrl : rest.length with
          | zero => omega
          | succ k => simp
        rw [this, List.getLast_eq_getElem]
        simp
      have hll := hx.vertex_lt hgl
      have hcond : rest.length + 1 > 1 := by omega
      simp only [hcond, if_true, hlast]
      rw [setAt_nat _ _ _ (by simpa using hll)]
      simp only [ok_bind]
      have hdrop : (rest.getLast hr :: rest).dropLast = (rest.getLast hr :: rest).take rest.length := by
        rw [List.dropLast_eq_take]
        simp
      have hne0 : (rest.getLast hr :: rest).dropLast ≠ [] := by
        rw [hdrop]
        cases hrl : rest.length with
        | zero => omega
        | succ k => simp
      simp only [ne_eq, hne0, not_false_eq_true, if_true]
      have hg0 : ∀ j, ((rest.getLast hr :: rest).dropLast)[j]? =
          if j < rest.length then (if j = 0 then some (rest.getLast hr) else h.heap[j]?)
          else none := by
        intro j
        rw [hdrop, List.getElem?_take]
        by_cases hj : j < rest.length
        · simp only [hj, if_true]
          cases j with
          | zero => simp
          | succ j => rw [heq]; simp
        · simp only [hj, if_false]
      have hlm : min.2 ≠ (rest.getLast hr).2 := by
        intro hh
        have := hx.inj h0 hgl hh
        omega
      have hv0 : ∀ w, ((h.vertex_to_index.set min.2 (-1)).set (rest.getLast hr).2 0)[w]? =
          if w = (rest.getLast hr).2 then some 0 else if w = min.2 then some (-1)
          else h.vertex_to_index[w]? := by
        intro w
        by_cases h1 : w = (rest.getLast hr).2
        · subst h1
          simp only [if_true]
          exact get?_set_same _ _ _ (by simpa using hll)
        · simp only [h1, if_false]
          rw [get?_set_other _ _ _ _ (Ne.symm h1)]
          by_cases h2 : w = min.2
          · subst h2
            simp only [if_true]
            exact get?_set_same _ _ _ hml
          · simp only [h2, if_false]
            exact get?_set_other _ _ _ _ (Ne.symm h2)
      have hx1 : Indexed n (rest.getLast hr :: rest).dropLast
          ((h.vertex_to_index.set min.2 (-1)).set (rest.getLast hr).2 0) := by
        constructor
        · simp [hx.len]
        · intro j e hj
          rw [hg0] at hj
          by_cases hjl : j < rest.length
          · simp only [hjl, if_true] at hj
            by_cases hj0 : j = 0
            · subst hj0
              simp only [if_true] at hj
              cases hj
              rw [hv0]
              simp
            · simp only [hj0, if_false] at hj
              have h1 : e.2 ≠ (rest.getLast hr).2 := by
                intro hh
                have := hx.inj hj hgl hh
                omega
              have h2 : e.2 ≠ min.2 := by
                intro hh
                have := hx.inj hj h0 hh
                omega
              rw [hv0]
              simp only [h1, h2, if_false]
              exact hx.slot j e hj
          · simp only [hjl, if_false] at hj
            cases hj
        · intro w x hw
          rw [hv0] at hw
          by_cases h1 : w = (rest.getLast hr).2
          · simp only [h1, if_true] at hw
            cases hw
            refine Or.inr ⟨0, rest.getLast hr, rfl, ?_, h1.symm⟩
            rw [hg0]
            simp [hm]
          · simp only [h1, if_false] at hw
            by_cases h2 : w = min.2
            · simp only [h2, if_true] at hw
              cases hw
              exact Or.inl rfl
            · simp only [h2, if_false] at hw
              rcases hx.back w x hw with h4 | ⟨j, e1, h4, h5, h6⟩
              · exact Or.inl h4
              · refine Or.inr ⟨j, e1, h4, ?_, h6⟩
                have hj0 : j ≠ 0 := by
                  intro hh
                  subst hh
                  rw [h0] at h5
                  cases h5
                  exact h2 h6.symm
                have hjm : j ≠ rest.length := by
                  intro hh
                  subst hh
                  rw [hgl] at h5
                  cases h5
                  exact h1 h6.symm
                have hjl := get?_lt _ _ _ h5
                rw [heq] at hjl
                simp at hjl
                rw [hg0]
                have : j < rest.length := by omega
                simp only [this, hj0, if_true, if_false]
                exact h5
      have hu : DownInv D (rest.getLast hr :: rest).dropLast 0 := by
        constructor
        · intro j e p hj0 hq he hp
          rw [hg0] at he hp
          have hpl := parent_lt D j hD hj0
          by_cases hjl : j < rest.length
          · have hj0' : j ≠ 0 := by omega
            have hpl2 : (j - 1) / D < rest.length := by omega
            simp only [hjl, hj0', hpl2, hq, if_true, if_false] at he hp
            exact ho j e p hj0 he hp
          · simp only [hjl, if_false] at he
            cases he
        · intro j e g _ h00
          omega
      obtain ⟨h4, e1, e2, e3, e4, e5⟩ := DHeap.heapify_down_spec n D hD hs 0
        { h with heap := (rest.getLast hr :: rest).dropLast,
                 vertex_to_index :=
                   (h.vertex_to_index.set min.2 (-1)).set (rest.getLast hr).2 0 }
        hd hx1 (List.length_pos.2 hne0) hu
      have e1' : DHeap.heapify_down
          { d := h.d, heap := (rest.getLast hr :: rest).dropLast,
            vertex_to_index := (h.vertex_to_index.set min.2 (-1)).set (rest.getLast hr).2 0 } 0 =
          .ok h4 := e1
      rw [e1']
      simp only [ok_bind]
      refine ⟨min, h4, rfl, DHeap.Inv.of_nat (e2.trans hd) hD hs e3 e4, ?_, hroot, h0⟩
      rw [heq]
      refine List.Perm.cons min ?_
      refine List.Perm.symm (e5.trans ?_)
      simp only [List.dropLast_cons_of_ne_nil hr]
      have h7 : (rest.getLast hr :: rest.dropLast).Perm (rest.dropLast ++ [rest.getLast hr]) :=
        (List.perm_append_singleton _ _).symm
      rw [List.dropLast_append_getLast hr] at h7
      exact h7

/-! ## Reachable states of `DHeap` -/

theorem DHeap.Inv.init (n : Nat) (d : Int) (hs : max 2 d * n < 2147483647) :
    DHeap.Inv n (DHeap.new n d) := by
  refine ⟨?_, hs, ?_, ?_⟩
  · exact le_max_left 2 d
  · constructor
    · simp [DHeap.new]
    · intro i e hi
      simp [DHeap.new] at hi
    · intro v x hv
      simp only [DHeap.new] at hv
      rw [List.getElem?_replicate] at hv
      split at hv
      · cases hv
        exact Or.inl rfl
      · cases hv
  · intro i e p _ hi _
    simp [DHeap.new] at hi

theorem DHeap.Inv.step {n : Nat} {h h1 : DHeap} {c : HeapCall} (hI : DHeap.Inv n h)
    (hs : DHeap.step n h c = some h1) : DHeap.Inv n h1 := by
  have hx := hI.indexed
  cases c with
  | push key vertex =>
    simp only [DHeap.step] at hs
    by_cases hv : vertex < n
    · simp only [hv, if_true] at hs
      obtain ⟨x, hx1⟩ := get?_some_of_lt h.vertex_to_index vertex (by rw [hx.len]; exact hv)
      by_cases hx2 : x = -1
      · subst hx2
        obtain ⟨h2, e1, e2, _⟩ := DHeap.push_absent n h hI key vertex hx1
        rw [e1] at hs
        cases hs
        exact e2
      · rw [DHeap.push_present h key vertex x hx1 hx2] at hs
        cases hs
        exact hI
    · simp [hv] at hs
  | pop =>
    simp only [DHeap.step] at hs
    by_cases hne : h.heap = []
    · have : h.pop = .error .runtime_error := by
        unfold DHeap.pop
        rw [hne]
      rw [this] at hs
      cases hs
    · obtain ⟨e, h2, e1, e2, _⟩ := DHeap.pop_spec n h hI hne
      rw [e1] at hs
      cases hs
      exact e2
  | decrease_key vertex new_key =>
    simp only [DHeap.step] at hs
    by_cases hv : vertex < n
    · simp only [hv, if_true] at hs
      obtain ⟨x, hx1⟩ := get?_some_of_lt h.vertex_to_index vertex (by rw [hx.len]; exact hv)
      rcases hx.back vertex x hx1 with hx2 | ⟨i, e, hx2, hx3, _⟩
      · subst hx2
        rw [DHeap.decrease_key_absent h vertex new_key hx1] at hs
        cases hs
        exact hI
      · subst hx2
        by_cases hk : e.1 < new_key
        · rw [DHeap.decrease_key_larger h vertex new_key i e hx1 hx3 hk] at hs
          cases hs
          exact hI
        · obtain ⟨h2, e1, e2, _⟩ :=
            DHeap.decrease_key_lower n h hI vertex new_key i e hx1 hx3 (by omega)
          rw [e1] at hs
          cases hs
          exact e2
    · simp [hv] at hs

theorem DHeap.Reachable.inv_dheap {n : Nat} {d : Int} (hs : max 2 d * n < 2147483647) {h : DHeap}
    (hr : DHeap.Reachable n d h) : DHeap.Inv n h := by
  induction hr with
  | init => exact DHeap.Inv.init n d hs
  | step h h1 c _ hstep ih => exact ih.step hstep

theorem DHeap.drain_spec (n : Nat) :
    ∀ (fuel : Nat) (h : DHeap), DHeap.Inv n h → h.heap.length ≤ fuel →
      ∃ out, h.drain fuel = .ok out ∧ out.Perm h.heap ∧
        (out.map (fun e => e.1)).Sorted (fun a b => a ≤ b) := by
  intro fuel
  induction fuel with
  | zero =>
    intro h _ hl
    have : h.heap = [] := List.length_eq_zero.1 (by omega)
    refine ⟨[], ?_, by rw [this], by simp⟩
    simp [DHeap.drain, DHeap.empty, this]
  | succ fuel ih =>
    intro h hI hl
    by_cases hne : h.heap = []
    · refine ⟨[], ?_, by rw [hne], by simp⟩
      simp [DHeap.drain, DHeap.empty, hne]
    · obtain ⟨e, h1, e1, e2, e3, e4, _⟩ := DHeap.pop_spec n h hI hne
      have hl1 : h1.heap.length ≤ fuel := by
        have := e3.length_eq
        simp at this
        omega
      obtain ⟨out, f1, f2, f3⟩ := ih h1 e2 hl1
      refine ⟨e :: out, ?_, ?_, ?_⟩
      · have hemp : h.empty = false := by
          simp [DHeap.empty, hne]
        rw [DHeap.drain]
        simp only [hemp, Bool.false_eq_true, if_false, e1, ok_bind, f1]
      · exact (List.Perm.cons e f2).trans e3.symm
      · simp only [List.map_cons, List.sorted_cons]
        refine ⟨?_, f3⟩
        intro b hb
        obtain ⟨x, hx1, hx2⟩ := List.mem_map.1 hb
        subst hx2
        have hx3 : x ∈ h.heap := e3.symm.subset (List.mem_cons_of_mem _ (f2.subset hx1))
        exact e4 x hx3

theorem DHeap.push_all_spec (n : Nat) :
    ∀ (es : List (Int × Nat)) (h : DHeap), DHeap.Inv n h →
      (es.map (fun e => e.2)).Nodup → (∀ e ∈ es, e.2 < n) →
      (∀ e ∈ es, ∀ x ∈ h.heap, x.2 ≠ e.2) →
      ∃ h1, DHeap.push_all es h = .ok h1 ∧ DHeap.Inv n h1 ∧ h1.heap.Perm (es ++ h.heap) := by
  intro es
  induction es with
  | nil =>
    intro h hI _ _ _
    exact ⟨h, rfl, hI, List.Perm.refl _⟩
  | cons e es ih =>
    intro h hI hnd hlt hfresh
    have hab := (hI.indexed.absent_iff (hlt e (List.mem_cons_self _ _))).2
      (fun x hx => hfresh e (List.mem_cons_self _ _) x hx)
    obtain ⟨h2, e1, e2, e3⟩ := DHeap.push_absent n h hI e.1 e.2 hab
    simp only [List.map_cons, List.nodup_cons] at hnd
    obtain ⟨h3, f1, f2, f3⟩ := ih h2 e2 hnd.2 (fun x hx => hlt x (List.mem_cons_of_mem _ hx))
      (by
        intro x hx y hy
        rcases List.mem_cons.1 (e3.subset hy) with hye | hyh
        · subst hye
          intro hh
          exact hnd.1 (List.mem_map.2 ⟨x, hx, hh.symm⟩)
        · exact hfresh x (List.mem_cons_of_mem _ hx) y hyh)
    refine ⟨h3, ?_, f2, ?_⟩
    · rw [DHeap.push_all]
      simp only [e1, ok_bind, f1]
    · refine f3.trans ?_
      refine (List.Perm.append_left es e3).trans ?_
      exact List.perm_middle

/-! ## `BinaryHeap` runs as `DHeap` with `d = 2` -/

theorem map_bind {α β γ : Type} (f : β → γ) (x : Except Fault α) (g : α → Except Fault β) :
    Except.map f (x >>= g) = x >>= fun a => Except.map f (g a) := by
  cases x <;> rfl

theorem bind_map {α β γ : Type} (f : α → β) (x : Except Fault α) (g : β → Except Fault γ) :
    (Except.map f x >>= g) = x >>= fun a => g (f a) := by
  cases x <;> rfl

theorem BinaryHeap.swap_entries_sim (b : BinaryHeap) (i j : Int) :
    (b.swap_entries i j).map BinaryHeap.toDHeap = b.toDHeap.swap_entries i j := by
  unfold BinaryHeap.swap_entries DHeap.swap_entries
  simp only [map_bind]
  rfl

theorem BinaryHeap.heapify_up_loop_sim :
    ∀ (fuel : Nat) (b : BinaryHeap) (i : Int),
      (b.heapify_up_loop fuel i).map BinaryHeap.toDHeap = b.toDHeap.heapify_up_loop fuel i := by
  intro fuel
  induction fuel with
  | zero =>
    intro b i
    simp only [BinaryHeap.heapify_up_loop, DHeap.heapify_up_loop]
    split <;> rfl
  | succ fuel ih =>
    intro b i
    rw [BinaryHeap.heapify_up_loop, DHeap.heapify_up_loop]
    split
    · simp only [map_bind]
      have hp : b.toDHeap.parent i = Int.tdiv (i - 1) 2 := rfl
      rw [hp]
      have hh : b.toDHeap.heap = b.heap := rfl
      rw [hh]
      cases at? b.heap i with
      | error e => rfl
      | ok a =>
        simp only [ok_bind]
        cases at? b.heap (Int.tdiv (i - 1) 2) with
        | error e => rfl
        | ok p =>
          simp only [ok_bind]
          split
          · simp only [map_bind]
            rw [← BinaryHeap.swap_entries_sim, bind_map]
            simp only [ih]
          · rfl
    · rfl

theorem BinaryHeap.push_sim (b : BinaryHeap) (k : Int) (v : Nat) :
    (b.push k v).map BinaryHeap.toDHeap = b.toDHeap.push k v := by
  unfold BinaryHeap.push DHeap.push
  simp only [map_bind]
  have hh : b.toDHeap.vertex_to_index = b.vertex_to_index := rfl
  have hh2 : b.toDHeap.heap = b.heap := rfl
  rw [hh, hh2]
  cases at? b.vertex_to_index (v : Int) with
  | error e => rfl
  | ok x =>
    simp only [ok_bind]
    split
    · rfl
    · simp only [map_bind]
      cases setAt b.vertex_to_index (v : Int)
          (wrap32 (((b.heap ++ [(k, v)]).length : Int) - 1)) with
      | error e => rfl
      | ok vti =>
        simp only [ok_bind, BinaryHeap.heapify_up, DHeap.heapify_up]
        rw [BinaryHeap.heapify_up_loop_sim]
        rfl

theorem BinaryHeap.decrease_key_sim (b : BinaryHeap) (v : Nat) (k : Int) :
    (b.decrease_key v k).map BinaryHeap.toDHeap = b.toDHeap.decrease_key v k := by
  unfold BinaryHeap.decrease_key DHeap.decrease_key
  simp only [map_bind]
  have hh : b.toDHeap.vertex_to_index = b.vertex_to_index := rfl
  have hh2 : b.toDHeap.heap = b.heap := rfl
  rw [hh, hh2]
  cases at? b.vertex_to_index (v : Int) with
  | error e => rfl
  | ok x =>
    simp only [ok_bind]
    split
    · rfl
    · simp only [map_bind]
      cases at? b.heap x with
      | error e => rfl
      | ok e =>
        simp only [ok_bind]
        split
        · rfl
        · simp only [map_bind]
          cases setAt b.heap x (k, e.2) with
          | error e => rfl
          | ok heap =>
            simp only [ok_bind, BinaryHeap.heapify_up, DHeap.heapify_up]
            rw [BinaryHeap.heapify_up_loop_sim]
            rfl

theorem BinaryHeap.swap_entries_length (b b1 : BinaryHeap) (i j : Int)
    (h : b.swap_entries i j = .ok b1) : b1.heap.length = b.heap.length := by
  unfold BinaryHeap.swap_entries at h
  cases h1 : at? b.heap i with
  | error e => rw [h1] at h; cases h
  | ok a =>
    rw [h1] at h
    simp only [ok_bind] at h
    cases h2 : at? b.heap j with
    | error e => rw [h2] at h; cases h
    | ok c =>
      rw [h2] at h
      simp only [ok_bind] at h
      unfold setAt at h
      split at h
      · simp only [ok_bind] at h
        split at h
        · simp only [ok_bind] at h
          cases h3 : at? ((b.heap.set i.toNat c).set j.toNat a) i with
          | error e => rw [h3] at h; cases h
          | ok x =>
            rw [h3] at h
            simp only [ok_bind] at h
            split at h
            · simp only [ok_bind] at h
              cases h4 : at? ((b.heap.set i.toNat c).set j.toNat a) j with
              | error e => rw [h4] at h; cases h
              | ok y =>
                rw [h4] at h
                simp only [ok_bind] at h
                split at h
                · cases h
                  simp
                · cases h
            · cases h
        · cases h
      · cases h

theorem BinaryHeap.pick_children_eq (heap : List (Int × Nat)) (i : Nat) (hil : i < heap.length)
    (hs : 2 * heap.length < 2147483647) :
    (BinaryHeap.pick_child heap (wrap32 (2 * (i : Int) + 1)) (i : Int) >>=
      fun s => BinaryHeap.pick_child heap (wrap32 (2 * (i : Int) + 2)) s) =
    DHeap.smallest_loop heap
      (min (wrap32 (wrap32 (2 * (i : Int) + 1) + 2)) (wrap32 (heap.length : Int)) -
        wrap32 (2 * (i : Int) + 1)).toNat (wrap32 (2 * (i : Int) + 1)) (i : Int) := by
  have hw1 : wrap32 (2 * (i : Int) + 1) = ((2 * i + 1 : Nat) : Int) := by
    rw [wrap32_of_range] <;> push_cast <;> omega
  have hw2 : wrap32 (2 * (i : Int) + 2) = ((2 * i + 2 : Nat) : Int) := by
    rw [wrap32_of_range] <;> push_cast <;> omega
  have hw3 : wrap32 (((2 * i + 1 : Nat) : Int) + 2) = ((2 * i + 3 : Nat) : Int) := by
    rw [wrap32_of_range] <;> push_cast <;> omega
  have hw4 : wrap32 (heap.length : Int) = (heap.length : Int) := by
    rw [wrap32_of_range] <;> omega
  rw [hw1, hw2, hw3, hw4]
  have hcount : (min (((2 * i + 3 : Nat) : Int)) (heap.length : Int) -
      ((2 * i + 1 : Nat) : Int)).toNat = min (2 * i + 3) heap.length - (2 * i + 1) := by
    clear hw1 hw2 hw3 hw4
    omega
  rw [hcount]
  clear hw1 hw2 hw3 hw4 hcount
  obtain ⟨b, hb⟩ := get?_some_of_lt heap i hil
  by_cases h1 : heap.length ≤ 2 * i + 1
  · have hc : min (2 * i + 3) heap.length - (2 * i + 1) = 0 := by omega
    rw [hc]
    have hb1 : BinaryHeap.below_size ((2 * i + 1 : Nat) : Int) heap = false := by
      simp [BinaryHeap.below_size]; omega
    have hb2 : BinaryHeap.below_size ((2 * i + 2 : Nat) : Int) heap = false := by
      simp [BinaryHeap.below_size]; omega
    simp only [BinaryHeap.pick_child, hb1, hb2, DHeap.smallest_loop, Bool.false_eq_true,
      if_false, ok_bind]
  · obtain ⟨a, ha⟩ := get?_some_of_lt heap (2 * i + 1) (by omega)
    have hb1 : BinaryHeap.below_size ((2 * i + 1 : Nat) : Int) heap = true := by
      simp [BinaryHeap.below_size]; omega
    by_cases h2 : heap.length ≤ 2 * i + 2
    · have hc : min (2 * i + 3) heap.length - (2 * i + 1) = 1 := by omega
      rw [hc]
      have hb2 : BinaryHeap.below_size ((2 * i + 2 : Nat) : Int) heap = false := by
        simp [BinaryHeap.below_size]; omega
      simp only [BinaryHeap.pick_child, hb1, hb2, DHeap.smallest_loop, if_true,
        at?_nat _ _ _ ha, at?_nat _ _ _ hb, ok_bind, Bool.false_eq_true, if_false]
    · obtain ⟨a2, ha2⟩ := get?_some_of_lt heap (2 * i + 2) (by omega)
      have hc : min (2 * i + 3) heap.length - (2 * i + 1) = 2 := by omega
      rw [hc]
      have hb2 : BinaryHeap.below_size ((2 * i + 2 : Nat) : Int) heap = true := by
        simp [BinaryHeap.below_size]; omega
      have hcast : (((2 * i + 1 : Nat) : Int) + 1) = ((2 * i + 2 : Nat) : Int) := by
        push_cast; omega
      simp only [BinaryHeap.pick_child, hb1, hb2, DHeap.smallest_loop, if_true,
        at?_nat _ _ _ ha, at?_nat _ _ _ hb, at?_nat _ _ _ ha2, ok_bind, hcast]

theorem BinaryHeap.heapify_down_loop_sim :
    ∀ (fuel i : Nat) (b : BinaryHeap), i < b.heap.length → 2 * b.heap.length < 2147483647 →
      (b.heapify_down_loop fuel (i : Int)).map BinaryHeap.toDHeap =
        b.toDHeap.heapify_down_loop fuel (i : Int) := by
  intro fuel
  induction fuel with
  | zero => intro i b _ _; rfl
  | succ fuel ih =>
    intro i b hil hs
    rw [BinaryHeap.heapify_down_loop, DHeap.heapify_down_loop]
    simp only [map_bind]
    have hfc : b.toDHeap.first_child (i : Int) = wrap32 (2 * (i : Int) + 1) := rfl
    have hd : b.toDHeap.d = 2 := rfl
    have hh : b.toDHeap.heap = b.heap := rfl
    rw [hfc, hd, hh, ← bind_assoc, BinaryHeap.pick_children_eq b.heap i hil hs]
    cases hsm : DHeap.smallest_loop b.heap
      (min (wrap32 (wrap32 (2 * (i : Int) + 1) + 2)) (wrap32 (b.heap.length : Int)) -
        wrap32 (2 * (i : Int) + 1)).toNat (wrap32 (2 * (i : Int) + 1)) (i : Int) with
    | error e => rfl
    | ok s =>
      simp only [ok_bind]
      split
      · rename_i hne
        simp only [map_bind]
        rw [← BinaryHeap.swap_entries_sim, bind_map]
        cases hsw : b.swap_entries (i : Int) s with
        | error e => rfl
        | ok b1 =>
          simp only [ok_bind]
          have hlen := BinaryHeap.swap_entries_length b b1 _ _ hsw
          have hsl : 0 ≤ s ∧ s.toNat < b.heap.length := by
            unfold BinaryHeap.swap_entries at hsw
            cases h1 : at? b.heap (i : Int) with
            | error e => rw [h1] at hsw; cases hsw
            | ok a =>
              rw [h1] at hsw
              simp only [ok_bind] at hsw
              cases h2 : at? b.heap s with
              | error e => rw [h2] at hsw; cases hsw
              | ok c =>
                have h3 := at?_ok _ _ _ h2
                exact ⟨h3.1, get?_lt _ _ _ h3.2⟩
          have hsn : s = ((s.toNat : Nat) : Int) := by omega
          rw [hsn]
          exact ih s.toNat b1 (by omega) (by omega)
      · rfl

theorem BinaryHeap.pop_tail_sim (b : BinaryHeap) (hs : 2 * b.heap.length < 2147483647)
    (min : Int × Nat) (heap0 : List (Int × Nat)) (vti2 : List Int)
    (hl : heap0.length ≤ b.heap.length) :
    Except.map (fun r : (Int × Nat) × BinaryHeap => (r.1, r.2.toDHeap))
      (if heap0 ≠ [] then
        (BinaryHeap.heapify_down { heap := heap0, vertex_to_index := vti2 } 0 >>=
          fun h => Except.ok (min, h))
      else Except.ok (min, { heap := heap0, vertex_to_index := vti2 })) =
    (if heap0 ≠ [] then
      (DHeap.heapify_down { d := 2, heap := heap0, vertex_to_index := vti2 } 0 >>=
        fun h => Except.ok (min, h))
    else Except.ok (min, { d := 2, heap := heap0, vertex_to_index := vti2 })) := by
  split
  · rename_i hne
    have h0 : 0 < heap0.length := List.length_pos.2 hne
    have := BinaryHeap.heapify_down_loop_sim (heap0.length + 1) 0
      { heap := heap0, vertex_to_index := vti2 } h0 (by simp only; omega)
    simp only [Nat.cast_zero] at this
    simp only [map_bind, BinaryHeap.heapify_down, DHeap.heapify_down]
    have h2 : (BinaryHeap.toDHeap { heap := heap0, vertex_to_index := vti2 }) =
        { d := 2, heap := heap0, vertex_to_index := vti2 } := rfl
    rw [h2] at this
    rw [← this, bind_map]
    rfl
  · rfl

theorem BinaryHeap.pop_sim (b : BinaryHeap) (hs : 2 * b.heap.length < 2147483647) :
    (b.pop).map (fun r => (r.1, r.2.toDHeap)) = b.toDHeap.pop := by
  unfold BinaryHeap.pop DHeap.pop
  have hh : b.toDHeap.heap = b.heap := rfl
  have hv : b.toDHeap.vertex_to_index = b.vertex_to_index := rfl
  rw [hh, hv]
  cases hheap : b.heap with
  | nil => rfl
  | cons min rest =>
    simp only [map_bind]
    cases setAt b.vertex_to_index (min.2 : Int) (-1) with
    | error e => rfl
    | ok vti =>
      simp only [ok_bind]
      split
      · simp only [map_bind]
        cases setAt vti (((min :: rest).getLast (List.cons_ne_nil _ _)).2 : Int) 0 with
        | error e => rfl
        | ok vti2 =>
          simp only [ok_bind]
          exact BinaryHeap.pop_tail_sim b hs min _ vti2 (by rw [hheap]; simp)
      · exact BinaryHeap.pop_tail_sim b hs min _ vti (by rw [hheap]; simp)

/-! ## Reachable states of `BinaryHeap` -/

theorem BinaryHeap.toDHeap_inj (b b1 : BinaryHeap) (h : b.toDHeap = b1.toDHeap) : b = b1 := by
  cases b
  cases b1
  simp only [BinaryHeap.toDHeap, DHeap.mk.injEq] at h
  simp [h.2.1, h.2.2]

theorem BinaryHeap.step_sim {n : Nat} {b b1 : BinaryHeap} {c : HeapCall}
    (hI : DHeap.Inv n b.toDHeap) (hs : BinaryHeap.step n b c = some b1) :
    DHeap.step n b.toDHeap c = some b1.toDHeap := by
  cases c with
  | push key vertex =>
    simp only [BinaryHeap.step, DHeap.step] at hs ⊢
    by_cases hv : vertex < n
    · simp only [hv, if_true] at hs ⊢
      rw [← BinaryHeap.push_sim]
      cases hp : b.push key vertex with
      | error e => rw [hp] at hs; cases hs
      | ok b2 =>
        rw [hp] at hs
        cases hs
        rfl
    · simp [hv] at hs
  | pop =>
    simp only [BinaryHeap.step, DHeap.step] at hs ⊢
    have hlen := hI.indexed.length_le
    have hsm := hI.small
    have hd : b.toDHeap.d = 2 := rfl
    rw [hd] at hsm
    have hh : b.toDHeap.heap = b.heap := rfl
    rw [hh] at hlen
    rw [← BinaryHeap.pop_sim b (by omega)]
    cases hp : b.pop with
    | error e => rw [hp] at hs; cases hs
    | ok r =>
      rw [hp] at hs
      cases hs
      rfl
  | decrease_key vertex new_key =>
    simp only [BinaryHeap.step, DHeap.step] at hs ⊢
    by_cases hv : vertex < n
    · simp only [hv, if_true] at hs ⊢
      rw [← BinaryHeap.decrease_key_sim]
      cases hp : b.decrease_key vertex new_key with
      | error e => rw [hp] at hs; cases hs
      | ok b2 =>
        rw [hp] at hs
        cases hs
        rfl
    · simp [hv] at hs

theorem BinaryHeap.Reachable.inv_binary {n : Nat} (hs : 2 * (n : Int) < 2147483647) {b : BinaryHeap}
    (hr : BinaryHeap.Reachable n b) : DHeap.Inv n b.toDHeap := by
  induction hr with
  | init => exact DHeap.Inv.init n 2 (by simpa using hs)
  | step b b1 c _ hstep ih => exact ih.step (BinaryHeap.step_sim ih hstep)

theorem DHeap.Reachable.run_dheap {n : Nat} {d : Int} :
    ∀ (cs : List HeapCall) (h h1 : DHeap), DHeap.Reachable n d h → DHeap.run n cs h = some h1 →
      DHeap.Reachable n d h1 := by
  intro cs
  induction cs with
  | nil =>
    intro h h1 hr hrun
    simp only [DHeap.run] at hrun
    cases hrun
    exact hr
  | cons c cs ih =>
    intro h h1 hr hrun
    simp only [DHeap.run] at hrun
    cases hst : DHeap.step n h c with
    | none => rw [hst] at hrun; cases hrun
    | some h2 =>
      rw [hst] at hrun
      exact ih h2 h1 (DHeap.Reachable.step h h2 c hr hst) hrun

theorem BinaryHeap.Reachable.run_binary {n : Nat} :
    ∀ (cs : List HeapCall) (b b1 : BinaryHeap), BinaryHeap.Reachable n b →
      BinaryHeap.run n cs b = some b1 → BinaryHeap.Reachable n b1 := by
  intro cs
  induction cs with
  | nil =>
    intro b b1 hr hrun
    simp only [BinaryHeap.run] at hrun
    cases hrun
    exact hr
  | cons c cs ih =>
    intro b b1 hr hrun
    simp only [BinaryHeap.run] at hrun
    cases hst : BinaryHeap.step n b c with
    | none => rw [hst] at hrun; cases hrun
    | some b2 =>
      rw [hst] at hrun
      exact ih b2 b1 (BinaryHeap.Reachable.step b b2 c hr hst) hrun

/-! ## The claims about `DHeap` and `BinaryHeap` -/

/-- C5, as amended: for a `DHeap(n, d)` whose index arithmetic stays within
`int` (`max(2, d) * n < INT_MAX`), in every state reachable from the empty heap
by `push`, `pop` and `decrease_key` calls with vertices in range, `pop` on a
non-empty heap returns an entry of the heap whose key is at most every key in
the heap, and leaves exactly the other entries, keys unchanged; and pushing
entries with distinct vertices into the empty heap and popping until it is empty
succeeds and returns the pushed entries with keys in non-decreasing order. -/
theorem dheap_pop_returns_minimum (n : Nat) (d : Int) (hs : max 2 d * n < 2147483647)
    (h : DHeap) (hr : DHeap.Reachable n d h) (hne : h.empty = false) :
    (∃ e h1, h.pop = .ok (e, h1) ∧ e ∈ h.heap ∧ (∀ x ∈ h.heap, e.1 ≤ x.1) ∧
      h.heap.Perm (e :: h1.heap)) ∧
    (∀ es : List (Int × Nat), (es.map (fun e => e.2)).Nodup → (∀ e ∈ es, e.2 < n) →
      ∃ h2 out, DHeap.push_all es (DHeap.new n d) = .ok h2 ∧
        h2.drain es.length = .ok out ∧ out.Perm es ∧
        (out.map (fun e => e.1)).Sorted (fun a b => a ≤ b)) := by
  constructor
  · have hI := hr.inv_dheap hs
    have hne2 : h.heap ≠ [] := by
      intro hh
      simp [DHeap.empty, hh] at hne
    obtain ⟨e, h1, e1, _, e3, e4, e5⟩ := DHeap.pop_spec n h hI hne2
    exact ⟨e, h1, e1, List.getElem?_mem e5, e4, e3⟩
  · intro es hnd hlt
    obtain ⟨h2, e1, e2, e3⟩ := DHeap.push_all_spec n es (DHeap.new n d) (DHeap.Inv.init n d hs)
      hnd hlt (by intro e _ x hx; simp [DHeap.new] at hx)
    have e3' : h2.heap.Perm es := by
      have : (DHeap.new n d).heap = [] := rfl
      rw [this, List.append_nil] at e3
      exact e3
    obtain ⟨out, f1, f2, f3⟩ := DHeap.drain_spec n es.length h2 e2 (by rw [e3'.length_eq])
    exact ⟨h2, out, e1, f1, f2.trans e3', f3⟩

theorem sampleDHeap_reachable : DHeap.Reachable 3 3 sampleDHeap :=
  DHeap.Reachable.run_dheap [.push 5 0, .push 3 1, .push 8 2] (DHeap.new 3 3) sampleDHeap
    DHeap.Reachable.init (by decide!)

theorem sampleBinaryHeap_reachable : BinaryHeap.Reachable 3 sampleBinaryHeap :=
  BinaryHeap.Reachable.run_binary [.push 5 0, .push 3 1, .push 8 2] (BinaryHeap.new 3) sampleBinaryHeap
    BinaryHeap.Reachable.init (by decide!)

theorem wideDHeap_reachable : DHeap.Reachable 3 2147483647 wideDHeap :=
  DHeap.Reachable.run_dheap [.push 1 0, .push 2 1, .push 3 2, .pop] (DHeap.new 3 2147483647) wideDHeap
    DHeap.Reachable.init (by decide!)

theorem wideDHeap4_reachable : DHeap.Reachable 4 2147483647 wideDHeap4 :=
  DHeap.Reachable.run_dheap [.push 1 0, .push 2 1, .push 3 2, .push 5 3, .pop]
    (DHeap.new 4 2147483647) wideDHeap4 DHeap.Reachable.init (by decide!)

/-- C5, witness: `DHeap(3, 3)` after three pushes, and the push-then-pop run of
the same three entries. -/
theorem dheap_pop_returns_minimum_witness :
    (∃ e h1, sampleDHeap.pop = .ok (e, h1) ∧ e ∈ sampleDHeap.heap ∧
      (∀ x ∈ sampleDHeap.heap, e.1 ≤ x.1) ∧ sampleDHeap.heap.Perm (e :: h1.heap)) ∧
    (∃ h2 out, DHeap.push_all [(5, 0), (3, 1), (8, 2)] (DHeap.new 3 3) = .ok h2 ∧
      h2.drain 3 = .ok out ∧ out.Perm [(5, 0), (3, 1), (8, 2)] ∧
      (out.map (fun e => e.1)).Sorted (fun a b => a ≤ b)) :=
  ⟨(dheap_pop_returns_minimum 3 3 (by decide) sampleDHeap sampleDHeap_reachable
      (by decide)).1,
   (dheap_pop_returns_minimum 3 3 (by decide) sampleDHeap sampleDHeap_reachable
      (by decide)).2 [(5, 0), (3, 1), (8, 2)] (by decide) (by decide)⟩

/-- C5, counterexample to the claim as stated (any branching factor): in
`DHeap(3, INT_MAX)`, after `push(1, 0)`, `push(2, 1)`, `push(3, 2)`, `pop()`, the
next `pop` returns `(3, 2)` although `(2, 1)` is in the heap: in
`heapify_down`, `child + d` is `1 + INT_MAX`, which wraps below `child`, so no
child is ever compared. -/
theorem dheap_pop_not_minimum_for_wide_heap :
    DHeap.Reachable 3 2147483647 wideDHeap ∧ wideDHeap.empty = false ∧
      wideDHeap.pop = .ok ((3, 2), { d := 2147483647, heap := [(2, 1)],
                                     vertex_to_index := [-1, 0, -1] }) ∧
      (2, 1) ∈ wideDHeap.heap ∧ ((2, 1) : Int × Nat).1 < ((3, 2) : Int × Nat).1 :=
  ⟨wideDHeap_reachable, by decide, by decide!, by decide, by decide⟩

theorem mem_set_iff {α : Type} (l : List α) (i : Nat) (a x : α) (hi : i < l.length) :
    x ∈ l.set i a ↔ x = a ∨ ∃ j, j ≠ i ∧ l[j]? = some x := by
  constructor
  · intro hx
    obtain ⟨j, hj⟩ := List.getElem?_of_mem hx
    by_cases hji : i = j
    · subst hji
      rw [get?_set_same _ _ _ hi] at hj
      cases hj
      exact Or.inl rfl
    · rw [get?_set_other _ _ _ _ hji] at hj
      exact Or.inr ⟨j, Ne.symm hji, hj⟩
  · rintro (hx | ⟨j, hji, hj⟩)
    · subst hx
      exact List.getElem?_mem (get?_set_same _ _ _ hi)
    · exact List.getElem?_mem (by rw [get?_set_other _ _ _ _ (Ne.symm hji)]; exact hj)

/-- C8, as amended: for a `DHeap(n, d)` whose index arithmetic stays within
`int` (`max(2, d) * n < INT_MAX`), in every reachable state that holds vertex
`v` with key `c`, and for every `k < c`, `decrease_key(v, k)` returns, keeps
the vertices of the heap, gives `v` the key `k`, keeps every other entry, and
restores heap order (the state is again reachable and ordered), so that
popping until empty returns the entries in non-decreasing order of their
updated keys. -/
theorem dheap_decrease_key_lowers (n : Nat) (d : Int) (hs : max 2 d * n < 2147483647)
    (h : DHeap) (hr : DHeap.Reachable n d h) (v : Nat) (hv : v < n) (c k : Int)
    (hin : (c, v) ∈ h.heap) (hk : k < c) :
    ∃ h1, h.decrease_key v k = .ok h1 ∧
      (h1.heap.map (fun e => e.2)).Perm (h.heap.map (fun e => e.2)) ∧
      (k, v) ∈ h1.heap ∧ (∀ e ∈ h1.heap, e.2 = v → e = (k, v)) ∧
      (∀ e : Int × Nat, e.2 ≠ v → (e ∈ h1.heap ↔ e ∈ h.heap)) ∧
      Ordered h1.d.toNat h1.heap ∧ DHeap.Reachable n d h1 ∧
      ∃ out, h1.drain h1.heap.length = .ok out ∧ out.Perm h1.heap ∧
        (out.map (fun e => e.1)).Sorted (fun a b => a ≤ b) := by
  have hI := hr.inv_dheap hs
  obtain ⟨i, hi1, hi2⟩ := hI.indexed.present hin
  have hil := get?_lt _ _ _ hi2
  obtain ⟨h1, e1, e2, e3⟩ := DHeap.decrease_key_lower n h hI v k i (c, v) hi1 hi2 (by simp; omega)
  simp only at e3
  have hkv : (k, v) ∈ h1.heap :=
    e3.symm.subset (List.getElem?_mem (get?_set_same _ _ _ hil))
  have hreach : DHeap.Reachable n d h1 := by
    refine DHeap.Reachable.step h h1 (.decrease_key v k) hr ?_
    simp [DHeap.step, hv, e1]
  refine ⟨h1, e1, ?_, hkv, ?_, ?_, e2.ordered, hreach, ?_⟩
  · refine (e3.map _).trans ?_
    rw [List.map_set]
    have : (h.heap.map (fun e => e.2)).set i v = h.heap.map (fun e => e.2) := by
      apply List.ext_getElem?
      intro j
      by_cases hji : i = j
      · subst hji
        rw [get?_set_same _ _ _ (by simpa using hil)]
        simp [hi2]
      · rw [get?_set_other _ _ _ _ hji]
    rw [this]
  · intro e he hev
    obtain ⟨j1, hj1⟩ := List.getElem?_of_mem he
    obtain ⟨j2, hj2⟩ := List.getElem?_of_mem hkv
    have := e2.indexed.inj hj1 hj2 hev
    subst this
    rw [hj1] at hj2
    cases hj2
    rfl
  · intro e hev
    constructor
    · intro he
      rcases (mem_set_iff _ _ _ _ hil).1 (e3.subset he) with h2 | ⟨j, _, hj⟩
      · subst h2
        exact absurd rfl hev
      · exact List.getElem?_mem hj
    · intro he
      obtain ⟨j, hj⟩ := List.getElem?_of_mem he
      refine e3.symm.subset ((mem_set_iff _ _ _ _ hil).2 (Or.inr ⟨j, ?_, hj⟩))
      intro hji
      subst hji
      rw [hi2] at hj
      cases hj
      exact hev rfl
  · exact DHeap.drain_spec n h1.heap.length h1 e2 (le_refl _)

/-- C8, witness: lowering the key of vertex 2 from 8 to 1 in `sampleDHeap`. -/
theorem dheap_decrease_key_lowers_witness :
    ∃ h1, sampleDHeap.decrease_key 2 1 = .ok h1 ∧
      (h1.heap.map (fun e => e.2)).Perm (sampleDHeap.heap.map (fun e => e.2)) ∧
      (1, 2) ∈ h1.heap ∧ (∀ e ∈ h1.heap, e.2 = 2 → e = (1, 2)) ∧
      (∀ e : Int × Nat, e.2 ≠ 2 → (e ∈ h1.heap ↔ e ∈ sampleDHeap.heap)) ∧
      Ordered h1.d.toNat h1.heap ∧ DHeap.Reachable 3 3 h1 ∧
      ∃ out, h1.drain h1.heap.length = .ok out ∧ out.Perm h1.heap ∧
        (out.map (fun e => e.1)).Sorted (fun a b => a ≤ b) :=
  dheap_decrease_key_lowers 3 3 (by decide) sampleDHeap sampleDHeap_reachable 2 (by decide)
    8 1 (by decide) (by decide)

/-- C8, counterexample to the claim as stated (every reachable `DHeap`): in
`DHeap(4, INT_MAX)`, after `push(1, 0)`, `push(2, 1)`, `push(3, 2)`,
`push(5, 3)`, `pop()`, vertex 2 has key 3; `decrease_key(2, 2)` returns, and
popping until empty afterwards returns the keys 2, 5, 2. -/
theorem dheap_decrease_key_unordered_for_wide_heap :
    DHeap.Reachable 4 2147483647 wideDHeap4 ∧ (3, 2) ∈ wideDHeap4.heap ∧
      (wideDHeap4.decrease_key 2 2 >>= fun h1 => h1.drain 3) =
        .ok [(2, 2), (5, 3), (2, 1)] :=
  ⟨wideDHeap4_reachable, by decide, by decide!⟩

/-- C9, counterexample to the claim as stated (every reachable `DHeap`): in
`DHeap(3, INT_MAX)`, after `push(1, 0)`, `push(2, 1)`, `push(3, 2)`, `pop()`,
vertex 1 has key 2 and `decrease_key(1, 2)`, with the key it already has,
exchanges the two entries of the heap. -/
theorem dheap_decrease_key_equal_key_changes_wide_heap :
    DHeap.Reachable 3 2147483647 wideDHeap ∧ (2, 1) ∈ wideDHeap.heap ∧
      wideDHeap.decrease_key 1 2 =
        .ok { d := 2147483647, heap := [(2, 1), (3, 2)], vertex_to_index := [-1, 0, 1] } ∧
      ({ d := 2147483647, heap := [(2, 1), (3, 2)], vertex_to_index := [-1, 0, 1] } : DHeap) ≠
        wideDHeap :=
  ⟨wideDHeap_reachable, by decide, by decide!, by decide⟩

/-! ## Ring maps -/

theorem RReach.trans_reach {ρ : Nat → Option (Nat × Nat)} {c a b : Nat}
    (h1 : RReach ρ c a) (h2 : RReach ρ a b) : RReach ρ c b := by
  induction h2 with
  | refl => exact h1
  | step u l r _ hu ih => exact RReach.step u l r ih hu

theorem RingOk.empty_of_none {ρ : Nat → Option (Nat × Nat)} (h : RingOk ρ none) (a : Nat) :
    ρ a = none := by
  cases hr : ρ a with
  | none => rfl
  | some lr =>
    obtain ⟨c, hc, _⟩ := h.reach a lr hr
    cases hc

theorem RingOk.of_empty_map {ρ : Nat → Option (Nat × Nat)} (h : ∀ a, ρ a = none) :
    RingOk ρ none := by
  refine ⟨⟨?_, ?_⟩, ?_, ?_⟩
  · intro a l r ha; rw [h a] at ha; cases ha
  · intro a l r ha; rw [h a] at ha; cases ha
  · intro a lr ha; rw [h a] at ha; cases ha
  · intro c hc; cases hc

theorem RingLR.right_inj {ρ : Nat → Option (Nat × Nat)} (h : RingLR ρ) {a b la lb r : Nat}
    (ha : ρ a = some (la, r)) (hb : ρ b = some (lb, r)) : a = b := by
  obtain ⟨r1, h1⟩ := h.right_ok a la r ha
  obtain ⟨r2, h2⟩ := h.right_ok b lb r hb
  rw [h1] at h2
  cases h2
  rfl

theorem RingLR.left_inj {ρ : Nat → Option (Nat × Nat)} (h : RingLR ρ) {a b l ra rb : Nat}
    (ha : ρ a = some (l, ra)) (hb : ρ b = some (l, rb)) : a = b := by
  obtain ⟨r1, h1⟩ := h.left_ok a l ra ha
  obtain ⟨r2, h2⟩ := h.left_ok b l rb hb
  rw [h1] at h2
  cases h2
  rfl

/-- Splice `x` into a ring after `c`, the four assignments
`x->left = c; x->right = c->right; c->right->left = x; c->right = x`. -/
theorem RingOk.insert {ρ ρ' : Nat → Option (Nat × Nat)} {c x cl r : Nat}
    (h : RingOk ρ (some c)) (hc : ρ c = some (cl, r)) (hx : ρ x = none)
    (hx' : ρ' x = some (c, r))
    (hc' : ρ' c = some (if r = c then x else cl, x))
    (hr' : r ≠ c → ∀ rl rr, ρ r = some (rl, rr) → ρ' r = some (x, rr))
    (hrest : ∀ a, a ≠ x → a ≠ c → a ≠ r → ρ' a = ρ a) : RingOk ρ' (some c) := by
  have hxc : x ≠ c := by intro e; rw [e, hc] at hx; cases hx
  obtain ⟨rr, hr⟩ := h.right_ok c cl r hc
  obtain ⟨cll, hcl⟩ := h.left_ok c cl r hc
  have hxr : x ≠ r := by intro e; rw [e, hr] at hx; cases hx
  have hxcl : x ≠ cl := by intro e; rw [e, hcl] at hx; cases hx
  have hrc : r = c → cl = c := by
    intro e; rw [e, hc] at hr; cases hr; rfl
  have hcr : cl = c → r = c := by
    intro e; rw [e, hc] at hcl; cases hcl; rfl
  have hlive : ∀ a lr, a ≠ x → ρ' a = some lr → ∃ lr0, ρ a = some lr0 := by
    intro a lr hax ha
    by_cases hac : a = c
    · exact ⟨_, hac ▸ hc⟩
    · by_cases har : a = r
      · exact ⟨_, har ▸ hr⟩
      · exact ⟨lr, (hrest a hax hac har) ▸ ha⟩
  have hsim : ∀ a, RReach ρ c a → RReach ρ' c a := by
    intro a ha
    induction ha with
    | refl => exact RReach.refl
    | step u l r1 _ hu ih =>
      by_cases huc : u = c
      · rw [huc] at hu ih
        rw [hc] at hu; cases hu
        exact RReach.step x c r (RReach.step c _ x ih hc') hx'
      · have hux : u ≠ x := by intro e; rw [e, hx] at hu; cases hu
        by_cases hur : u = r
        · rw [hur] at hu ih
          have hne : r ≠ c := fun e => huc (hur.trans e)
          exact RReach.step r x r1 ih (hr' hne l r1 hu)
        · exact RReach.step u l r1 ih ((hrest u hux huc hur).trans hu)
  refine ⟨⟨?_, ?_⟩, ?_, ?_⟩
  · intro a l r1 ha
    by_cases hax : a = x
    · rw [hax] at ha ⊢
      rw [hx'] at ha; cases ha
      by_cases hrc1 : r = c
      · rw [hrc1]; exact ⟨x, by rw [hc']; simp [hrc1]⟩
      · exact ⟨rr, hr' hrc1 _ _ hr⟩
    · by_cases hac : a = c
      · rw [hac] at ha ⊢
        rw [hc'] at ha; cases ha
        exact ⟨_, hx'⟩
      · by_cases har : a = r
        · rw [har] at ha ⊢
          have hrc1 : r ≠ c := fun e => hac (har.trans e)
          rw [hr' hrc1 _ _ hr] at ha; cases ha
          obtain ⟨rr2, h2⟩ := h.right_ok r c rr hr
          have h1x : rr ≠ x := by intro e; rw [e, hx] at h2; cases h2
          by_cases h1c : rr = c
          · rw [h1c] at h2 ⊢
            rw [hc] at h2; cases h2
            exact ⟨x, by rw [hc']; simp [hrc1]⟩
          · by_cases h1r : rr = r
            · rw [h1r, hr] at h2; cases h2; exact absurd rfl hrc1
            · exact ⟨rr2, (hrest rr h1x h1c h1r).trans h2⟩
        · rw [hrest a hax hac har] at ha
          obtain ⟨rr2, h2⟩ := h.right_ok a l r1 ha
          have h1x : r1 ≠ x := by intro e; rw [e, hx] at h2; cases h2
          by_cases h1c : r1 = c
          · rw [h1c] at h2 ⊢
            rw [hc] at h2; cases h2
            have : r ≠ c := fun e => hac (hrc e)
            exact ⟨x, by rw [hc']; simp [this]⟩
          · by_cases h1r : r1 = r
            · rw [h1r, hr] at h2; cases h2; exact absurd rfl hac
            · exact ⟨rr2, (hrest r1 h1x h1c h1r).trans h2⟩
  · intro a l r1 ha
    by_cases hax : a = x
    · rw [hax] at ha ⊢
      rw [hx'] at ha; cases ha
      exact ⟨_, hc'⟩
    · by_cases hac : a = c
      · rw [hac] at ha ⊢
        rw [hc'] at ha; cases ha
        by_cases hra : r = c
        · simp only [hra, if_true]; exact ⟨_, by rw [hx', hra]⟩
        · simp only [hra, if_false]
          have hcla : cl ≠ c := fun e => hra (hcr e)
          by_cases hclr : cl = r
          · rw [hclr] at hcl ⊢
            rw [hr] at hcl; cases hcl
            exact ⟨x, hr' hra _ _ hr⟩
          · exact ⟨cll, (hrest cl (Ne.symm hxcl) hcla hclr).trans hcl⟩
      · by_cases har : a = r
        · rw [har] at ha ⊢
          have hrc1 : r ≠ c := fun e => hac (har.trans e)
          rw [hr' hrc1 _ _ hr] at ha; cases ha
          exact ⟨_, hx'⟩
        · rw [hrest a hax hac har] at ha
          obtain ⟨ll, h2⟩ := h.left_ok a l r1 ha
          have hlx : l ≠ x := by intro e; rw [e, hx] at h2; cases h2
          by_cases hlc : l = c
          · rw [hlc, hc] at h2; cases h2; exact absurd rfl har
          · by_cases hlr : l = r
            · have hrc1 : r ≠ c := fun e => hlc (hlr.trans e)
              rw [hlr] at h2 ⊢
              rw [hr] at h2; cases h2
              exact ⟨x, hr' hrc1 _ _ hr⟩
            · exact ⟨ll, (hrest l hlx hlc hlr).trans h2⟩
  · intro a lr ha
    refine ⟨c, rfl, ?_⟩
    by_cases hax : a = x
    · rw [hax]; exact RReach.step c _ x RReach.refl hc'
    · obtain ⟨lr0, h0⟩ := hlive a lr hax ha
      obtain ⟨c1, hc1, hreach⟩ := h.reach a lr0 h0
      cases hc1
      exact hsim a hreach
  · intro c1 hc1; cases hc1; exact ⟨_, hc'⟩

/-- A ring of one node, `x->left = x->right = x`. -/
theorem RingOk.singleton {ρ' : Nat → Option (Nat × Nat)} {x : Nat}
    (hx : ρ' x = some (x, x)) (hrest : ∀ a, a ≠ x → ρ' a = none) : RingOk ρ' (some x) := by
  have hall : ∀ a l r, ρ' a = some (l, r) → a = x ∧ l = x ∧ r = x := by
    intro a l r ha
    by_cases hax : a = x
    · rw [hax, hx] at ha; cases ha; exact ⟨hax, rfl, rfl⟩
    · rw [hrest a hax] at ha; cases ha
  refine ⟨⟨?_, ?_⟩, ?_, ?_⟩
  · intro a l r ha
    obtain ⟨h1, _, h3⟩ := hall a l r ha
    rw [h1, h3]; exact ⟨x, hx⟩
  · intro a l r ha
    obtain ⟨h1, h2, _⟩ := hall a l r ha
    rw [h1, h2]; exact ⟨x, hx⟩
  · intro a lr ha
    obtain ⟨h1, _, _⟩ := hall a lr.1 lr.2 ha
    rw [h1]; exact ⟨x, rfl, RReach.refl⟩
  · intro c hc; cases hc; exact ⟨_, hx⟩

theorem RingLR.loop_back {ρ : Nat → Option (Nat × Nat)} (h : RingLR ρ) {x l c : Nat}
    (hx : ρ x = some (l, x)) {a : Nat} (hr : RReach ρ c a) : a = x → c = x := by
  induction hr with
  | refl => exact id
  | step u ul r _ hu ih =>
    intro e
    rw [e] at hu
    exact ih (h.right_inj hu hx)

theorem RReach.loop_stay {ρ : Nat → Option (Nat × Nat)} {x l : Nat}
    (hx : ρ x = some (l, x)) {a : Nat} (hr : RReach ρ x a) : a = x := by
  induction hr with
  | refl => rfl
  | step u ul r _ hu ih =>
    rw [ih, hx] at hu; cases hu; rfl

/-- A connected ring with a node whose `right` is itself has that node only. -/
theorem RingOk.loop_only {ρ : Nat → Option (Nat × Nat)} {c x l : Nat}
    (h : RingOk ρ (some c)) (hx : ρ x = some (l, x)) (a : Nat) (lr : Nat × Nat)
    (ha : ρ a = some lr) : a = x := by
  obtain ⟨c1, hc1, hcx⟩ := h.reach x _ hx
  cases hc1
  have hcx1 : c = x := h.toRingLR.loop_back hx hcx rfl
  obtain ⟨c2, hc2, hca⟩ := h.reach a lr ha
  cases hc2
  rw [hcx1] at hca
  exact hca.loop_stay hx

theorem RingLR.right_self {ρ : Nat → Option (Nat × Nat)} (h : RingLR ρ) {x l : Nat}
    (hx : ρ x = some (l, x)) : l = x := by
  obtain ⟨rr, h1⟩ := h.right_ok x l x hx
  rw [hx] at h1; cases h1; rfl

theorem RingLR.left_self {ρ : Nat → Option (Nat × Nat)} (h : RingLR ρ) {x r : Nat}
    (hx : ρ x = some (x, r)) : r = x := by
  obtain ⟨ll, h1⟩ := h.left_ok x x r hx
  rw [hx] at h1; cases h1; rfl

/-- Take `x` out of a ring, the two assignments
`x->left->right = x->right; x->right->left = x->left`: the links stay
consistent. -/
theorem RingLR.remove_lr {ρ ρ' : Nat → Option (Nat × Nat)} {x l r : Nat}
    (h : RingLR ρ) (hx : ρ x = some (l, r)) (hx' : ρ' x = none)
    (hrest : ∀ a al ar, a ≠ x → ρ a = some (al, ar) →
      ρ' a = some (if a = r then l else al, if a = l then r else ar))
    (hdead : ∀ a, a ≠ x → ρ a = none → ρ' a = none) : RingLR ρ' := by
  obtain ⟨rr, hr⟩ := h.right_ok x l r hx
  obtain ⟨ll, hl⟩ := h.left_ok x l r hx
  have hold : ∀ a l1 r1, ρ' a = some (l1, r1) → a ≠ x ∧ ∃ al ar, ρ a = some (al, ar) ∧
      l1 = (if a = r then l else al) ∧ r1 = (if a = l then r else ar) := by
    intro a l1 r1 ha
    have hax : a ≠ x := by intro e; rw [e, hx'] at ha; cases ha
    refine ⟨hax, ?_⟩
    cases h0 : ρ a with
    | none => rw [hdead a hax h0] at ha; cases ha
    | some lr =>
      obtain ⟨al, ar⟩ := lr
      rw [hrest a al ar hax h0] at ha
      cases ha
      exact ⟨al, ar, rfl, rfl, rfl⟩
  refine ⟨?_, ?_⟩
  · intro a l1 r1 ha
    obtain ⟨hax, al, ar, h0, _, e2⟩ := hold a l1 r1 ha
    by_cases hal : a = l
    · rw [hal] at hax
      have hrx : r ≠ x := by
        intro e; rw [e] at hx
        exact hax (h.right_self hx)
      rw [e2, if_pos hal, hal]
      rw [hrest r x rr hrx hr, if_pos rfl]; exact ⟨_, rfl⟩
    · rw [e2, if_neg hal]
      obtain ⟨arr, h1⟩ := h.right_ok a al ar h0
      have harx : ar ≠ x := by
        intro e; rw [e, hx] at h1; cases h1; exact hal rfl
      have harr : ar ≠ r := by
        intro e; rw [e, hr] at h1; cases h1; exact hax rfl
      rw [hrest ar a arr harx h1, if_neg harr]; exact ⟨_, rfl⟩
  · intro a l1 r1 ha
    obtain ⟨hax, al, ar, h0, e1, _⟩ := hold a l1 r1 ha
    by_cases har : a = r
    · rw [har] at hax
      have hlx : l ≠ x := by
        intro e; rw [e] at hx
        exact hax (h.left_self hx)
      rw [e1, if_pos har, har]
      rw [hrest l ll x hlx hl, if_pos rfl]; exact ⟨_, rfl⟩
    · rw [e1, if_neg har]
      obtain ⟨all, h1⟩ := h.left_ok a al ar h0
      have halx : al ≠ x := by
        intro e; rw [e, hx] at h1; cases h1; exact har rfl
      have hall : al ≠ l := by
        intro e; rw [e, hl] at h1; cases h1; exact hax rfl
      rw [hrest al all a halx h1, if_neg hall]; exact ⟨_, rfl⟩

/-- Take `x` out of a ring: the rest is a ring, entered at `x->right` when
it was entered at `x`, and empty when `x->right` is `x`. -/
theorem RingOk.remove {ρ ρ' : Nat → Option (Nat × Nat)} {c x l r : Nat}
    (h : RingOk ρ (some c)) (hx : ρ x = some (l, r)) (hx' : ρ' x = none)
    (hrest : ∀ a al ar, a ≠ x → ρ a = some (al, ar) →
      ρ' a = some (if a = r then l else al, if a = l then r else ar))
    (hdead : ∀ a, a ≠ x → ρ a = none → ρ' a = none) :
    RingOk ρ' (if r = x then none else some (if c = x then r else c)) := by
  have hlr := h.toRingLR.remove_lr hx hx' hrest hdead
  obtain ⟨rr, hr⟩ := h.right_ok x l r hx
  obtain ⟨ll, hl⟩ := h.left_ok x l r hx
  by_cases hrx : r = x
  · rw [if_pos hrx]
    apply RingOk.of_empty_map
    intro a
    by_cases hax : a = x
    · rw [hax]; exact hx'
    · cases h0 : ρ a with
      | none => exact hdead a hax h0
      | some lr =>
        rw [hrx] at hx
        exact absurd (h.loop_only hx a lr h0) hax
  · rw [if_neg hrx]
    have hlx : l ≠ x := by
      intro e; rw [e] at hx; exact hrx (h.toRingLR.left_self hx)
    have hl' : ρ' l = some (if l = r then l else ll, r) := by
      rw [hrest l ll x hlx hl]; simp
    have hstep : ∀ u ul a, u ≠ x → a ≠ x → ρ u = some (ul, a) →
        ∃ ul1, ρ' u = some (ul1, a) := by
      intro u ul a hux hax hu
      have hul : u ≠ l := by
        intro e; rw [e, hl] at hu; cases hu; exact hax rfl
      rw [hrest u ul a hux hu, if_neg hul]; exact ⟨_, rfl⟩
    refine ⟨hlr, ?_, ?_⟩
    · intro a lr ha
      have hax : a ≠ x := by intro e; rw [e, hx'] at ha; cases ha
      have h0 : ∃ lr0, ρ a = some lr0 := by
        cases h0 : ρ a with
        | none => rw [hdead a hax h0] at ha; cases ha
        | some lr0 => exact ⟨lr0, rfl⟩
      obtain ⟨lr0, h0⟩ := h0
      obtain ⟨c1, hc1, hreach⟩ := h.reach a lr0 h0
      cases hc1
      refine ⟨_, rfl, ?_⟩
      by_cases hcx : c = x
      · rw [if_pos hcx]
        rw [hcx] at hreach
        have key : ∀ b, RReach ρ x b → b = x ∨ RReach ρ' r b := by
          intro b hb
          induction hb with
          | refl => exact Or.inl rfl
          | step u ul b1 _ hu ih =>
            by_cases hb1 : b1 = x
            · exact Or.inl hb1
            · right
              by_cases hux : u = x
              · rw [hux, hx] at hu; cases hu; exact RReach.refl
              · cases ih with
                | inl e => exact absurd e hux
                | inr hr1 =>
                  obtain ⟨ul1, hu1⟩ := hstep u ul b1 hux hb1 hu
                  exact RReach.step u ul1 b1 hr1 hu1
        cases key a hreach with
        | inl e => exact absurd e hax
        | inr hr1 => exact hr1
      · rw [if_neg hcx]
        have key : ∀ b, RReach ρ c b → (b ≠ x → RReach ρ' c b) ∧ (b = x → RReach ρ' c l) := by
          intro b hb
          induction hb with
          | refl => exact ⟨fun _ => RReach.refl, fun e => absurd e hcx⟩
          | step u ul b1 _ hu ih =>
            constructor
            · intro hb1
              by_cases hux : u = x
              · rw [hux, hx] at hu; cases hu
                exact RReach.step l _ r (ih.2 hux) hl'
              · obtain ⟨ul1, hu1⟩ := hstep u ul b1 hux hb1 hu
                exact RReach.step u ul1 b1 (ih.1 hux) hu1
            · intro hb1
              rw [hb1] at hu
              have hul : u = l := h.toRingLR.right_inj hu hl
              rw [hul] at ih
              exact ih.1 hlx
        exact (key a hreach).1 hax
    · intro c1 hc1
      cases hc1
      by_cases hcx : c = x
      · rw [if_pos hcx]
        exact ⟨_, hrest r x rr hrx hr⟩
      · rw [if_neg hcx]
        obtain ⟨lr, hc0⟩ := h.anchor_in c rfl
        exact ⟨_, hrest c lr.1 lr.2 hcx hc0⟩

/-- A list that holds the anchor of a ring and the `right` of each of its
members holds the whole ring. -/
theorem RingOk.closed_covers {ρ : Nat → Option (Nat × Nat)} {m : Nat} {L : List Nat}
    (h : RingOk ρ (some m)) (hm : m ∈ L)
    (hclosed : ∀ u l r, u ∈ L → ρ u = some (l, r) → r ∈ L)
    (a : Nat) (lr : Nat × Nat) (ha : ρ a = some lr) : a ∈ L := by
  obtain ⟨c, hc, hreach⟩ := h.reach a lr ha
  cases hc
  clear ha
  induction hreach with
  | refl => exact hm
  | step u l r _ hu ih => exact hclosed u l r ih hu

/-! ### The walk of `pop` over a child list -/

theorem RingPath.start {ρ : Nat → Option (Nat × Nat)} {c0 : Nat} (h : RingOk ρ (some c0)) :
    RingPath ρ c0 c0 := by
  refine ⟨h.anchor_in c0 rfl, ?_, ?_, ?_, fun _ _ => rfl, ?_, fun _ _ _ => rfl⟩
  · intro a lr ha
    obtain ⟨c, hc, hr⟩ := h.reach a lr ha
    cases hc; exact hr
  · intro a l r ha
    obtain ⟨rr, hr⟩ := h.right_ok a l r ha
    exact Or.inl ⟨_, hr⟩
  · intro a b la lb r ha hb
    exact h.toRingLR.right_inj ha hb
  · obtain ⟨lr, hc⟩ := h.anchor_in c0 rfl
    obtain ⟨ll, hl⟩ := h.left_ok c0 lr.1 lr.2 hc
    exact ⟨_, _, hl⟩

/-- One round of the walk: `child` leaves the ring map and the walk goes on
at its `right`, which is not the start. -/
theorem RingPath.advance {ρ ρ' : Nat → Option (Nat × Nat)} {child c0 l nx : Nat}
    (h : RingPath ρ child c0) (hc : ρ child = some (l, nx)) (hne : nx ≠ c0)
    (hc' : ρ' child = none) (hrest : ∀ a, a ≠ child → ρ' a = ρ a) :
    RingPath ρ' nx c0 := by
  have hold : ∀ a lr, ρ' a = some lr → a ≠ child ∧ ρ a = some lr := by
    intro a lr ha
    have hac : a ≠ child := by intro e; rw [e, hc'] at ha; cases ha
    exact ⟨hac, (hrest a hac) ▸ ha⟩
  have hnc : nx ≠ child := by
    intro e
    rw [e] at hc
    obtain ⟨a, la, hlast⟩ := h.last
    have := (h.reach a _ hlast).loop_stay hc
    rw [this, hc] at hlast
    cases hlast
    exact hne e
  have hnlive : ∃ lr, ρ nx = some lr := by
    cases h.next child l nx hc with
    | inl hl => exact hl
    | inr e => exact absurd e hne
  refine ⟨?_, ?_, ?_, ?_, ?_, ?_, ?_⟩
  · obtain ⟨lr, h1⟩ := hnlive
    exact ⟨lr, (hrest nx hnc).trans h1⟩
  · intro a lr ha
    obtain ⟨hac, h0⟩ := hold a lr ha
    have key : ∀ b, RReach ρ child b → b = child ∨ RReach ρ' nx b := by
      intro b hb
      induction hb with
      | refl => exact Or.inl rfl
      | step u ul b1 _ hu ih =>
        by_cases hb1 : b1 = child
        · exact Or.inl hb1
        · right
          by_cases huc : u = child
          · rw [huc, hc] at hu; cases hu; exact RReach.refl
          · cases ih with
            | inl e => exact absurd e huc
            | inr hr1 => exact RReach.step u ul b1 hr1 ((hrest u huc).trans hu)
    cases key a (h.reach a lr h0) with
    | inl e => exact absurd e hac
    | inr hr1 => exact hr1
  · intro a la ra ha
    obtain ⟨hac, h0⟩ := hold a _ ha
    cases h.next a la ra h0 with
    | inl hl =>
      by_cases hrc : ra = child
      · right
        rw [hrc] at h0
        rw [hrc]
        exact h.head a la h0
      · left
        obtain ⟨lr, h1⟩ := hl
        exact ⟨lr, (hrest ra hrc).trans h1⟩
    | inr e => exact Or.inr e
  · intro a b la lb r ha hb
    exact h.inj a b la lb r (hold a _ ha).2 (hold b _ hb).2
  · intro lr h0
    obtain ⟨h0c, h00⟩ := hold c0 lr h0
    exact absurd (h.first lr h00).symm h0c
  · obtain ⟨a, la, hlast⟩ := h.last
    have hac : a ≠ child := by
      intro e; rw [e, hc] at hlast; cases hlast; exact hne rfl
    exact ⟨a, la, (hrest a hac).trans hlast⟩
  · intro a la ha
    obtain ⟨hac, h0⟩ := hold a _ ha
    exact absurd (h.inj a child la l nx h0 hc) hac

/-- The last round of the walk: the `right` of `child` is the start, and
`child` was the only node left. -/
theorem RingPath.done {ρ : Nat → Option (Nat × Nat)} {child c0 l : Nat}
    (h : RingPath ρ child c0) (hc : ρ child = some (l, c0))
    (a : Nat) (hac : a ≠ child) : ρ a = none := by
  cases h0 : ρ a with
  | none => rfl
  | some lr =>
    exfalso
    have key : ∀ b, RReach ρ child b → (∃ lrb, ρ b = some lrb) → b = child := by
      intro b hb
      induction hb with
      | refl => exact fun _ => rfl
      | step u ul b1 hub hu ih =>
        intro hlive
        have huc : u = child := ih ⟨_, hu⟩
        rw [huc, hc] at hu
        cases hu
        obtain ⟨lrb, h1⟩ := hlive
        exact (h.first lrb h1).symm
    exact hac (key a (h.reach a lr h0) ⟨lr, h0⟩)

/-! ### Entering a ring at another node -/

theorem RReach.unstep {ρ : Nat → Option (Nat × Nat)} {u l r a : Nat}
    (hu : ρ u = some (l, r)) (h : RReach ρ u a) : a = u ∨ RReach ρ r a := by
  induction h with
  | refl => exact Or.inl rfl
  | step w wl b _ hw ih =>
    right
    cases ih with
    | inl e => rw [e, hu] at hw; cases hw; exact RReach.refl
    | inr hr => exact RReach.step w wl b hr hw

theorem RingOk.back {ρ : Nat → Option (Nat × Nat)} {c : Nat} (h : RingOk ρ (some c))
    {u : Nat} (hu : RReach ρ c u) : RReach ρ u c := by
  obtain ⟨⟨cl, cr⟩, hc⟩ := h.anchor_in c rfl
  obtain ⟨ll, hl⟩ := h.left_ok c cl cr hc
  have hclose : RReach ρ cr c := by
    obtain ⟨c1, hc1, hcl⟩ := h.reach cl _ hl
    cases hc1
    cases hcl.unstep hc with
    | inl e =>
      rw [e, hc] at hl; cases hl; exact RReach.refl
    | inr hr => exact RReach.step cl ll c hr hl
  induction hu with
  | refl => exact RReach.refl
  | step w wl b _ hw ih =>
    cases ih.unstep hw with
    | inl e =>
      rw [← e, hc] at hw; cases hw; exact hclose
    | inr hr => exact hr

/-- A ring can be entered at any of its nodes. -/
theorem RingOk.reanchor {ρ : Nat → Option (Nat × Nat)} {c c1 : Nat} (h : RingOk ρ (some c))
    (lr : Nat × Nat) (hc1 : ρ c1 = some lr) : RingOk ρ (some c1) := by
  obtain ⟨c2, hc2, hreach⟩ := h.reach c1 lr hc1
  cases hc2
  have hback := h.back hreach
  refine ⟨h.toRingLR, ?_, ?_⟩
  · intro a lra ha
    obtain ⟨c3, hc3, hra⟩ := h.reach a lra ha
    cases hc3
    exact ⟨c1, rfl, hback.trans_reach hra⟩
  · intro c3 hc3; cases hc3; exact ⟨lr, hc1⟩

/-! ## Reading and writing the nodes of a `FibonacciHeap` -/

theorem FibonacciHeap.view_some {h : FibonacciHeap} {dead : Option Nat} {a : Nat} {n : Node}
    (hv : h.view dead a = some n) : h.mem[a]? = some (some n) ∧ dead ≠ some a := by
  unfold FibonacciHeap.view at hv
  split at hv
  · cases hv
  · rename_i hd
    refine ⟨?_, hd⟩
    cases hm : h.mem[a]? with
    | none => rw [hm] at hv; cases hv
    | some o =>
      rw [hm] at hv
      cases o with
      | none => cases hv
      | some n1 => simp at hv; rw [hv]

theorem FibonacciHeap.deref_ok {h : FibonacciHeap} {dead : Option Nat} {a : Nat} {n : Node}
    (hv : h.view dead a = some n) : h.deref a = .ok n := by
  unfold FibonacciHeap.deref
  rw [(FibonacciHeap.view_some hv).1]

theorem FibonacciHeap.store_ok {h : FibonacciHeap} {dead : Option Nat} {p : Nat} {n : Node}
    (f : Node → Node) (hv : h.view dead p = some n) : h.store p f = .ok (h.put p (f n)) := by
  unfold FibonacciHeap.store
  rw [FibonacciHeap.deref_ok hv]
  rfl

theorem FibonacciHeap.view_put_lt {h : FibonacciHeap} {dead : Option Nat} {p : Nat}
    (n' : Node) (hlt : p < h.mem.length) (hd : dead ≠ some p) (a : Nat) :
    (h.put p n').view dead a = if a = p then some n' else h.view dead a := by
  unfold FibonacciHeap.view FibonacciHeap.put
  by_cases hap : a = p
  · rw [hap, if_neg hd, if_pos rfl]
    simp [hlt]
  · rw [if_neg hap]
    simp only
    rw [List.getElem?_set_ne (Ne.symm hap)]

theorem FibonacciHeap.view_lt {h : FibonacciHeap} {dead : Option Nat} {a : Nat} {n : Node}
    (hv : h.view dead a = some n) : a < h.mem.length := by
  obtain ⟨hm, _⟩ := FibonacciHeap.view_some hv
  by_contra hge
  rw [List.getElem?_eq_none (by omega)] at hm
  cases hm

theorem FibonacciHeap.view_put {h : FibonacciHeap} {dead : Option Nat} {p : Nat} {n : Node}
    (n' : Node) (hv : h.view dead p = some n) (a : Nat) :
    (h.put p n').view dead a = if a = p then some n' else h.view dead a :=
  FibonacciHeap.view_put_lt n' (FibonacciHeap.view_lt hv) (FibonacciHeap.view_some hv).2 a

theorem FibonacciHeap.view_congr {h1 h2 : FibonacciHeap} (e : h1.mem = h2.mem)
    (dead : Option Nat) : h1.view dead = h2.view dead := by
  funext a
  unfold FibonacciHeap.view
  rw [e]

@[simp] theorem FibonacciHeap.put_min_node (h : FibonacciHeap) (p : Nat) (n : Node) :
    (h.put p n).min_node = h.min_node := rfl

@[simp] theorem FibonacciHeap.put_size (h : FibonacciHeap) (p : Nat) (n : Node) :
    (h.put p n).size = h.size := rfl

@[simp] theorem FibonacciHeap.put_node_table (h : FibonacciHeap) (p : Nat) (n : Node) :
    (h.put p n).node_table = h.node_table := rfl

@[simp] theorem FibonacciHeap.put_length (h : FibonacciHeap) (p : Nat) (n : Node) :
    (h.put p n).mem.length = h.mem.length := by
  simp [FibonacciHeap.put]

/-- The four assignments that splice `x` into the root list after
`min_node`. -/
theorem FibonacciHeap.insert_after_min_spec {h : FibonacciHeap} {dead : Option Nat}
    {m x : Nat} {mn xn rn : Node}
    (hmin : h.min_node = some m) (hm : h.view dead m = some mn) (hx : h.view dead x = some xn)
    (hr : h.view dead mn.right = some rn) (hxm : x ≠ m) (hxr : x ≠ mn.right) :
    ∃ h1, h.insert_after_min x = .ok h1 ∧ h1.min_node = h.min_node ∧ h1.size = h.size ∧
      h1.node_table = h.node_table ∧ h1.mem.length = h.mem.length ∧
      h1.view dead x = some { xn with left := m, right := mn.right } ∧
      h1.view dead m = some { mn with right := x,
                                      left := if mn.right = m then x else mn.left } ∧
      (mn.right ≠ m → h1.view dead mn.right = some { rn with left := x }) ∧
      (∀ a, a ≠ x → a ≠ m → a ≠ mn.right → h1.view dead a = h.view dead a) := by
  unfold FibonacciHeap.insert_after_min
  rw [hmin]
  simp only
  rw [FibonacciHeap.store_ok _ hx]
  simp only [ok_bind]
  have v1 := FibonacciHeap.view_put (h := h) { xn with left := m } hx
  have hm1 := v1 m
  rw [if_neg (Ne.symm hxm), hm] at hm1
  have hx1 := v1 x
  rw [if_pos rfl] at hx1
  rw [FibonacciHeap.deref_ok hm1]
  simp only [ok_bind]
  rw [FibonacciHeap.store_ok _ hx1]
  simp only [ok_bind]
  have v2 := FibonacciHeap.view_put { xn with left := m, right := mn.right } hx1
  have hm2 := v2 m
  rw [if_neg (Ne.symm hxm), hm1] at hm2
  rw [FibonacciHeap.deref_ok hm2]
  simp only [ok_bind]
  have hr2 := v2 mn.right
  rw [if_neg (Ne.symm hxr), v1, if_neg (Ne.symm hxr), hr] at hr2
  rw [FibonacciHeap.store_ok _ hr2]
  simp only [ok_bind]
  have v3 := FibonacciHeap.view_put { rn with left := x } hr2
  have hm3 := v3 m
  rw [hm2] at hm3
  by_cases hrm : mn.right = m
  · have hrn : rn = mn := by
      rw [hrm, hm] at hr; cases hr; rfl
    rw [if_pos hrm.symm] at hm3
    rw [FibonacciHeap.store_ok _ hm3]
    have v4 := FibonacciHeap.view_put { rn with left := x, right := x } hm3
    refine ⟨_, rfl, by simpa using hmin, by simp, by simp, by simp, ?_, ?_, fun hne => absurd hrm hne, ?_⟩
    · rw [v4, if_neg hxm, v3, if_neg hxr, v2, if_pos rfl]
    · rw [v4, if_pos rfl, hrn, if_pos hrm]
    · intro a hax ham har
      rw [v4, if_neg ham, v3, if_neg har, v2, if_neg hax, v1, if_neg hax]
  · rw [if_neg (Ne.symm hrm)] at hm3
    rw [FibonacciHeap.store_ok _ hm3]
    have v4 := FibonacciHeap.view_put { mn with right := x } hm3
    refine ⟨_, rfl, by simpa using hmin, by simp, by simp, by simp, ?_, ?_, ?_, ?_⟩
    · rw [v4, if_neg hxm, v3, if_neg hxr, v2, if_pos rfl]
    · rw [v4, if_pos rfl, if_neg hrm]
    · intro _
      rw [v4, if_neg hrm, v3, if_pos rfl]
    · intro a hax ham har
      rw [v4, if_neg ham, v3, if_neg har, v2, if_neg hax, v1, if_neg hax]

/-! ## Node maps: groups, parent chains, heap order -/

theorem grp_of_some {σ : Nat → Option Node} {g : Option Nat} {a : Nat} {n : Node}
    (h : σ a = some n) : grp σ g a = if n.parent = g then some (n.left, n.right) else none := by
  unfold grp; rw [h]; rfl

theorem grp_of_none {σ : Nat → Option Node} {g : Option Nat} {a : Nat}
    (h : σ a = none) : grp σ g a = none := by
  unfold grp; rw [h]; rfl

theorem grp_member {σ : Nat → Option Node} {g : Option Nat} {a : Nat} {n : Node}
    (h : σ a = some n) (hp : n.parent = g) : grp σ g a = some (n.left, n.right) := by
  rw [grp_of_some h, if_pos hp]

theorem grp_other {σ : Nat → Option Node} {g : Option Nat} {a : Nat} {n : Node}
    (h : σ a = some n) (hp : n.parent ≠ g) : grp σ g a = none := by
  rw [grp_of_some h, if_neg hp]

theorem grp_some {σ : Nat → Option Node} {g : Option Nat} {a : Nat} {lr : Nat × Nat}
    (h : grp σ g a = some lr) : ∃ n, σ a = some n ∧ n.parent = g ∧ lr = (n.left, n.right) := by
  cases hs : σ a with
  | none => rw [grp_of_none hs] at h; cases h
  | some n =>
    rw [grp_of_some hs] at h
    split at h
    · rename_i hp
      cases h
      exact ⟨n, rfl, hp, rfl⟩
    · cases h

theorem childOf_of_some {σ : Nat → Option Node} {p : Nat} {n : Node}
    (h : σ p = some n) : childOf σ p = n.child := by
  unfold childOf; rw [h]; rfl

theorem childOf_of_none {σ : Nat → Option Node} {p : Nat}
    (h : σ p = none) : childOf σ p = none := by
  unfold childOf; rw [h]; rfl

theorem RingOk.congr_ring {ρ ρ' : Nat → Option (Nat × Nat)} {c c' : Option Nat}
    (h : RingOk ρ c) (hρ : ∀ a, ρ' a = ρ a) (hc : c' = c) : RingOk ρ' c' := by
  have : ρ' = ρ := funext hρ
  rw [this, hc]; exact h

theorem RingLR.congr_lr {ρ ρ' : Nat → Option (Nat × Nat)}
    (h : RingLR ρ) (hρ : ∀ a, ρ' a = ρ a) : RingLR ρ' := by
  have : ρ' = ρ := funext hρ
  rw [this]; exact h

/-- Parent chains still end when parent fields are kept or cleared. -/
theorem Rooted.mono {σ σ' : Nat → Option Node}
    (hσ : ∀ a n, σ a = some n → ∃ n', σ' a = some n' ∧
      (n'.parent = n.parent ∨ n'.parent = none))
    {a : Nat} (h : Rooted σ a) : Rooted σ' a := by
  induction h with
  | root a n ha hp =>
    obtain ⟨n', h1, h2⟩ := hσ a n ha
    refine Rooted.root a n' h1 ?_
    cases h2 with
    | inl e => rw [e, hp]
    | inr e => exact e
  | child a n p ha hp _ ih =>
    obtain ⟨n', h1, h2⟩ := hσ a n ha
    cases h2 with
    | inl e => exact Rooted.child a n' p h1 (by rw [e, hp]) ih
    | inr e => exact Rooted.root a n' h1 e

theorem Rooted.live_rooted {σ : Nat → Option Node} {a : Nat} (h : Rooted σ a) : ∃ n, σ a = some n := by
  cases h with
  | root _ n ha _ => exact ⟨n, ha⟩
  | child _ n _ ha _ _ => exact ⟨n, ha⟩

theorem Rooted.parent {σ : Nat → Option Node} {a p : Nat} {n : Node} (h : Rooted σ a)
    (ha : σ a = some n) (hp : n.parent = some p) : Rooted σ p := by
  cases h with
  | root _ n1 h1 h2 =>
    rw [ha] at h1; cases h1
    rw [hp] at h2; cases h2
  | child _ n1 p1 h1 h2 h3 =>
    rw [ha] at h1; cases h1
    rw [hp] at h2; cases h2
    exact h3

/-- The parent of a node is a node. -/
theorem Forest.parent_live {σ : Nat → Option Node} {skip : Option Nat} (h : Forest σ skip)
    {a p : Nat} {n : Node} (ha : σ a = some n) (hp : n.parent = some p) :
    ∃ pn, σ p = some pn :=
  ((h.rooted a n ha).parent ha hp).live_rooted

/-- No node without a `child` field has children. -/
theorem Forest.childless {σ : Nat → Option Node} {skip : Option Nat} (h : Forest σ skip)
    {p : Nat} (hs : skip ≠ some p) (hp : childOf σ p = none) (a : Nat) :
    grp σ (some p) a = none := by
  apply RingOk.empty_of_none
  rw [← hp]
  exact h.groups p hs

/-- Every node is at or below a parentless node of no greater key. -/
theorem Forest.root_below {σ : Nat → Option Node} {skip : Option Nat} (h : Forest σ skip)
    (ho : HeapOrder σ) {a : Nat} {n : Node}
    (ha : σ a = some n) : ∃ r rn, σ r = some rn ∧ rn.parent = none ∧ rn.key ≤ n.key := by
  have hr := h.rooted a n ha
  induction hr generalizing n with
  | root a1 n1 h1 hp =>
    have e : n1 = n := Option.some.inj (h1.symm.trans ha)
    rw [e] at hp
    exact ⟨a1, n, ha, hp, le_refl _⟩
  | child a1 n1 p h1 hp _ ih =>
    have e : n1 = n := Option.some.inj (h1.symm.trans ha)
    rw [e] at hp
    obtain ⟨pn, hpn⟩ := h.parent_live ha hp
    obtain ⟨r, rn, hr1, hr2, hr3⟩ := ih hpn
    exact ⟨r, rn, hr1, hr2, le_trans hr3 (ho a1 p n pn ha hp hpn)⟩

/-- The node `min_node` exists when a node does, and no node has a key below
its key. -/
theorem MinLe.lower {σ : Nat → Option Node} {skip m : Option Nat} (hf : Forest σ skip)
    (ho : HeapOrder σ)
    (hr : RingOk (grp σ none) m) (hm : MinLe σ m) {a : Nat} {n : Node} (ha : σ a = some n) :
    ∃ m0 mn, m = some m0 ∧ σ m0 = some mn ∧ mn.parent = none ∧ mn.key ≤ n.key := by
  obtain ⟨r, rn, hr1, hr2, hr3⟩ := hf.root_below ho ha
  obtain ⟨m0, hm0, _⟩ := hr.reach r _ (grp_member hr1 hr2)
  obtain ⟨lr, hlr⟩ := hr.anchor_in m0 hm0
  obtain ⟨mn, hmn, hmp, _⟩ := grp_some hlr
  exact ⟨m0, mn, hm0, hmn, hmp, le_trans (hm m0 r mn rn hm0 hmn hr1 hr2) hr3⟩

/-- A heap whose `min_node` is null has no node. -/
theorem FibonacciHeap.Inv.no_node {N : Nat} {h : FibonacciHeap} (hinv : h.Inv N)
    (hmin : h.min_node = none) (a : Nat) : h.view none a = none := by
  cases ha : h.view none a with
  | none => rfl
  | some n =>
    obtain ⟨m0, mn, hm0, _⟩ := hinv.min_le.lower hinv.forest hinv.order hinv.roots ha
    rw [hmin] at hm0; cases hm0

/-- Changes at parentless nodes that keep `key` and `child` keep the trees. -/
theorem Forest.root_change_forest {σ σ' : Nat → Option Node} {skip : Option Nat}
    (h : Forest σ skip) (hc : RootChange σ σ') : Forest σ' skip := by
  refine ⟨?_, ?_⟩
  · intro p hs
    refine (h.groups p hs).congr_ring ?_ ?_
    · intro a
      cases hc a with
      | inl e => unfold grp; rw [e]
      | inr e =>
        obtain ⟨n', h1, h2, h3⟩ := e
        rw [grp_other h1 (by rw [h2]; simp)]
        cases h3 with
        | inl e3 => rw [grp_of_none e3.1]
        | inr e3 =>
          obtain ⟨n, h4, h5, _⟩ := e3
          rw [grp_other h4 (by rw [h5]; simp)]
    · cases hc p with
      | inl e => unfold childOf; rw [e]
      | inr e =>
        obtain ⟨n', h1, h2, h3⟩ := e
        rw [childOf_of_some h1]
        cases h3 with
        | inl e3 => rw [childOf_of_none e3.1, e3.2]
        | inr e3 =>
          obtain ⟨n, h4, _, h6, _, _⟩ := e3
          rw [childOf_of_some h4, h6]
  · intro a n' ha
    cases hs : σ a with
    | none =>
      cases hc a with
      | inl e => rw [e, hs] at ha; cases ha
      | inr e =>
        obtain ⟨n1, h1, h2, _⟩ := e
        exact Rooted.root a n1 h1 h2
    | some n =>
      refine Rooted.mono ?_ (h.rooted a n hs)
      intro b bn hb
      cases hc b with
      | inl e => exact ⟨bn, e.trans hb, Or.inl rfl⟩
      | inr e =>
        obtain ⟨n1, h1, h2, _⟩ := e
        exact ⟨n1, h1, Or.inr h2⟩

theorem HeapOrder.root_change_order {σ σ' : Nat → Option Node} {skip : Option Nat}
    (hf : Forest σ skip) (h : HeapOrder σ) (hc : RootChange σ σ') : HeapOrder σ' := by
  intro a p n' pn' ha hp hpn
  have ha0 : σ a = some n' := by
    cases hc a with
    | inl e => exact e ▸ ha
    | inr e =>
      obtain ⟨n1, h1, h2, _⟩ := e
      rw [ha] at h1; cases h1
      rw [hp] at h2; cases h2
  obtain ⟨pn, hpn0⟩ := hf.parent_live ha0 hp
  have hk : pn.key = pn'.key := by
    cases hc p with
    | inl e => rw [e, hpn0] at hpn; cases hpn; rfl
    | inr e =>
      obtain ⟨n1, h1, _, h3⟩ := e
      rw [hpn] at h1; cases h1
      cases h3 with
      | inl e3 => rw [e3.1] at hpn0; cases hpn0
      | inr e3 =>
        obtain ⟨n, h4, _, _, h7, _⟩ := e3
        rw [hpn0] at h4; cases h4
        exact h7
  rw [← hk]
  exact h a p n' pn ha0 hp hpn0

theorem kv_of_some {σ : Nat → Option Node} {a : Nat} {n : Node} (h : σ a = some n) :
    kv σ a = some (n.key, n.vertex) := by
  unfold kv; rw [h]; rfl

theorem kv_of_none {σ : Nat → Option Node} {a : Nat} (h : σ a = none) : kv σ a = none := by
  unfold kv; rw [h]; rfl

theorem kv_some {σ : Nat → Option Node} {a : Nat} {e : Int × Nat} (h : kv σ a = some e) :
    ∃ n, σ a = some n ∧ e = (n.key, n.vertex) := by
  cases hs : σ a with
  | none => rw [kv_of_none hs] at h; cases h
  | some n => rw [kv_of_some hs] at h; cases h; exact ⟨n, rfl, rfl⟩

theorem kv_none {σ : Nat → Option Node} {a : Nat} (h : kv σ a = none) : σ a = none := by
  cases hs : σ a with
  | none => rfl
  | some n => rw [kv_of_some hs] at h; cases h

theorem Tabled.congr_tabled {N : Nat} {tab : List (Option Nat)} {σ σ' : Nat → Option Node}
    (h : Tabled N tab σ) (hk : ∀ a, kv σ' a = kv σ a) : Tabled N tab σ' := by
  refine ⟨h.1, ?_⟩
  intro v
  cases h.2 v with
  | inl e =>
    obtain ⟨e1, n, e2, e3⟩ := e
    have := hk v
    rw [kv_of_some e2] at this
    obtain ⟨n', h1, h2⟩ := kv_some this
    have h3 : n.vertex = n'.vertex := congrArg Prod.snd h2
    exact Or.inl ⟨e1, n', h1, by rw [← h3]; exact e3⟩
  | inr e =>
    have := hk v
    rw [kv_of_none e.2] at this
    exact Or.inr ⟨e.1, kv_none this⟩

/-- A parentless node after a change at parentless nodes is new or was one,
with the same key. -/
theorem RootChange.root {σ σ' : Nat → Option Node} (hc : RootChange σ σ') {a : Nat} {n' : Node}
    (ha : σ' a = some n') (hp : n'.parent = none) :
    σ a = none ∨ ∃ n, σ a = some n ∧ n.parent = none ∧ n.key = n'.key := by
  cases hc a with
  | inl e => exact Or.inr ⟨n', e ▸ ha, hp, rfl⟩
  | inr e =>
    obtain ⟨n1, h1, _, h3⟩ := e
    rw [ha] at h1; cases h1
    cases h3 with
    | inl e3 => exact Or.inl e3.1
    | inr e3 =>
      obtain ⟨n, h4, h5, _, h7, _⟩ := e3
      exact Or.inr ⟨n, h4, h5, h7⟩

/-- A node that was there before a change at parentless nodes is still
there, with the same key and vertex. -/
theorem RootChange.old {σ σ' : Nat → Option Node} (hc : RootChange σ σ') {a : Nat} {n : Node}
    (ha : σ a = some n) :
    ∃ n', σ' a = some n' ∧ n'.key = n.key ∧ n'.vertex = n.vertex ∧ n'.parent = n.parent := by
  cases hc a with
  | inl e => exact ⟨n, e.trans ha, rfl, rfl, rfl⟩
  | inr e =>
    obtain ⟨n1, h1, h2, h3⟩ := e
    cases h3 with
    | inl e3 => rw [e3.1] at ha; cases ha
    | inr e3 =>
      obtain ⟨n0, h4, h5, _, h7, h8⟩ := e3
      rw [ha] at h4; cases h4
      exact ⟨n1, h1, h7.symm, h8.symm, by rw [h2, h5]⟩

/-! ## `FibonacciHeap::push` keeps the invariant -/

theorem FibonacciHeap.Inv.anchor {N : Nat} {h : FibonacciHeap} (hinv : h.Inv N) {m : Nat}
    (hmin : h.min_node = some m) :
    ∃ mn rn, h.view none m = some mn ∧ mn.parent = none ∧
      h.view none mn.right = some rn ∧ rn.parent = none ∧ rn.left = m := by
  obtain ⟨lr, hlr⟩ := hinv.roots.anchor_in m hmin
  obtain ⟨mn, hm, hmp, e⟩ := grp_some hlr
  cases e
  obtain ⟨rr, hr⟩ := hinv.roots.right_ok m _ _ hlr
  obtain ⟨rn, hrn, hrp, e⟩ := grp_some hr
  exact ⟨mn, rn, hm, hmp, hrn, hrp, (congrArg Prod.fst e).symm⟩

/-- The invariant reads the free store, `node_table` and `min_node` only. -/
theorem FibonacciHeap.Inv.congr_inv {N : Nat} {h h1 : FibonacciHeap} (hinv : h.Inv N)
    (e1 : h1.mem = h.mem) (e2 : h1.node_table = h.node_table)
    (e3 : h1.min_node = h.min_node) : h1.Inv N := by
  have hv : h1.view none = h.view none := FibonacciHeap.view_congr e1 none
  refine ⟨by rw [e1]; exact hinv.mem_len, ?_, ?_, ?_, ?_, ?_⟩
  · rw [hv, e2]; exact hinv.tabled
  · rw [hv]; exact hinv.forest
  · rw [hv]; exact hinv.order
  · rw [hv, e3]; exact hinv.roots
  · rw [hv, e3]; exact hinv.min_le

theorem FibonacciHeap.Inv.push {N : Nat} {h h1 : FibonacciHeap} {key : Int} {v : Nat}
    (hinv : h.Inv N) (hp : h.push key v = .ok h1) : h1.Inv N := by
  unfold FibonacciHeap.push at hp
  cases htab : h.node_table[v]? with
  | none => rw [htab] at hp; cases hp
  | some o =>
    cases o with
    | some p => rw [htab] at hp; cases hp
    | none =>
      rw [htab] at hp
      simp only at hp
      have hvN : v < N := by
        have h1 := hinv.tabled.1
        have h2 : v < h.node_table.length := by
          by_contra hge
          rw [List.getElem?_eq_none (by omega)] at htab
          cases htab
        omega
      have hσv : h.view none v = none := by
        cases hinv.tabled.2 v with
        | inl e => rw [htab] at e; cases e.1
        | inr e => exact e.2
      have hH : ∃ H0 : FibonacciHeap, H0 = { h with
            mem := h.mem.set v (some { key := key, vertex := v, degree := 0, marked := false,
                                       parent := none, child := none, left := v, right := v }),
            node_table := h.node_table.set v (some v) } ∧
          H0.min_node = h.min_node ∧ H0.size = h.size ∧
          H0.node_table = h.node_table.set v (some v) ∧ H0.mem.length = N ∧
          ∀ a, H0.view none a = if a = v then
              some { key := key, vertex := v, degree := 0, marked := false,
                     parent := none, child := none, left := v, right := v }
            else h.view none a :=
        ⟨_, rfl, rfl, rfl, rfl, by simp [hinv.mem_len],
          fun a => FibonacciHeap.view_put_lt (h := h) _ (by rw [hinv.mem_len]; exact hvN)
            (by simp) a⟩
      obtain ⟨H0, e0, hH1, hH2, hH3, hH4, hH5⟩ := hH
      rw [← e0] at hp
      have htab1 : Tabled N H0.node_table (H0.view none) := by
        rw [hH3]
        refine ⟨by simp [hinv.tabled.1], ?_⟩
        intro w
        by_cases hw : w = v
        · rw [hw]
          refine Or.inl ⟨?_, _, (hH5 v).trans (if_pos rfl), rfl⟩
          rw [List.getElem?_set_eq (by rw [hinv.tabled.1]; exact hvN)]
        · rw [List.getElem?_set_ne (Ne.symm hw), hH5 w, if_neg hw]
          exact hinv.tabled.2 w
      cases hmin : h.min_node with
      | none =>
        rw [hmin] at hp
        simp only at hp
        cases hp
        refine FibonacciHeap.Inv.congr_inv (h := { H0 with min_node := some v }) ?_
          (by rw [e0]) (by rw [e0]) rfl
        have hσ : ∀ a, h.view none a = none := hinv.no_node hmin
        have hv1 : ∀ a, H0.view none a = if a = v then
              some { key := key, vertex := v, degree := 0, marked := false,
                     parent := none, child := none, left := v, right := v }
            else none := by
          intro a; rw [hH5 a, hσ a]
        refine ⟨hH4, ?_, ?_, ?_, ?_, ?_⟩
        · exact htab1
        · show Forest (H0.view none) none
          refine ⟨?_, ?_⟩
          · intro p _
            have hc : childOf (H0.view none) p = none := by
              unfold childOf; rw [hv1 p]; split <;> rfl
            rw [hc]
            apply RingOk.of_empty_map
            intro a
            unfold grp; rw [hv1 a]; split <;> rfl
          · intro a n ha
            exact Rooted.root a n ha (by
              rw [hv1 a] at ha
              split at ha
              · cases ha; rfl
              · cases ha)
        · show HeapOrder (H0.view none)
          intro a p n pn ha hpar _
          rw [hv1 a] at ha
          split at ha
          · cases ha; cases hpar
          · cases ha
        · show RingOk (grp (H0.view none) none) (some v)
          apply RingOk.singleton
          · unfold grp; rw [hv1 v, if_pos rfl]; rfl
          · intro a hav
            unfold grp; rw [hv1 a, if_neg hav]; rfl
        · show MinLe (H0.view none) (some v)
          intro m0 a mn n hm0 hmn ha _
          cases hm0
          rw [hv1 v, if_pos rfl] at hmn
          rw [hv1 a] at ha
          split at ha
          · cases ha; cases hmn; exact le_refl _
          · cases ha
      | some m =>
        rw [hmin] at hp
        simp only at hp
        obtain ⟨mn, rn, hm, hmp, hr, hrp, hrl⟩ := hinv.anchor hmin
        have hmv : m ≠ v := by intro e; rw [e, hσv] at hm; cases hm
        have hrv : mn.right ≠ v := by intro e; rw [e, hσv] at hr; cases hr
        have hm0 : H0.view none m = some mn := by rw [hH5, if_neg hmv, hm]
        have hr0 : H0.view none mn.right = some rn := by rw [hH5, if_neg hrv, hr]
        have hv0 := hH5 v
        rw [if_pos rfl] at hv0
        obtain ⟨h2, e2, f1, f2, f3, f4, g1, g2, g3, g4⟩ :=
          FibonacciHeap.insert_after_min_spec (hH1.trans hmin) hm0 hv0 hr0
            (Ne.symm hmv) (Ne.symm hrv)
        rw [e2] at hp
        simp only [ok_bind] at hp
        rw [FibonacciHeap.deref_ok g1, FibonacciHeap.deref_ok g2] at hp
        simp only [ok_bind] at hp
        have hrest : ∀ a, a ≠ v → a ≠ m → a ≠ mn.right → h2.view none a = h.view none a := by
          intro a h1 h2' h3
          rw [g4 a h1 h2' h3, hH5, if_neg h1]
        have hchange : RootChange (h.view none) (h2.view none) := by
          intro a
          by_cases hav : a = v
          · rw [hav]
            exact Or.inr ⟨_, g1, rfl, Or.inl ⟨hσv, rfl⟩⟩
          · by_cases ham : a = m
            · rw [ham]
              exact Or.inr ⟨_, g2, hmp, Or.inr ⟨mn, hm, hmp, rfl, rfl, rfl⟩⟩
            · by_cases har : a = mn.right
              · rw [har]
                have hne : mn.right ≠ m := fun e => ham (har.trans e)
                exact Or.inr ⟨_, g3 hne, hrp, Or.inr ⟨rn, hr, hrp, rfl, rfl, rfl⟩⟩
              · exact Or.inl (hrest a hav ham har)
        have hroots : RingOk (grp (h2.view none) none) (some m) := by
          refine RingOk.insert (hmin ▸ hinv.roots) (grp_member hm hmp) (grp_of_none hσv)
            (grp_member g1 rfl) ?_ ?_ ?_
          · rw [grp_member g2 hmp]
          · intro hne rl rr hrr
            rw [grp_member hr hrp] at hrr
            cases hrr
            rw [grp_member (g3 hne) hrp]
          · intro a h1 h2' h3
            unfold grp; rw [hrest a h1 h2' h3]
        have hkv : ∀ a, kv (h2.view none) a = kv (H0.view none) a := by
          intro a
          by_cases hav : a = v
          · rw [hav, kv_of_some g1, kv_of_some hv0]
          · unfold kv
            rw [hH5 a, if_neg hav]
            cases hs : h.view none a with
            | none =>
              by_cases ham : a = m
              · rw [ham, hm] at hs; cases hs
              · by_cases har : a = mn.right
                · rw [har, hr] at hs; cases hs
                · rw [hrest a hav ham har, hs]
            | some n =>
              obtain ⟨n', h1', h2', h3', _⟩ := hchange.old hs
              rw [h1']
              simp [h2', h3']
        have hfin : ∀ mnew : Nat, (mnew = v ∨ mnew = m) →
            (∀ kn, h2.view none mnew = some kn → kn.key ≤ key ∧ kn.key ≤ mn.key) →
            FibonacciHeap.Inv N { h2 with min_node := some mnew, size := wrap32 (h2.size + 1) } := by
          intro mnew hcase hle
          refine ⟨f4.trans hH4, ?_, hinv.forest.root_change_forest hchange,
            hinv.order.root_change_order hinv.forest hchange, ?_, ?_⟩
          · show Tabled N h2.node_table (h2.view none)
            rw [f3]
            exact htab1.congr_tabled hkv
          · show RingOk (grp (h2.view none) none) (some mnew)
            cases hcase with
            | inl e => rw [e]; exact hroots.reanchor _ (grp_member g1 rfl)
            | inr e => rw [e]; exact hroots
          · show MinLe (h2.view none) (some mnew)
            intro m0 a kn n hm0 hkn ha hpar
            cases hm0
            obtain ⟨hk1, hk2⟩ := hle kn hkn
            cases hchange.root ha hpar with
            | inl e =>
              have hav : a = v := by
                by_contra hav
                by_cases ham : a = m
                · rw [ham, hm] at e; cases e
                · by_cases har : a = mn.right
                  · rw [har, hr] at e; cases e
                  · rw [hrest a hav ham har, e] at ha; cases ha
              rw [hav, g1] at ha; cases ha
              exact hk1
            | inr e =>
              obtain ⟨n0, h1', h2', h3'⟩ := e
              rw [← h3']
              exact le_trans hk2 (hinv.min_le m a mn n0 hmin hm h1' h2')
        by_cases hlt : key < mn.key
        · simp only [hlt, if_true] at hp
          cases hp
          refine FibonacciHeap.Inv.congr_inv (hfin v (Or.inl rfl) ?_) rfl rfl rfl
          intro kn hkn
          rw [g1] at hkn; cases hkn
          exact ⟨le_refl _, le_of_lt hlt⟩
        · simp only [hlt, if_false] at hp
          cases hp
          have := hfin m (Or.inr rfl) (by
            intro kn hkn
            rw [g2] at hkn; cases hkn
            exact ⟨by simpa using le_of_not_lt hlt, le_refl _⟩)
          exact FibonacciHeap.Inv.congr_inv this rfl rfl (f1.trans (hH1.trans hmin))

/-! ## Field maps and single assignments -/

theorem leftOf_of_some {σ : Nat → Option Node} {a : Nat} {n : Node} (h : σ a = some n) :
    leftOf σ a = some n.left := by
  unfold leftOf; rw [h]; rfl

theorem rightOf_of_some {σ : Nat → Option Node} {a : Nat} {n : Node} (h : σ a = some n) :
    rightOf σ a = some n.right := by
  unfold rightOf; rw [h]; rfl

theorem parentOf_of_some {σ : Nat → Option Node} {a : Nat} {n : Node} (h : σ a = some n) :
    parentOf σ a = some n.parent := by
  unfold parentOf; rw [h]; rfl

theorem childPtr_of_some {σ : Nat → Option Node} {a : Nat} {n : Node} (h : σ a = some n) :
    childPtr σ a = some n.child := by
  unfold childPtr; rw [h]; rfl

theorem leftOf_of_none {σ : Nat → Option Node} {a : Nat} (h : σ a = none) :
    leftOf σ a = none := by
  unfold leftOf; rw [h]; rfl

theorem rightOf_of_none {σ : Nat → Option Node} {a : Nat} (h : σ a = none) :
    rightOf σ a = none := by
  unfold rightOf; rw [h]; rfl

theorem parentOf_of_none {σ : Nat → Option Node} {a : Nat} (h : σ a = none) :
    parentOf σ a = none := by
  unfold parentOf; rw [h]; rfl

theorem childPtr_of_none {σ : Nat → Option Node} {a : Nat} (h : σ a = none) :
    childPtr σ a = none := by
  unfold childPtr; rw [h]; rfl

theorem leftOf_some {σ : Nat → Option Node} {a v : Nat} (h : leftOf σ a = some v) :
    ∃ n, σ a = some n ∧ n.left = v := by
  cases hs : σ a with
  | none => rw [leftOf_of_none hs] at h; cases h
  | some n => rw [leftOf_of_some hs] at h; exact ⟨n, rfl, Option.some.inj h⟩

theorem rightOf_some {σ : Nat → Option Node} {a v : Nat} (h : rightOf σ a = some v) :
    ∃ n, σ a = some n ∧ n.right = v := by
  cases hs : σ a with
  | none => rw [rightOf_of_none hs] at h; cases h
  | some n => rw [rightOf_of_some hs] at h; exact ⟨n, rfl, Option.some.inj h⟩

theorem parentOf_some {σ : Nat → Option Node} {a : Nat} {v : Option Nat}
    (h : parentOf σ a = some v) : ∃ n, σ a = some n ∧ n.parent = v := by
  cases hs : σ a with
  | none => rw [parentOf_of_none hs] at h; cases h
  | some n => rw [parentOf_of_some hs] at h; exact ⟨n, rfl, Option.some.inj h⟩

theorem childPtr_some {σ : Nat → Option Node} {a : Nat} {v : Option Nat}
    (h : childPtr σ a = some v) : ∃ n, σ a = some n ∧ n.child = v := by
  cases hs : σ a with
  | none => rw [childPtr_of_none hs] at h; cases h
  | some n => rw [childPtr_of_some hs] at h; exact ⟨n, rfl, Option.some.inj h⟩

/-- A node is there after a change that keeps keys when it was there
before. -/
theorem live_of_kv {σ σ' : Nat → Option Node} {a : Nat} {n : Node}
    (hk : kv σ' a = kv σ a) (h : σ a = some n) :
    ∃ n', σ' a = some n' ∧ n'.key = n.key ∧ n'.vertex = n.vertex := by
  rw [kv_of_some h] at hk
  obtain ⟨n', h1, h2⟩ := kv_some hk
  exact ⟨n', h1, (congrArg Prod.fst h2).symm, (congrArg Prod.snd h2).symm⟩

theorem dead_of_kv {σ σ' : Nat → Option Node} {a : Nat}
    (hk : kv σ' a = kv σ a) (h : σ a = none) : σ' a = none := by
  rw [kv_of_none h] at hk
  exact kv_none hk

/-- The sibling links of a group are read off the field maps. -/
theorem grp_fields {σ : Nat → Option Node} {g : Option Nat} {a l r : Nat}
    (hp : parentOf σ a = some g) (hl : leftOf σ a = some l) (hr : rightOf σ a = some r) :
    grp σ g a = some (l, r) := by
  obtain ⟨n, hn, e1⟩ := parentOf_some hp
  rw [leftOf_of_some hn] at hl
  rw [rightOf_of_some hn] at hr
  rw [grp_member hn e1, Option.some.inj hl, Option.some.inj hr]

theorem grp_fields_none {σ : Nat → Option Node} {g : Option Nat} {a : Nat}
    (hp : parentOf σ a ≠ some g) : grp σ g a = none := by
  cases hs : σ a with
  | none => exact grp_of_none hs
  | some n =>
    rw [parentOf_of_some hs] at hp
    exact grp_other hs (fun e => hp (by rw [e]))

theorem fields_of_grp {σ : Nat → Option Node} {g : Option Nat} {a l r : Nat}
    (h : grp σ g a = some (l, r)) :
    parentOf σ a = some g ∧ leftOf σ a = some l ∧ rightOf σ a = some r := by
  obtain ⟨n, hn, hp, e⟩ := grp_some h
  cases e
  exact ⟨by rw [parentOf_of_some hn, hp], leftOf_of_some hn, rightOf_of_some hn⟩

theorem parentOf_of_grp_none {σ : Nat → Option Node} {g : Option Nat} {a : Nat}
    (h : grp σ g a = none) : parentOf σ a ≠ some g := by
  intro hp
  obtain ⟨n, hn, e1⟩ := parentOf_some hp
  rw [grp_member hn e1] at h
  cases h

/-- A group is the same in two node maps that agree on the parent, `left`
and `right` fields at an address. -/
theorem grp_congr {σ σ' : Nat → Option Node} {g : Option Nat} {a : Nat}
    (hp : parentOf σ' a = parentOf σ a) (hl : leftOf σ' a = leftOf σ a)
    (hr : rightOf σ' a = rightOf σ a) : grp σ' g a = grp σ g a := by
  cases hg : grp σ g a with
  | none =>
    apply grp_fields_none
    rw [hp]
    exact parentOf_of_grp_none hg
  | some lr =>
    obtain ⟨h1, h2, h3⟩ := fields_of_grp (l := lr.1) (r := lr.2) hg
    exact grp_fields (hp.trans h1) (hl.trans h2) (hr.trans h3)

/-- A group is the same in two node maps that agree on the parent field at
an address outside the group. -/
theorem grp_congr_out {σ σ' : Nat → Option Node} {g : Option Nat} {a : Nat}
    (hp : parentOf σ' a = parentOf σ a) (hg : parentOf σ a ≠ some g) :
    grp σ' g a = grp σ g a := by
  rw [grp_fields_none hg, grp_fields_none (by rw [hp]; exact hg)]

theorem childOf_ptr {σ : Nat → Option Node} {σ' : Nat → Option Node} {p : Nat}
    (h : childPtr σ' p = childPtr σ p) : childOf σ' p = childOf σ p := by
  cases hs : σ p with
  | none =>
    rw [childPtr_of_none hs] at h
    cases hs' : σ' p with
    | none => rw [childOf_of_none hs, childOf_of_none hs']
    | some n' => rw [childPtr_of_some hs'] at h; cases h
  | some n =>
    rw [childPtr_of_some hs] at h
    obtain ⟨n', h1, h2⟩ := childPtr_some h
    rw [childOf_of_some hs, childOf_of_some h1, h2]

@[simp] theorem upd_none {α : Type} (p a : Nat) (old : Option α) : upd none p a old = old := rfl

@[simp] theorem upd_some {α : Type} (v : α) (p a : Nat) (old : Option α) :
    upd (some v) p a old = if a = p then some v else old := rfl

/-- A state after an assignment through a pointer to a node. -/
theorem FibonacciHeap.store_step {h : FibonacciHeap} {dead : Option Nat} {p : Nat} {n : Node}
    (f : Node → Node) (hv : h.view dead p = some n) :
    ∃ h1, h.store p f = .ok h1 ∧ h.Frame h1 ∧
      ∀ a, h1.view dead a = if a = p then some (f n) else h.view dead a :=
  ⟨_, FibonacciHeap.store_ok f hv, ⟨rfl, rfl, rfl, by simp⟩, FibonacciHeap.view_put _ hv⟩

theorem FibonacciHeap.Frame.trans {h h1 h2 : FibonacciHeap} (a : h.Frame h1)
    (b : h1.Frame h2) : h.Frame h2 :=
  ⟨b.1.trans a.1, b.2.1.trans a.2.1, b.2.2.1.trans a.2.2.1, b.2.2.2.trans a.2.2.2⟩

theorem FibonacciHeap.Frame.refl (h : FibonacciHeap) : h.Frame h := ⟨rfl, rfl, rfl, rfl⟩

theorem map_step {α : Type} {σ σ' : Nat → Option Node} {p : Nat} {n' : Node} (π : Node → α)
    (hv : ∀ a, σ' a = if a = p then some n' else σ a) (a : Nat) :
    (σ' a).map π = if a = p then some (π n') else (σ a).map π := by
  rw [hv a]
  split <;> rfl

theorem map_step_same {α : Type} {σ σ' : Nat → Option Node} {p : Nat} {n n' : Node}
    (π : Node → α) (hv : ∀ a, σ' a = if a = p then some n' else σ a) (hp : σ p = some n)
    (e : π n' = π n) (a : Nat) : (σ' a).map π = (σ a).map π := by
  rw [hv a]
  split
  · rename_i hap
    rw [hap, hp]
    show some (π n') = some (π n)
    rw [e]
  · rfl

/-- The assignment `p->left = v`. -/
theorem FibonacciHeap.store_left {h : FibonacciHeap} {dead : Option Nat} {p : Nat} {n : Node}
    (v : Nat) (hv : h.view dead p = some n) :
    ∃ h1, h.store p (fun n => { n with left := v }) = .ok h1 ∧ h.Frame h1 ∧
      Edit (h.view dead) (h1.view dead) p (some v) none none none := by
  obtain ⟨h1, e1, fr, v1⟩ := FibonacciHeap.store_step (fun n => { n with left := v }) hv
  exact ⟨h1, e1, fr, map_step _ v1, map_step_same _ v1 hv rfl, map_step_same _ v1 hv rfl,
    map_step_same _ v1 hv rfl, map_step_same _ v1 hv rfl⟩

/-- The assignment `p->right = v`. -/
theorem FibonacciHeap.store_right {h : FibonacciHeap} {dead : Option Nat} {p : Nat} {n : Node}
    (v : Nat) (hv : h.view dead p = some n) :
    ∃ h1, h.store p (fun n => { n with right := v }) = .ok h1 ∧ h.Frame h1 ∧
      Edit (h.view dead) (h1.view dead) p none (some v) none none := by
  obtain ⟨h1, e1, fr, v1⟩ := FibonacciHeap.store_step (fun n => { n with right := v }) hv
  exact ⟨h1, e1, fr, map_step_same _ v1 hv rfl, map_step _ v1, map_step_same _ v1 hv rfl,
    map_step_same _ v1 hv rfl, map_step_same _ v1 hv rfl⟩

/-- The assignment `p->parent = v`. -/
theorem FibonacciHeap.store_parent {h : FibonacciHeap} {dead : Option Nat} {p : Nat} {n : Node}
    (v : Option Nat) (hv : h.view dead p = some n) :
    ∃ h1, h.store p (fun n => { n with parent := v }) = .ok h1 ∧ h.Frame h1 ∧
      Edit (h.view dead) (h1.view dead) p none none (some v) none := by
  obtain ⟨h1, e1, fr, v1⟩ := FibonacciHeap.store_step (fun n => { n with parent := v }) hv
  exact ⟨h1, e1, fr, map_step_same _ v1 hv rfl, map_step_same _ v1 hv rfl, map_step _ v1,
    map_step_same _ v1 hv rfl, map_step_same _ v1 hv rfl⟩

/-- The assignment `p->child = v`. -/
theorem FibonacciHeap.store_child {h : FibonacciHeap} {dead : Option Nat} {p : Nat} {n : Node}
    (v : Option Nat) (hv : h.view dead p = some n) :
    ∃ h1, h.store p (fun n => { n with child := v }) = .ok h1 ∧ h.Frame h1 ∧
      Edit (h.view dead) (h1.view dead) p none none none (some v) := by
  obtain ⟨h1, e1, fr, v1⟩ := FibonacciHeap.store_step (fun n => { n with child := v }) hv
  exact ⟨h1, e1, fr, map_step_same _ v1 hv rfl, map_step_same _ v1 hv rfl,
    map_step_same _ v1 hv rfl, map_step _ v1, map_step_same _ v1 hv rfl⟩

/-- An assignment to `degree` or `marked`. -/
theorem FibonacciHeap.store_aux {h : FibonacciHeap} {dead : Option Nat} {p : Nat} {n : Node}
    (f : Node → Node) (hf : ∀ n, (f n).left = n.left ∧ (f n).right = n.right ∧
      (f n).parent = n.parent ∧ (f n).child = n.child ∧ (f n).key = n.key ∧
      (f n).vertex = n.vertex)
    (hv : h.view dead p = some n) :
    ∃ h1, h.store p f = .ok h1 ∧ h.Frame h1 ∧
      Edit (h.view dead) (h1.view dead) p none none none none := by
  obtain ⟨h1, e1, fr, v1⟩ := FibonacciHeap.store_step f hv
  obtain ⟨f1, f2, f3, f4, f5, f6⟩ := hf n
  exact ⟨h1, e1, fr, map_step_same _ v1 hv f1, map_step_same _ v1 hv f2,
    map_step_same _ v1 hv f3, map_step_same _ v1 hv f4,
    map_step_same (fun n => (n.key, n.vertex)) v1 hv (by simp [f5, f6])⟩

theorem Edit.live {σ σ' : Nat → Option Node} {p : Nat} {ul ur : Option Nat}
    {up uc : Option (Option Nat)} (h : Edit σ σ' p ul ur up uc) {a : Nat} {n : Node}
    (ha : σ a = some n) : ∃ n', σ' a = some n' :=
  (live_of_kv (h.kv a) ha).imp (fun _ hn => hn.1)

/-! ## Splicing a node into the root list -/

/-- The four assignments that splice `x` into the root list after
`min_node`, on the field maps. -/
theorem FibonacciHeap.insert_after_min_fields {h : FibonacciHeap} {dead : Option Nat}
    {m x mr : Nat} {xn rn : Node}
    (hmin : h.min_node = some m) (hmr : rightOf (h.view dead) m = some mr)
    (hx : h.view dead x = some xn) (hr : h.view dead mr = some rn)
    (hxm : x ≠ m) (hxr : x ≠ mr) :
    ∃ h1, h.insert_after_min x = .ok h1 ∧ h.Frame h1 ∧
      (∀ a, rightOf (h1.view dead) a =
        if a = m then some x else if a = x then some mr else rightOf (h.view dead) a) ∧
      (∀ a, leftOf (h1.view dead) a =
        if a = mr then some x else if a = x then some m else leftOf (h.view dead) a) ∧
      (∀ a, parentOf (h1.view dead) a = parentOf (h.view dead) a) ∧
      (∀ a, childPtr (h1.view dead) a = childPtr (h.view dead) a) ∧
      (∀ a, kv (h1.view dead) a = kv (h.view dead) a) := by
  obtain ⟨mn, hm, hmnr⟩ := rightOf_some hmr
  unfold FibonacciHeap.insert_after_min
  rw [hmin]
  simp only
  obtain ⟨h1, e1, fr1, ed1⟩ := FibonacciHeap.store_left m hx
  rw [e1]; simp only [ok_bind]
  obtain ⟨mn1, hm1⟩ := ed1.live hm
  have hmr1 : mn1.right = mr := by
    have := ed1.right m
    rw [rightOf_of_some hm1, upd_none, hmr] at this
    exact Option.some.inj this
  rw [FibonacciHeap.deref_ok hm1]; simp only [ok_bind]
  obtain ⟨xn1, hx1⟩ := ed1.live hx
  obtain ⟨h2, e2, fr2, ed2⟩ := FibonacciHeap.store_right mn1.right hx1
  rw [e2]; simp only [ok_bind]
  obtain ⟨mn2, hm2⟩ := ed2.live hm1
  have hmr2 : mn2.right = mr := by
    have := ed2.right m
    rw [rightOf_of_some hm2, upd_some, if_neg (Ne.symm hxm), rightOf_of_some hm1, hmr1] at this
    exact Option.some.inj this
  rw [FibonacciHeap.deref_ok hm2]; simp only [ok_bind]
  obtain ⟨rn1, hr1⟩ := ed1.live hr
  obtain ⟨rn2, hr2⟩ := ed2.live hr1
  rw [hmr2]
  obtain ⟨h3, e3, fr3, ed3⟩ := FibonacciHeap.store_left x hr2
  rw [e3]; simp only [ok_bind]
  obtain ⟨mn3, hm3⟩ := ed3.live hm2
  obtain ⟨h4, e4, fr4, ed4⟩ := FibonacciHeap.store_right x hm3
  rw [e4]
  refine ⟨h4, rfl, ?_, ?_, ?_, ?_, ?_, ?_⟩
  · exact ((fr1.trans fr2).trans fr3).trans fr4
  · intro a
    rw [ed4.right a, ed3.right a, ed2.right a, ed1.right a, hmr1]
    simp only [upd_some, upd_none]
  · intro a
    rw [ed4.left a, ed3.left a, ed2.left a, ed1.left a]
    simp only [upd_some, upd_none]
  · intro a
    rw [ed4.parent a, ed3.parent a, ed2.parent a, ed1.parent a]
    simp only [upd_none]
  · intro a
    rw [ed4.child a, ed3.child a, ed2.child a, ed1.child a]
    simp only [upd_none]
  · intro a
    rw [ed4.kv a, ed3.kv a, ed2.kv a, ed1.kv a]

/-! ## `FibonacciHeap::cut` -/

/-- The second half of `cut`: the degree of `y` is decremented and `x` goes
into the root list after `min_node`, parentless and unmarked. -/
theorem FibonacciHeap.cut_tail {h : FibonacciHeap} {dead : Option Nat}
    {m x y mr : Nat} {xn yn mrn : Node}
    (hmin : h.min_node = some m) (hmr : rightOf (h.view dead) m = some mr)
    (hmrn : h.view dead mr = some mrn)
    (hx : h.view dead x = some xn) (hy : h.view dead y = some yn)
    (hxm : x ≠ m) (hxmr : x ≠ mr) :
    ∃ h1, (do
        let h ← h.store y (fun n => { n with degree := wrap32 (n.degree - 1) })
        let h ← h.insert_after_min x
        let h ← h.store x (fun n => { n with parent := none })
        h.store x (fun n => { n with marked := false })) = .ok h1 ∧ h.Frame h1 ∧
      (∀ a, rightOf (h1.view dead) a =
        if a = m then some x else if a = x then some mr else rightOf (h.view dead) a) ∧
      (∀ a, leftOf (h1.view dead) a =
        if a = mr then some x else if a = x then some m else leftOf (h.view dead) a) ∧
      (∀ a, parentOf (h1.view dead) a =
        if a = x then some none else parentOf (h.view dead) a) ∧
      (∀ a, childPtr (h1.view dead) a = childPtr (h.view dead) a) ∧
      (∀ a, kv (h1.view dead) a = kv (h.view dead) a) := by
  obtain ⟨h2, e2, fr2, ed2⟩ := FibonacciHeap.store_aux
    (fun n => { n with degree := wrap32 (n.degree - 1) })
    (fun n => ⟨rfl, rfl, rfl, rfl, rfl, rfl⟩) hy
  rw [e2]; simp only [ok_bind]
  obtain ⟨xn2, hx2⟩ := ed2.live hx
  obtain ⟨mrn2, hmrn2⟩ := ed2.live hmrn
  have hmr2 : rightOf (h2.view dead) m = some mr := by
    rw [ed2.right m, upd_none, hmr]
  obtain ⟨h3, e3, fr3, R3, L3, P3, C3, K3⟩ := FibonacciHeap.insert_after_min_fields
    (fr2.1.trans hmin) hmr2 hx2 hmrn2 hxm hxmr
  rw [e3]; simp only [ok_bind]
  obtain ⟨xn3, hx3, _⟩ := live_of_kv (K3 x) hx2
  obtain ⟨h4, e4, fr4, ed4⟩ := FibonacciHeap.store_parent none hx3
  rw [e4]; simp only [ok_bind]
  obtain ⟨xn4, hx4⟩ := ed4.live hx3
  obtain ⟨h5, e5, fr5, ed5⟩ := FibonacciHeap.store_aux
    (fun n => { n with marked := false })
    (fun n => ⟨rfl, rfl, rfl, rfl, rfl, rfl⟩) hx4
  rw [e5]
  refine ⟨h5, rfl, ((fr2.trans fr3).trans fr4).trans fr5, ?_, ?_, ?_, ?_, ?_⟩
  · intro a
    rw [ed5.right a, ed4.right a, R3 a, ed2.right a]
    simp only [upd_none]
  · intro a
    rw [ed5.left a, ed4.left a, L3 a, ed2.left a]
    simp only [upd_none]
  · intro a
    rw [ed5.parent a, ed4.parent a, P3 a, ed2.parent a]
    simp only [upd_none, upd_some]
  · intro a
    rw [ed5.child a, ed4.child a, C3 a, ed2.child a]
    simp only [upd_none]
  · intro a
    rw [ed5.kv a, ed4.kv a, K3 a, ed2.kv a]

/-- The state after `cut(x, y)`, on the field maps: `x` has left the child
list of `y` and is in the root list after `min_node`. -/
theorem FibonacciHeap.cut_fields {h : FibonacciHeap} {dead : Option Nat}
    {m x y mr : Nat} {xn yn ln rn mrn : Node}
    (hmin : h.min_node = some m) (hmr : rightOf (h.view dead) m = some mr)
    (hmrn : h.view dead mr = some mrn)
    (hx : h.view dead x = some xn) (hy : h.view dead y = some yn)
    (hl : h.view dead xn.left = some ln) (hr : h.view dead xn.right = some rn)
    (hxm : x ≠ m) (hxmr : x ≠ mr) (hlm : xn.left ≠ m) :
    ∃ h1, h.cut x y = .ok h1 ∧ h.Frame h1 ∧
      (∀ a, rightOf (h1.view dead) a =
        if a = m then some x else if a = x then some mr
        else if xn.right ≠ x ∧ a = xn.left then some xn.right else rightOf (h.view dead) a) ∧
      (∀ a, leftOf (h1.view dead) a =
        if a = mr then some x else if a = x then some m
        else if xn.right ≠ x ∧ a = xn.right then some xn.left else leftOf (h.view dead) a) ∧
      (∀ a, parentOf (h1.view dead) a =
        if a = x then some none else parentOf (h.view dead) a) ∧
      (∀ a, childPtr (h1.view dead) a =
        if a = y then some (if xn.right = x then none
          else if yn.child = some x then some xn.right else yn.child)
        else childPtr (h.view dead) a) ∧
      (∀ a, kv (h1.view dead) a = kv (h.view dead) a) := by
  unfold FibonacciHeap.cut
  rw [FibonacciHeap.deref_ok hx]; simp only [ok_bind]
  by_cases hself : xn.right = x
  · rw [if_pos hself]
    obtain ⟨h1, e1, fr1, ed1⟩ := FibonacciHeap.store_child none hy
    rw [e1]; simp only [ok_bind]
    obtain ⟨yn1, hy1⟩ := ed1.live hy
    obtain ⟨xn1, hx1⟩ := ed1.live hx
    obtain ⟨mrn1, hmrn1⟩ := ed1.live hmrn
    obtain ⟨h5, e5, fr5, R5, L5, P5, C5, K5⟩ := FibonacciHeap.cut_tail (y := y)
      (fr1.1.trans hmin) ((ed1.right m).trans hmr) hmrn1 hx1 hy1 hxm hxmr
    refine ⟨h5, e5, fr1.trans fr5, ?_, ?_, ?_, ?_, ?_⟩
    · intro a
      rw [R5 a, ed1.right a]
      simp [hself]
    · intro a
      rw [L5 a, ed1.left a]
      simp [hself]
    · intro a
      rw [P5 a, ed1.parent a]
      simp
    · intro a
      rw [C5 a, ed1.child a]
      simp [hself]
    · intro a
      rw [K5 a, ed1.kv a]
  · rw [if_neg hself]
    obtain ⟨h1, e1, fr1, ed1⟩ := FibonacciHeap.store_right xn.right hl
    rw [e1]; simp only [ok_bind]
    obtain ⟨xn1, hx1⟩ := ed1.live hx
    have hx1r : xn1.right = xn.right := by
      have := ed1.right x
      rw [rightOf_of_some hx1, upd_some, rightOf_of_some hx] at this
      split at this <;> exact Option.some.inj this
    have hx1l : xn1.left = xn.left := by
      have := ed1.left x
      rw [leftOf_of_some hx1, upd_none, leftOf_of_some hx] at this
      exact Option.some.inj this
    rw [FibonacciHeap.deref_ok hx1]; simp only [ok_bind]
    rw [hx1r, hx1l]
    obtain ⟨rn1, hr1⟩ := ed1.live hr
    obtain ⟨h2, e2, fr2, ed2⟩ := FibonacciHeap.store_left xn.left hr1
    rw [e2]; simp only [ok_bind]
    obtain ⟨yn1, hy1⟩ := ed1.live hy
    obtain ⟨yn2, hy2⟩ := ed2.live hy1
    have hy2c : yn2.child = yn.child := by
      have := ed2.child y
      rw [childPtr_of_some hy2, upd_none, ed1.child y, upd_none, childPtr_of_some hy] at this
      exact Option.some.inj this
    rw [FibonacciHeap.deref_ok hy2]; simp only [ok_bind]
    obtain ⟨xn2, hx2⟩ := ed2.live hx1
    have hx2r : xn2.right = xn.right := by
      have := ed2.right x
      rw [rightOf_of_some hx2, upd_none, rightOf_of_some hx1, hx1r] at this
      exact Option.some.inj this
    rw [FibonacciHeap.deref_ok hx2]; simp only [ok_bind]
    rw [hy2c, hx2r]
    obtain ⟨mrn1, hmrn1⟩ := ed1.live hmrn
    obtain ⟨mrn2, hmrn2⟩ := ed2.live hmrn1
    have hmr2 : rightOf (h2.view dead) m = some mr := by
      rw [ed2.right m, upd_none, ed1.right m, upd_some, if_neg (Ne.symm hlm), hmr]
    by_cases hc : yn.child = some x
    · rw [if_pos hc]
      obtain ⟨h3, e3, fr3, ed3⟩ := FibonacciHeap.store_child (some xn.right) hy2
      rw [e3]; simp only [ok_bind]
      obtain ⟨yn3, hy3⟩ := ed3.live hy2
      obtain ⟨xn3, hx3⟩ := ed3.live hx2
      obtain ⟨mrn3, hmrn3⟩ := ed3.live hmrn2
      obtain ⟨h5, e5, fr5, R5, L5, P5, C5, K5⟩ := FibonacciHeap.cut_tail (y := y)
        (((fr1.trans fr2).trans fr3).1.trans hmin) ((ed3.right m).trans hmr2) hmrn3 hx3 hy3
        hxm hxmr
      refine ⟨h5, e5, ((fr1.trans fr2).trans fr3).trans fr5, ?_, ?_, ?_, ?_, ?_⟩
      · intro a
        rw [R5 a, ed3.right a, ed2.right a, ed1.right a]
        simp [hself]
      · intro a
        rw [L5 a, ed3.left a, ed2.left a, ed1.left a]
        simp [hself]
      · intro a
        rw [P5 a, ed3.parent a, ed2.parent a, ed1.parent a]
        simp
      · intro a
        rw [C5 a, ed3.child a, ed2.child a, ed1.child a]
        simp [hself, hc]
      · intro a
        rw [K5 a, ed3.kv a, ed2.kv a, ed1.kv a]
    · rw [if_neg hc]
      obtain ⟨h5, e5, fr5, R5, L5, P5, C5, K5⟩ := FibonacciHeap.cut_tail (y := y)
        ((fr1.trans fr2).1.trans hmin) hmr2 hmrn2 hx2 hy2 hxm hxmr
      refine ⟨h5, e5, (fr1.trans fr2).trans fr5, ?_, ?_, ?_, ?_, ?_⟩
      · intro a
        rw [R5 a, ed2.right a, ed1.right a]
        simp [hself]
      · intro a
        rw [L5 a, ed2.left a, ed1.left a]
        simp [hself]
      · intro a
        rw [P5 a, ed2.parent a, ed1.parent a]
        simp
      · intro a
        rw [C5 a, ed2.child a, ed1.child a]
        simp only [upd_none, hself, hc, if_false]
        split
        · rename_i hay
          rw [hay, childPtr_of_some hy]
        · rfl
      · intro a
        rw [K5 a, ed2.kv a, ed1.kv a]

/-! ## Sibling groups under splicing and unlinking -/

/-- Parent chains still end when parent fields are kept or cleared, on the
field maps. -/
theorem Rooted.mono_fields {σ σ' : Nat → Option Node}
    (hσ : ∀ a n, σ a = some n →
      parentOf σ' a = parentOf σ a ∨ parentOf σ' a = some none)
    {a : Nat} (h : Rooted σ a) : Rooted σ' a := by
  refine Rooted.mono ?_ h
  intro b n hb
  cases hσ b n hb with
  | inl e =>
    rw [parentOf_of_some hb] at e
    obtain ⟨n', h1, h2⟩ := parentOf_some e
    exact ⟨n', h1, Or.inl h2⟩
  | inr e =>
    obtain ⟨n', h1, h2⟩ := parentOf_some e
    exact ⟨n', h1, Or.inr h2⟩

/-- The node `x`, not in the group `g`, joins it after `c`. -/
theorem splice_group {σ σ' : Nat → Option Node} {g : Option Nat} {c x cr : Nat}
    (hring : RingOk (grp σ g) (some c))
    (hx0 : parentOf σ x ≠ some g) (hcr : rightOf σ c = some cr)
    (hPx : parentOf σ' x = some g) (hLx : leftOf σ' x = some c) (hRx : rightOf σ' x = some cr)
    (hP : ∀ a, a ≠ x → parentOf σ' a = parentOf σ a)
    (hR : ∀ a, a ≠ x → parentOf σ a = some g →
      rightOf σ' a = if a = c then some x else rightOf σ a)
    (hL : ∀ a, a ≠ x → parentOf σ a = some g →
      leftOf σ' a = if a = cr then some x else leftOf σ a) :
    RingOk (grp σ' g) (some c) := by
  obtain ⟨⟨cl, cr1⟩, hc⟩ := hring.anchor_in c rfl
  obtain ⟨hc1, hc2, hc3⟩ := fields_of_grp hc
  rw [hcr] at hc3
  cases hc3
  have hcx : c ≠ x := by intro e; rw [e] at hc1; exact hx0 hc1
  refine RingOk.insert hring hc (grp_fields_none hx0) (grp_fields hPx hLx hRx) ?_ ?_ ?_
  · apply grp_fields ((hP c hcx).trans hc1)
    · rw [hL c hcx hc1]
      by_cases e : cr = c
      · rw [if_pos e.symm, if_pos e]
      · rw [if_neg (Ne.symm e), if_neg e, hc2]
    · rw [hR c hcx hc1, if_pos rfl]
  · intro hne rl rr hrr
    obtain ⟨hr1, hr2, hr3⟩ := fields_of_grp hrr
    have hrx : cr ≠ x := by intro e; rw [e] at hr1; exact hx0 hr1
    apply grp_fields ((hP cr hrx).trans hr1)
    · rw [hL cr hrx hr1, if_pos rfl]
    · rw [hR cr hrx hr1, if_neg hne, hr3]
  · intro a hax hac har
    by_cases hpa : parentOf σ a = some g
    · exact grp_congr (hP a hax) (by rw [hL a hax hpa, if_neg har])
        (by rw [hR a hax hpa, if_neg hac])
    · exact grp_congr_out (hP a hax) hpa

theorem unlink_group_aux {σ σ' : Nat → Option Node} {g : Option Nat} {x l r : Nat}
    (hPx : parentOf σ' x ≠ some g)
    (hP : ∀ a, a ≠ x → parentOf σ' a = parentOf σ a)
    (hR : ∀ a, a ≠ x → parentOf σ a = some g →
      rightOf σ' a = if a = l then some r else rightOf σ a)
    (hL : ∀ a, a ≠ x → parentOf σ a = some g →
      leftOf σ' a = if a = r then some l else leftOf σ a) :
    grp σ' g x = none ∧
    (∀ a al ar, a ≠ x → grp σ g a = some (al, ar) →
      grp σ' g a = some (if a = r then l else al, if a = l then r else ar)) ∧
    (∀ a, a ≠ x → grp σ g a = none → grp σ' g a = none) := by
  refine ⟨grp_fields_none hPx, ?_, ?_⟩
  · intro a al ar hax ha
    obtain ⟨h1, h2, h3⟩ := fields_of_grp ha
    apply grp_fields ((hP a hax).trans h1)
    · rw [hL a hax h1]
      split
      · rfl
      · exact h2
    · rw [hR a hax h1]
      split
      · rfl
      · exact h3
  · intro a hax ha
    apply grp_fields_none
    rw [hP a hax]
    exact parentOf_of_grp_none ha

/-- The node `x` leaves the group `g`. -/
theorem unlink_group {σ σ' : Nat → Option Node} {g : Option Nat} {c x l r : Nat}
    (hring : RingOk (grp σ g) (some c)) (hx : grp σ g x = some (l, r))
    (hPx : parentOf σ' x ≠ some g)
    (hP : ∀ a, a ≠ x → parentOf σ' a = parentOf σ a)
    (hR : ∀ a, a ≠ x → parentOf σ a = some g →
      rightOf σ' a = if a = l then some r else rightOf σ a)
    (hL : ∀ a, a ≠ x → parentOf σ a = some g →
      leftOf σ' a = if a = r then some l else leftOf σ a) :
    RingOk (grp σ' g) (if r = x then none else some (if c = x then r else c)) := by
  obtain ⟨h1, h2, h3⟩ := unlink_group_aux (l := l) (r := r) hPx hP hR hL
  exact hring.remove hx h1 h2 h3

/-- The node `x` leaves the group `g`: the links of the group stay
consistent. -/
theorem unlink_group_lr {σ σ' : Nat → Option Node} {g : Option Nat} {x l r : Nat}
    (hring : RingLR (grp σ g)) (hx : grp σ g x = some (l, r))
    (hPx : parentOf σ' x ≠ some g)
    (hP : ∀ a, a ≠ x → parentOf σ' a = parentOf σ a)
    (hR : ∀ a, a ≠ x → parentOf σ a = some g →
      rightOf σ' a = if a = l then some r else rightOf σ a)
    (hL : ∀ a, a ≠ x → parentOf σ a = some g →
      leftOf σ' a = if a = r then some l else leftOf σ a) :
    RingLR (grp σ' g) := by
  obtain ⟨h1, h2, h3⟩ := unlink_group_aux (l := l) (r := r) hPx hP hR hL
  exact hring.remove_lr hx h1 h2 h3

/-- A group none of whose members is touched stays as it is. -/
theorem keep_group {σ σ' : Nat → Option Node} {g : Option Nat} {c c' : Option Nat}
    (hring : RingOk (grp σ g) c) (hc : c' = c)
    (hP : ∀ a, parentOf σ a = some g ∨ parentOf σ' a = some g →
      parentOf σ' a = parentOf σ a ∧ leftOf σ' a = leftOf σ a ∧ rightOf σ' a = rightOf σ a) :
    RingOk (grp σ' g) c' := by
  refine hring.congr_ring ?_ hc
  intro a
  by_cases h1 : parentOf σ a = some g
  · obtain ⟨e1, e2, e3⟩ := hP a (Or.inl h1)
    exact grp_congr e1 e2 e3
  · by_cases h2 : parentOf σ' a = some g
    · obtain ⟨e1, _, _⟩ := hP a (Or.inr h2)
      rw [e1] at h2
      exact absurd h2 h1
    · rw [grp_fields_none h1, grp_fields_none h2]

theorem childOf_of_ptr {σ : Nat → Option Node} {p : Nat} {v : Option Nat}
    (h : childPtr σ p = some v) : childOf σ p = v := by
  obtain ⟨n, hn, e⟩ := childPtr_some h
  rw [childOf_of_some hn, e]

theorem parentOf_ne_of_some {σ : Nat → Option Node} {a : Nat} {n : Node} {g g' : Option Nat}
    (h : σ a = some n) (hp : n.parent = g) (hne : g ≠ g') : parentOf σ a ≠ some g' := by
  rw [parentOf_of_some h, hp]
  intro e
  exact hne (Option.some.inj e)

/-! ## `FibonacciHeap::cut` keeps the trees and the root list -/

theorem FibonacciHeap.cut_spec {h : FibonacciHeap} {dead : Option Nat} {m x y : Nat} {xn : Node}
    (hmin : h.min_node = some m) (hf : Forest (h.view dead) none)
    (hroots : RingOk (grp (h.view dead) none) (some m))
    (hx : h.view dead x = some xn) (hxp : xn.parent = some y) :
    ∃ h1, h.cut x y = .ok h1 ∧ h.Frame h1 ∧ Forest (h1.view dead) none ∧
      RingOk (grp (h1.view dead) none) (some m) ∧
      (∀ a, kv (h1.view dead) a = kv (h.view dead) a) ∧
      (∀ a, parentOf (h1.view dead) a =
        if a = x then some none else parentOf (h.view dead) a) := by
  obtain ⟨yn, hy⟩ := hf.parent_live hx hxp
  have hgy := hf.groups y (by simp)
  have hxg : grp (h.view dead) (some y) x = some (xn.left, xn.right) := grp_member hx hxp
  obtain ⟨c, hc, _⟩ := hgy.reach x _ hxg
  rw [childOf_of_some hy] at hc
  obtain ⟨ll, hl⟩ := hgy.left_ok x _ _ hxg
  obtain ⟨ln, hln, hlp, _⟩ := grp_some hl
  obtain ⟨rr, hr⟩ := hgy.right_ok x _ _ hxg
  obtain ⟨rn, hrn, hrp, _⟩ := grp_some hr
  obtain ⟨lrm, hm⟩ := hroots.anchor_in m rfl
  obtain ⟨mn, hmn, hmp, _⟩ := grp_some hm
  obtain ⟨mrr, hmr⟩ := hroots.right_ok m _ _ (grp_member hmn hmp)
  obtain ⟨mrn, hmrn, hmrp, _⟩ := grp_some hmr
  have hxm : x ≠ m := by
    intro e; rw [e, hmn] at hx; cases hx; rw [hmp] at hxp; cases hxp
  have hxmr : x ≠ mn.right := by
    intro e; rw [e, hmrn] at hx; cases hx; rw [hmrp] at hxp; cases hxp
  have hlm : xn.left ≠ m := by
    intro e; rw [e, hmn] at hln; cases hln; rw [hmp] at hlp; cases hlp
  have hrmr : xn.right ≠ mn.right := by
    intro e; rw [e, hmrn] at hrn; cases hrn; rw [hmrp] at hrp; cases hrp
  have hself : xn.right = x → xn.left = x := by
    intro e
    rw [e] at hxg
    exact hgy.toRingLR.right_self hxg
  obtain ⟨h1, e1, fr1, R, L, P, C, K⟩ := FibonacciHeap.cut_fields hmin
    (rightOf_of_some hmn) hmrn hx hy hln hrn hxm hxmr hlm
  have hPx : parentOf (h1.view dead) x = some none := by rw [P x, if_pos rfl]
  have hPne : ∀ a, a ≠ x → parentOf (h1.view dead) a = parentOf (h.view dead) a := by
    intro a hax; rw [P a, if_neg hax]
  have hnoroot : ∀ {a : Nat} {p : Nat}, parentOf (h.view dead) a = some (some p) →
      a ≠ m ∧ a ≠ mn.right := by
    intro a p ha
    constructor
    · intro e; rw [e, parentOf_of_some hmn, hmp] at ha; cases ha
    · intro e; rw [e, parentOf_of_some hmrn, hmrp] at ha; cases ha
  have hnoty : ∀ {a : Nat}, parentOf (h.view dead) a ≠ some (some y) →
      a ≠ xn.left ∧ a ≠ xn.right := by
    intro a ha
    constructor
    · intro e; rw [e, parentOf_of_some hln, hlp] at ha; exact ha rfl
    · intro e; rw [e, parentOf_of_some hrn, hrp] at ha; exact ha rfl
  refine ⟨h1, e1, fr1, ⟨?_, ?_⟩, ?_, K, P⟩
  · intro p _
    by_cases hpy : p = y
    · rw [hpy]
      have hcy : childOf (h1.view dead) y =
          (if xn.right = x then none else some (if c = x then xn.right else c)) := by
        have := C y
        rw [if_pos rfl] at this
        rw [childOf_of_ptr this, hc]
        by_cases e1 : xn.right = x
        · rw [if_pos e1, if_pos e1]
        · rw [if_neg e1, if_neg e1]
          by_cases e2 : c = x
          · rw [if_pos e2, if_pos (by rw [e2])]
          · rw [if_neg e2, if_neg (fun e => e2 (Option.some.inj e))]
      rw [hcy]
      have hgy' : RingOk (grp (h.view dead) (some y)) (some c) := by
        rw [← hc, ← childOf_of_some hy]; exact hgy
      refine unlink_group hgy' hxg (by rw [hPx]; simp) hPne ?_ ?_
      · intro a hax hpa
        obtain ⟨h1', _⟩ := hnoroot hpa
        rw [R a, if_neg h1', if_neg hax]
        by_cases e : xn.right = x
        · have : a ≠ xn.left := by rw [hself e]; exact hax
          rw [if_neg (fun hh => this hh.2), if_neg this]
        · by_cases e2 : a = xn.left
          · rw [if_pos ⟨e, e2⟩, if_pos e2]
          · rw [if_neg (fun hh => e2 hh.2), if_neg e2]
      · intro a hax hpa
        obtain ⟨_, h2'⟩ := hnoroot hpa
        rw [L a, if_neg h2', if_neg hax]
        by_cases e : xn.right = x
        · have : a ≠ xn.right := by rw [e]; exact hax
          rw [if_neg (fun hh => this hh.2), if_neg this]
        · by_cases e2 : a = xn.right
          · rw [if_pos ⟨e, e2⟩, if_pos e2]
          · rw [if_neg (fun hh => e2 hh.2), if_neg e2]
    · refine keep_group (hf.groups p (by simp)) ?_ ?_
      · apply childOf_ptr
        rw [C p, if_neg hpy]
      · intro a ha
        have hax : a ≠ x := by
          intro e
          rw [e] at ha
          cases ha with
          | inl h0 =>
            rw [parentOf_of_some hx, hxp] at h0
            exact hpy (Option.some.inj (Option.some.inj h0)).symm
          | inr h0 => rw [hPx] at h0; cases h0
        have hpa : parentOf (h.view dead) a = some (some p) := by
          cases ha with
          | inl h0 => exact h0
          | inr h0 => rw [hPne a hax] at h0; exact h0
        obtain ⟨h1', h2'⟩ := hnoroot hpa
        have hny : parentOf (h.view dead) a ≠ some (some y) := by
          rw [hpa]; intro e; exact hpy (Option.some.inj (Option.some.inj e))
        obtain ⟨h3', h4'⟩ := hnoty hny
        refine ⟨hPne a hax, ?_, ?_⟩
        · rw [L a, if_neg h2', if_neg hax, if_neg (fun hh => h4' hh.2)]
        · rw [R a, if_neg h1', if_neg hax, if_neg (fun hh => h3' hh.2)]
  · intro a n' ha
    obtain ⟨n, hn, _⟩ := live_of_kv ((K a).symm) ha
    refine Rooted.mono_fields ?_ (hf.rooted a n hn)
    intro b bn _
    by_cases hbx : b = x
    · right; rw [hbx]; exact hPx
    · left; exact hPne b hbx
  · refine splice_group hroots (parentOf_ne_of_some hx hxp (by simp))
      (rightOf_of_some hmn) hPx ?_ ?_ hPne ?_ ?_
    · rw [L x, if_neg hxmr, if_pos rfl]
    · rw [R x, if_neg hxm, if_pos rfl]
    · intro a hax hpa
      have hny : parentOf (h.view dead) a ≠ some (some y) := by rw [hpa]; simp
      obtain ⟨h3', _⟩ := hnoty hny
      rw [R a]
      by_cases e : a = m
      · rw [if_pos e, if_pos e]
      · rw [if_neg e, if_neg e, if_neg hax, if_neg (fun hh => h3' hh.2)]
    · intro a hax hpa
      have hny : parentOf (h.view dead) a ≠ some (some y) := by rw [hpa]; simp
      obtain ⟨_, h4'⟩ := hnoty hny
      rw [L a]
      by_cases e : a = mn.right
      · rw [if_pos e, if_pos e]
      · rw [if_neg e, if_neg e, if_neg hax, if_neg (fun hh => h4' hh.2)]

/-! ## `FibonacciHeap::cascading_cut` -/

theorem live_of_parentOf {σ σ' : Nat → Option Node} {a : Nat} {n' : Node}
    (hP : parentOf σ' a = parentOf σ a) (ha : σ' a = some n') :
    ∃ n, σ a = some n ∧ n.parent = n'.parent := by
  rw [parentOf_of_some ha] at hP
  exact parentOf_some hP.symm

/-- The trees are read off the parent, `left`, `right` and `child` fields. -/
theorem Forest.of_fields_forest {σ σ' : Nat → Option Node} {skip : Option Nat} (hf : Forest σ skip)
    (hP : ∀ a, parentOf σ' a = parentOf σ a) (hL : ∀ a, leftOf σ' a = leftOf σ a)
    (hR : ∀ a, rightOf σ' a = rightOf σ a) (hC : ∀ a, childPtr σ' a = childPtr σ a) :
    Forest σ' skip := by
  refine ⟨?_, ?_⟩
  · intro p hs
    exact keep_group (hf.groups p hs) (childOf_ptr (hC p)) (fun a _ => ⟨hP a, hL a, hR a⟩)
  · intro a n' ha
    obtain ⟨n, hn, _⟩ := live_of_parentOf (hP a) ha
    exact Rooted.mono_fields (fun b _ _ => Or.inl (hP b)) (hf.rooted a n hn)

theorem RingOk.of_fields_ring {σ σ' : Nat → Option Node} {g c : Option Nat}
    (hr : RingOk (grp σ g) c)
    (hP : ∀ a, parentOf σ' a = parentOf σ a) (hL : ∀ a, leftOf σ' a = leftOf σ a)
    (hR : ∀ a, rightOf σ' a = rightOf σ a) : RingOk (grp σ' g) c :=
  keep_group hr rfl (fun a _ => ⟨hP a, hL a, hR a⟩)

theorem Edit.forest {σ σ' : Nat → Option Node} {skip : Option Nat} {p : Nat}
    (h : Edit σ σ' p none none none none) (hf : Forest σ skip) : Forest σ' skip :=
  hf.of_fields_forest h.parent h.left h.right h.child

theorem Edit.ring {σ σ' : Nat → Option Node} {g c : Option Nat} {p : Nat}
    (h : Edit σ σ' p none none none none) (hr : RingOk (grp σ g) c) : RingOk (grp σ' g) c :=
  hr.of_fields_ring h.parent h.left h.right

theorem FibonacciHeap.cascading_cut_spec {dead : Option Nat} {m : Nat} :
    ∀ (fuel : Nat) (h h1 : FibonacciHeap) (y : Nat) (yn : Node),
      h.min_node = some m → Forest (h.view dead) none →
      RingOk (grp (h.view dead) none) (some m) → h.view dead y = some yn →
      FibonacciHeap.cascading_cut fuel h y = .ok h1 →
      h.Frame h1 ∧ Forest (h1.view dead) none ∧ RingOk (grp (h1.view dead) none) (some m) ∧
        (∀ a, kv (h1.view dead) a = kv (h.view dead) a) ∧
        (∀ a, parentOf (h1.view dead) a = parentOf (h.view dead) a ∨
          parentOf (h1.view dead) a = some none) := by
  intro fuel
  induction fuel with
  | zero =>
    intro h h1 y yn _ _ _ _ hc
    simp [FibonacciHeap.cascading_cut] at hc
  | succ fuel ih =>
    intro h h1 y yn hmin hf hroots hy hc
    unfold FibonacciHeap.cascading_cut at hc
    rw [FibonacciHeap.deref_ok hy] at hc
    simp only [ok_bind] at hc
    cases hp : yn.parent with
    | none =>
      rw [hp] at hc
      simp only at hc
      cases hc
      exact ⟨FibonacciHeap.Frame.refl h, hf, hroots, fun _ => rfl, fun _ => Or.inl rfl⟩
    | some z =>
      rw [hp] at hc
      simp only at hc
      by_cases hmk : yn.marked = true
      · rw [hmk] at hc
        simp only [Bool.not_true, Bool.false_eq_true, if_false] at hc
        obtain ⟨h2, e2, fr2, hf2, hr2, K2, P2⟩ := FibonacciHeap.cut_spec hmin hf hroots hy hp
        rw [e2] at hc
        simp only [ok_bind] at hc
        obtain ⟨zn, hz⟩ := hf.parent_live hy hp
        obtain ⟨zn2, hz2, _⟩ := live_of_kv (K2 z) hz
        obtain ⟨fr3, hf3, hr3, K3, P3⟩ := ih h2 h1 z zn2 (fr2.1.trans hmin) hf2 hr2 hz2 hc
        refine ⟨fr2.trans fr3, hf3, hr3, fun a => (K3 a).trans (K2 a), ?_⟩
        intro a
        cases P3 a with
        | inl e =>
          rw [e, P2 a]
          by_cases hay : a = y
          · right; rw [if_pos hay]
          · left; rw [if_neg hay]
        | inr e => exact Or.inr e
      · have hmk' : yn.marked = false := by
          cases hb : yn.marked with
          | true => exact absurd hb hmk
          | false => rfl
        rw [hmk'] at hc
        simp only [Bool.not_false, if_true] at hc
        obtain ⟨h2, e2, fr2, ed2⟩ := FibonacciHeap.store_aux
          (fun n => { n with marked := true })
          (fun n => ⟨rfl, rfl, rfl, rfl, rfl, rfl⟩) hy
        rw [e2] at hc
        cases hc
        exact ⟨fr2, ed2.forest hf, ed2.ring hroots, ed2.kv, fun a => Or.inl (ed2.parent a)⟩

/-! ## `FibonacciHeap::decrease_key` keeps the invariant -/

theorem Tabled.congr_vertex {N : Nat} {tab : List (Option Nat)} {σ σ' : Nat → Option Node}
    (h : Tabled N tab σ)
    (hk : ∀ a, (kv σ' a).map Prod.snd = (kv σ a).map Prod.snd) : Tabled N tab σ' := by
  refine ⟨h.1, ?_⟩
  intro v
  cases h.2 v with
  | inl e =>
    obtain ⟨e1, n, e2, e3⟩ := e
    have := hk v
    rw [kv_of_some e2] at this
    cases hs : σ' v with
    | none => rw [kv_of_none hs] at this; cases this
    | some n' =>
      rw [kv_of_some hs] at this
      have h3 : n'.vertex = n.vertex := Option.some.inj this
      exact Or.inl ⟨e1, n', rfl, h3.trans e3⟩
  | inr e =>
    have := hk v
    rw [kv_of_none e.2] at this
    cases hs : σ' v with
    | none => exact Or.inr ⟨e.1, rfl⟩
    | some n' => rw [kv_of_some hs] at this; cases this

/-- Heap order after restructuring that keeps keys and keeps or clears
parent fields, when order held except above `v` and `v` ends parentless. -/
theorem HeapOrder.of_kept {σ σ' : Nat → Option Node} {v : Nat}
    (ho : ∀ (a p : Nat) (n pn : Node), a ≠ v → σ a = some n → n.parent = some p →
      σ p = some pn → pn.key ≤ n.key)
    (K : ∀ a, kv σ' a = kv σ a)
    (P : ∀ a, parentOf σ' a = parentOf σ a ∨ parentOf σ' a = some none)
    (hv : parentOf σ' v = some none) : HeapOrder σ' := by
  intro a p n' pn' ha hp hpn
  have hav : a ≠ v := by
    intro e
    rw [e] at ha
    rw [parentOf_of_some ha, hp] at hv
    cases hv
  obtain ⟨n, hn, hk1, _⟩ := live_of_kv ((K a).symm) ha
  obtain ⟨pn, hpn0, hk2, _⟩ := live_of_kv ((K p).symm) hpn
  have hpar : n.parent = some p := by
    cases P a with
    | inl e =>
      rw [parentOf_of_some ha, parentOf_of_some hn, hp] at e
      exact (Option.some.inj e).symm
    | inr e =>
      rw [parentOf_of_some ha, hp] at e
      cases e
  have := ho a p n pn hav hn hpar hpn0
  rw [hk1, hk2] at this
  exact this

/-- The assignment `p->key = k`. -/
theorem FibonacciHeap.store_key {h : FibonacciHeap} {dead : Option Nat} {p : Nat} {n : Node}
    (k : Int) (hv : h.view dead p = some n) :
    ∃ h1, h.store p (fun x => { x with key := k }) = .ok h1 ∧ h.Frame h1 ∧
      (∀ a, h1.view dead a = if a = p then some { n with key := k } else h.view dead a) ∧
      (∀ a, leftOf (h1.view dead) a = leftOf (h.view dead) a) ∧
      (∀ a, rightOf (h1.view dead) a = rightOf (h.view dead) a) ∧
      (∀ a, parentOf (h1.view dead) a = parentOf (h.view dead) a) ∧
      (∀ a, childPtr (h1.view dead) a = childPtr (h.view dead) a) ∧
      (∀ a, kv (h1.view dead) a = if a = p then some (k, n.vertex) else kv (h.view dead) a) := by
  obtain ⟨h1, e1, fr, v1⟩ := FibonacciHeap.store_step (fun x => { x with key := k }) hv
  exact ⟨h1, e1, fr, v1, map_step_same _ v1 hv rfl, map_step_same _ v1 hv rfl,
    map_step_same _ v1 hv rfl, map_step_same _ v1 hv rfl,
    map_step (fun n => (n.key, n.vertex)) v1⟩

/-- The last step of `decrease_key`, the update of `min_node`. -/
theorem FibonacciHeap.Inv.of_decrease {N : Nat} {h h2 h1 : FibonacciHeap} {m v : Nat} {k : Int}
    {n mn : Node} (hinv : h.Inv N) (hmin : h.min_node = some m)
    (hv : h.view none v = some n) (hm : h.view none m = some mn) (hk : k ≤ n.key)
    (fr : h.Frame h2) (hf : Forest (h2.view none) none)
    (hr : RingOk (grp (h2.view none) none) (some m))
    (K : ∀ a, kv (h2.view none) a = if a = v then some (k, n.vertex) else kv (h.view none) a)
    (ho : HeapOrder (h2.view none))
    (hB : parentOf (h2.view none) v = some none ∨ mn.key ≤ k)
    (hd : (match h2.min_node with
      | none => Except.ok { h2 with min_node := some v }
      | some m => do
        let n ← h2.deref v
        let mn ← h2.deref m
        Except.ok (if n.key < mn.key then { h2 with min_node := some v } else h2)) = .ok h1) :
    h1.Inv N := by
  obtain ⟨fr1, fr2, fr3, fr4⟩ := fr
  rw [fr1, hmin] at hd
  simp only at hd
  have hKv := K v
  rw [if_pos rfl] at hKv
  obtain ⟨n2, hn2, hn2k⟩ := kv_some hKv
  have hn2key : n2.key = k := (congrArg Prod.fst hn2k).symm
  have hlow : ∀ a na, h.view none a = some na → mn.key ≤ na.key := by
    intro a na ha
    obtain ⟨m0, mn0, e1, e2, _, e4⟩ := hinv.min_le.lower hinv.forest hinv.order hinv.roots ha
    rw [hmin] at e1; cases e1
    rw [hm] at e2; cases e2
    exact e4
  have hmk : ∀ mn2, h2.view none m = some mn2 → mn2.key ≤ mn.key := by
    intro mn2 hmn2
    have hKm := K m
    rw [kv_of_some hmn2] at hKm
    by_cases hmv : m = v
    · rw [if_pos hmv] at hKm
      have e : mn2.key = k := congrArg Prod.fst (Option.some.inj hKm)
      rw [hmv, hv] at hm
      cases hm
      rw [e]; exact hk
    · rw [if_neg hmv, kv_of_some hm] at hKm
      have e : mn2.key = mn.key := congrArg Prod.fst (Option.some.inj hKm)
      exact le_of_eq e
  obtain ⟨mn2, hmn2⟩ : ∃ mn2, h2.view none m = some mn2 := by
    obtain ⟨lr, hlr⟩ := hr.anchor_in m rfl
    obtain ⟨mn2, h1', _⟩ := grp_some hlr
    exact ⟨mn2, h1'⟩
  rw [FibonacciHeap.deref_ok hn2, FibonacciHeap.deref_ok hmn2] at hd
  simp only [ok_bind] at hd
  have htab : Tabled N h2.node_table (h2.view none) := by
    rw [fr3]
    refine hinv.tabled.congr_vertex ?_
    intro a
    rw [K a]
    split
    · rename_i hav
      rw [hav, kv_of_some hv]; rfl
    · rfl
  have hrootkey : ∀ a na, h2.view none a = some na → na.parent = none → a ≠ v →
      mn.key ≤ na.key := by
    intro a na ha _ hav
    have hKa := K a
    rw [if_neg hav, kv_of_some ha] at hKa
    obtain ⟨na0, h0, h1'⟩ := kv_some hKa.symm
    have e : na.key = na0.key := congrArg Prod.fst h1'
    rw [e]
    exact hlow a na0 h0
  by_cases hlt : n2.key < mn2.key
  · rw [if_pos hlt] at hd
    cases hd
    have hvroot : parentOf (h2.view none) v = some none := by
      cases hB with
      | inl e => exact e
      | inr e =>
        exfalso
        have := hmk mn2 hmn2
        omega
    refine ⟨fr4.trans hinv.mem_len, htab, hf, ho, ?_, ?_⟩
    · show RingOk (grp (h2.view none) none) (some v)
      obtain ⟨nv, hnv, hnvp⟩ := parentOf_some hvroot
      exact hr.reanchor _ (grp_member hnv hnvp)
    · show MinLe (h2.view none) (some v)
      intro m0 a kn na hm0 hkn ha hpar
      cases hm0
      rw [hn2] at hkn; cases hkn
      by_cases hav : a = v
      · rw [hav, hn2] at ha; cases ha; exact le_refl _
      · have h1' := hrootkey a na ha hpar hav
        have h2' := hmk mn2 hmn2
        omega
  · rw [if_neg hlt] at hd
    cases hd
    refine ⟨fr4.trans hinv.mem_len, htab, hf, ho, ?_, ?_⟩
    · rw [fr1, hmin]; exact hr
    · rw [fr1, hmin]
      intro m0 a kn na hm0 hkn ha hpar
      cases hm0
      rw [hmn2] at hkn; cases hkn
      by_cases hav : a = v
      · rw [hav, hn2] at ha; cases ha; omega
      · have h1' := hrootkey a na ha hpar hav
        have h2' := hmk mn2 hmn2
        omega

/-- Heap order after `node->key = k` with `k` no greater than the key, except
between the node and its parent. -/
theorem HeapOrder.decrease {σ σ' : Nat → Option Node} {v : Nat} {n : Node} {k : Int}
    (ho : HeapOrder σ) (hv : σ v = some n) (hk : k ≤ n.key)
    (hσ : ∀ a, σ' a = if a = v then some { n with key := k } else σ a) :
    ∀ (a p : Nat) (na pn : Node), a ≠ v → σ' a = some na → na.parent = some p →
      σ' p = some pn → pn.key ≤ na.key := by
  intro a p na pn hav ha hp hpn
  rw [hσ a, if_neg hav] at ha
  rw [hσ p] at hpn
  split at hpn
  · rename_i hpv
    cases hpn
    have := ho a p na n ha hp (hpv ▸ hv)
    exact le_trans hk this
  · exact ho a p na pn ha hp hpn

/-- No node is its own parent. -/
theorem Rooted.irrefl {σ : Nat → Option Node} {a : Nat} (h : Rooted σ a) :
    ∀ n, σ a = some n → n.parent ≠ some a := by
  induction h with
  | root a n ha hp =>
    intro n1 h1 e
    rw [ha] at h1; cases h1
    rw [hp] at e; cases e
  | child a n p ha hp _ ih =>
    intro n1 h1 e
    rw [ha] at h1; cases h1
    rw [hp] at e
    have hpa : p = a := Option.some.inj e
    rw [hpa] at ih
    exact ih n ha (hpa ▸ hp)

theorem FibonacciHeap.Inv.decrease_key {N : Nat} {h h1 : FibonacciHeap} {v : Nat} {k : Int}
    (hinv : h.Inv N) (hd : h.decrease_key v k = .ok h1) : h1.Inv N := by
  unfold FibonacciHeap.decrease_key at hd
  cases htab : h.node_table[v]? with
  | none => rw [htab] at hd; cases hd
  | some o =>
    cases o with
    | none => rw [htab] at hd; cases hd; exact hinv
    | some node =>
      rw [htab] at hd
      simp only at hd
      obtain ⟨hnode, n, hv⟩ : node = v ∧ ∃ n, h.view none v = some n := by
        cases hinv.tabled.2 v with
        | inl e =>
          rw [htab] at e
          exact ⟨Option.some.inj (Option.some.inj e.1), e.2.imp (fun _ hn => hn.1)⟩
        | inr e =>
          rw [htab] at e
          cases e.1 with
          | inl e1 => cases e1
          | inr e1 => cases e1
      rw [hnode] at hd
      rw [FibonacciHeap.deref_ok hv] at hd
      simp only [ok_bind] at hd
      by_cases hgt : k > n.key
      · rw [if_pos hgt] at hd
        cases hd
        exact hinv
      · rw [if_neg hgt] at hd
        have hk : k ≤ n.key := le_of_not_lt hgt
        obtain ⟨m0, mn, hmin, hm, hmp, hmle⟩ :=
          hinv.min_le.lower hinv.forest hinv.order hinv.roots hv
        have hroots : RingOk (grp (h.view none) none) (some m0) := hmin ▸ hinv.roots
        obtain ⟨h2, e2, fr2, v2, L2, R2, P2, C2, K2⟩ := FibonacciHeap.store_key k hv
        rw [e2] at hd
        simp only [ok_bind] at hd
        have hv2 := v2 v
        rw [if_pos rfl] at hv2
        rw [FibonacciHeap.deref_ok hv2] at hd
        simp only [ok_bind] at hd
        have hf2 : Forest (h2.view none) none := hinv.forest.of_fields_forest P2 L2 R2 C2
        have hr2 : RingOk (grp (h2.view none) none) (some m0) := hroots.of_fields_ring P2 L2 R2
        have hex2 := hinv.order.decrease hv hk v2
        have hlow : ∀ a na, h.view none a = some na → mn.key ≤ na.key := by
          intro a na ha
          obtain ⟨m1, mn1, e1, e2', _, e4⟩ :=
            hinv.min_le.lower hinv.forest hinv.order hinv.roots ha
          rw [hmin] at e1; cases e1
          rw [hm] at e2'; cases e2'
          exact e4
        cases hpar : n.parent with
        | none =>
          rw [hpar] at hd
          simp only [ok_bind] at hd
          refine FibonacciHeap.Inv.of_decrease hinv hmin hv hm hk fr2 hf2 hr2 K2 ?_ ?_ ?_
          · intro a p na pn ha hp hpn
            by_cases hav : a = v
            · rw [hav, hv2] at ha
              cases ha
              rw [hpar] at hp
              cases hp
            · exact hex2 a p na pn hav ha hp hpn
          · left
            rw [parentOf_of_some hv2]
            exact congrArg some hpar
          · rw [FibonacciHeap.deref_ok hv2]
            simp only [ok_bind]
            exact hd
        | some parent =>
          rw [hpar] at hd
          simp only at hd
          obtain ⟨pn, hpn⟩ := hinv.forest.parent_live hv hpar
          obtain ⟨pn2, hpn2⟩ : ∃ pn2, h2.view none parent = some pn2 := by
            rw [v2 parent]
            split
            · exact ⟨_, rfl⟩
            · exact ⟨pn, hpn⟩
          rw [FibonacciHeap.deref_ok hpn2] at hd
          simp only [ok_bind] at hd
          by_cases hlt : k < pn2.key
          · rw [if_pos hlt] at hd
            obtain ⟨h3, e3, fr3, hf3, hr3, K3, P3⟩ := FibonacciHeap.cut_spec
              (fr2.1.trans hmin) hf2 hr2 hv2 hpar
            rw [e3] at hd
            simp only [ok_bind] at hd
            obtain ⟨pn3, hpn3, _⟩ := live_of_kv (K3 parent) hpn2
            cases hcc : FibonacciHeap.cascading_cut (h3.mem.length + 1) h3 parent with
            | error e => rw [hcc] at hd; cases hd
            | ok h4 =>
              rw [hcc] at hd
              simp only [ok_bind] at hd
              obtain ⟨fr4, hf4, hr4, K4, P4⟩ := FibonacciHeap.cascading_cut_spec _ h3 h4 parent
                pn3 ((fr2.trans fr3).1.trans hmin) hf3 hr3 hpn3 hcc
              have hPv : parentOf (h4.view none) v = some none := by
                cases P4 v with
                | inl e => rw [e, P3 v, if_pos rfl]
                | inr e => exact e
              refine FibonacciHeap.Inv.of_decrease hinv hmin hv hm hk
                ((fr2.trans fr3).trans fr4) hf4 hr4 ?_ ?_ (Or.inl hPv) hd
              · intro a
                rw [K4 a, K3 a, K2 a]
              · refine HeapOrder.of_kept hex2 (fun a => (K4 a).trans (K3 a)) ?_ hPv
                intro a
                cases P4 a with
                | inl e =>
                  rw [e, P3 a]
                  by_cases hav : a = v
                  · right; rw [if_pos hav]
                  · left; rw [if_neg hav]
                | inr e => exact Or.inr e
          · rw [if_neg hlt] at hd
            refine FibonacciHeap.Inv.of_decrease hinv hmin hv hm hk fr2 hf2 hr2 K2 ?_ ?_ ?_
            rotate_right
            · rw [FibonacciHeap.deref_ok hv2]
              simp only [ok_bind]
              exact hd
            · intro a p na pn' ha hp hpn'
              by_cases hav : a = v
              · rw [hav, hv2] at ha
                cases ha
                rw [hpar] at hp
                cases hp
                rw [hpn2] at hpn'
                cases hpn'
                exact le_of_not_lt hlt
              · exact hex2 a p na pn' hav ha hp hpn'
            · right
              have hne : parent ≠ v := fun e =>
                (hinv.forest.rooted v n hv).irrefl n hv (e ▸ hpar)
              have h1' : mn.key ≤ pn2.key := by
                rw [v2 parent, if_neg hne] at hpn2
                exact hlow parent pn2 hpn2
              have h2' := le_of_not_lt hlt
              exact le_trans h1' h2'

/-! ## `FibonacciHeap::link` -/

/-- The two assignments that take `y` out of its sibling list,
`y->left->right = y->right; y->right->left = y->left`. -/
theorem FibonacciHeap.unlink_fields {h : FibonacciHeap} {dead : Option Nat}
    {y : Nat} {yn ln rn : Node}
    (hy : h.view dead y = some yn)
    (hl : h.view dead yn.left = some ln) (hr : h.view dead yn.right = some rn) :
    ∃ h1, (∀ {α : Type} (k : FibonacciHeap → Except Fault α), (do
        let yn ← h.deref y
        let h ← h.store yn.left (fun n => { n with right := yn.right })
        let yn ← h.deref y
        let h ← h.store yn.right (fun n => { n with left := yn.left })
        k h) = k h1) ∧ h.Frame h1 ∧
      (∀ a, rightOf (h1.view dead) a =
        if a = yn.left then some yn.right else rightOf (h.view dead) a) ∧
      (∀ a, leftOf (h1.view dead) a =
        if a = yn.right then some yn.left else leftOf (h.view dead) a) ∧
      (∀ a, parentOf (h1.view dead) a = parentOf (h.view dead) a) ∧
      (∀ a, childPtr (h1.view dead) a = childPtr (h.view dead) a) ∧
      (∀ a, kv (h1.view dead) a = kv (h.view dead) a) := by
  obtain ⟨h1, e1, fr1, ed1⟩ := FibonacciHeap.store_right yn.right hl
  obtain ⟨yn1, hy1⟩ := ed1.live hy
  have hy1r : yn1.right = yn.right := by
    have := ed1.right y
    rw [rightOf_of_some hy1, upd_some, rightOf_of_some hy] at this
    split at this <;> exact Option.some.inj this
  have hy1l : yn1.left = yn.left := by
    have := ed1.left y
    rw [leftOf_of_some hy1, upd_none, leftOf_of_some hy] at this
    exact Option.some.inj this
  obtain ⟨rn1, hr1⟩ := ed1.live hr
  obtain ⟨h2, e2, fr2, ed2⟩ := FibonacciHeap.store_left yn.left hr1
  refine ⟨h2, ?_, fr1.trans fr2, ?_, ?_, ?_, ?_, ?_⟩
  · intro α k
    rw [FibonacciHeap.deref_ok hy]; simp only [ok_bind]
    rw [e1]; simp only [ok_bind]
    rw [FibonacciHeap.deref_ok hy1]; simp only [ok_bind]
    rw [hy1r, hy1l, e2]; simp only [ok_bind]
  · intro a
    rw [ed2.right a, ed1.right a]
    simp only [upd_none, upd_some]
  · intro a
    rw [ed2.left a, ed1.left a]
    simp only [upd_none, upd_some]
  · intro a
    rw [ed2.parent a, ed1.parent a]
    simp only [upd_none]
  · intro a
    rw [ed2.child a, ed1.child a]
    simp only [upd_none]
  · intro a
    rw [ed2.kv a, ed1.kv a]

/-- The last two assignments of `link`, `x->degree++; y->marked = false`. -/
theorem FibonacciHeap.link_tail {h : FibonacciHeap} {dead : Option Nat}
    {x y : Nat} {xn yn : Node}
    (hx : h.view dead x = some xn) (hy : h.view dead y = some yn) :
    ∃ h1, (do
        let h ← h.store x (fun n => { n with degree := wrap32 (n.degree + 1) })
        h.store y (fun n => { n with marked := false })) = .ok h1 ∧ h.Frame h1 ∧
      (∀ a, rightOf (h1.view dead) a = rightOf (h.view dead) a) ∧
      (∀ a, leftOf (h1.view dead) a = leftOf (h.view dead) a) ∧
      (∀ a, parentOf (h1.view dead) a = parentOf (h.view dead) a) ∧
      (∀ a, childPtr (h1.view dead) a = childPtr (h.view dead) a) ∧
      (∀ a, kv (h1.view dead) a = kv (h.view dead) a) := by
  obtain ⟨h1, e1, fr1, ed1⟩ := FibonacciHeap.store_aux
    (fun n => { n with degree := wrap32 (n.degree + 1) })
    (fun n => ⟨rfl, rfl, rfl, rfl, rfl, rfl⟩) hx
  rw [e1]; simp only [ok_bind]
  obtain ⟨yn1, hy1⟩ := ed1.live hy
  obtain ⟨h2, e2, fr2, ed2⟩ := FibonacciHeap.store_aux
    (fun n => { n with marked := false })
    (fun n => ⟨rfl, rfl, rfl, rfl, rfl, rfl⟩) hy1
  rw [e2]
  refine ⟨h2, rfl, fr1.trans fr2, ?_, ?_, ?_, ?_, ?_⟩
  · intro a; rw [ed2.right a, ed1.right a]; rfl
  · intro a; rw [ed2.left a, ed1.left a]; rfl
  · intro a; rw [ed2.parent a, ed1.parent a]; rfl
  · intro a; rw [ed2.child a, ed1.child a]; rfl
  · intro a; rw [ed2.kv a, ed1.kv a]

/-- The state after `link(y, x)` when `x` has no child, on the field maps. -/
theorem FibonacciHeap.link_fields_none {h : FibonacciHeap} {dead : Option Nat}
    {x y : Nat} {xn yn ln rn : Node}
    (hx : h.view dead x = some xn) (hy : h.view dead y = some yn)
    (hl : h.view dead yn.left = some ln) (hr : h.view dead yn.right = some rn)
    (hc : xn.child = none) :
    ∃ h1, h.link y x = .ok h1 ∧ h.Frame h1 ∧
      (∀ a, rightOf (h1.view dead) a =
        if a = y then some y else if a = yn.left then some yn.right
        else rightOf (h.view dead) a) ∧
      (∀ a, leftOf (h1.view dead) a =
        if a = y then some y else if a = yn.right then some yn.left
        else leftOf (h.view dead) a) ∧
      (∀ a, parentOf (h1.view dead) a =
        if a = y then some (some x) else parentOf (h.view dead) a) ∧
      (∀ a, childPtr (h1.view dead) a =
        if a = x then some (some y) else childPtr (h.view dead) a) ∧
      (∀ a, kv (h1.view dead) a = kv (h.view dead) a) := by
  unfold FibonacciHeap.link
  obtain ⟨h1, e1, fr1, R1, L1, P1, C1, K1⟩ := FibonacciHeap.unlink_fields hy hl hr
  rw [e1]
  obtain ⟨yn1, hy1, _⟩ := live_of_kv (K1 y) hy
  obtain ⟨h2, e2, fr2, ed2⟩ := FibonacciHeap.store_parent (some x) hy1
  rw [e2]; simp only [ok_bind]
  obtain ⟨xn1, hx1, _⟩ := live_of_kv (K1 x) hx
  obtain ⟨xn2, hx2⟩ := ed2.live hx1
  have hx2c : xn2.child = none := by
    have := ed2.child x
    rw [childPtr_of_some hx2, upd_none, C1 x, childPtr_of_some hx, hc] at this
    exact Option.some.inj this
  rw [FibonacciHeap.deref_ok hx2]; simp only [ok_bind]
  rw [hx2c]
  simp only
  obtain ⟨h3, e3, fr3, ed3⟩ := FibonacciHeap.store_child (some y) hx2
  rw [e3]; simp only [ok_bind]
  obtain ⟨yn2, hy2⟩ := ed2.live hy1
  obtain ⟨yn3, hy3⟩ := ed3.live hy2
  obtain ⟨h4, e4, fr4, ed4⟩ := FibonacciHeap.store_right y hy3
  rw [e4]; simp only [ok_bind]
  obtain ⟨yn4, hy4⟩ := ed4.live hy3
  obtain ⟨h5, e5, fr5, ed5⟩ := FibonacciHeap.store_left y hy4
  rw [e5]; simp only [ok_bind]
  obtain ⟨xn3, hx3⟩ := ed3.live hx2
  obtain ⟨xn4, hx4⟩ := ed4.live hx3
  obtain ⟨xn5, hx5⟩ := ed5.live hx4
  obtain ⟨yn5, hy5⟩ := ed5.live hy4
  obtain ⟨h6, e6, fr6, R6, L6, P6, C6, K6⟩ := FibonacciHeap.link_tail hx5 hy5
  refine ⟨h6, e6, ((((fr1.trans fr2).trans fr3).trans fr4).trans fr5).trans fr6,
    ?_, ?_, ?_, ?_, ?_⟩
  · intro a
    rw [R6 a, ed5.right a, ed4.right a, ed3.right a, ed2.right a, R1 a]
    simp only [upd_none, upd_some]
  · intro a
    rw [L6 a, ed5.left a, ed4.left a, ed3.left a, ed2.left a, L1 a]
    simp only [upd_none, upd_some]
  · intro a
    rw [P6 a, ed5.parent a, ed4.parent a, ed3.parent a, ed2.parent a, P1 a]
    simp only [upd_none, upd_some]
  · intro a
    rw [C6 a, ed5.child a, ed4.child a, ed3.child a, ed2.child a, C1 a]
    simp only [upd_none, upd_some]
  · intro a
    rw [K6 a, ed5.kv a, ed4.kv a, ed3.kv a, ed2.kv a, K1 a]

/-- The state after `link(y, x)` when `x` has the child `c`, on the field
maps. -/
theorem FibonacciHeap.link_fields_some {h : FibonacciHeap} {dead : Option Nat}
    {x y c cr : Nat} {xn yn ln rn crn : Node}
    (hx : h.view dead x = some xn) (hy : h.view dead y = some yn)
    (hl : h.view dead yn.left = some ln) (hr : h.view dead yn.right = some rn)
    (hc : xn.child = some c) (hcr : rightOf (h.view dead) c = some cr)
    (hcrn : h.view dead cr = some crn) (hcy : c ≠ y) (hcl : c ≠ yn.left) :
    ∃ h1, h.link y x = .ok h1 ∧ h.Frame h1 ∧
      (∀ a, rightOf (h1.view dead) a =
        if a = c then some y else if a = y then some cr
        else if a = yn.left then some yn.right else rightOf (h.view dead) a) ∧
      (∀ a, leftOf (h1.view dead) a =
        if a = cr then some y else if a = y then some c
        else if a = yn.right then some yn.left else leftOf (h.view dead) a) ∧
      (∀ a, parentOf (h1.view dead) a =
        if a = y then some (some x) else parentOf (h.view dead) a) ∧
      (∀ a, childPtr (h1.view dead) a = childPtr (h.view dead) a) ∧
      (∀ a, kv (h1.view dead) a = kv (h.view dead) a) := by
  obtain ⟨cn, hcn, _⟩ := rightOf_some hcr
  unfold FibonacciHeap.link
  obtain ⟨h1, e1, fr1, R1, L1, P1, C1, K1⟩ := FibonacciHeap.unlink_fields hy hl hr
  rw [e1]
  obtain ⟨yn1, hy1, _⟩ := live_of_kv (K1 y) hy
  obtain ⟨h2, e2, fr2, ed2⟩ := FibonacciHeap.store_parent (some x) hy1
  rw [e2]; simp only [ok_bind]
  obtain ⟨xn1, hx1, _⟩ := live_of_kv (K1 x) hx
  obtain ⟨xn2, hx2⟩ := ed2.live hx1
  have hx2c : xn2.child = some c := by
    have := ed2.child x
    rw [childPtr_of_some hx2, upd_none, C1 x, childPtr_of_some hx, hc] at this
    exact Option.some.inj this
  rw [FibonacciHeap.deref_ok hx2]; simp only [ok_bind]
  rw [hx2c]
  simp only
  obtain ⟨yn2, hy2⟩ := ed2.live hy1
  obtain ⟨h3, e3, fr3, ed3⟩ := FibonacciHeap.store_left c hy2
  rw [e3]; simp only [ok_bind]
  obtain ⟨cn1, hcn1, _⟩ := live_of_kv (K1 c) hcn
  obtain ⟨cn2, hcn2⟩ := ed2.live hcn1
  obtain ⟨cn3, hcn3⟩ := ed3.live hcn2
  have hcn3r : cn3.right = cr := by
    have := ed3.right c
    rw [rightOf_of_some hcn3, upd_none, ed2.right c, upd_none, R1 c, if_neg hcl, hcr] at this
    exact Option.some.inj this
  rw [FibonacciHeap.deref_ok hcn3]; simp only [ok_bind]
  rw [hcn3r]
  obtain ⟨yn3, hy3⟩ := ed3.live hy2
  obtain ⟨h4, e4, fr4, ed4⟩ := FibonacciHeap.store_right cr hy3
  rw [e4]; simp only [ok_bind]
  obtain ⟨cn4, hcn4⟩ := ed4.live hcn3
  have hcn4r : cn4.right = cr := by
    have := ed4.right c
    rw [rightOf_of_some hcn4, upd_some, if_neg hcy, rightOf_of_some hcn3, hcn3r] at this
    exact Option.some.inj this
  rw [FibonacciHeap.deref_ok hcn4]; simp only [ok_bind]
  rw [hcn4r]
  obtain ⟨crn1, hcrn1, _⟩ := live_of_kv (K1 cr) hcrn
  obtain ⟨crn2, hcrn2⟩ := ed2.live hcrn1
  obtain ⟨crn3, hcrn3⟩ := ed3.live hcrn2
  obtain ⟨crn4, hcrn4⟩ := ed4.live hcrn3
  obtain ⟨h5, e5, fr5, ed5⟩ := FibonacciHeap.store_left y hcrn4
  rw [e5]; simp only [ok_bind]
  obtain ⟨cn5, hcn5⟩ := ed5.live hcn4
  obtain ⟨h6, e6, fr6, ed6⟩ := FibonacciHeap.store_right y hcn5
  rw [e6]; simp only [ok_bind]
  obtain ⟨xn3, hx3⟩ := ed3.live hx2
  obtain ⟨xn4, hx4⟩ := ed4.live hx3
  obtain ⟨xn5, hx5⟩ := ed5.live hx4
  obtain ⟨xn6, hx6⟩ := ed6.live hx5
  obtain ⟨yn4, hy4⟩ := ed4.live hy3
  obtain ⟨yn5, hy5⟩ := ed5.live hy4
  obtain ⟨yn6, hy6⟩ := ed6.live hy5
  obtain ⟨h7, e7, fr7, R7, L7, P7, C7, K7⟩ := FibonacciHeap.link_tail hx6 hy6
  refine ⟨h7, e7, (((((fr1.trans fr2).trans fr3).trans fr4).trans fr5).trans fr6).trans fr7,
    ?_, ?_, ?_, ?_, ?_⟩
  · intro a
    rw [R7 a, ed6.right a, ed5.right a, ed4.right a, ed3.right a, ed2.right a, R1 a]
    simp only [upd_none, upd_some]
  · intro a
    rw [L7 a, ed6.left a, ed5.left a, ed4.left a, ed3.left a, ed2.left a, L1 a]
    simp only [upd_none, upd_some]
  · intro a
    rw [P7 a, ed6.parent a, ed5.parent a, ed4.parent a, ed3.parent a, ed2.parent a, P1 a]
    simp only [upd_none, upd_some]
  · intro a
    rw [C7 a, ed6.child a, ed5.child a, ed4.child a, ed3.child a, ed2.child a, C1 a]
    simp only [upd_none, upd_some]
  · intro a
    rw [K7 a, ed6.kv a, ed5.kv a, ed4.kv a, ed3.kv a, ed2.kv a, K1 a]

/-! ## `FibonacciHeap::link` keeps the trees -/

theorem Rooted.of_parentOf_none {σ : Nat → Option Node} {a : Nat}
    (h : parentOf σ a = some none) : Rooted σ a := by
  obtain ⟨n, hn, hp⟩ := parentOf_some h
  exact Rooted.root a n hn hp

theorem Rooted.of_parentOf_some {σ : Nat → Option Node} {a p : Nat}
    (h : parentOf σ a = some (some p)) (hp : Rooted σ p) : Rooted σ a := by
  obtain ⟨n, hn, hpar⟩ := parentOf_some h
  exact Rooted.child a n p hn hpar hp

/-- Parent chains still end when the parentless node `y` gets the
parentless node `x` as its parent. -/
theorem Rooted.link_rooted {σ σ' : Nat → Option Node} {x y : Nat}
    (hP : ∀ a, parentOf σ' a = if a = y then some (some x) else parentOf σ a)
    (hx : parentOf σ x = some none) (hxy : x ≠ y)
    {a : Nat} (h : Rooted σ a) : Rooted σ' a := by
  have hx' : Rooted σ' x := Rooted.of_parentOf_none (by rw [hP x, if_neg hxy, hx])
  induction h with
  | root a n ha hp =>
    by_cases hay : a = y
    · exact Rooted.of_parentOf_some (by rw [hP a, if_pos hay]) hx'
    · exact Rooted.of_parentOf_none (by rw [hP a, if_neg hay, parentOf_of_some ha, hp])
  | child a n p ha hp _ ih =>
    by_cases hay : a = y
    · exact Rooted.of_parentOf_some (by rw [hP a, if_pos hay]) hx'
    · exact Rooted.of_parentOf_some (by rw [hP a, if_neg hay, parentOf_of_some ha, hp]) ih

theorem FibonacciHeap.link_spec {h : FibonacciHeap} {dead : Option Nat} {x y : Nat}
    {xn yn : Node} (hf : Forest (h.view dead) none)
    (hlr : RingLR (grp (h.view dead) none))
    (hx : h.view dead x = some xn) (hxp : xn.parent = none)
    (hy : h.view dead y = some yn) (hyp : yn.parent = none) (hxy : x ≠ y) :
    ∃ h1, h.link y x = .ok h1 ∧ h.Frame h1 ∧ Forest (h1.view dead) none ∧
      RingLR (grp (h1.view dead) none) ∧
      (∀ a, kv (h1.view dead) a = kv (h.view dead) a) ∧
      (∀ a, parentOf (h1.view dead) a =
        if a = y then some (some x) else parentOf (h.view dead) a) := by
  have hyg : grp (h.view dead) none y = some (yn.left, yn.right) := grp_member hy hyp
  obtain ⟨ll, hl⟩ := hlr.left_ok y _ _ hyg
  obtain ⟨ln, hln, hlp, _⟩ := grp_some hl
  obtain ⟨rr, hr⟩ := hlr.right_ok y _ _ hyg
  obtain ⟨rn, hrn, hrp, _⟩ := grp_some hr
  have hPx : parentOf (h.view dead) x = some none := by rw [parentOf_of_some hx, hxp]
  have hPy : parentOf (h.view dead) y = some none := by rw [parentOf_of_some hy, hyp]
  have hnoroot : ∀ {a : Nat} {p : Nat}, parentOf (h.view dead) a = some (some p) →
      a ≠ y ∧ a ≠ yn.left ∧ a ≠ yn.right := by
    intro a p ha
    refine ⟨?_, ?_, ?_⟩
    · intro e; rw [e, hPy] at ha; cases ha
    · intro e; rw [e, parentOf_of_some hln, hlp] at ha; cases ha
    · intro e; rw [e, parentOf_of_some hrn, hrp] at ha; cases ha
  have hgx := hf.groups x (by simp)
  cases hc : xn.child with
  | none =>
    obtain ⟨h1, e1, fr1, R, L, P, C, K⟩ := FibonacciHeap.link_fields_none hx hy hln hrn hc
    have hPne : ∀ a, a ≠ y → parentOf (h1.view dead) a = parentOf (h.view dead) a := by
      intro a hay; rw [P a, if_neg hay]
    have hempty : ∀ a, grp (h.view dead) (some x) a = none :=
      hf.childless (by simp) (by rw [childOf_of_some hx, hc])
    refine ⟨h1, e1, fr1, ⟨?_, ?_⟩, ?_, K, P⟩
    · intro p _
      by_cases hpx : p = x
      · rw [hpx]
        have hcx : childOf (h1.view dead) x = some y := by
          apply childOf_of_ptr
          rw [C x, if_pos rfl]
        rw [hcx]
        apply RingOk.singleton
        · apply grp_fields
          · rw [P y, if_pos rfl]
          · rw [L y, if_pos rfl]
          · rw [R y, if_pos rfl]
        · intro a hay
          apply grp_fields_none
          rw [hPne a hay]
          exact parentOf_of_grp_none (hempty a)
      · refine keep_group (hf.groups p (by simp)) ?_ ?_
        · apply childOf_ptr
          rw [C p, if_neg hpx]
        · intro a ha
          have hay : a ≠ y := by
            intro e
            rw [e] at ha
            cases ha with
            | inl h0 => rw [hPy] at h0; cases h0
            | inr h0 =>
              rw [P y, if_pos rfl] at h0
              exact hpx (Option.some.inj (Option.some.inj h0)).symm
          have hpa : parentOf (h.view dead) a = some (some p) := by
            cases ha with
            | inl h0 => exact h0
            | inr h0 => rw [hPne a hay] at h0; exact h0
          obtain ⟨_, h2', h3'⟩ := hnoroot hpa
          refine ⟨hPne a hay, ?_, ?_⟩
          · rw [L a, if_neg hay, if_neg h3']
          · rw [R a, if_neg hay, if_neg h2']
    · intro a n' ha
      obtain ⟨n, hn, _⟩ := live_of_kv ((K a).symm) ha
      exact Rooted.link_rooted P hPx hxy (hf.rooted a n hn)
    · refine unlink_group_lr hlr hyg (by rw [P y, if_pos rfl]; simp) hPne ?_ ?_
      · intro a hay _
        rw [R a, if_neg hay]
      · intro a hay _
        rw [L a, if_neg hay]
  | some c =>
    have hgx' : RingOk (grp (h.view dead) (some x)) (some c) := by
      rw [← hc, ← childOf_of_some hx]; exact hgx
    obtain ⟨⟨cl, cr⟩, hcg⟩ := hgx'.anchor_in c rfl
    obtain ⟨hc1, hc2, hc3⟩ := fields_of_grp hcg
    obtain ⟨crr, hcrg⟩ := hgx'.right_ok c cl cr hcg
    obtain ⟨crn, hcrn, hcrp, _⟩ := grp_some hcrg
    obtain ⟨hcy, hcl', _⟩ := hnoroot hc1
    have hcr1 : parentOf (h.view dead) cr = some (some x) := by
      rw [parentOf_of_some hcrn, hcrp]
    obtain ⟨hcry, _, hcrr⟩ := hnoroot hcr1
    obtain ⟨h1, e1, fr1, R, L, P, C, K⟩ :=
      FibonacciHeap.link_fields_some hx hy hln hrn hc hc3 hcrn hcy hcl'
    have hPne : ∀ a, a ≠ y → parentOf (h1.view dead) a = parentOf (h.view dead) a := by
      intro a hay; rw [P a, if_neg hay]
    have hnox : ∀ {a : Nat}, parentOf (h.view dead) a ≠ some (some x) → a ≠ c ∧ a ≠ cr := by
      intro a ha
      constructor
      · intro e; rw [e] at ha; exact ha hc1
      · intro e; rw [e] at ha; exact ha hcr1
    refine ⟨h1, e1, fr1, ⟨?_, ?_⟩, ?_, K, P⟩
    · intro p _
      by_cases hpx : p = x
      · rw [hpx]
        have hcx : childOf (h1.view dead) x = some c := by
          rw [childOf_ptr (C x), childOf_of_some hx, hc]
        rw [hcx]
        refine splice_group hgx' (by rw [hPy]; simp) hc3 (by rw [P y, if_pos rfl])
          ?_ ?_ hPne ?_ ?_
        · rw [L y, if_neg (Ne.symm hcry), if_pos rfl]
        · rw [R y, if_neg (Ne.symm hcy), if_pos rfl]
        · intro a hay hpa
          obtain ⟨_, h2', _⟩ := hnoroot hpa
          rw [R a]
          by_cases e : a = c
          · rw [if_pos e, if_pos e]
          · rw [if_neg e, if_neg e, if_neg hay, if_neg h2']
        · intro a hay hpa
          obtain ⟨_, _, h3'⟩ := hnoroot hpa
          rw [L a]
          by_cases e : a = cr
          · rw [if_pos e, if_pos e]
          · rw [if_neg e, if_neg e, if_neg hay, if_neg h3']
      · refine keep_group (hf.groups p (by simp)) (childOf_ptr (C p)) ?_
        intro a ha
        have hay : a ≠ y := by
          intro e
          rw [e] at ha
          cases ha with
          | inl h0 => rw [hPy] at h0; cases h0
          | inr h0 =>
            rw [P y, if_pos rfl] at h0
            exact hpx (Option.some.inj (Option.some.inj h0)).symm
        have hpa : parentOf (h.view dead) a = some (some p) := by
          cases ha with
          | inl h0 => exact h0
          | inr h0 => rw [hPne a hay] at h0; exact h0
        obtain ⟨_, h2', h3'⟩ := hnoroot hpa
        have hnx : parentOf (h.view dead) a ≠ some (some x) := by
          rw [hpa]; intro e; exact hpx (Option.some.inj (Option.some.inj e))
        obtain ⟨h4', h5'⟩ := hnox hnx
        refine ⟨hPne a hay, ?_, ?_⟩
        · rw [L a, if_neg h5', if_neg hay, if_neg h3']
        · rw [R a, if_neg h4', if_neg hay, if_neg h2']
    · intro a n' ha
      obtain ⟨n, hn, _⟩ := live_of_kv ((K a).symm) ha
      exact Rooted.link_rooted P hPx hxy (hf.rooted a n hn)
    · refine unlink_group_lr hlr hyg (by rw [P y, if_pos rfl]; simp) hPne ?_ ?_
      · intro a hay hpa
        have hnx : parentOf (h.view dead) a ≠ some (some x) := by rw [hpa]; simp
        obtain ⟨h4', _⟩ := hnox hnx
        rw [R a, if_neg h4', if_neg hay]
      · intro a hay hpa
        have hnx : parentOf (h.view dead) a ≠ some (some x) := by rw [hpa]; simp
        obtain ⟨_, h5'⟩ := hnox hnx
        rw [L a, if_neg h5', if_neg hay]

/-! ## The second loop of `FibonacciHeap::consolidate` -/

theorem setAt_ok {α : Type} (l l1 : List α) (i : Int) (a : α) (h : setAt l i a = .ok l1) :
    0 ≤ i ∧ i.toNat < l.length ∧ l1 = l.set i.toNat a := by
  unfold setAt at h
  split at h
  · rename_i hc
    cases h
    exact ⟨hc.1, hc.2, rfl⟩
  · cases h

theorem mem_iff_get? {α : Type} (l : List α) (a : α) :
    a ∈ l ↔ ∃ (i : Nat), l[i]? = some a :=
  List.mem_iff_getElem?

/-- The entries of the degree array after `A[d] = x` on an empty slot. -/
theorem mem_set_some {A : List (Option Nat)} {i : Nat} {x : Nat} (hi : A[i]? = some none)
    (a : Nat) : some a ∈ A.set i (some x) ↔ (a = x ∨ some a ∈ A) := by
  have hlt := get?_lt A i none hi
  rw [mem_iff_get?, mem_iff_get?]
  constructor
  · rintro ⟨j, hj⟩
    rw [List.getElem?_set] at hj
    split at hj
    · left; exact (Option.some.inj (Option.some.inj hj)).symm
    · right; exact ⟨j, hj⟩
  · rintro (e | ⟨j, hj⟩)
    · exact ⟨i, by rw [List.getElem?_set, if_pos rfl, if_pos hlt, e]⟩
    · have hij : i ≠ j := by
        intro e; rw [e, hj] at hi; cases hi
      exact ⟨j, by rw [List.getElem?_set, if_neg hij]; exact hj⟩

/-- The entries of the degree array after `A[d] = nullptr`. -/
theorem mem_set_none {A : List (Option Nat)} {i : Nat} {y : Nat}
    (hi : A[i]? = some (some y))
    (hd : ∀ (i j a : Nat), A[i]? = some (some a) → A[j]? = some (some a) → i = j)
    (a : Nat) : some a ∈ A.set i none ↔ (some a ∈ A ∧ a ≠ y) := by
  have hlt := get?_lt A i _ hi
  rw [mem_iff_get?, mem_iff_get?]
  constructor
  · rintro ⟨j, hj⟩
    rw [List.getElem?_set] at hj
    split at hj
    · cases hj
    · rename_i hij
      refine ⟨⟨j, hj⟩, ?_⟩
      intro e
      rw [e] at hj
      exact hij (hd i j y hi hj)
  · rintro ⟨⟨j, hj⟩, hay⟩
    have hij : i ≠ j := by
      intro e; rw [e, hj] at hi; exact hay (Option.some.inj (Option.some.inj hi))
    exact ⟨j, by rw [List.getElem?_set, if_neg hij]; exact hj⟩

theorem distinct_set_none {A : List (Option Nat)} {i : Nat}
    (hd : ∀ (i j a : Nat), A[i]? = some (some a) → A[j]? = some (some a) → i = j) :
    ∀ (j k a : Nat), (A.set i none)[j]? = some (some a) →
      (A.set i none)[k]? = some (some a) → j = k := by
  intro j k a hj hk
  rw [List.getElem?_set] at hj hk
  split at hj
  · split at hj <;> cases hj
  · split at hk
    · split at hk <;> cases hk
    · exact hd j k a hj hk

theorem distinct_set_some {A : List (Option Nat)} {i x : Nat}
    (hd : ∀ (i j a : Nat), A[i]? = some (some a) → A[j]? = some (some a) → i = j)
    (hx : some x ∉ A) :
    ∀ (j k a : Nat), (A.set i (some x))[j]? = some (some a) →
      (A.set i (some x))[k]? = some (some a) → j = k := by
  intro j k a hj hk
  rw [List.getElem?_set] at hj hk
  split at hj
  · rename_i hij
    split at hj
    · have e : x = a := Option.some.inj (Option.some.inj hj)
      split at hk
      · rename_i hik; exact hij.symm.trans hik
      · rw [← e] at hk
        exact absurd ((mem_iff_get? A (some x)).2 ⟨k, hk⟩) hx
    · cases hj
  · split at hk
    · split at hk
      · have e : x = a := Option.some.inj (Option.some.inj hk)
        rw [← e] at hj
        exact absurd ((mem_iff_get? A (some x)).2 ⟨j, hj⟩) hx
      · cases hk
    · exact hd j k a hj hk

/-- Heap order after `link(y, x)` with the key of `x` no greater than that
of `y`. -/
theorem HeapOrder.link_order {σ σ' : Nat → Option Node} {x y : Nat} {xn yn : Node}
    (ho : HeapOrder σ) (hx : σ x = some xn) (hy : σ y = some yn) (hk : xn.key ≤ yn.key)
    (K : ∀ a, kv σ' a = kv σ a)
    (P : ∀ a, parentOf σ' a = if a = y then some (some x) else parentOf σ a) :
    HeapOrder σ' := by
  intro a p n' pn' ha hp hpn
  obtain ⟨n, hn, hk1, _⟩ := live_of_kv ((K a).symm) ha
  obtain ⟨pn, hpn0, hk2, _⟩ := live_of_kv ((K p).symm) hpn
  rw [← hk1, ← hk2]
  have hP := P a
  rw [parentOf_of_some ha, hp] at hP
  by_cases hay : a = y
  · rw [if_pos hay] at hP
    have hpx : p = x := Option.some.inj (Option.some.inj hP)
    rw [hay, hy] at hn; cases hn
    rw [hpx, hx] at hpn0; cases hpn0
    exact hk
  · rw [if_neg hay, parentOf_of_some hn] at hP
    exact ho a p n pn hn (Option.some.inj hP).symm hpn0

theorem Pending.root_live {σ : Nat → Option Node} {A : List (Option Nat)} {S : List Nat}
    (hp : Pending σ A S) {a : Nat} (ha : some a ∈ A ∨ a ∈ S) :
    ∃ n, σ a = some n ∧ n.parent = none :=
  parentOf_some ((hp.part a).2 ha)

/-- The loop `while (A[d])` of `consolidate` for the root `x`, first of the
roots still to come. -/
theorem FibonacciHeap.consolidate_while_spec {dead : Option Nat} :
    ∀ (fuel : Nat) (h h1 : FibonacciHeap) (A A1 : List (Option Nat)) (x : Nat) (d : Int)
      (rest : List Nat),
      Pending (h.view dead) A (x :: rest) →
      FibonacciHeap.consolidate_while fuel h A x d = .ok (h1, A1) →
      h.Frame h1 ∧ Pending (h1.view dead) A1 rest ∧
        (∀ a, kv (h1.view dead) a = kv (h.view dead) a) := by
  intro fuel
  induction fuel with
  | zero =>
    intro h h1 A A1 x d rest _ hc
    simp [FibonacciHeap.consolidate_while] at hc
  | succ fuel ih =>
    intro h h1 A A1 x d rest hp hc
    unfold FibonacciHeap.consolidate_while at hc
    cases hAd : at? A d with
    | error e => rw [hAd] at hc; cases hc
    | ok Ad =>
      rw [hAd] at hc
      simp only [ok_bind] at hc
      obtain ⟨hd0, hAi⟩ := at?_ok A d Ad hAd
      have hxS : x ∉ rest := (List.nodup_cons.1 hp.nodup).1
      have hrest : rest.Nodup := (List.nodup_cons.1 hp.nodup).2
      have hxA : some x ∉ A := fun hm => hp.disj x hm (List.mem_cons_self x rest)
      cases Ad with
      | none =>
        simp only at hc
        cases hs : setAt A d (some x) with
        | error e => rw [hs] at hc; cases hc
        | ok A2 =>
          rw [hs] at hc
          simp only [ok_bind] at hc
          obtain ⟨_, _, hA2⟩ := setAt_ok A A2 d (some x) hs
          rw [hA2] at hc
          cases hc
          refine ⟨FibonacciHeap.Frame.refl h, ⟨hp.forest, hp.order, hp.lr, ?_, ?_, hrest, ?_⟩,
            fun _ => rfl⟩
          · intro a
            rw [hp.part a, mem_set_some hAi a, List.mem_cons]
            constructor
            · rintro (e | e | e)
              · exact Or.inl (Or.inr e)
              · exact Or.inl (Or.inl e)
              · exact Or.inr e
            · rintro ((e | e) | e)
              · exact Or.inr (Or.inl e)
              · exact Or.inl e
              · exact Or.inr (Or.inr e)
          · exact distinct_set_some hp.distinct hxA
          · intro a ha
            rw [mem_set_some hAi a] at ha
            cases ha with
            | inl e => rw [e]; exact hxS
            | inr e => exact fun hm => hp.disj a e (List.mem_cons_of_mem x hm)
      | some y =>
        simp only at hc
        have hyA : some y ∈ A := (mem_iff_get? A (some y)).2 ⟨_, hAi⟩
        obtain ⟨xn, hx, hxp⟩ := hp.root_live (Or.inr (List.mem_cons_self x rest))
        obtain ⟨yn, hy, hyp⟩ := hp.root_live (Or.inl hyA)
        have hxy : x ≠ y := fun e => hxA (e ▸ hyA)
        have hyS : y ∉ rest := fun hm => hp.disj y hyA (List.mem_cons_of_mem x hm)
        rw [FibonacciHeap.deref_ok hx, FibonacciHeap.deref_ok hy] at hc
        simp only [ok_bind] at hc
        by_cases hgt : xn.key > yn.key
        · simp only [hgt, if_true] at hc
          obtain ⟨h2, e2, fr2, hf2, hlr2, K2, P2⟩ :=
            FibonacciHeap.link_spec hp.forest hp.lr hy hyp hx hxp (Ne.symm hxy)
          rw [e2] at hc
          simp only [ok_bind] at hc
          cases hs : setAt A d none with
          | error e => rw [hs] at hc; cases hc
          | ok A2 =>
            rw [hs] at hc
            simp only [ok_bind] at hc
            obtain ⟨_, _, hA2⟩ := setAt_ok A A2 d none hs
            have hp2 : Pending (h2.view dead) A2 (y :: rest) := by
              rw [hA2]
              refine ⟨hf2, hp.order.link_order hy hx (le_of_lt hgt) K2 P2, hlr2, ?_,
                distinct_set_none hp.distinct, List.nodup_cons.2 ⟨hyS, hrest⟩, ?_⟩
              · intro a
                rw [P2 a, mem_set_none hAi hp.distinct a, List.mem_cons]
                by_cases hax : a = x
                · rw [if_pos hax, hax]
                  constructor
                  · intro e; cases e
                  · rintro (⟨e, _⟩ | e | e)
                    · exact absurd e hxA
                    · exact absurd e hxy
                    · exact absurd e hxS
                · rw [if_neg hax, hp.part a, List.mem_cons]
                  constructor
                  · rintro (e | e | e)
                    · by_cases hay : a = y
                      · exact Or.inr (Or.inl hay)
                      · exact Or.inl ⟨e, hay⟩
                    · exact absurd e hax
                    · exact Or.inr (Or.inr e)
                  · rintro (⟨e, _⟩ | e | e)
                    · exact Or.inl e
                    · rw [e]; exact Or.inl hyA
                    · exact Or.inr (Or.inr e)
              · intro a ha
                rw [mem_set_none hAi hp.distinct a] at ha
                intro hm
                cases List.mem_cons.1 hm with
                | inl e => exact ha.2 e
                | inr e => exact hp.disj a ha.1 (List.mem_cons_of_mem x e)
            obtain ⟨fr3, hp3, K3⟩ := ih h2 h1 A2 A1 y _ rest hp2 hc
            exact ⟨fr2.trans fr3, hp3, fun a => (K3 a).trans (K2 a)⟩
        · simp only [hgt, if_false] at hc
          obtain ⟨h2, e2, fr2, hf2, hlr2, K2, P2⟩ :=
            FibonacciHeap.link_spec hp.forest hp.lr hx hxp hy hyp hxy
          rw [e2] at hc
          simp only [ok_bind] at hc
          cases hs : setAt A d none with
          | error e => rw [hs] at hc; cases hc
          | ok A2 =>
            rw [hs] at hc
            simp only [ok_bind] at hc
            obtain ⟨_, _, hA2⟩ := setAt_ok A A2 d none hs
            have hp2 : Pending (h2.view dead) A2 (x :: rest) := by
              rw [hA2]
              refine ⟨hf2, hp.order.link_order hx hy (le_of_not_lt hgt) K2 P2, hlr2, ?_,
                distinct_set_none hp.distinct, hp.nodup, ?_⟩
              · intro a
                rw [P2 a, mem_set_none hAi hp.distinct a, List.mem_cons]
                by_cases hay : a = y
                · rw [if_pos hay, hay]
                  constructor
                  · intro e; cases e
                  · rintro (⟨_, e⟩ | e | e)
                    · exact absurd rfl e
                    · exact absurd e.symm hxy
                    · exact absurd e hyS
                · rw [if_neg hay, hp.part a, List.mem_cons]
                  constructor
                  · rintro (e | e | e)
                    · exact Or.inl ⟨e, hay⟩
                    · exact Or.inr (Or.inl e)
                    · exact Or.inr (Or.inr e)
                  · rintro (⟨e, _⟩ | e | e)
                    · exact Or.inl e
                    · exact Or.inr (Or.inl e)
                    · exact Or.inr (Or.inr e)
              · intro a ha
                rw [mem_set_none hAi hp.distinct a] at ha
                exact hp.disj a ha.1
            obtain ⟨fr3, hp3, K3⟩ := ih h2 h1 A2 A1 x _ rest hp2 hc
            exact ⟨fr2.trans fr3, hp3, fun a => (K3 a).trans (K2 a)⟩

/-- The loop `for (Node* w : roots)` of `consolidate`. -/
theorem FibonacciHeap.consolidate_roots_spec {dead : Option Nat} :
    ∀ (roots : List Nat) (h h1 : FibonacciHeap) (A A1 : List (Option Nat)),
      Pending (h.view dead) A roots →
      FibonacciHeap.consolidate_roots roots h A = .ok (h1, A1) →
      h.Frame h1 ∧ Pending (h1.view dead) A1 [] ∧
        (∀ a, kv (h1.view dead) a = kv (h.view dead) a) := by
  intro roots
  induction roots with
  | nil =>
    intro h h1 A A1 hp hc
    simp only [FibonacciHeap.consolidate_roots] at hc
    cases hc
    exact ⟨FibonacciHeap.Frame.refl h, hp, fun _ => rfl⟩
  | cons w roots ih =>
    intro h h1 A A1 hp hc
    simp only [FibonacciHeap.consolidate_roots] at hc
    obtain ⟨wn, hw, _⟩ := hp.root_live (Or.inr (List.mem_cons_self w roots))
    rw [FibonacciHeap.deref_ok hw] at hc
    simp only [ok_bind] at hc
    cases hcw : FibonacciHeap.consolidate_while (A.length + 1) h A w wn.degree with
    | error e => rw [hcw] at hc; cases hc
    | ok r =>
      obtain ⟨h2, A2⟩ := r
      rw [hcw] at hc
      simp only [ok_bind] at hc
      obtain ⟨fr2, hp2, K2⟩ := FibonacciHeap.consolidate_while_spec _ h h2 A A2 w _ roots hp hcw
      obtain ⟨fr3, hp3, K3⟩ := ih h2 h1 A2 A1 hp2 hc
      exact ⟨fr2.trans fr3, hp3, fun a => (K3 a).trans (K2 a)⟩

/-! ## The first loop of `FibonacciHeap::consolidate` -/

theorem FibonacciHeap.collect_roots_loop {h : FibonacciHeap} {dead : Option Nat} {m : Nat}
    (hr : RingOk (grp (h.view dead) none) (some m)) :
    ∀ (fuel : Nat) (current : Nat) (acc L : List Nat),
      (acc ++ [current]).Nodup →
      (∀ u, u ∈ acc ++ [current] → ∃ lr, grp (h.view dead) none u = some lr) →
      (∀ u l r, u ∈ acc → grp (h.view dead) none u = some (l, r) → r ∈ acc ++ [current]) →
      m ∈ acc ++ [current] →
      (∀ u, u ∈ acc ++ [current] → u = m ∨
        ∃ w l, w ∈ acc ∧ grp (h.view dead) none w = some (l, u)) →
      FibonacciHeap.collect_roots fuel h m current acc = .ok L →
      L.Nodup ∧ ∀ a, a ∈ L ↔ ∃ lr, grp (h.view dead) none a = some lr := by
  intro fuel
  induction fuel with
  | zero =>
    intro current acc L _ _ _ _ _ hc
    simp [FibonacciHeap.collect_roots] at hc
  | succ fuel ih =>
    intro current acc L hnd hlive hclosed hm hpred hc
    unfold FibonacciHeap.collect_roots at hc
    simp only at hc
    obtain ⟨lr, hcur⟩ := hlive current (by simp)
    obtain ⟨cn, hcn, hcp, e⟩ := grp_some hcur
    cases e
    rw [FibonacciHeap.deref_ok hcn] at hc
    simp only [ok_bind] at hc
    by_cases hne : cn.right ≠ m
    · rw [if_pos hne] at hc
      obtain ⟨rr, hrr⟩ := hr.right_ok current _ _ hcur
      have hnew : cn.right ∉ acc ++ [current] := by
        intro hmem
        cases hpred cn.right hmem with
        | inl e => exact hne e
        | inr e =>
          obtain ⟨w, l, hw, hwg⟩ := e
          have hwc : w = current := hr.toRingLR.right_inj hwg hcur
          rw [hwc] at hw
          have := List.nodup_append.1 hnd
          exact this.2.2 hw (List.mem_singleton_self current)
      refine ih cn.right (acc ++ [current]) L ?_ ?_ ?_ ?_ ?_ hc
      · rw [List.nodup_append]
        refine ⟨hnd, List.nodup_singleton _, ?_⟩
        intro a ha hb
        rw [List.mem_singleton] at hb
        rw [hb] at ha
        exact hnew ha
      · intro u hu
        rw [List.mem_append, List.mem_singleton] at hu
        cases hu with
        | inl e => exact hlive u e
        | inr e => rw [e]; exact ⟨_, hrr⟩
      · intro u l r hu hug
        rw [List.mem_append, List.mem_singleton] at hu
        rw [List.mem_append]
        cases hu with
        | inl e => exact Or.inl (hclosed u l r e hug)
        | inr e =>
          rw [e, hcur] at hug
          cases hug
          exact Or.inr (List.mem_singleton_self _)
      · exact List.mem_append_left _ hm
      · intro u hu
        rw [List.mem_append, List.mem_singleton] at hu
        cases hu with
        | inl e =>
          cases hpred u e with
          | inl e1 => exact Or.inl e1
          | inr e1 =>
            obtain ⟨w, l, hw, hwg⟩ := e1
            exact Or.inr ⟨w, l, List.mem_append_left _ hw, hwg⟩
        | inr e =>
          right
          rw [e]
          exact ⟨current, cn.left, by simp, hcur⟩
    · rw [if_neg hne] at hc
      cases hc
      have hrm : cn.right = m := not_not.1 hne
      refine ⟨hnd, ?_⟩
      intro a
      constructor
      · exact hlive a
      · rintro ⟨lra, ha⟩
        refine hr.closed_covers hm ?_ a lra ha
        intro u l r hu hug
        rw [List.mem_append, List.mem_singleton] at hu
        cases hu with
        | inl e => exact hclosed u l r e hug
        | inr e =>
          rw [e, hcur] at hug
          cases hug
          rw [hrm]
          exact hm

/-- The first loop of `consolidate` collects the parentless nodes, each
once. -/
theorem FibonacciHeap.collect_roots_spec {h : FibonacciHeap} {dead : Option Nat} {m : Nat}
    (hr : RingOk (grp (h.view dead) none) (some m)) (fuel : Nat) (L : List Nat)
    (hc : FibonacciHeap.collect_roots fuel h m m [] = .ok L) :
    L.Nodup ∧ ∀ a, a ∈ L ↔ parentOf (h.view dead) a = some none := by
  obtain ⟨h1, h2⟩ := FibonacciHeap.collect_roots_loop hr fuel m [] L (by simp)
    (by
      intro u hu
      simp at hu
      rw [hu]
      exact hr.anchor_in m rfl)
    (by intro u l r hu; simp at hu) (by simp) (by intro u hu; simp at hu; exact Or.inl hu) hc
  refine ⟨h1, ?_⟩
  intro a
  rw [h2 a]
  constructor
  · rintro ⟨lr, hlr⟩
    exact (fields_of_grp (l := lr.1) (r := lr.2) hlr).1
  · intro hp
    obtain ⟨n, hn, hnp⟩ := parentOf_some hp
    exact ⟨_, grp_member hn hnp⟩

/-! ## The last loop of `FibonacciHeap::consolidate` -/

/-- The trees are kept by changes to the `left` and `right` fields of
parentless nodes. -/
theorem Forest.of_root_fields {σ σ' : Nat → Option Node} {skip : Option Nat}
    (hf : Forest σ skip)
    (hP : ∀ a, parentOf σ' a = parentOf σ a) (hC : ∀ a, childPtr σ' a = childPtr σ a)
    (hLR : ∀ a, parentOf σ a ≠ some none →
      leftOf σ' a = leftOf σ a ∧ rightOf σ' a = rightOf σ a) : Forest σ' skip := by
  refine ⟨?_, ?_⟩
  · intro p hs
    refine keep_group (hf.groups p hs) (childOf_ptr (hC p)) ?_
    intro a ha
    have hpa : parentOf σ a = some (some p) := by
      cases ha with
      | inl h0 => exact h0
      | inr h0 => rw [hP a] at h0; exact h0
    obtain ⟨h1, h2⟩ := hLR a (by rw [hpa]; simp)
    exact ⟨hP a, h1, h2⟩
  · intro a n' ha
    obtain ⟨n, hn, _⟩ := live_of_parentOf (hP a) ha
    exact Rooted.mono_fields (fun b _ _ => Or.inl (hP b)) (hf.rooted a n hn)

theorem HeapOrder.of_same {σ σ' : Nat → Option Node} (ho : HeapOrder σ)
    (K : ∀ a, kv σ' a = kv σ a) (P : ∀ a, parentOf σ' a = parentOf σ a) : HeapOrder σ' := by
  intro a p n' pn' ha hp hpn
  obtain ⟨n, hn, hk1, _⟩ := live_of_kv ((K a).symm) ha
  obtain ⟨pn, hpn0, hk2, _⟩ := live_of_kv ((K p).symm) hpn
  rw [← hk1, ← hk2]
  have hP := P a
  rw [parentOf_of_some ha, hp, parentOf_of_some hn] at hP
  exact ho a p n pn hn (Option.some.inj hP).symm hpn0

theorem hide_map {α : Type} (π : Node → α) (σ : Nat → Option Node) (P : List Nat) (a : Nat) :
    (hideRoots σ P a).map π =
      if parentOf σ a = some none ∧ a ∉ P then none else (σ a).map π := by
  unfold hideRoots
  cases hs : σ a with
  | none =>
    simp only [Option.map_none']
    split <;> rfl
  | some n =>
    simp only
    rw [parentOf_of_some hs]
    by_cases hc : n.parent = none ∧ a ∉ P
    · rw [if_pos hc, if_pos ⟨by rw [hc.1], hc.2⟩]
      rfl
    · rw [if_neg hc, if_neg (fun hh => hc ⟨Option.some.inj hh.1, hh.2⟩)]

theorem parentOf_hide (σ : Nat → Option Node) (P : List Nat) (a : Nat) :
    parentOf (hideRoots σ P) a =
      if parentOf σ a = some none ∧ a ∉ P then none else parentOf σ a :=
  hide_map _ σ P a

theorem leftOf_hide (σ : Nat → Option Node) (P : List Nat) (a : Nat) :
    leftOf (hideRoots σ P) a =
      if parentOf σ a = some none ∧ a ∉ P then none else leftOf σ a :=
  hide_map _ σ P a

theorem rightOf_hide (σ : Nat → Option Node) (P : List Nat) (a : Nat) :
    rightOf (hideRoots σ P) a =
      if parentOf σ a = some none ∧ a ∉ P then none else rightOf σ a :=
  hide_map _ σ P a

/-- A parentless node of the node map without the parentless nodes outside
`P` is in `P`. -/
theorem hide_root_mem {σ : Nat → Option Node} {P : List Nat} {a : Nat}
    (h : parentOf (hideRoots σ P) a = some none) : a ∈ P ∧ parentOf σ a = some none := by
  rw [parentOf_hide] at h
  split at h
  · cases h
  · rename_i hc
    refine ⟨?_, h⟩
    by_contra hn
    exact hc ⟨h, hn⟩

theorem hide_shown {σ : Nat → Option Node} {P : List Nat} {a : Nat} (ha : a ∈ P) :
    hideRoots σ P a = σ a := by
  unfold hideRoots
  cases hs : σ a with
  | none => rfl
  | some n =>
    simp only
    rw [if_neg (fun hh => hh.2 ha)]

theorem hide_all {σ : Nat → Option Node} {P : List Nat}
    (h : ∀ a, parentOf σ a = some none → a ∈ P) : hideRoots σ P = σ := by
  funext a
  unfold hideRoots
  cases hs : σ a with
  | none => rfl
  | some n =>
    simp only
    rw [if_neg]
    intro hh
    exact hh.2 (h a (by rw [parentOf_of_some hs, hh.1]))

theorem distinct_tail {o : Option Nat} {A : List (Option Nat)}
    (hd : ∀ (i j a : Nat), (o :: A)[i]? = some (some a) → (o :: A)[j]? = some (some a) → i = j) :
    ∀ (i j a : Nat), A[i]? = some (some a) → A[j]? = some (some a) → i = j := by
  intro i j a hi hj
  have := hd (i + 1) (j + 1) a (by simpa using hi) (by simpa using hj)
  omega

theorem distinct_head {x : Nat} {A : List (Option Nat)}
    (hd : ∀ (i j a : Nat), (some x :: A)[i]? = some (some a) →
      (some x :: A)[j]? = some (some a) → i = j) : some x ∉ A := by
  intro hm
  obtain ⟨i, hi⟩ := (mem_iff_get? A (some x)).1 hm
  have := hd 0 (i + 1) x (by simp) (by simpa using hi)
  omega

/-- The state after one round of the last loop of `consolidate`, on the
field maps: the node `a` is in the root list. -/
theorem FibonacciHeap.rebuild_step {h : FibonacciHeap} {dead : Option Nat} {a : Nat}
    {A : List (Option Nat)} {P : List Nat}
    (hr : Rebuilt (h.view dead) h.min_node (some a :: A) P) :
    ∃ h1, (∀ h2, FibonacciHeap.rebuild_roots (some a :: A) h = .ok h2 →
        FibonacciHeap.rebuild_roots A h1 = .ok h2) ∧
      h1.size = h.size ∧ h1.node_table = h.node_table ∧ h1.mem.length = h.mem.length ∧
      Rebuilt (h1.view dead) h1.min_node A (a :: P) ∧
      (∀ b, kv (h1.view dead) b = kv (h.view dead) b) := by
  have haroot : parentOf (h.view dead) a = some none :=
    (hr.part a).2 (Or.inr (List.mem_cons_self _ _))
  obtain ⟨an, han, hanp⟩ := parentOf_some haroot
  have haP : a ∉ P := fun hm => hr.disj a hm (List.mem_cons_self _ _)
  have haA : some a ∉ A := distinct_head hr.distinct
  have hpart : ∀ b, parentOf (h.view dead) b = some none ↔ (b ∈ a :: P ∨ some b ∈ A) := by
    intro b
    rw [hr.part b, List.mem_cons, List.mem_cons]
    constructor
    · rintro (e | e | e)
      · exact Or.inl (Or.inr e)
      · exact Or.inl (Or.inl (Option.some.inj e))
      · exact Or.inr e
    · rintro ((e | e) | e)
      · exact Or.inr (Or.inl (by rw [e]))
      · exact Or.inl e
      · exact Or.inr (Or.inr e)
  have hdisj : ∀ b, b ∈ a :: P → some b ∉ A := by
    intro b hb
    cases List.mem_cons.1 hb with
    | inl e => rw [e]; exact haA
    | inr e => exact fun hm => hr.disj b e (List.mem_cons_of_mem _ hm)
  cases hmin : h.min_node with
  | none =>
    have hnoP : ∀ b, b ∈ P → False := by
      intro b hb
      have hb1 : parentOf (h.view dead) b = some none := (hr.part b).2 (Or.inl hb)
      obtain ⟨bn, hbn, hbp⟩ := parentOf_some hb1
      have hring := hr.ring
      rw [hmin] at hring
      have := hring.empty_of_none b
      rw [grp_member (by rw [hide_shown hb]; exact hbn) hbp] at this
      cases this
    obtain ⟨h1, e1, fr1, ed1⟩ := @FibonacciHeap.store_right
      { h with min_node := some a } dead _ _ a han
    obtain ⟨an1, han1⟩ := ed1.live han
    obtain ⟨h2, e2, fr2, ed2⟩ := FibonacciHeap.store_left a han1
    have R : ∀ b, rightOf (h2.view dead) b =
        if b = a then some a else rightOf (h.view dead) b := by
      intro b
      rw [ed2.right b, upd_none, ed1.right b, upd_some]
      rfl
    have L : ∀ b, leftOf (h2.view dead) b =
        if b = a then some a else leftOf (h.view dead) b := by
      intro b
      rw [ed2.left b, upd_some, ed1.left b, upd_none]
      rfl
    have Pa : ∀ b, parentOf (h2.view dead) b = parentOf (h.view dead) b := by
      intro b
      rw [ed2.parent b, upd_none, ed1.parent b, upd_none]
      rfl
    have C : ∀ b, childPtr (h2.view dead) b = childPtr (h.view dead) b := by
      intro b
      rw [ed2.child b, upd_none, ed1.child b, upd_none]
      rfl
    have K : ∀ b, kv (h2.view dead) b = kv (h.view dead) b := by
      intro b
      rw [ed2.kv b, ed1.kv b]
      rfl
    have hmin2 : h2.min_node = some a := fr2.1.trans fr1.1
    refine ⟨h2, ?_, fr2.2.1.trans fr1.2.1, fr2.2.2.1.trans fr1.2.2.1,
      fr2.2.2.2.trans fr1.2.2.2, ?_, K⟩
    · intro h3 hc
      unfold FibonacciHeap.rebuild_roots at hc
      rw [hmin] at hc
      simp only at hc
      rw [e1] at hc
      simp only [ok_bind] at hc
      rw [e2] at hc
      simp only [ok_bind] at hc
      exact hc
    · rw [hmin2]
      refine ⟨?_, hr.order.of_same K Pa, ?_, distinct_tail hr.distinct, hdisj, ?_, ?_⟩
      · refine hr.forest.of_root_fields Pa C ?_
        intro b hb
        have hba : b ≠ a := fun e => hb (e ▸ haroot)
        exact ⟨by rw [L b, if_neg hba], by rw [R b, if_neg hba]⟩
      · intro b; rw [Pa b]; exact hpart b
      · apply RingOk.singleton
        · apply grp_fields
          · rw [parentOf_hide, if_neg (fun hh => hh.2 (List.mem_cons_self _ _)), Pa a, haroot]
          · rw [leftOf_hide, if_neg (fun hh => hh.2 (List.mem_cons_self _ _)), L a, if_pos rfl]
          · rw [rightOf_hide, if_neg (fun hh => hh.2 (List.mem_cons_self _ _)), R a, if_pos rfl]
        · intro b hba
          apply grp_fields_none
          intro hh
          obtain ⟨hb1, _⟩ := hide_root_mem hh
          cases List.mem_cons.1 hb1 with
          | inl e => exact hba e
          | inr e => exact hnoP b e
      · intro m0 b mn bn hm0 hmn hb hbp
        cases hm0
        have hb1 : b ∈ a :: P :=
          (hide_root_mem (by rw [parentOf_of_some hb, hbp])).1
        cases List.mem_cons.1 hb1 with
        | inl e => rw [e, hmn] at hb; cases hb; exact le_refl _
        | inr e => exact absurd e (hnoP b)
  | some m =>
    have hring : RingOk (grp (hideRoots (h.view dead) P) none) (some m) := hmin ▸ hr.ring
    obtain ⟨⟨ml, mr⟩, hmg⟩ := hring.anchor_in m rfl
    obtain ⟨hm1, hm2, hm3⟩ := fields_of_grp hmg
    obtain ⟨hmP, hmroot⟩ := hide_root_mem hm1
    obtain ⟨mrr, hmrg⟩ := hring.right_ok m ml mr hmg
    obtain ⟨hmr1, _, _⟩ := fields_of_grp hmrg
    obtain ⟨hmrP, hmrroot⟩ := hide_root_mem hmr1
    obtain ⟨mrn, hmrn, _⟩ := parentOf_some hmrroot
    have hmr : rightOf (h.view dead) m = some mr := by
      rw [rightOf_hide, if_neg (fun hh => hh.2 hmP)] at hm3
      exact hm3
    have ham : a ≠ m := fun e => haP (e ▸ hmP)
    have hamr : a ≠ mr := fun e => haP (e ▸ hmrP)
    obtain ⟨h1, e1, fr1, R, L, Pa, C, K⟩ :=
      FibonacciHeap.insert_after_min_fields hmin hmr han hmrn ham hamr
    obtain ⟨an1, han1, hank, _⟩ := live_of_kv (K a) han
    obtain ⟨mn, hmn, _⟩ := parentOf_some hmroot
    obtain ⟨mn1, hmn1, hmnk, _⟩ := live_of_kv (K m) hmn
    have hf1 : Forest (h1.view dead) none := by
      refine hr.forest.of_root_fields Pa C ?_
      intro b hb
      have hba : b ≠ a := fun e => hb (e ▸ haroot)
      have hbm : b ≠ m := fun e => hb (e ▸ hmroot)
      have hbmr : b ≠ mr := fun e => hb (e ▸ hmrroot)
      exact ⟨by rw [L b, if_neg hbmr, if_neg hba], by rw [R b, if_neg hbm, if_neg hba]⟩
    have hring1 : RingOk (grp (hideRoots (h1.view dead) (a :: P)) none) (some m) := by
      have hshow : ∀ b, b ∈ a :: P →
          ¬ (parentOf (h1.view dead) b = some none ∧ b ∉ a :: P) := fun b hb hh => hh.2 hb
      have hshow0 : ∀ b, b ∈ P →
          ¬ (parentOf (h.view dead) b = some none ∧ b ∉ P) := fun b hb hh => hh.2 hb
      refine splice_group (x := a) hring ?_ hm3 ?_ ?_ ?_ ?_ ?_ ?_
      · rw [parentOf_hide, if_pos ⟨haroot, haP⟩]
        simp
      · rw [parentOf_hide, if_neg (hshow a (List.mem_cons_self _ _)), Pa a, haroot]
      · rw [leftOf_hide, if_neg (hshow a (List.mem_cons_self _ _)), L a, if_neg hamr,
          if_pos rfl]
      · rw [rightOf_hide, if_neg (hshow a (List.mem_cons_self _ _)), R a, if_neg ham,
          if_pos rfl]
      · intro b hba
        rw [parentOf_hide, parentOf_hide, Pa b]
        by_cases hc : parentOf (h.view dead) b = some none ∧ b ∉ P
        · rw [if_pos hc, if_pos ⟨hc.1, fun hm' => by
            cases List.mem_cons.1 hm' with
            | inl e => exact hba e
            | inr e => exact hc.2 e⟩]
        · rw [if_neg hc, if_neg (fun hh => hc ⟨hh.1, fun hm' =>
            hh.2 (List.mem_cons_of_mem _ hm')⟩)]
      · intro b hba hb
        obtain ⟨hbP, _⟩ := hide_root_mem hb
        rw [rightOf_hide, rightOf_hide, if_neg (hshow b (List.mem_cons_of_mem _ hbP)),
          if_neg (hshow0 b hbP), R b]
        by_cases e : b = m
        · rw [if_pos e, if_pos e]
        · rw [if_neg e, if_neg e, if_neg hba]
      · intro b hba hb
        obtain ⟨hbP, _⟩ := hide_root_mem hb
        rw [leftOf_hide, leftOf_hide, if_neg (hshow b (List.mem_cons_of_mem _ hbP)),
          if_neg (hshow0 b hbP), L b]
        by_cases e : b = mr
        · rw [if_pos e, if_pos e]
        · rw [if_neg e, if_neg e, if_neg hba]
    have hkey : ∀ b bn, hideRoots (h1.view dead) (a :: P) b = some bn → bn.parent = none →
        an1.key ≤ bn.key ∨ mn1.key ≤ bn.key := by
      intro b bn hb hbp
      have hb1 := hide_root_mem (σ := h1.view dead) (P := a :: P) (a := b)
        (by rw [parentOf_of_some hb, hbp])
      rw [hide_shown hb1.1] at hb
      cases List.mem_cons.1 hb1.1 with
      | inl e =>
        left
        rw [e, han1] at hb
        cases hb
        exact le_refl _
      | inr e =>
        right
        obtain ⟨bn0, hbn0, hbk, _⟩ := live_of_kv ((K b).symm) hb
        rw [hmnk, ← hbk]
        have hbp0 : bn0.parent = none := by
          have := Pa b
          rw [parentOf_of_some hb, parentOf_of_some hbn0, hbp] at this
          exact (Option.some.inj this).symm
        refine hr.min_le m b mn bn0 hmin ?_ ?_ hbp0
        · rw [hide_shown hmP]; exact hmn
        · rw [hide_shown e]; exact hbn0
    have hfin : ∀ mnew : Nat, (mnew = a ∨ mnew = m) →
        (∀ kn, h1.view dead mnew = some kn → kn.key ≤ an1.key ∧ kn.key ≤ mn1.key) →
        Rebuilt (h1.view dead) (some mnew) A (a :: P) := by
      intro mnew hcase hle
      refine ⟨hf1, hr.order.of_same K Pa, ?_, distinct_tail hr.distinct, hdisj, ?_, ?_⟩
      · intro b; rw [Pa b]; exact hpart b
      · cases hcase with
        | inl e =>
          rw [e]
          refine hring1.reanchor (an1.left, an1.right) (grp_member ?_ ?_)
          · rw [hide_shown (List.mem_cons_self _ _)]; exact han1
          · have := Pa a
            rw [parentOf_of_some han1, haroot] at this
            exact Option.some.inj this
        | inr e => rw [e]; exact hring1
      · intro m0 b kn bn hm0 hkn hb hbp
        cases hm0
        have hmem : mnew ∈ a :: P := by
          cases hcase with
          | inl e => rw [e]; exact List.mem_cons_self _ _
          | inr e => rw [e]; exact List.mem_cons_of_mem _ hmP
        rw [hide_shown hmem] at hkn
        obtain ⟨hk1, hk2⟩ := hle kn hkn
        cases hkey b bn hb hbp with
        | inl e => exact le_trans hk1 e
        | inr e => exact le_trans hk2 e
    by_cases hlt : an1.key < mn1.key
    · refine ⟨{ h1 with min_node := some a }, ?_, fr1.2.1, fr1.2.2.1, fr1.2.2.2, ?_, K⟩
      · intro h3 hc
        unfold FibonacciHeap.rebuild_roots at hc
        rw [hmin] at hc
        simp only at hc
        rw [e1] at hc
        simp only [ok_bind] at hc
        rw [FibonacciHeap.deref_ok han1, FibonacciHeap.deref_ok hmn1] at hc
        simp only [ok_bind] at hc
        rw [if_pos hlt] at hc
        exact hc
      · refine hfin a (Or.inl rfl) ?_
        intro kn hkn
        rw [han1] at hkn; cases hkn
        exact ⟨le_refl _, le_of_lt hlt⟩
    · refine ⟨h1, ?_, fr1.2.1, fr1.2.2.1, fr1.2.2.2, ?_, K⟩
      · intro h3 hc
        unfold FibonacciHeap.rebuild_roots at hc
        rw [hmin] at hc
        simp only at hc
        rw [e1] at hc
        simp only [ok_bind] at hc
        rw [FibonacciHeap.deref_ok han1, FibonacciHeap.deref_ok hmn1] at hc
        simp only [ok_bind] at hc
        rw [if_neg hlt] at hc
        exact hc
      · rw [fr1.1, hmin]
        refine hfin m (Or.inr rfl) ?_
        intro kn hkn
        rw [hmn1] at hkn; cases hkn
        exact ⟨le_of_not_lt hlt, le_refl _⟩

/-- The last loop of `consolidate` leaves the parentless nodes in one root
list, entered at a node of least key. -/
theorem FibonacciHeap.rebuild_roots_spec {dead : Option Nat} :
    ∀ (A : List (Option Nat)) (h h1 : FibonacciHeap) (P : List Nat),
      Rebuilt (h.view dead) h.min_node A P →
      FibonacciHeap.rebuild_roots A h = .ok h1 →
      h1.size = h.size ∧ h1.node_table = h.node_table ∧ h1.mem.length = h.mem.length ∧
        Forest (h1.view dead) none ∧ HeapOrder (h1.view dead) ∧
        RingOk (grp (h1.view dead) none) h1.min_node ∧ MinLe (h1.view dead) h1.min_node ∧
        (∀ a, kv (h1.view dead) a = kv (h.view dead) a) := by
  intro A
  induction A with
  | nil =>
    intro h h1 P hr hc
    simp only [FibonacciHeap.rebuild_roots] at hc
    cases hc
    have hall : hideRoots (h.view dead) P = h.view dead := by
      apply hide_all
      intro a ha
      cases (hr.part a).1 ha with
      | inl e => exact e
      | inr e => cases e
    have h1 := hr.ring
    have h2 := hr.min_le
    rw [hall] at h1 h2
    exact ⟨rfl, rfl, rfl, hr.forest, hr.order, h1, h2, fun _ => rfl⟩
  | cons o A ih =>
    intro h h1 P hr hc
    cases o with
    | none =>
      simp only [FibonacciHeap.rebuild_roots] at hc
      refine ih h h1 P ⟨hr.forest, hr.order, ?_, distinct_tail hr.distinct, ?_, hr.ring,
        hr.min_le⟩ hc
      · intro a
        rw [hr.part a, List.mem_cons]
        constructor
        · rintro (e | e | e)
          · exact Or.inl e
          · cases e
          · exact Or.inr e
        · rintro (e | e)
          · exact Or.inl e
          · exact Or.inr (Or.inr e)
      · intro a ha hm
        exact hr.disj a ha (List.mem_cons_of_mem _ hm)
    | some a =>
      obtain ⟨h2, e2, f1, f2, f3, hr2, K2⟩ := FibonacciHeap.rebuild_step hr
      obtain ⟨g1, g2, g3, g4, g5, g6, g7, K3⟩ := ih h2 h1 (a :: P) hr2 (e2 h1 hc)
      exact ⟨g1.trans f1, g2.trans f2, g3.trans f3, g4, g5, g6, g7,
        fun b => (K3 b).trans (K2 b)⟩

/-- What `consolidate` leaves: the trees in order, one root list, entered at
a node of least key. -/
theorem FibonacciHeap.consolidate_spec {h h1 : FibonacciHeap} {dead : Option Nat} {m : Nat}
    (hmin : h.min_node = some m) (hf : Forest (h.view dead) none)
    (ho : HeapOrder (h.view dead)) (hr : RingOk (grp (h.view dead) none) (some m))
    (hc : h.consolidate = .ok h1) :
    h1.size = h.size ∧ h1.node_table = h.node_table ∧ h1.mem.length = h.mem.length ∧
      Forest (h1.view dead) none ∧ HeapOrder (h1.view dead) ∧
      RingOk (grp (h1.view dead) none) h1.min_node ∧ MinLe (h1.view dead) h1.min_node ∧
      (∀ a, kv (h1.view dead) a = kv (h.view dead) a) := by
  unfold FibonacciHeap.consolidate at hc
  rw [hmin] at hc
  simp only at hc
  by_cases hsz : h.size ≤ 0
  · rw [if_pos hsz] at hc; cases hc
  · rw [if_neg hsz] at hc
    cases hcol : FibonacciHeap.collect_roots (h.mem.length + 1) h m m [] with
    | error e => rw [hcol] at hc; cases hc
    | ok L =>
      rw [hcol] at hc
      simp only [ok_bind] at hc
      obtain ⟨hnd, hL⟩ := FibonacciHeap.collect_roots_spec hr _ L hcol
      cases hcr : FibonacciHeap.consolidate_roots L h
          (List.replicate (FibonacciHeap.ceil_log2 h.size.toNat + 1) none) with
      | error e => rw [hcr] at hc; cases hc
      | ok r =>
        obtain ⟨h2, A2⟩ := r
        rw [hcr] at hc
        simp only [ok_bind] at hc
        have hnoA : ∀ a : Nat, some a ∉
            List.replicate (FibonacciHeap.ceil_log2 h.size.toNat + 1) (none : Option Nat) := by
          intro a hm'
          have := List.eq_of_mem_replicate hm'
          cases this
        have hp : Pending (h.view dead)
            (List.replicate (FibonacciHeap.ceil_log2 h.size.toNat + 1) none) L := by
          refine ⟨hf, ho, hr.toRingLR, ?_, ?_, hnd, ?_⟩
          · intro a
            rw [← hL a]
            constructor
            · exact Or.inr
            · rintro (e | e)
              · exact absurd e (hnoA a)
              · exact e
          · intro i j a hi _
            exact absurd ((mem_iff_get? _ _).2 ⟨i, hi⟩) (hnoA a)
          · intro a ha
            exact absurd ha (hnoA a)
        obtain ⟨fr2, hp2, K2⟩ := FibonacciHeap.consolidate_roots_spec L h h2 _ A2 hp hcr
        have hrb : Rebuilt (FibonacciHeap.view { h2 with min_node := none } dead)
            (FibonacciHeap.min_node { h2 with min_node := none }) A2 [] := by
          refine ⟨hp2.forest, hp2.order, ?_, hp2.distinct, ?_, ?_, ?_⟩
          · intro a
            show parentOf (h2.view dead) a = some none ↔ _
            rw [hp2.part a]
            constructor
            · rintro (e | e)
              · exact Or.inr e
              · cases e
            · rintro (e | e)
              · cases e
              · exact Or.inl e
          · intro a ha
            cases ha
          · apply RingOk.of_empty_map
            intro a
            apply grp_fields_none
            intro hh
            have := (hide_root_mem hh).1
            cases this
          · intro m0 a mn n hm0
            cases hm0
        obtain ⟨g1, g2, g3, g4, g5, g6, g7, K3⟩ :=
          FibonacciHeap.rebuild_roots_spec A2 _ h1 [] hrb hc
        exact ⟨g1.trans fr2.2.1, g2.trans fr2.2.2.1, g3.trans fr2.2.2.2, g4, g5, g6, g7,
          fun a => (K3 a).trans (K2 a)⟩

/-! ## The loop of `FibonacciHeap::pop` over the children of the minimum -/

theorem Forest.weaken {σ : Nat → Option Node} (hf : Forest σ none) (skip : Option Nat) :
    Forest σ skip :=
  ⟨fun p _ => hf.groups p (by simp), hf.rooted⟩

theorem FibonacciHeap.pop_children_spec {dead : Option Nat} {z c0 : Nat} :
    ∀ (fuel : Nat) (h h1 : FibonacciHeap) (child : Nat),
      h.min_node = some z → Forest (h.view dead) (some z) →
      RingOk (grp (h.view dead) none) (some z) →
      childPtr (h.view dead) z = some (some c0) →
      RingPath (grp (h.view dead) (some z)) child c0 →
      FibonacciHeap.pop_children fuel h z child = .ok h1 →
      h.Frame h1 ∧ Forest (h1.view dead) (some z) ∧
        RingOk (grp (h1.view dead) none) (some z) ∧
        (∀ a, grp (h1.view dead) (some z) a = none) ∧
        (∀ a, kv (h1.view dead) a = kv (h.view dead) a) ∧
        (∀ a, parentOf (h1.view dead) a = parentOf (h.view dead) a ∨
          parentOf (h1.view dead) a = some none) := by
  intro fuel
  induction fuel with
  | zero =>
    intro h h1 child _ _ _ _ _ hc
    simp [FibonacciHeap.pop_children] at hc
  | succ fuel ih =>
    intro h h1 child hmin hf hroots hzc hpath hc
    unfold FibonacciHeap.pop_children at hc
    obtain ⟨⟨l, next⟩, hcg⟩ := hpath.cur
    obtain ⟨cn, hcn, hcp, e⟩ := grp_some hcg
    have hnext : cn.right = next := (congrArg Prod.snd e).symm
    rw [FibonacciHeap.deref_ok hcn] at hc
    simp only [ok_bind] at hc
    obtain ⟨h2, e2, fr2, ed2⟩ := FibonacciHeap.store_parent none hcn
    rw [e2] at hc
    simp only [ok_bind] at hc
    obtain ⟨⟨zl, mr⟩, hzg⟩ := hroots.anchor_in z rfl
    obtain ⟨hz1, hz2, hz3⟩ := fields_of_grp hzg
    obtain ⟨mrr, hmrg⟩ := hroots.right_ok z zl mr hzg
    obtain ⟨mrn, hmrn, hmrp, _⟩ := grp_some hmrg
    have hPc : parentOf (h.view dead) child = some (some z) := by
      rw [parentOf_of_some hcn, hcp]
    have hPmr : parentOf (h.view dead) mr = some none := by
      rw [parentOf_of_some hmrn, hmrp]
    have hcz : child ≠ z := by
      intro e'; rw [e', hz1] at hPc; cases hPc
    have hcmr : child ≠ mr := by
      intro e'; rw [e', hPmr] at hPc; cases hPc
    obtain ⟨cn2, hcn2⟩ := ed2.live hcn
    obtain ⟨mrn2, hmrn2⟩ := ed2.live hmrn
    obtain ⟨h3, e3, fr3, R3, L3, P3, C3, K3⟩ := FibonacciHeap.insert_after_min_fields
      (fr2.1.trans hmin) ((ed2.right z).trans hz3) hcn2 hmrn2 hcz hcmr
    rw [e3] at hc
    simp only [ok_bind] at hc
    have R : ∀ a, rightOf (h3.view dead) a =
        if a = z then some child else if a = child then some mr
        else rightOf (h.view dead) a := by
      intro a; rw [R3 a, ed2.right a]; rfl
    have L : ∀ a, leftOf (h3.view dead) a =
        if a = mr then some child else if a = child then some z
        else leftOf (h.view dead) a := by
      intro a; rw [L3 a, ed2.left a]; rfl
    have P : ∀ a, parentOf (h3.view dead) a =
        if a = child then some none else parentOf (h.view dead) a := by
      intro a; rw [P3 a, ed2.parent a]; rfl
    have C : ∀ a, childPtr (h3.view dead) a = childPtr (h.view dead) a := by
      intro a; rw [C3 a, ed2.child a]; rfl
    have K : ∀ a, kv (h3.view dead) a = kv (h.view dead) a := by
      intro a; rw [K3 a, ed2.kv a]
    have hPne : ∀ a, a ≠ child → parentOf (h3.view dead) a = parentOf (h.view dead) a := by
      intro a hac; rw [P a, if_neg hac]
    have hPx : parentOf (h3.view dead) child = some none := by rw [P child, if_pos rfl]
    have hnoroot : ∀ {a : Nat} {p : Nat}, parentOf (h.view dead) a = some (some p) →
        a ≠ z ∧ a ≠ mr := by
      intro a p ha
      constructor
      · intro e'; rw [e', hz1] at ha; cases ha
      · intro e'; rw [e', hPmr] at ha; cases ha
    have hkept : ∀ a, parentOf (h3.view dead) a = parentOf (h.view dead) a ∨
        parentOf (h3.view dead) a = some none := by
      intro a
      by_cases hac : a = child
      · right; rw [hac]; exact hPx
      · left; exact hPne a hac
    have hf3 : Forest (h3.view dead) (some z) := by
      refine ⟨?_, ?_⟩
      · intro p hs
        have hpz : p ≠ z := fun e' => hs (by rw [e'])
        refine keep_group (hf.groups p hs) (childOf_ptr (C p)) ?_
        intro a ha
        have hac : a ≠ child := by
          intro e'
          rw [e'] at ha
          cases ha with
          | inl h0 =>
            rw [hPc] at h0
            exact hpz (Option.some.inj (Option.some.inj h0)).symm
          | inr h0 => rw [hPx] at h0; cases h0
        have hpa : parentOf (h.view dead) a = some (some p) := by
          cases ha with
          | inl h0 => exact h0
          | inr h0 => rw [hPne a hac] at h0; exact h0
        obtain ⟨h1', h2'⟩ := hnoroot hpa
        exact ⟨hPne a hac, by rw [L a, if_neg h2', if_neg hac],
          by rw [R a, if_neg h1', if_neg hac]⟩
      · intro a n' ha
        obtain ⟨n, hn, _⟩ := live_of_kv ((K a).symm) ha
        exact Rooted.mono_fields (fun b _ _ => hkept b) (hf.rooted a n hn)
    have hroots3 : RingOk (grp (h3.view dead) none) (some z) := by
      refine splice_group hroots (by rw [hPc]; simp) hz3 hPx ?_ ?_ hPne ?_ ?_
      · rw [L child, if_neg hcmr, if_pos rfl]
      · rw [R child, if_neg hcz, if_pos rfl]
      · intro a hac _
        rw [R a]
        by_cases e' : a = z
        · rw [if_pos e', if_pos e']
        · rw [if_neg e', if_neg e', if_neg hac]
      · intro a hac _
        rw [L a]
        by_cases e' : a = mr
        · rw [if_pos e', if_pos e']
        · rw [if_neg e', if_neg e', if_neg hac]
    have hgc : grp (h3.view dead) (some z) child = none :=
      grp_fields_none (by rw [hPx]; simp)
    have hgrest : ∀ a, a ≠ child →
        grp (h3.view dead) (some z) a = grp (h.view dead) (some z) a := by
      intro a hac
      by_cases hpa : parentOf (h.view dead) a = some (some z)
      · obtain ⟨h1', h2'⟩ := hnoroot hpa
        exact grp_congr (hPne a hac) (by rw [L a, if_neg h2', if_neg hac])
          (by rw [R a, if_neg h1', if_neg hac])
      · exact grp_congr_out (hPne a hac) hpa
    have hzc3 : childPtr (h3.view dead) z = some (some c0) := (C z).trans hzc
    obtain ⟨zn3, hzn3, hzn3c⟩ := childPtr_some hzc3
    rw [FibonacciHeap.deref_ok hzn3] at hc
    simp only [ok_bind] at hc
    rw [hzn3c, hnext] at hc
    by_cases hne : next = c0
    · rw [if_neg (by rw [hne]; simp)] at hc
      cases hc
      refine ⟨fr2.trans fr3, hf3, hroots3, ?_, K, hkept⟩
      intro a
      by_cases hac : a = child
      · rw [hac]; exact hgc
      · rw [hgrest a hac]
        rw [hne] at hcg
        exact hpath.done hcg a hac
    · rw [if_pos (by intro e'; exact hne (Option.some.inj e'))] at hc
      have hpath3 : RingPath (grp (h3.view dead) (some z)) next c0 :=
        hpath.advance hcg hne hgc hgrest
      obtain ⟨fr4, hf4, hroots4, hg4, K4, P4⟩ :=
        ih h3 h1 next ((fr2.trans fr3).1.trans hmin) hf3 hroots3 hzc3 hpath3 hc
      refine ⟨(fr2.trans fr3).trans fr4, hf4, hroots4, hg4, fun a => (K4 a).trans (K a), ?_⟩
      intro a
      cases P4 a with
      | inl e' =>
        cases hkept a with
        | inl e'' => exact Or.inl (e'.trans e'')
        | inr e'' => exact Or.inr (e'.trans e'')
      | inr e' => exact Or.inr e'

/-! ## `FibonacciHeap::pop` keeps the invariant -/

theorem FibonacciHeap.view_dead (h : FibonacciHeap) (z a : Nat) :
    h.view (some z) a = if a = z then none else h.view none a := by
  unfold FibonacciHeap.view
  by_cases haz : a = z
  · rw [if_pos (by rw [haz]), if_pos haz]
  · rw [if_neg (fun e => haz (Option.some.inj e).symm), if_neg haz, if_neg (by simp)]

/-- The free store after `delete z`. -/
theorem FibonacciHeap.view_erase {h h1 : FibonacciHeap} {z : Nat}
    (hm : h1.mem = h.mem.set z none) (a : Nat) : h1.view none a = h.view (some z) a := by
  unfold FibonacciHeap.view
  rw [hm]
  have hn : ¬ ((none : Option Nat) = some a) := by simp
  by_cases haz : a = z
  · rw [if_neg hn, if_pos (by rw [haz]), haz, List.getElem?_set]
    simp only [if_true]
    split <;> rfl
  · rw [if_neg hn, if_neg (fun e => haz (Option.some.inj e).symm),
      List.getElem?_set_ne (Ne.symm haz)]

theorem map_view_dead {α : Type} (π : Node → α) (h : FibonacciHeap) (z a : Nat) :
    (h.view (some z) a).map π = if a = z then none else (h.view none a).map π := by
  rw [FibonacciHeap.view_dead]
  split <;> rfl

/-- Parent chains still end when a parentless node without children is
deleted. -/
theorem Rooted.erase_rooted {σ σ' : Nat → Option Node} {z : Nat}
    (hP : ∀ a, a ≠ z → parentOf σ' a = parentOf σ a)
    (hempty : ∀ a, parentOf σ a ≠ some (some z))
    {a : Nat} (h : Rooted σ a) : a ≠ z → Rooted σ' a := by
  induction h with
  | root a n ha hp =>
    intro haz
    exact Rooted.of_parentOf_none (by rw [hP a haz, parentOf_of_some ha, hp])
  | child a n p ha hp _ ih =>
    intro haz
    have hpa : parentOf σ a = some (some p) := by rw [parentOf_of_some ha, hp]
    have hpz : p ≠ z := by
      intro e
      rw [e] at hpa
      exact hempty a hpa
    exact Rooted.of_parentOf_some (by rw [hP a haz, hpa]) (ih hpz)

/-- When the minimum is alone in the root list and has no children, it is
the only node. -/
theorem Forest.lone {σ : Nat → Option Node} {z l : Nat} (hf : Forest σ (some z))
    (hroots : RingOk (grp σ none) (some z)) (hz : grp σ none z = some (l, z))
    (hempty : ∀ a, grp σ (some z) a = none) (a : Nat) (n : Node) (ha : σ a = some n) :
    a = z := by
  have hr := hf.rooted a n ha
  clear ha
  induction hr with
  | root a n ha hp => exact hroots.loop_only hz a _ (grp_member ha hp)
  | child a n p ha hp _ ih =>
    rw [ih] at hp
    have := hempty a
    rw [grp_member ha hp] at this
    cases this

theorem Tabled.erase_tabled {N : Nat} {tab : List (Option Nat)} {σ σ' : Nat → Option Node} {z : Nat}
    (h : Tabled N tab σ) (hk : ∀ a, kv σ' a = if a = z then none else kv σ a) :
    Tabled N (tab.set z none) σ' := by
  refine ⟨by rw [List.length_set]; exact h.1, ?_⟩
  intro v
  by_cases hvz : v = z
  · right
    have := hk v
    rw [if_pos hvz] at this
    refine ⟨?_, kv_none this⟩
    rw [hvz, List.getElem?_set]
    simp only [if_true]
    split
    · exact Or.inl rfl
    · exact Or.inr rfl
  · rw [List.getElem?_set_ne (Ne.symm hvz)]
    have hkv := hk v
    rw [if_neg hvz] at hkv
    cases h.2 v with
    | inl e =>
      obtain ⟨e1, n, e2, e3⟩ := e
      obtain ⟨n', h1, _, h3⟩ := live_of_kv hkv e2
      exact Or.inl ⟨e1, n', h1, h3.trans e3⟩
    | inr e => exact Or.inr ⟨e.1, dead_of_kv hkv e.2⟩

/-- A heap without nodes and with a null `min_node` has the invariant. -/
theorem FibonacciHeap.Inv.of_empty {N : Nat} {h : FibonacciHeap} (hlen : h.mem.length = N)
    (htab : Tabled N h.node_table (h.view none)) (hdead : ∀ a, h.view none a = none)
    (hmin : h.min_node = none) : h.Inv N := by
  refine ⟨hlen, htab, ⟨?_, ?_⟩, ?_, ?_, ?_⟩
  · intro p _
    rw [childOf_of_none (hdead p)]
    exact RingOk.of_empty_map (fun a => grp_of_none (hdead a))
  · intro a n ha
    rw [hdead a] at ha; cases ha
  · intro a p n pn ha
    rw [hdead a] at ha; cases ha
  · rw [hmin]
    exact RingOk.of_empty_map (fun a => grp_of_none (hdead a))
  · intro m0 a mn n hm0
    rw [hmin] at hm0; cases hm0

/-- The second half of `pop`: the minimum `z`, whose children are in the root
list, leaves the root list, the heap is consolidated, and `z` is deleted. -/
theorem FibonacciHeap.pop_finish {N : Nat} {σ0 : Nat → Option Node} {tab : List (Option Nat)}
    {hB : FibonacciHeap} {z : Nat} {res : Int × Nat} {r : (Int × Nat) × FibonacciHeap}
    (hlen : hB.mem.length = N) (hmin : hB.min_node = some z)
    (htab : Tabled N tab σ0) (htabB : hB.node_table = tab.set z none)
    (K : ∀ a, kv (hB.view none) a = kv σ0 a)
    (hf : Forest (hB.view none) (some z)) (ho : HeapOrder (hB.view none))
    (hroots : RingOk (grp (hB.view none) none) (some z))
    (hempty : ∀ a, grp (hB.view none) (some z) a = none)
    (hfin : (do
      let zn ← hB.deref z
      let h ← hB.store zn.left (fun n => { n with right := zn.right })
      let zn ← h.deref z
      let h ← h.store zn.right (fun n => { n with left := zn.left })
      let zn ← h.deref z
      let h ← if z = zn.right then Except.ok { h with min_node := none }
        else FibonacciHeap.consolidate { h with min_node := some zn.right }
      let h := { h with mem := h.mem.set z none }
      Except.ok (res, { h with size := wrap32 (h.size - 1) })) = .ok r) :
    r.2.Inv N := by
  obtain ⟨⟨zl, zr⟩, hzg⟩ := hroots.anchor_in z rfl
  obtain ⟨zn, hzn, hznp, e⟩ := grp_some hzg
  have hzl : zn.left = zl := (congrArg Prod.fst e).symm
  have hzr : zn.right = zr := (congrArg Prod.snd e).symm
  obtain ⟨ll, hlg⟩ := hroots.left_ok z zl zr hzg
  obtain ⟨ln, hln, hlp, _⟩ := grp_some hlg
  obtain ⟨rr, hrg⟩ := hroots.right_ok z zl zr hzg
  obtain ⟨rn, hrn, hrp, _⟩ := grp_some hrg
  rw [← hzl] at hln
  rw [← hzr] at hrn
  obtain ⟨h2, e2, fr2, R, L, P, C, K2⟩ := FibonacciHeap.unlink_fields hzn hln hrn
  rw [e2] at hfin
  obtain ⟨zn2, hzn2, _⟩ := live_of_kv (K2 z) hzn
  have hzn2r : zn2.right = zn.right := by
    have := R z
    rw [rightOf_of_some hzn2, rightOf_of_some hzn] at this
    split at this <;> exact Option.some.inj this
  rw [FibonacciHeap.deref_ok hzn2] at hfin
  simp only [ok_bind] at hfin
  rw [hzn2r] at hfin
  have hPz : parentOf (hB.view none) z = some none := by rw [parentOf_of_some hzn, hznp]
  have hkv1 : ∀ (H : FibonacciHeap), (∀ a, kv (H.view (some z)) a = kv (h2.view (some z)) a) →
      ∀ a, kv (H.view (some z)) a = if a = z then none else kv σ0 a := by
    intro H hH a
    rw [hH a]
    have := map_view_dead (fun n => (n.key, n.vertex)) h2 z a
    rw [show kv (h2.view (some z)) a = _ from this]
    split
    · rfl
    · exact (K2 a).trans (K a)
  by_cases hself : z = zn.right
  · rw [if_pos hself] at hfin
    cases hfin
    have hz' : grp (hB.view none) none z = some (zl, z) := by
      rw [hzg, ← hzr, ← hself]
    have hdead : ∀ a, h2.view (some z) a = none := by
      intro a
      rw [FibonacciHeap.view_dead]
      split
      · rfl
      · rename_i haz
        cases hs : hB.view none a with
        | none => exact dead_of_kv (K2 a) hs
        | some n => exact absurd (hf.lone hroots hz' hempty a n hs) haz
    have hv1 : ∀ (H : FibonacciHeap), H.mem = h2.mem.set z none →
        H.view none = h2.view (some z) :=
      fun H hH => funext (FibonacciHeap.view_erase hH)
    apply FibonacciHeap.Inv.of_empty
    · show (h2.mem.set z none).length = N
      rw [List.length_set, fr2.2.2.2, hlen]
    · show Tabled N h2.node_table _
      rw [hv1 _ rfl, fr2.2.2.1, htabB]
      exact htab.erase_tabled (hkv1 h2 (fun _ => rfl))
    · intro a
      rw [hv1 _ rfl]
      exact hdead a
    · rfl
  · rw [if_neg hself] at hfin
    cases hcon : FibonacciHeap.consolidate { h2 with min_node := some zn.right } with
    | error e' => rw [hcon] at hfin; cases hfin
    | ok y =>
      rw [hcon] at hfin
      simp only [ok_bind] at hfin
      cases hfin
      have hPC : ∀ a, parentOf (h2.view (some z)) a =
          if a = z then none else parentOf (hB.view none) a := by
        intro a
        rw [show parentOf (h2.view (some z)) a = _ from map_view_dead _ h2 z a]
        split
        · rfl
        · exact P a
      have hRC : ∀ a, rightOf (h2.view (some z)) a =
          if a = z then none else if a = zn.left then some zn.right
          else rightOf (hB.view none) a := by
        intro a
        rw [show rightOf (h2.view (some z)) a = _ from map_view_dead _ h2 z a]
        split
        · rfl
        · exact R a
      have hLC : ∀ a, leftOf (h2.view (some z)) a =
          if a = z then none else if a = zn.right then some zn.left
          else leftOf (hB.view none) a := by
        intro a
        rw [show leftOf (h2.view (some z)) a = _ from map_view_dead _ h2 z a]
        split
        · rfl
        · exact L a
      have hCC : ∀ a, childPtr (h2.view (some z)) a =
          if a = z then none else childPtr (hB.view none) a := by
        intro a
        rw [show childPtr (h2.view (some z)) a = _ from map_view_dead _ h2 z a]
        split
        · rfl
        · exact C a
      have hKC : ∀ a, kv (h2.view (some z)) a =
          if a = z then none else kv (hB.view none) a := by
        intro a
        rw [show kv (h2.view (some z)) a = _ from map_view_dead _ h2 z a]
        split
        · rfl
        · exact K2 a
      have hPl : parentOf (hB.view none) zn.left = some none := by
        rw [parentOf_of_some hln, hlp]
      have hPr : parentOf (hB.view none) zn.right = some none := by
        rw [parentOf_of_some hrn, hrp]
      have hnoz : ∀ a, parentOf (hB.view none) a ≠ some (some z) :=
        fun a => parentOf_of_grp_none (hempty a)
      have hfC : Forest (h2.view (some z)) none := by
        refine ⟨?_, ?_⟩
        · intro p _
          by_cases hpz : p = z
          · rw [hpz]
            have hc0 : childOf (h2.view (some z)) z = none := by
              apply childOf_of_none
              rw [FibonacciHeap.view_dead, if_pos rfl]
            rw [hc0]
            apply RingOk.of_empty_map
            intro a
            apply grp_fields_none
            rw [hPC a]
            split
            · simp
            · exact hnoz a
          · refine keep_group (hf.groups p (fun e' => hpz (Option.some.inj e').symm)) ?_ ?_
            · apply childOf_ptr
              rw [hCC p, if_neg hpz]
            · intro a ha
              have haz : a ≠ z := by
                intro e'
                rw [e'] at ha
                cases ha with
                | inl h0 => rw [hPz] at h0; cases h0
                | inr h0 => rw [hPC z, if_pos rfl] at h0; cases h0
              have hpa : parentOf (hB.view none) a = some (some p) := by
                cases ha with
                | inl h0 => exact h0
                | inr h0 => rw [hPC a, if_neg haz] at h0; exact h0
              have hal : a ≠ zn.left := by
                intro e'; rw [e', hPl] at hpa; cases hpa
              have har : a ≠ zn.right := by
                intro e'; rw [e', hPr] at hpa; cases hpa
              refine ⟨by rw [hPC a, if_neg haz], ?_, ?_⟩
              · rw [hLC a, if_neg haz, if_neg har]
              · rw [hRC a, if_neg haz, if_neg hal]
        · intro a n' ha
          have haz : a ≠ z := by
            intro e'
            rw [e', FibonacciHeap.view_dead, if_pos rfl] at ha
            cases ha
          have hk := hKC a
          rw [if_neg haz] at hk
          obtain ⟨n, hn, _⟩ := live_of_kv hk.symm ha
          exact Rooted.erase_rooted (fun b hbz => by rw [hPC b, if_neg hbz]) hnoz
            (hf.rooted a n hn) haz
      have hoC : HeapOrder (h2.view (some z)) := by
        intro a p n' pn' ha hp hpn
        have haz : a ≠ z := by
          intro e'
          rw [e', FibonacciHeap.view_dead, if_pos rfl] at ha
          cases ha
        have hpz : p ≠ z := by
          intro e'
          rw [e', FibonacciHeap.view_dead, if_pos rfl] at hpn
          cases hpn
        have hka := hKC a
        rw [if_neg haz] at hka
        have hkp := hKC p
        rw [if_neg hpz] at hkp
        obtain ⟨n, hn, hk1, _⟩ := live_of_kv hka.symm ha
        obtain ⟨pn, hpn0, hk2, _⟩ := live_of_kv hkp.symm hpn
        rw [← hk1, ← hk2]
        have hP := hPC a
        rw [if_neg haz, parentOf_of_some ha, hp, parentOf_of_some hn] at hP
        exact ho a p n pn hn (Option.some.inj hP).symm hpn0
      have hrC : RingOk (grp (h2.view (some z)) none) (some zn.right) := by
        have := @unlink_group _ (h2.view (some z)) _ _ _ _ _ hroots hzg
          (by rw [hPC z, if_pos rfl]; simp)
          (fun a haz => by rw [hPC a, if_neg haz])
          (fun a haz _ => by rw [hRC a, if_neg haz, hzl, hzr])
          (fun a haz _ => by rw [hLC a, if_neg haz, hzl, hzr])
        rw [if_neg (fun e' => hself (by rw [hzr, e'])), if_pos rfl, ← hzr] at this
        exact this
      obtain ⟨g1, g2, g3, g4, g5, g6, g7, K3⟩ :=
        @FibonacciHeap.consolidate_spec
          { h2 with min_node := some zn.right } _ (some z) _ rfl hfC hoC hrC hcon
      have hv1 : ∀ (H : FibonacciHeap), H.mem = y.mem.set z none →
          H.view none = y.view (some z) :=
        fun H hH => funext (FibonacciHeap.view_erase hH)
      refine ⟨?_, ?_, ?_, ?_, ?_, ?_⟩
      · show (y.mem.set z none).length = N
        rw [List.length_set, g3]
        show h2.mem.length = N
        rw [fr2.2.2.2, hlen]
      · show Tabled N y.node_table _
        rw [hv1 _ rfl, g2]
        show Tabled N h2.node_table _
        rw [fr2.2.2.1, htabB]
        exact htab.erase_tabled (hkv1 y K3)
      · rw [hv1 _ rfl]; exact g4
      · rw [hv1 _ rfl]; exact g5
      · rw [hv1 _ rfl]; exact g6
      · rw [hv1 _ rfl]; exact g7

theorem FibonacciHeap.Inv.pop {N : Nat} {h : FibonacciHeap}
    {r : (Int × Nat) × FibonacciHeap} (hinv : h.Inv N) (hp : h.pop = .ok r) : r.2.Inv N := by
  unfold FibonacciHeap.pop at hp
  cases hmin : h.min_node with
  | none => rw [hmin] at hp; cases hp
  | some z =>
    rw [hmin] at hp
    simp only at hp
    have hroots : RingOk (grp (h.view none) none) (some z) := hmin ▸ hinv.roots
    obtain ⟨zn, _, hzn, hznp, _⟩ := hinv.anchor hmin
    have hzv : zn.vertex = z := by
      cases hinv.tabled.2 z with
      | inl e =>
        obtain ⟨_, n, e2, e3⟩ := e
        rw [hzn] at e2; cases e2
        exact e3
      | inr e => rw [hzn] at e; cases e.2
    rw [FibonacciHeap.deref_ok hzn] at hp
    simp only [ok_bind] at hp
    cases hs : setAt h.node_table (zn.vertex : Int) none with
    | error e => rw [hs] at hp; cases hp
    | ok tab1 =>
      rw [hs] at hp
      simp only [ok_bind] at hp
      obtain ⟨_, _, htab1⟩ := setAt_ok _ _ _ _ hs
      rw [Int.toNat_ofNat, hzv] at htab1
      have hPz : parentOf (h.view none) z = some none := by rw [parentOf_of_some hzn, hznp]
      have hord : ∀ (σ' : Nat → Option Node), (∀ a, kv σ' a = kv (h.view none) a) →
          (∀ a, parentOf σ' a = parentOf (h.view none) a ∨ parentOf σ' a = some none) →
          HeapOrder σ' := by
        intro σ' K P
        refine HeapOrder.of_kept (v := z) ?_ K P ?_
        · intro a p n pn _ ha hpar hpn
          exact hinv.order a p n pn ha hpar hpn
        · cases P z with
          | inl e => rw [e, hPz]
          | inr e => exact e
      cases hc : zn.child with
      | none =>
        rw [hc] at hp
        simp only [ok_bind] at hp
        refine @FibonacciHeap.pop_finish _ (h.view none) h.node_table
          { min_node := some z, size := h.size, node_table := tab1, mem := h.mem } _ _ _
          hinv.mem_len rfl hinv.tabled htab1 (fun _ => rfl) (hinv.forest.weaken _)
          hinv.order hroots ?_ hp
        exact hinv.forest.childless (by simp) (by rw [childOf_of_some hzn, hc])
      | some c0 =>
        rw [hc] at hp
        simp only at hp
        cases hpc : FibonacciHeap.pop_children (h.mem.length + 1)
            { min_node := some z, size := h.size, node_table := tab1, mem := h.mem } z c0 with
        | error e => rw [hpc] at hp; cases hp
        | ok hB =>
          rw [hpc] at hp
          simp only [ok_bind] at hp
          have hgz : RingOk (grp (h.view none) (some z)) (some c0) := by
            have := hinv.forest.groups z (by simp)
            rw [childOf_of_some hzn, hc] at this
            exact this
          obtain ⟨fr, hfB, hrB, heB, KB, PB⟩ := @FibonacciHeap.pop_children_spec none _ _
            _ { min_node := some z, size := h.size, node_table := tab1, mem := h.mem } hB c0
            rfl (hinv.forest.weaken _) hroots
            (by
              show childPtr (h.view none) z = _
              rw [childPtr_of_some hzn, hc])
            (RingPath.start hgz) hpc
          exact @FibonacciHeap.pop_finish _ (h.view none) h.node_table _ _ _ _
            (fr.2.2.2.trans hinv.mem_len) fr.1 hinv.tabled (fr.2.2.1.trans htab1) KB hfB
            (hord _ KB PB) hrB heB hp

/-! ## Reachable states of `FibonacciHeap` -/

theorem set_same {α : Type} {l : List α} {i : Nat} {a : α} (h : l[i]? = some a) :
    l.set i a = l := by
  apply List.ext_getElem?
  intro j
  rw [List.getElem?_set]
  split
  · rename_i hij
    rw [← hij, h]
    obtain ⟨hlt, _⟩ := List.getElem?_eq_some_iff.1 h
    rw [if_pos hlt]
  · rfl

theorem FibonacciHeap.view_of_mem {h : FibonacciHeap} {a : Nat} {n : Node}
    (hm : h.mem[a]? = some (some n)) : h.view none a = some n := by
  unfold FibonacciHeap.view
  rw [if_neg (by simp), hm]
  rfl

/-- The empty heap of the constructor has the invariant. -/
theorem FibonacciHeap.Inv.of_new (n : Nat) : (FibonacciHeap.new n).Inv n := by
  have hdead : ∀ a, (FibonacciHeap.new n).view none a = none := by
    intro a
    unfold FibonacciHeap.view FibonacciHeap.new
    rw [if_neg (by simp)]
    simp only [List.getElem?_replicate]
    split <;> rfl
  apply FibonacciHeap.Inv.of_empty
  · simp [FibonacciHeap.new]
  · refine ⟨by simp [FibonacciHeap.new], fun v => Or.inr ⟨?_, hdead v⟩⟩
    simp only [FibonacciHeap.new, List.getElem?_replicate]
    split
    · exact Or.inl rfl
    · exact Or.inr rfl
  · exact hdead
  · rfl

/-- Every reachable state of a `FibonacciHeap` has the invariant. -/
theorem FibonacciHeap.Reachable.inv_fibonacci {n : Nat} {h : FibonacciHeap}
    (hr : FibonacciHeap.Reachable n h) : h.Inv n := by
  induction hr with
  | init => exact FibonacciHeap.Inv.of_new n
  | step h h1 c _ hstep ih =>
    cases c with
    | push key vertex =>
      simp only [FibonacciHeap.step] at hstep
      split at hstep
      · cases hp : h.push key vertex with
        | error e => rw [hp] at hstep; cases hstep
        | ok h2 =>
          rw [hp] at hstep
          cases hstep
          exact ih.push hp
      · cases hstep
    | pop =>
      simp only [FibonacciHeap.step] at hstep
      cases hp : h.pop with
      | error e => rw [hp] at hstep; cases hstep
      | ok r =>
        rw [hp] at hstep
        cases hstep
        exact ih.pop hp
    | decrease_key vertex new_key =>
      simp only [FibonacciHeap.step] at hstep
      split at hstep
      · cases hp : h.decrease_key vertex new_key with
        | error e => rw [hp] at hstep; cases hstep
        | ok h2 =>
          rw [hp] at hstep
          cases hstep
          exact ih.decrease_key hp
      · cases hstep

theorem FibonacciHeap.Reachable.run_fibonacci {n : Nat} :
    ∀ (cs : List HeapCall) (h h1 : FibonacciHeap), FibonacciHeap.Reachable n h →
      FibonacciHeap.run n cs h = some h1 → FibonacciHeap.Reachable n h1 := by
  intro cs
  induction cs with
  | nil =>
    intro h h1 hr hrun
    simp only [FibonacciHeap.run] at hrun
    cases hrun
    exact hr
  | cons c cs ih =>
    intro h h1 hr hrun
    simp only [FibonacciHeap.run] at hrun
    cases hst : FibonacciHeap.step n h c with
    | none => rw [hst] at hrun; cases hrun
    | some h2 =>
      rw [hst] at hrun
      exact ih h2 h1 (FibonacciHeap.Reachable.step h h2 c hr hst) hrun

theorem sampleFibonacciHeap_reachable : FibonacciHeap.Reachable 4 sampleFibonacciHeap :=
  FibonacciHeap.Reachable.run_fibonacci [.push 5 0, .push 3 1, .push 8 2, .push 1 3, .pop]
    (FibonacciHeap.new 4) sampleFibonacciHeap FibonacciHeap.Reachable.init (by decide!)

/-! ## `FibonacciHeap::decrease_key` without effect -/

/-- C10: in every reachable state of a `FibonacciHeap` over `n` vertices,
`decrease_key(v, k)` returns and leaves the whole state as it is (the nodes of
the free store with their `key`, `parent`, `child`, `left`, `right`, `degree`
and `marked` fields, `min_node`, `size` and `node_table`) whenever `v` is not
in the heap, that is `node_table[v]` is null, or `k` is not strictly less than
the key of the node of `v`; the case of `k` equal to that key is included. -/
theorem fibonacci_decrease_key_frame (n : Nat) (h : FibonacciHeap)
    (hr : FibonacciHeap.Reachable n h) (v : Nat) (k : Int)
    (hk : h.node_table[v]? = some none ∨
      ∃ node nd, h.node_table[v]? = some (some node) ∧ h.mem[node]? = some (some nd) ∧
        ¬ k < nd.key) :
    h.decrease_key v k = .ok h := by
  have hinv := hr.inv_fibonacci
  unfold FibonacciHeap.decrease_key
  cases hk with
  | inl htab => rw [htab]
  | inr hk =>
    obtain ⟨node, nd, htab, hmem, hle⟩ := hk
    have hnode := FibonacciHeap.view_of_mem hmem
    rw [htab]
    simp only
    rw [FibonacciHeap.deref_ok hnode]
    simp only [ok_bind]
    by_cases hgt : k > nd.key
    · rw [if_pos hgt]
    · rw [if_neg hgt]
      have hkey : k = nd.key := by omega
      have hput : h.put node { nd with key := k } = h := by
        have e : ({ nd with key := k } : Node) = nd := by rw [hkey]
        rw [e]
        unfold FibonacciHeap.put
        rw [set_same hmem]
      rw [FibonacciHeap.store_ok _ hnode, hput]
      simp only [ok_bind]
      rw [FibonacciHeap.deref_ok hnode]
      simp only [ok_bind]
      obtain ⟨m0, mn, hm0, hmn, _, hmle⟩ :=
        hinv.min_le.lower hinv.forest hinv.order hinv.roots hnode
      cases hp : nd.parent with
      | none =>
        simp only [ok_bind]
        rw [hm0]
        simp only
        rw [FibonacciHeap.deref_ok hmn]
        simp only [ok_bind]
        rw [if_neg (by omega)]
      | some parent =>
        obtain ⟨pn, hpn⟩ := hinv.forest.parent_live hnode hp
        have hle2 := hinv.order node parent nd pn hnode hp hpn
        simp only
        rw [FibonacciHeap.deref_ok hpn]
        simp only [ok_bind]
        rw [if_neg (by omega)]
        rw [hm0]
        simp only
        rw [FibonacciHeap.deref_ok hmn]
        simp only [ok_bind]
        rw [if_neg (by omega)]

/-- C10, witness: in `sampleFibonacciHeap` the node of vertex 2 has key 8 and
is the child of the node of vertex 0, and `decrease_key(2, 8)` changes
nothing. -/
theorem fibonacci_decrease_key_frame_witness :
    sampleFibonacciHeap.decrease_key 2 8 = .ok sampleFibonacciHeap :=
  fibonacci_decrease_key_frame 4 sampleFibonacciHeap sampleFibonacciHeap_reachable 2
    8 (Or.inr ⟨2, _, by decide, rfl, by decide⟩)

/-! ## The vertex map stays consistent, whatever the branching factor -/

/-- A `swap_entries` that returns has exchanged two slots and kept the vertex
map consistent. -/
theorem DHeap.swap_entries_indexed {n : Nat} {h h1 : DHeap} {i j : Int}
    (hx : Indexed n h.heap h.vertex_to_index) (hij : i ≠ j)
    (hs : h.swap_entries i j = .ok h1) :
    h1.d = h.d ∧ Indexed n h1.heap h1.vertex_to_index ∧ h1.heap.Perm h.heap := by
  cases ha : at? h.heap i with
  | error e =>
    unfold DHeap.swap_entries at hs
    rw [ha] at hs
    cases hs
  | ok a =>
    cases hb : at? h.heap j with
    | error e =>
      unfold DHeap.swap_entries at hs
      rw [ha, hb] at hs
      cases hs
    | ok b =>
      obtain ⟨hi0, hia⟩ := at?_ok _ _ _ ha
      obtain ⟨hj0, hjb⟩ := at?_ok _ _ _ hb
      have ei : i = (i.toNat : Int) := (Int.toNat_of_nonneg hi0).symm
      have ej : j = (j.toNat : Int) := (Int.toNat_of_nonneg hj0).symm
      have hne : i.toNat ≠ j.toNat := by omega
      have hs2 : h.swap_entries (i.toNat : Int) (j.toNat : Int) = .ok h1 := by
        rw [← ei, ← ej]
        exact hs
      rw [DHeap.swap_entries_eq h n _ _ a b hx hne hia hjb] at hs2
      cases hs2
      exact ⟨rfl, hx.swap_indexed hne hia hjb, swap_perm _ _ _ _ _ hne hia hjb⟩

/-- The loop of `heapify_up` returns and keeps the vertex map consistent, in
heap order or not. -/
theorem DHeap.heapify_up_loop_indexed (n D : Nat) (hD : 2 ≤ D) :
    ∀ (fuel i : Nat) (h : DHeap), h.d = (D : Int) → i ≤ fuel →
      Indexed n h.heap h.vertex_to_index → i < h.heap.length →
      ∃ h1, h.heapify_up_loop fuel (i : Int) = .ok h1 ∧ h1.d = h.d ∧
        Indexed n h1.heap h1.vertex_to_index ∧ h1.heap.Perm h.heap := by
  intro fuel
  induction fuel with
  | zero =>
    intro i h hd hif hx hil
    have hi0 : i = 0 := by omega
    subst hi0
    exact ⟨h, by simp [DHeap.heapify_up_loop], rfl, hx, List.Perm.refl _⟩
  | succ fuel ih =>
    intro i h hd hif hx hil
    by_cases hi0 : i = 0
    · subst hi0
      exact ⟨h, by simp [DHeap.heapify_up_loop], rfl, hx, List.Perm.refl _⟩
    · have hipos : 0 < i := by omega
      have hpi : (i - 1) / D < i := parent_lt D i hD hipos
      obtain ⟨a, ha⟩ := get?_some_of_lt h.heap i hil
      obtain ⟨b, hb⟩ := get?_some_of_lt h.heap ((i - 1) / D) (by omega)
      have hcond : ((i : Int) > 0) := by omega
      rw [DHeap.heapify_up_loop]
      simp only [hcond, if_true]
      rw [DHeap.parent_nat h D i hd hipos, at?_nat _ _ _ ha, at?_nat _ _ _ hb]
      simp only [ok_bind]
      by_cases hlt : a.1 < b.1
      · simp only [hlt, if_true]
        rw [DHeap.swap_entries_eq h n i ((i - 1) / D) a b hx (by omega) ha hb]
        simp only [ok_bind]
        obtain ⟨h1, e1, e2, e3, e5⟩ := ih ((i - 1) / D)
          { h with heap := (h.heap.set i b).set ((i - 1) / D) a,
                   vertex_to_index := (h.vertex_to_index.set b.2 i).set a.2 ((i - 1) / D : Nat) }
          hd (by omega) (hx.swap_indexed (by omega) ha hb) (by simp; omega)
        exact ⟨h1, e1, e2, e3, e5.trans (swap_perm _ _ _ _ _ (by omega) ha hb)⟩
      · simp only [hlt, if_false]
        exact ⟨h, rfl, rfl, hx, List.Perm.refl _⟩

/-- A `heapify_down` that returns has kept the vertex map consistent. -/
theorem DHeap.heapify_down_loop_indexed (n : Nat) :
    ∀ (fuel : Nat) (h h1 : DHeap) (index : Int), Indexed n h.heap h.vertex_to_index →
      h.heapify_down_loop fuel index = .ok h1 →
      h1.d = h.d ∧ Indexed n h1.heap h1.vertex_to_index ∧ h1.heap.Perm h.heap := by
  intro fuel
  induction fuel with
  | zero =>
    intro h h1 index hx hs
    simp [DHeap.heapify_down_loop] at hs
  | succ fuel ih =>
    intro h h1 index hx hs
    rw [DHeap.heapify_down_loop] at hs
    cases hsm : DHeap.smallest_loop h.heap
        (min (wrap32 (h.first_child index + h.d)) (wrap32 h.heap.length) -
          h.first_child index).toNat (h.first_child index) index with
    | error e => rw [hsm] at hs; cases hs
    | ok s =>
      rw [hsm] at hs
      simp only [ok_bind] at hs
      by_cases hne : s ≠ index
      · rw [if_pos hne] at hs
        cases hsw : h.swap_entries index s with
        | error e => rw [hsw] at hs; cases hs
        | ok h2 =>
          rw [hsw] at hs
          simp only [ok_bind] at hs
          obtain ⟨d2, x2, p2⟩ := DHeap.swap_entries_indexed hx (Ne.symm hne) hsw
          obtain ⟨d1, x1, p1⟩ := ih h2 h1 s x2 hs
          exact ⟨d1.trans d2, x1, p1.trans p2⟩
      · rw [if_neg hne] at hs
        cases hs
        exact ⟨rfl, hx, List.Perm.refl _⟩

/-- The vertex map after `emplace_back` of an entry for a vertex that was not
in the heap. -/
theorem Indexed.append {n : Nat} {heap : List (Int × Nat)} {vti : List Int}
    (hx : Indexed n heap vti) {v : Nat} (k : Int) (h1 : vti[v]? = some (-1)) :
    Indexed n (heap ++ [(k, v)]) (vti.set v (heap.length : Int)) := by
  have hvl := get?_lt _ _ _ h1
  constructor
  · simp [hx.len]
  · intro i e hi
    by_cases hil : i < heap.length
    · rw [List.getElem?_append_left hil] at hi
      have hev : v ≠ e.2 := by
        intro hh
        have := hx.slot i e hi
        rw [← hh, h1] at this
        simp at this
      rw [get?_set_other _ _ _ _ hev]
      exact hx.slot i e hi
    · have hil2 := get?_lt _ _ _ hi
      simp at hil2
      have hie : i = heap.length := by omega
      subst hie
      simp at hi
      subst hi
      exact get?_set_same _ _ _ hvl
  · intro w x hw1
    by_cases hwv : w = v
    · subst hwv
      rw [get?_set_same _ _ _ hvl] at hw1
      cases hw1
      exact Or.inr ⟨heap.length, (k, w), rfl, by simp, rfl⟩
    · rw [get?_set_other _ _ _ _ (Ne.symm hwv)] at hw1
      rcases hx.back w x hw1 with h2 | ⟨i, e, h2, h3, h4⟩
      · exact Or.inl h2
      · refine Or.inr ⟨i, e, h2, ?_, h4⟩
        rw [List.getElem?_append_left (get?_lt _ _ _ h3)]
        exact h3

/-- The vertex map after the key of a slot has been overwritten. -/
theorem Indexed.rekey {n : Nat} {heap : List (Int × Nat)} {vti : List Int}
    (hx : Indexed n heap vti) {i : Nat} {e : Int × Nat} (k : Int) (h2 : heap[i]? = some e) :
    Indexed n (heap.set i (k, e.2)) vti := by
  have hil := get?_lt _ _ _ h2
  constructor
  · exact hx.len
  · intro j e1 hj
    by_cases hji : i = j
    · subst hji
      rw [get?_set_same _ _ _ hil] at hj
      cases hj
      exact hx.slot i e h2
    · rw [get?_set_other _ _ _ _ hji] at hj
      exact hx.slot j e1 hj
  · intro w x hw
    rcases hx.back w x hw with h4 | ⟨j, e1, h4, h5, h6⟩
    · exact Or.inl h4
    · by_cases hji : i = j
      · subst hji
        rw [h2] at h5
        cases h5
        exact Or.inr ⟨i, (k, e.2), h4, get?_set_same _ _ _ hil, h6⟩
      · exact Or.inr ⟨j, e1, h4, by rw [get?_set_other _ _ _ _ hji]; exact h5, h6⟩

/-- The vertex map after `pop` has removed the only entry. -/
theorem Indexed.pop_single {n : Nat} {min : Int × Nat} {vti : List Int}
    (hx : Indexed n [min] vti) : Indexed n [] (vti.set min.2 (-1)) := by
  have h0 : [min][0]? = some min := by simp
  have hml := hx.vertex_lt h0
  constructor
  · simp [hx.len]
  · intro i e hi
    simp at hi
  · intro w x hw
    by_cases hwm : w = min.2
    · subst hwm
      rw [get?_set_same _ _ _ hml] at hw
      cases hw
      exact Or.inl rfl
    · rw [get?_set_other _ _ _ _ (Ne.symm hwm)] at hw
      rcases hx.back w x hw with h4 | ⟨j, e1, h4, h5, h6⟩
      · exact Or.inl h4
      · cases j with
        | zero =>
          simp at h5
          subst h5
          exact absurd h6.symm hwm
        | succ j => simp at h5

/-- The array after `pop` has moved the last entry to the root and dropped the
last slot. -/
theorem dropLast_moved {α : Type} (min : α) (rest : List α) (hr : rest ≠ []) (j : Nat) :
    ((rest.getLast hr :: rest).dropLast)[j]? =
      if j < rest.length then (if j = 0 then some (rest.getLast hr) else (min :: rest)[j]?)
      else none := by
  have hdrop : (rest.getLast hr :: rest).dropLast = (rest.getLast hr :: rest).take rest.length := by
    rw [List.dropLast_eq_take]
    simp
  rw [hdrop, List.getElem?_take]
  by_cases hj : j < rest.length
  · simp only [hj, if_true]
    cases j with
    | zero => simp
    | succ j => simp
  · simp only [hj, if_false]

theorem getLast_slot {α : Type} (min : α) (rest : List α) (hr : rest ≠ []) :
    (min :: rest)[rest.length]? = some (rest.getLast hr) := by
  have hm : 0 < rest.length := List.length_pos.2 hr
  have : (min :: rest)[rest.length]? = rest[rest.length - 1]? := by
    cases hrl : rest.length with
    | zero => omega
    | succ k => simp
  rw [this, List.getLast_eq_getElem]
  simp

/-- The vertex map after `pop` has moved the last entry to the root. -/
theorem Indexed.pop_move {n : Nat} {min : Int × Nat} {rest : List (Int × Nat)} {vti : List Int}
    (hx : Indexed n (min :: rest) vti) (hr : rest ≠ []) :
    Indexed n (rest.getLast hr :: rest).dropLast
      ((vti.set min.2 (-1)).set (rest.getLast hr).2 0) := by
  have hm : 0 < rest.length := List.length_pos.2 hr
  have h0 : (min :: rest)[0]? = some min := by simp
  have hml := hx.vertex_lt h0
  have hgl := getLast_slot min rest hr
  have hll := hx.vertex_lt hgl
  have hg0 := dropLast_moved min rest hr
  have hlm : min.2 ≠ (rest.getLast hr).2 := by
    intro hh
    have := hx.inj h0 hgl hh
    omega
  have hv0 : ∀ w, ((vti.set min.2 (-1)).set (rest.getLast hr).2 0)[w]? =
      if w = (rest.getLast hr).2 then some 0 else if w = min.2 then some (-1)
      else vti[w]? := by
    intro w
    by_cases h1 : w = (rest.getLast hr).2
    · subst h1
      simp only [if_true]
      exact get?_set_same _ _ _ (by simpa using hll)
    · simp only [h1, if_false]
      rw [get?_set_other _ _ _ _ (Ne.symm h1)]
      by_cases h2 : w = min.2
      · subst h2
        simp only [if_true]
        exact get?_set_same _ _ _ hml
      · simp only [h2, if_false]
        exact get?_set_other _ _ _ _ (Ne.symm h2)
  constructor
  · simp [hx.len]
  · intro j e hj
    rw [hg0] at hj
    by_cases hjl : j < rest.length
    · simp only [hjl, if_true] at hj
      by_cases hj0 : j = 0
      · subst hj0
        simp only [if_true] at hj
        cases hj
        rw [hv0]
        simp
      · simp only [hj0, if_false] at hj
        have h1 : e.2 ≠ (rest.getLast hr).2 := by
          intro hh
          have := hx.inj hj hgl hh
          omega
        have h2 : e.2 ≠ min.2 := by
          intro hh
          have := hx.inj hj h0 hh
          omega
        rw [hv0]
        simp only [h1, h2, if_false]
        exact hx.slot j e hj
    · simp only [hjl, if_false] at hj
      cases hj
  · intro w x hw
    rw [hv0] at hw
    by_cases h1 : w = (rest.getLast hr).2
    · simp only [h1, if_true] at hw
      cases hw
      refine Or.inr ⟨0, rest.getLast hr, rfl, ?_, h1.symm⟩
      rw [hg0]
      simp [hm]
    · simp only [h1, if_false] at hw
      by_cases h2 : w = min.2
      · simp only [h2, if_true] at hw
        cases hw
        exact Or.inl rfl
      · simp only [h2, if_false] at hw
        rcases hx.back w x hw with h4 | ⟨j, e1, h4, h5, h6⟩
        · exact Or.inl h4
        · refine Or.inr ⟨j, e1, h4, ?_, h6⟩
          have hj0 : j ≠ 0 := by
            intro hh
            subst hh
            rw [h0] at h5
            cases h5
            exact h2 h6.symm
          have hjm : j ≠ rest.length := by
            intro hh
            subst hh
            rw [hgl] at h5
            cases h5
            exact h1 h6.symm
          have hjl := get?_lt _ _ _ h5
          simp at hjl
          rw [hg0]
          have : j < rest.length := by omega
          simp only [this, hj0, if_true, if_false]
          exact h5

theorem moved_perm {α : Type} (min : α) (rest : List α) (hr : rest ≠ []) :
    (min :: rest).Perm (min :: (rest.getLast hr :: rest).dropLast) := by
  refine List.Perm.cons min ?_
  simp only [List.dropLast_cons_of_ne_nil hr]
  have h7 : (rest.getLast hr :: rest.dropLast).Perm (rest.dropLast ++ [rest.getLast hr]) :=
    (List.perm_append_singleton _ _).symm
  rw [List.dropLast_append_getLast hr] at h7
  exact h7.symm

theorem DHeap.Consistent.factor {n : Nat} {h : DHeap} (hc : DHeap.Consistent n h) :
    ∃ D : Nat, h.d = (D : Int) ∧ 2 ≤ D := by
  have h2 := hc.d_ge
  exact ⟨h.d.toNat, (Int.toNat_of_nonneg (by omega)).symm, by omega⟩

/-- The method `heapify_up` returns and keeps the vertex map consistent. -/
theorem DHeap.heapify_up_indexed (n D : Nat) (hD : 2 ≤ D) (i : Nat) (h : DHeap)
    (hd : h.d = (D : Int)) (hx : Indexed n h.heap h.vertex_to_index) (hil : i < h.heap.length) :
    ∃ h1, h.heapify_up (i : Int) = .ok h1 ∧ h1.d = h.d ∧
      Indexed n h1.heap h1.vertex_to_index ∧ h1.heap.Perm h.heap := by
  unfold DHeap.heapify_up
  simp only [Int.toNat_ofNat]
  exact DHeap.heapify_up_loop_indexed n D hD i i h hd (le_refl _) hx hil

/-- A `push` of a vertex that is not in the heap returns, adds the entry and
keeps the vertex map consistent, whatever the branching factor. -/
theorem DHeap.push_consistent (n : Nat) (hn : n ≤ 2147483647) (h : DHeap)
    (hc : DHeap.Consistent n h) (k : Int) (v : Nat)
    (h1 : h.vertex_to_index[v]? = some (-1)) :
    ∃ h1, h.push k v = .ok h1 ∧ DHeap.Consistent n h1 ∧ h1.d = h.d ∧
      h1.heap.Perm ((k, v) :: h.heap) := by
  obtain ⟨D, hd, hD⟩ := hc.factor
  have hx := hc.indexed
  have hvl := get?_lt _ _ _ h1
  have hx1 := hx.append k h1
  have hlen := hx1.length_le
  simp only [List.length_append, List.length_singleton] at hlen
  have hw : wrap32 (((h.heap ++ [(k, v)]).length : Int) - 1) = (h.heap.length : Int) := by
    rw [wrap32_of_range] <;> simp <;> omega
  unfold DHeap.push
  rw [at?_nat _ _ _ h1]
  simp only [ok_bind, ne_eq, not_true_eq_false, if_false, hw]
  rw [setAt_nat _ _ _ hvl]
  simp only [ok_bind]
  obtain ⟨h2, e1, e2, e3, e5⟩ := DHeap.heapify_up_indexed n D hD h.heap.length
    { h with heap := h.heap ++ [(k, v)],
             vertex_to_index := h.vertex_to_index.set v (h.heap.length : Int) }
    hd hx1 (by simp)
  refine ⟨h2, e1, ⟨?_, e3⟩, e2, e5.trans ?_⟩
  · rw [e2]
    exact hc.d_ge
  · exact List.perm_append_singleton _ _

/-- A `pop` that returns has removed the entry it returns and kept the vertex
map consistent, whatever the branching factor. -/
theorem DHeap.pop_consistent {n : Nat} {h h1 : DHeap} {e : Int × Nat}
    (hc : DHeap.Consistent n h) (hp : h.pop = .ok (e, h1)) :
    DHeap.Consistent n h1 ∧ h1.d = h.d ∧ h.heap.Perm (e :: h1.heap) := by
  have hx := hc.indexed
  unfold DHeap.pop at hp
  split at hp
  · cases hp
  · rename_i min rest heq
    rw [heq] at hx
    have h0 : (min :: rest)[0]? = some min := by simp
    have hml := hx.vertex_lt h0
    rw [setAt_nat _ _ _ hml] at hp
    simp only [ok_bind] at hp
    by_cases hr : rest = []
    · subst hr
      simp only [List.length_nil, Nat.zero_add, gt_iff_lt, Nat.lt_irrefl, if_false, ok_bind,
        List.dropLast_single, ne_eq, not_true_eq_false] at hp
      cases hp
      refine ⟨⟨hc.d_ge, hx.pop_single⟩, rfl, ?_⟩
      rw [heq]
    · have hm : 0 < rest.length := List.length_pos.2 hr
      have hlast : (min :: rest).getLast (List.cons_ne_nil _ _) = rest.getLast hr :=
        List.getLast_cons hr
      have hgl := getLast_slot min rest hr
      have hll := hx.vertex_lt hgl
      have hcond : rest.length + 1 > 1 := by omega
      simp only [hcond, if_true, hlast] at hp
      rw [setAt_nat _ _ _ (by simpa using hll)] at hp
      simp only [ok_bind] at hp
      have hne0 : (rest.getLast hr :: rest).dropLast ≠ [] := by
        intro hh
        have := dropLast_moved min rest hr 0
        rw [hh] at this
        simp [hm] at this
      simp only [ne_eq, hne0, not_false_eq_true, if_true] at hp
      cases hdn : DHeap.heapify_down
          { d := h.d, heap := (rest.getLast hr :: rest).dropLast,
            vertex_to_index := (h.vertex_to_index.set min.2 (-1)).set (rest.getLast hr).2 0 } 0 with
      | error f => rw [hdn] at hp; cases hp
      | ok h4 =>
        rw [hdn] at hp
        cases hp
        unfold DHeap.heapify_down at hdn
        obtain ⟨d4, x4, p4⟩ := DHeap.heapify_down_loop_indexed n _ _ _ _ (hx.pop_move hr) hdn
        refine ⟨⟨?_, x4⟩, d4, ?_⟩
        · rw [d4]
          exact hc.d_ge
        · rw [heq]
          exact (moved_perm _ rest hr).trans (List.Perm.cons _ p4.symm)

/-- A `decrease_key` that returns has kept the vertex map consistent, whatever
the branching factor. -/
theorem DHeap.decrease_key_consistent {n : Nat} {h h1 : DHeap} {v : Nat} {k : Int}
    (hc : DHeap.Consistent n h) (hv : v < n) (hp : h.decrease_key v k = .ok h1) :
    DHeap.Consistent n h1 ∧ h1.d = h.d := by
  obtain ⟨D, hd, hD⟩ := hc.factor
  have hx := hc.indexed
  obtain ⟨x, hx1⟩ := get?_some_of_lt h.vertex_to_index v (by rw [hx.len]; exact hv)
  rcases hx.back v x hx1 with hx2 | ⟨i, e, hx2, hx3, _⟩
  · subst hx2
    rw [DHeap.decrease_key_absent h v k hx1] at hp
    cases hp
    exact ⟨hc, rfl⟩
  · subst hx2
    by_cases hk : e.1 < k
    · rw [DHeap.decrease_key_larger h v k i e hx1 hx3 hk] at hp
      cases hp
      exact ⟨hc, rfl⟩
    · have hil := get?_lt _ _ _ hx3
      unfold DHeap.decrease_key at hp
      rw [at?_nat _ _ _ hx1] at hp
      have hi : ¬ ((i : Int) = -1) := by omega
      simp only [ok_bind, hi, if_false] at hp
      rw [at?_nat _ _ _ hx3] at hp
      have hk2 : ¬ (k > e.1) := by omega
      simp only [ok_bind, hk2, if_false] at hp
      rw [setAt_nat _ _ _ hil] at hp
      simp only [ok_bind] at hp
      obtain ⟨h4, e1, e2, e3, _⟩ := DHeap.heapify_up_indexed n D hD i
        { h with heap := h.heap.set i (k, e.2) } hd (hx.rekey k hx3) (by simpa using hil)
      rw [e1] at hp
      cases hp
      refine ⟨⟨?_, e3⟩, e2⟩
      rw [e2]
      exact hc.d_ge

theorem DHeap.Consistent.fresh (n : Nat) (d : Int) : DHeap.Consistent n (DHeap.new n d) := by
  refine ⟨by simp [DHeap.new], ?_⟩
  constructor
  · simp [DHeap.new]
  · intro i e hi
    simp [DHeap.new] at hi
  · intro v x hv
    simp only [DHeap.new, List.getElem?_replicate] at hv
    split at hv
    · cases hv
      exact Or.inl rfl
    · cases hv

theorem DHeap.Consistent.step_consistent {n : Nat} (hn : n ≤ 2147483647) {h h1 : DHeap}
    {c : HeapCall} (hc : DHeap.Consistent n h) (hs : DHeap.step n h c = some h1) :
    DHeap.Consistent n h1 ∧ h1.d = h.d := by
  have hx := hc.indexed
  cases c with
  | push key vertex =>
    simp only [DHeap.step] at hs
    by_cases hv : vertex < n
    · simp only [hv, if_true] at hs
      obtain ⟨x, hx1⟩ := get?_some_of_lt h.vertex_to_index vertex (by rw [hx.len]; exact hv)
      by_cases hx2 : x = -1
      · subst hx2
        obtain ⟨h2, e1, e2, e3, _⟩ := DHeap.push_consistent n hn h hc key vertex hx1
        rw [e1] at hs
        cases hs
        exact ⟨e2, e3⟩
      · rw [DHeap.push_present h key vertex x hx1 hx2] at hs
        cases hs
        exact ⟨hc, rfl⟩
    · simp [hv] at hs
  | pop =>
    simp only [DHeap.step] at hs
    cases hp : h.pop with
    | error f => rw [hp] at hs; cases hs
    | ok r =>
      rw [hp] at hs
      cases hs
      obtain ⟨e2, e3, _⟩ := @DHeap.pop_consistent n h r.2 r.1 hc hp
      exact ⟨e2, e3⟩
  | decrease_key vertex new_key =>
    simp only [DHeap.step] at hs
    by_cases hv : vertex < n
    · simp only [hv, if_true] at hs
      cases hp : h.decrease_key vertex new_key with
      | error f => rw [hp] at hs; cases hs
      | ok h2 =>
        rw [hp] at hs
        cases hs
        exact DHeap.decrease_key_consistent hc hv hp
    · simp [hv] at hs

/-- Every reachable state of a `DHeap(n, d)` has a consistent vertex map and
the branching factor `max(2, d)`, whatever `d`. -/
theorem DHeap.Reachable.consistent_dheap {n : Nat} (hn : n ≤ 2147483647) {d : Int} {h : DHeap}
    (hr : DHeap.Reachable n d h) : DHeap.Consistent n h ∧ h.d = max 2 d := by
  induction hr with
  | init => exact ⟨DHeap.Consistent.fresh n d, rfl⟩
  | step h h1 c _ hstep ih =>
    obtain ⟨e1, e2⟩ := ih.1.step_consistent hn hstep
    exact ⟨e1, e2.trans ih.2⟩

/-! ### `BinaryHeap` -/

theorem BinaryHeap.swap_indexed_binary {n : Nat} {b b1 : BinaryHeap} {i j : Int}
    (hx : Indexed n b.heap b.vertex_to_index) (hij : i ≠ j)
    (hs : b.swap_entries i j = .ok b1) :
    Indexed n b1.heap b1.vertex_to_index ∧ b1.heap.Perm b.heap := by
  have hsim := BinaryHeap.swap_entries_sim b i j
  rw [hs] at hsim
  have hs2 : b.toDHeap.swap_entries i j = .ok b1.toDHeap := hsim.symm
  obtain ⟨_, x1, p1⟩ := DHeap.swap_entries_indexed (n := n) (h := b.toDHeap) hx hij hs2
  exact ⟨x1, p1⟩

/-- A `heapify_down` of `BinaryHeap` that returns has kept the vertex map
consistent. -/
theorem BinaryHeap.down_indexed_binary (n : Nat) :
    ∀ (fuel : Nat) (b b1 : BinaryHeap) (index : Int), Indexed n b.heap b.vertex_to_index →
      b.heapify_down_loop fuel index = .ok b1 →
      Indexed n b1.heap b1.vertex_to_index ∧ b1.heap.Perm b.heap := by
  intro fuel
  induction fuel with
  | zero =>
    intro b b1 index hx hs
    simp [BinaryHeap.heapify_down_loop] at hs
  | succ fuel ih =>
    intro b b1 index hx hs
    rw [BinaryHeap.heapify_down_loop] at hs
    cases hl : BinaryHeap.pick_child b.heap (wrap32 (2 * index + 1)) index with
    | error e => rw [hl] at hs; cases hs
    | ok s0 =>
      rw [hl] at hs
      simp only [ok_bind] at hs
      cases hr : BinaryHeap.pick_child b.heap (wrap32 (2 * index + 2)) s0 with
      | error e => rw [hr] at hs; cases hs
      | ok s =>
        rw [hr] at hs
        simp only [ok_bind] at hs
        by_cases hne : s ≠ index
        · rw [if_pos hne] at hs
          cases hsw : b.swap_entries index s with
          | error e => rw [hsw] at hs; cases hs
          | ok b2 =>
            rw [hsw] at hs
            simp only [ok_bind] at hs
            obtain ⟨x2, p2⟩ := BinaryHeap.swap_indexed_binary hx (Ne.symm hne) hsw
            obtain ⟨x1, p1⟩ := ih b2 b1 s x2 hs
            exact ⟨x1, p1.trans p2⟩
        · rw [if_neg hne] at hs
          cases hs
          exact ⟨hx, List.Perm.refl _⟩

/-- A `pop` of `BinaryHeap` that returns has removed the entry it returns and
kept the vertex map consistent. -/
theorem BinaryHeap.pop_indexed {n : Nat} {b b1 : BinaryHeap} {e : Int × Nat}
    (hx : Indexed n b.heap b.vertex_to_index) (hp : b.pop = .ok (e, b1)) :
    Indexed n b1.heap b1.vertex_to_index ∧ b.heap.Perm (e :: b1.heap) := by
  unfold BinaryHeap.pop at hp
  split at hp
  · cases hp
  · rename_i min rest heq
    rw [heq] at hx
    have h0 : (min :: rest)[0]? = some min := by simp
    have hml := hx.vertex_lt h0
    rw [setAt_nat _ _ _ hml] at hp
    simp only [ok_bind] at hp
    by_cases hr : rest = []
    · subst hr
      simp only [List.length_nil, Nat.zero_add, gt_iff_lt, Nat.lt_irrefl, if_false, ok_bind,
        List.dropLast_single, ne_eq, not_true_eq_false] at hp
      cases hp
      refine ⟨hx.pop_single, ?_⟩
      rw [heq]
    · have hm : 0 < rest.length := List.length_pos.2 hr
      have hlast : (min :: rest).getLast (List.cons_ne_nil _ _) = rest.getLast hr :=
        List.getLast_cons hr
      have hgl := getLast_slot min rest hr
      have hll := hx.vertex_lt hgl
      have hcond : rest.length + 1 > 1 := by omega
      simp only [hcond, if_true, hlast] at hp
      rw [setAt_nat _ _ _ (by simpa using hll)] at hp
      simp only [ok_bind] at hp
      have hne0 : (rest.getLast hr :: rest).dropLast ≠ [] := by
        intro hh
        have := dropLast_moved min rest hr 0
        rw [hh] at this
        simp [hm] at this
      simp only [ne_eq, hne0, not_false_eq_true, if_true] at hp
      cases hdn : BinaryHeap.heapify_down
          { heap := (rest.getLast hr :: rest).dropLast,
            vertex_to_index := (b.vertex_to_index.set min.2 (-1)).set (rest.getLast hr).2 0 } 0 with
      | error f => rw [hdn] at hp; cases hp
      | ok b4 =>
        rw [hdn] at hp
        cases hp
        unfold BinaryHeap.heapify_down at hdn
        obtain ⟨x4, p4⟩ := BinaryHeap.down_indexed_binary n _ _ _ _ (hx.pop_move hr) hdn
        refine ⟨x4, ?_⟩
        rw [heq]
        exact (moved_perm _ rest hr).trans (List.Perm.cons _ p4.symm)

/-- A call of `BinaryHeap` that returns keeps the vertex map consistent. -/
theorem BinaryHeap.step_indexed {n : Nat} (hn : n ≤ 2147483647) {b b1 : BinaryHeap}
    {c : HeapCall} (hx : Indexed n b.heap b.vertex_to_index)
    (hs : BinaryHeap.step n b c = some b1) : Indexed n b1.heap b1.vertex_to_index := by
  have hc : DHeap.Consistent n b.toDHeap := ⟨le_refl _, hx⟩
  cases c with
  | push key vertex =>
    simp only [BinaryHeap.step] at hs
    by_cases hv : vertex < n
    · simp only [hv, if_true] at hs
      cases hp : b.push key vertex with
      | error e => rw [hp] at hs; cases hs
      | ok b2 =>
        rw [hp] at hs
        cases hs
        have hsim := BinaryHeap.push_sim b key vertex
        rw [hp] at hsim
        have hst : DHeap.step n b.toDHeap (.push key vertex) = some b1.toDHeap := by
          simp only [DHeap.step, hv, if_true]
          rw [← hsim]
          rfl
        exact (hc.step_consistent hn hst).1.indexed
    · simp [hv] at hs
  | pop =>
    simp only [BinaryHeap.step] at hs
    cases hp : b.pop with
    | error f => rw [hp] at hs; cases hs
    | ok r =>
      rw [hp] at hs
      cases hs
      exact (@BinaryHeap.pop_indexed n b r.2 r.1 hx hp).1
  | decrease_key vertex new_key =>
    simp only [BinaryHeap.step] at hs
    by_cases hv : vertex < n
    · simp only [hv, if_true] at hs
      cases hp : b.decrease_key vertex new_key with
      | error e => rw [hp] at hs; cases hs
      | ok b2 =>
        rw [hp] at hs
        cases hs
        have hsim := BinaryHeap.decrease_key_sim b vertex new_key
        rw [hp] at hsim
        have hst : DHeap.step n b.toDHeap (.decrease_key vertex new_key) = some b1.toDHeap := by
          simp only [DHeap.step, hv, if_true]
          rw [← hsim]
          rfl
        exact (hc.step_consistent hn hst).1.indexed
    · simp [hv] at hs

/-- Every reachable state of a `BinaryHeap(n)` has a consistent vertex map. -/
theorem BinaryHeap.Reachable.indexed_binary {n : Nat} (hn : n ≤ 2147483647) {b : BinaryHeap}
    (hr : BinaryHeap.Reachable n b) : Indexed n b.heap b.vertex_to_index := by
  induction hr with
  | init => exact (DHeap.Consistent.fresh n 2).indexed
  | step b b1 c _ hstep ih => exact BinaryHeap.step_indexed hn ih hstep

/-! ## `push` of `DHeap` and `BinaryHeap` -/

theorem BinaryHeap.push_of_sim {b : BinaryHeap} {k : Int} {v : Nat} {h1 : DHeap}
    (hp : b.toDHeap.push k v = .ok h1) : ∃ b1, b.push k v = .ok b1 ∧ b1.toDHeap = h1 := by
  have hsim := BinaryHeap.push_sim b k v
  rw [hp] at hsim
  cases hb : b.push k v with
  | error e => rw [hb] at hsim; cases hsim
  | ok b1 =>
    rw [hb] at hsim
    exact ⟨b1, rfl, Except.ok.inj hsim⟩

/-- C11: in every reachable state of a `DHeap(n, d)`, whatever `d`, and of a
`BinaryHeap(n)` (`n` an `int`), and for every vertex `v < n` and every key:
when the heap array holds an entry of `v`, `push(key, v)` returns and leaves the
heap array and the `vertex_to_index` map as they are, also for a smaller key;
when it holds none, `push(key, v)` returns, the heap array afterwards holds
exactly the entries it held and the entry `(key, v)`, and it has one entry
more. -/
theorem push_adds_absent_vertex_only (n : Nat) (hn : n ≤ 2147483647) (d : Int) (v : Nat)
    (hv : v < n) (key : Int) :
    (∀ h : DHeap, DHeap.Reachable n d h →
      ((∃ e ∈ h.heap, e.2 = v) → h.push key v = .ok h) ∧
      ((∀ e ∈ h.heap, e.2 ≠ v) → ∃ h1, h.push key v = .ok h1 ∧
        h1.heap.Perm ((key, v) :: h.heap) ∧ h1.heap.length = h.heap.length + 1)) ∧
    (∀ b : BinaryHeap, BinaryHeap.Reachable n b →
      ((∃ e ∈ b.heap, e.2 = v) → b.push key v = .ok b) ∧
      ((∀ e ∈ b.heap, e.2 ≠ v) → ∃ b1, b.push key v = .ok b1 ∧
        b1.heap.Perm ((key, v) :: b.heap) ∧ b1.heap.length = b.heap.length + 1)) := by
  have key_fact : ∀ h : DHeap, DHeap.Consistent n h →
      ((∃ e ∈ h.heap, e.2 = v) → h.push key v = .ok h) ∧
      ((∀ e ∈ h.heap, e.2 ≠ v) → ∃ h1, h.push key v = .ok h1 ∧
        h1.heap.Perm ((key, v) :: h.heap) ∧ h1.heap.length = h.heap.length + 1) := by
    intro h hc
    constructor
    · intro hin
      obtain ⟨e, he, hev⟩ := hin
      obtain ⟨i, hi, _⟩ := hc.indexed.present he
      rw [hev] at hi
      exact DHeap.push_present h key v (i : Int) hi (by omega)
    · intro hout
      have habs := (hc.indexed.absent_iff hv).2 hout
      obtain ⟨h1, e1, _, _, e4⟩ := DHeap.push_consistent n hn h hc key v habs
      exact ⟨h1, e1, e4, by rw [e4.length_eq]; simp⟩
  constructor
  · intro h hr
    exact key_fact h (hr.consistent_dheap hn).1
  · intro b hr
    have hx := hr.indexed_binary hn
    have hc : DHeap.Consistent n b.toDHeap := ⟨le_refl _, hx⟩
    obtain ⟨k1, k2⟩ := key_fact b.toDHeap hc
    constructor
    · intro hin
      obtain ⟨b1, e1, e2⟩ := BinaryHeap.push_of_sim (k1 hin)
      rw [e1, BinaryHeap.toDHeap_inj _ _ e2]
    · intro hout
      obtain ⟨h1, e1, e2, e3⟩ := k2 hout
      obtain ⟨b1, f1, f2⟩ := BinaryHeap.push_of_sim e1
      refine ⟨b1, f1, ?_, ?_⟩
      · have : b1.heap = h1.heap := by rw [← f2]; rfl
        rw [this]
        exact e2
      · have : b1.heap = h1.heap := by rw [← f2]; rfl
        rw [this]
        exact e3

/-- C11, witness: in `sampleDHeap` and `sampleBinaryHeap` vertex 0 has key 5 and
`push(1, 0)` changes nothing; `wideDHeap`, a `DHeap(3, INT_MAX)`, holds the
vertices 1 and 2, and `push(0, 0)` adds one entry to it. -/
theorem push_adds_absent_vertex_only_witness :
    sampleDHeap.push 1 0 = .ok sampleDHeap ∧ sampleBinaryHeap.push 1 0 = .ok sampleBinaryHeap ∧
    ∃ h1, wideDHeap.push 0 0 = .ok h1 ∧ h1.heap.Perm ((0, 0) :: wideDHeap.heap) ∧
      h1.heap.length = wideDHeap.heap.length + 1 :=
  ⟨((push_adds_absent_vertex_only 3 (by decide) 3 0 (by decide) 1).1 sampleDHeap
      sampleDHeap_reachable).1 ⟨(5, 0), by decide, rfl⟩,
   ((push_adds_absent_vertex_only 3 (by decide) 3 0 (by decide) 1).2 sampleBinaryHeap
      sampleBinaryHeap_reachable).1 ⟨(5, 0), by decide, rfl⟩,
   ((push_adds_absent_vertex_only 3 (by decide) 2147483647 0 (by decide) 0).1 wideDHeap
      wideDHeap_reachable).2 (by decide)⟩

/-! ## `FibonacciHeap::push` throws for the vertices in the heap -/

/-- A `push` of a vertex whose `node_table` entry is null returns. -/
theorem FibonacciHeap.push_returns {N : Nat} {h : FibonacciHeap} (hinv : h.Inv N) (key : Int)
    {v : Nat} (htab : h.node_table[v]? = some none) : ∃ h1, h.push key v = .ok h1 := by
  unfold FibonacciHeap.push
  rw [htab]
  simp only
  have hvN : v < N := by
    have h1 := hinv.tabled.1
    have h2 : v < h.node_table.length := by
      by_contra hge
      rw [List.getElem?_eq_none (by omega)] at htab
      cases htab
    omega
  have hσv : h.view none v = none := by
    cases hinv.tabled.2 v with
    | inl e => rw [htab] at e; cases e.1
    | inr e => exact e.2
  have hH : ∃ H0 : FibonacciHeap, H0 = { h with
        mem := h.mem.set v (some { key := key, vertex := v, degree := 0, marked := false,
                                   parent := none, child := none, left := v, right := v }),
        node_table := h.node_table.set v (some v) } ∧
      H0.min_node = h.min_node ∧
      ∀ a, H0.view none a = if a = v then
          some { key := key, vertex := v, degree := 0, marked := false,
                 parent := none, child := none, left := v, right := v }
        else h.view none a :=
    ⟨_, rfl, rfl,
      fun a => FibonacciHeap.view_put_lt (h := h) _ (by rw [hinv.mem_len]; exact hvN)
        (by simp) a⟩
  obtain ⟨H0, e0, hH1, hH5⟩ := hH
  rw [← e0]
  cases hmin : h.min_node with
  | none => exact ⟨_, rfl⟩
  | some m =>
    simp only
    obtain ⟨mn, rn, hm, hmp, hr, hrp, hrl⟩ := hinv.anchor hmin
    have hmv : m ≠ v := by intro e; rw [e, hσv] at hm; cases hm
    have hrv : mn.right ≠ v := by intro e; rw [e, hσv] at hr; cases hr
    have hm0 : H0.view none m = some mn := by rw [hH5, if_neg hmv, hm]
    have hr0 : H0.view none mn.right = some rn := by rw [hH5, if_neg hrv, hr]
    have hv0 := hH5 v
    rw [if_pos rfl] at hv0
    obtain ⟨h2, e2, f1, f2, f3, f4, g1, g2, g3, g4⟩ :=
      FibonacciHeap.insert_after_min_spec (hH1.trans hmin) hm0 hv0 hr0
        (Ne.symm hmv) (Ne.symm hrv)
    rw [e2]
    simp only [ok_bind]
    rw [FibonacciHeap.deref_ok g1, FibonacciHeap.deref_ok g2]
    exact ⟨_, rfl⟩

/-- The shape of what the second half of `pop` returns. -/
theorem FibonacciHeap.pop_tail_shape {hB : FibonacciHeap} {z : Nat} {res : Int × Nat}
    {r : (Int × Nat) × FibonacciHeap}
    (hfin : (do
      let zn ← hB.deref z
      let h ← hB.store zn.left (fun n => { n with right := zn.right })
      let zn ← h.deref z
      let h ← h.store zn.right (fun n => { n with left := zn.left })
      let zn ← h.deref z
      let h ← if z = zn.right then Except.ok { h with min_node := none }
        else FibonacciHeap.consolidate { h with min_node := some zn.right }
      let h := { h with mem := h.mem.set z none }
      Except.ok (res, { h with size := wrap32 (h.size - 1) })) = .ok r) :
    r.1 = res ∧ ∃ X : List (Option Node), r.2.mem = X.set z none := by
  cases h1 : hB.deref z with
  | error e => rw [h1] at hfin; cases hfin
  | ok zn =>
    rw [h1] at hfin
    simp only [ok_bind] at hfin
    cases h2 : hB.store zn.left (fun n => { n with right := zn.right }) with
    | error e => rw [h2] at hfin; cases hfin
    | ok hC =>
      rw [h2] at hfin
      simp only [ok_bind] at hfin
      cases h3 : hC.deref z with
      | error e => rw [h3] at hfin; cases hfin
      | ok zn3 =>
        rw [h3] at hfin
        simp only [ok_bind] at hfin
        cases h4 : hC.store zn3.right (fun n => { n with left := zn3.left }) with
        | error e => rw [h4] at hfin; cases hfin
        | ok hD =>
          rw [h4] at hfin
          simp only [ok_bind] at hfin
          cases h5 : hD.deref z with
          | error e => rw [h5] at hfin; cases hfin
          | ok zn5 =>
            rw [h5] at hfin
            simp only [ok_bind] at hfin
            by_cases hself : z = zn5.right
            · rw [if_pos hself] at hfin
              cases hfin
              exact ⟨rfl, _, rfl⟩
            · rw [if_neg hself] at hfin
              cases h6 : FibonacciHeap.consolidate { hD with min_node := some zn5.right } with
              | error e => rw [h6] at hfin; cases hfin
              | ok hE =>
                rw [h6] at hfin
                cases hfin
                exact ⟨rfl, _, rfl⟩

/-- A `pop` that returns has returned the key and vertex of the node
`min_node` and has deleted that node. -/
theorem FibonacciHeap.pop_shape {h : FibonacciHeap} {r : (Int × Nat) × FibonacciHeap}
    (hp : h.pop = .ok r) :
    ∃ (z : Nat) (zn : Node) (X : List (Option Node)), h.min_node = some z ∧
      h.deref z = .ok zn ∧ r.1 = (zn.key, zn.vertex) ∧ r.2.mem = X.set z none := by
  unfold FibonacciHeap.pop at hp
  cases hmin : h.min_node with
  | none => rw [hmin] at hp; cases hp
  | some z =>
    rw [hmin] at hp
    simp only at hp
    cases hd : h.deref z with
    | error e => rw [hd] at hp; cases hp
    | ok zn =>
      rw [hd] at hp
      simp only [ok_bind] at hp
      cases hs : setAt h.node_table (zn.vertex : Int) none with
      | error e => rw [hs] at hp; cases hp
      | ok tab1 =>
        rw [hs] at hp
        simp only [ok_bind] at hp
        cases hc : zn.child with
        | none =>
          rw [hc] at hp
          simp only [ok_bind] at hp
          obtain ⟨e1, X, e2⟩ := FibonacciHeap.pop_tail_shape hp
          exact ⟨z, zn, X, rfl, hd, e1, e2⟩
        | some c0 =>
          rw [hc] at hp
          simp only at hp
          cases hpc : FibonacciHeap.pop_children (h.mem.length + 1)
              { min_node := some z, size := h.size, node_table := tab1, mem := h.mem } z c0 with
          | error e => rw [hpc] at hp; cases hp
          | ok hB =>
            rw [hpc] at hp
            simp only [ok_bind] at hp
            obtain ⟨e1, X, e2⟩ := FibonacciHeap.pop_tail_shape hp
            exact ⟨z, zn, X, rfl, hd, e1, e2⟩

/-- After a `pop` that returns, the vertex it returned has no node: its
`node_table` entry is null. -/
theorem FibonacciHeap.pop_clears {N : Nat} {h : FibonacciHeap}
    {r : (Int × Nat) × FibonacciHeap} (hinv : h.Inv N) (hp : h.pop = .ok r) :
    r.1.2 < N ∧ r.2.node_table[r.1.2]? = some none := by
  obtain ⟨z, zn, X, hmin, hd, e1, e2⟩ := FibonacciHeap.pop_shape hp
  obtain ⟨zn', _, hzn, _, _⟩ := hinv.anchor hmin
  have ez : zn' = zn := by
    rw [FibonacciHeap.deref_ok hzn] at hd
    exact Except.ok.inj hd
  rw [ez] at hzn
  have hzv : zn.vertex = z := by
    cases hinv.tabled.2 z with
    | inl e =>
      obtain ⟨_, n, e2, e3⟩ := e
      rw [hzn] at e2; cases e2
      exact e3
    | inr e => rw [hzn] at e; cases e.2
  have hzN : z < N := by
    have := (FibonacciHeap.view_some hzn).1
    have hlt := get?_lt _ _ _ this
    rw [hinv.mem_len] at hlt
    exact hlt
  have hinv1 := hinv.pop hp
  have hv : r.1.2 = z := by rw [e1]; exact hzv
  rw [hv]
  refine ⟨hzN, ?_⟩
  have hdead : r.2.view none z = none := by
    unfold FibonacciHeap.view
    rw [if_neg (by simp), e2]
    by_cases hz : z < X.length
    · rw [List.getElem?_set_self hz]
      rfl
    · rw [List.getElem?_eq_none (by simp; omega)]
      rfl
  cases hinv1.tabled.2 z with
  | inl e =>
    obtain ⟨_, n, e3, _⟩ := e
    rw [hdead] at e3
    cases e3
  | inr e =>
    cases e.1 with
    | inl e3 => exact e3
    | inr e3 =>
      have hl := hinv1.tabled.1
      rw [List.getElem?_eq_none_iff] at e3
      omega

/-- In a state with the invariant, the vertices that have a node are those
whose `node_table` entry is not null. -/
theorem FibonacciHeap.Inv.present_iff {N : Nat} {h : FibonacciHeap} (hinv : h.Inv N) (v : Nat) :
    (∃ (a : Nat) (nd : Node), h.mem[a]? = some (some nd) ∧ nd.vertex = v) ↔ h.node_table[v]? = some (some v) := by
  constructor
  · intro hin
    obtain ⟨a, nd, ha, hv⟩ := hin
    have hview := FibonacciHeap.view_of_mem ha
    cases hinv.tabled.2 a with
    | inl e =>
      obtain ⟨e1, n, e2, e3⟩ := e
      rw [hview] at e2
      cases e2
      rw [← hv, e3]
      exact e1
    | inr e => rw [hview] at e; cases e.2
  · intro htab
    cases hinv.tabled.2 v with
    | inl e =>
      obtain ⟨_, n, e2, e3⟩ := e
      exact ⟨v, n, (FibonacciHeap.view_some e2).1, e3⟩
    | inr e =>
      rw [htab] at e
      cases e.1 with
      | inl e1 => cases e1
      | inr e1 => cases e1

/-- In a state with the invariant, the `node_table` entry of a vertex in range
that has no node is null. -/
theorem FibonacciHeap.Inv.absent_table {N : Nat} {h : FibonacciHeap} (hinv : h.Inv N) {v : Nat}
    (hv : v < N) (hout : ¬ ∃ (a : Nat) (nd : Node), h.mem[a]? = some (some nd) ∧ nd.vertex = v) :
    h.node_table[v]? = some none := by
  cases hinv.tabled.2 v with
  | inl e => exact absurd ((hinv.present_iff v).2 e.1) hout
  | inr e =>
    cases e.1 with
    | inl e1 => exact e1
    | inr e1 =>
      have hl := hinv.tabled.1
      rw [List.getElem?_eq_none_iff] at e1
      omega

/-- C12: in every reachable state of a `FibonacciHeap` over `n` vertices and
for every vertex `v < n`: `push(key, v)` throws `std::runtime_error` exactly
when `v` is in the heap, that is when a node of the free store belongs to `v`;
otherwise it returns; a call that throws is one that leaves the heap, `size`
included, in the state it was called in; and after a `pop` that returned `v`,
`push(key, v)` returns. -/
theorem fibonacci_push_throws_iff_present (n : Nat) (h : FibonacciHeap)
    (hr : FibonacciHeap.Reachable n h) (v : Nat) (hv : v < n) (key : Int) :
    (h.push key v = .error .runtime_error ↔
      ∃ (a : Nat) (nd : Node), h.mem[a]? = some (some nd) ∧ nd.vertex = v) ∧
    ((¬ ∃ (a : Nat) (nd : Node), h.mem[a]? = some (some nd) ∧ nd.vertex = v) → ∃ h1, h.push key v = .ok h1) ∧
    (h.push key v = .error .runtime_error ↔ ∃ s, h.push_exit key v = .ok (.thrown s)) ∧
    (∀ s, h.push_exit key v = .ok (.thrown s) → s = h) ∧
    (∀ r, h.pop = .ok r → r.1.2 = v → ∃ h2, r.2.push key v = .ok h2) := by
  have hinv := hr.inv_fibonacci
  have hthrow : h.node_table[v]? = some (some v) → h.push key v = .error .runtime_error := by
    intro htab
    unfold FibonacciHeap.push
    rw [htab]
  have hret : (¬ ∃ (a : Nat) (nd : Node), h.mem[a]? = some (some nd) ∧ nd.vertex = v) →
      ∃ h1, h.push key v = .ok h1 := fun hout =>
    FibonacciHeap.push_returns hinv key (hinv.absent_table hv hout)
  have hiff : h.push key v = .error .runtime_error ↔
      ∃ (a : Nat) (nd : Node), h.mem[a]? = some (some nd) ∧ nd.vertex = v := by
    constructor
    · intro hp
      by_contra hout
      obtain ⟨h1, e1⟩ := hret hout
      rw [e1] at hp
      cases hp
    · intro hin
      exact hthrow ((hinv.present_iff v).1 hin)
  refine ⟨hiff, hret, ?_, ?_, ?_⟩
  · rw [hiff, hinv.present_iff v]
    constructor
    · intro htab
      refine ⟨h, ?_⟩
      unfold FibonacciHeap.push_exit
      rw [htab]
    · intro hs
      obtain ⟨s, hs⟩ := hs
      by_contra hne
      have htab : h.node_table[v]? = some none :=
        hinv.absent_table hv (fun hin => hne ((hinv.present_iff v).1 hin))
      obtain ⟨h1, e1⟩ := FibonacciHeap.push_returns hinv key htab
      unfold FibonacciHeap.push_exit at hs
      rw [htab] at hs
      simp only at hs
      rw [e1] at hs
      cases hs
  · intro s hs
    unfold FibonacciHeap.push_exit at hs
    cases htab : h.node_table[v]? with
    | none => rw [htab] at hs; cases hs
    | some o =>
      cases o with
      | some p =>
        rw [htab] at hs
        cases hs
        rfl
      | none =>
        rw [htab] at hs
        simp only at hs
        obtain ⟨h1, e1⟩ := FibonacciHeap.push_returns hinv key htab
        rw [e1] at hs
        cases hs
  · intro r hp hrv
    obtain ⟨_, htab⟩ := FibonacciHeap.pop_clears hinv hp
    rw [hrv] at htab
    exact FibonacciHeap.push_returns (hinv.pop hp) key htab

/-- C12, witness: `sampleFibonacciHeap` holds vertex 0, and `push(9, 0)` throws;
vertex 3 has been popped from it, and `push(9, 3)` returns. -/
theorem fibonacci_push_throws_iff_present_witness :
    sampleFibonacciHeap.push 9 0 = .error .runtime_error ∧
    ∃ h1, sampleFibonacciHeap.push 9 3 = .ok h1 :=
  ⟨(fibonacci_push_throws_iff_present 4 sampleFibonacciHeap sampleFibonacciHeap_reachable 0
      (by decide) 9).1.2 ⟨0, _, rfl, rfl⟩,
   (fibonacci_push_throws_iff_present 4 sampleFibonacciHeap sampleFibonacciHeap_reachable 3
      (by decide) 9).2.1 (by
        intro hin
        obtain ⟨a, nd, h1, h2⟩ := hin
        have hlt : a < 4 := get?_lt _ _ _ h1
        interval_cases a <;> simp [sampleFibonacciHeap] at h1 <;> rw [← h1] at h2 <;> cases h2)⟩

/-! ## Where `std::runtime_error` is thrown

Apart from the `throw` statements of `pop` and of `FibonacciHeap::push`, no
statement of the heaps throws: their other failures are accesses outside a
vector or through a null pointer, and loops that do not end. -/

theorem NoThrow.ok {α : Type} (a : α) : NoThrow (Except.ok a : Except Fault α) := by
  intro h
  cases h

theorem NoThrow.bind {α β : Type} {x : Except Fault α} {f : α → Except Fault β}
    (hx : NoThrow x) (hf : ∀ a, NoThrow (f a)) : NoThrow (x >>= f) := by
  cases x with
  | error e =>
    intro h
    rw [error_bind] at h
    cases h
    exact hx rfl
  | ok a => exact hf a

theorem at?_nothrow {α : Type} (l : List α) (i : Int) : NoThrow (at? l i) := by
  unfold at?
  split
  · split
    · exact NoThrow.ok _
    · intro h; cases h
  · intro h; cases h

theorem setAt_nothrow {α : Type} (l : List α) (i : Int) (a : α) : NoThrow (setAt l i a) := by
  unfold setAt
  split
  · exact NoThrow.ok _
  · intro h; cases h

/-! ### `DHeap` and `BinaryHeap` -/

theorem DHeap.swap_entries_nothrow (h : DHeap) (i j : Int) : NoThrow (h.swap_entries i j) := by
  unfold DHeap.swap_entries
  refine NoThrow.bind (at?_nothrow _ _) (fun a => ?_)
  refine NoThrow.bind (at?_nothrow _ _) (fun b => ?_)
  refine NoThrow.bind (setAt_nothrow _ _ _) (fun heap => ?_)
  refine NoThrow.bind (setAt_nothrow _ _ _) (fun heap => ?_)
  refine NoThrow.bind (at?_nothrow _ _) (fun hi => ?_)
  refine NoThrow.bind (setAt_nothrow _ _ _) (fun vti => ?_)
  refine NoThrow.bind (at?_nothrow _ _) (fun hj => ?_)
  refine NoThrow.bind (setAt_nothrow _ _ _) (fun vti => ?_)
  exact NoThrow.ok _

theorem DHeap.smallest_loop_nothrow (heap : List (Int × Nat)) :
    ∀ (count : Nat) (i s : Int), NoThrow (DHeap.smallest_loop heap count i s) := by
  intro count
  induction count with
  | zero => intro i s; exact NoThrow.ok _
  | succ count ih =>
    intro i s
    rw [DHeap.smallest_loop]
    refine NoThrow.bind (at?_nothrow _ _) (fun a => ?_)
    refine NoThrow.bind (at?_nothrow _ _) (fun b => ?_)
    exact ih _ _

theorem DHeap.heapify_down_loop_nothrow :
    ∀ (fuel : Nat) (h : DHeap) (index : Int), NoThrow (h.heapify_down_loop fuel index) := by
  intro fuel
  induction fuel with
  | zero =>
    intro h index hh
    simp [DHeap.heapify_down_loop] at hh
  | succ fuel ih =>
    intro h index
    rw [DHeap.heapify_down_loop]
    refine NoThrow.bind (DHeap.smallest_loop_nothrow _ _ _ _) (fun s => ?_)
    split
    · exact NoThrow.bind (DHeap.swap_entries_nothrow _ _ _) (fun h2 => ih _ _)
    · exact NoThrow.ok _

theorem DHeap.heapify_down_nothrow (h : DHeap) (index : Int) :
    NoThrow (h.heapify_down index) := by
  unfold DHeap.heapify_down
  exact DHeap.heapify_down_loop_nothrow _ _ _

/-- The method `DHeap::pop` throws exactly when the heap array is empty. -/
theorem DHeap.pop_throws_iff (h : DHeap) : h.pop = .error .runtime_error ↔ h.heap = [] := by
  constructor
  · intro hp
    by_contra hne
    revert hp
    show NoThrow h.pop
    unfold DHeap.pop
    split
    · rename_i heq
      exact absurd heq hne
    · refine NoThrow.bind (setAt_nothrow _ _ _) (fun vti => ?_)
      dsimp only
      split
      · refine NoThrow.bind (setAt_nothrow _ _ _) (fun y => ?_)
        split
        · exact NoThrow.bind (DHeap.heapify_down_nothrow _ _) (fun h2 => NoThrow.ok _)
        · exact NoThrow.ok _
      · refine NoThrow.bind (NoThrow.ok _) (fun y => ?_)
        split
        · exact NoThrow.bind (DHeap.heapify_down_nothrow _ _) (fun h2 => NoThrow.ok _)
        · exact NoThrow.ok _
  · intro he
    unfold DHeap.pop
    rw [he]

theorem BinaryHeap.swap_nothrow_binary (b : BinaryHeap) (i j : Int) :
    NoThrow (b.swap_entries i j) := by
  unfold BinaryHeap.swap_entries
  refine NoThrow.bind (at?_nothrow _ _) (fun a => ?_)
  refine NoThrow.bind (at?_nothrow _ _) (fun b => ?_)
  refine NoThrow.bind (setAt_nothrow _ _ _) (fun heap => ?_)
  refine NoThrow.bind (setAt_nothrow _ _ _) (fun heap => ?_)
  refine NoThrow.bind (at?_nothrow _ _) (fun hi => ?_)
  refine NoThrow.bind (setAt_nothrow _ _ _) (fun vti => ?_)
  refine NoThrow.bind (at?_nothrow _ _) (fun hj => ?_)
  refine NoThrow.bind (setAt_nothrow _ _ _) (fun vti => ?_)
  exact NoThrow.ok _

theorem BinaryHeap.pick_child_nothrow (heap : List (Int × Nat)) (c s : Int) :
    NoThrow (BinaryHeap.pick_child heap c s) := by
  unfold BinaryHeap.pick_child
  split
  · refine NoThrow.bind (at?_nothrow _ _) (fun a => ?_)
    refine NoThrow.bind (at?_nothrow _ _) (fun b => ?_)
    exact NoThrow.ok _
  · exact NoThrow.ok _

theorem BinaryHeap.down_nothrow_binary :
    ∀ (fuel : Nat) (b : BinaryHeap) (index : Int), NoThrow (b.heapify_down_loop fuel index) := by
  intro fuel
  induction fuel with
  | zero =>
    intro b index hh
    simp [BinaryHeap.heapify_down_loop] at hh
  | succ fuel ih =>
    intro b index
    rw [BinaryHeap.heapify_down_loop]
    refine NoThrow.bind (BinaryHeap.pick_child_nothrow _ _ _) (fun s => ?_)
    refine NoThrow.bind (BinaryHeap.pick_child_nothrow _ _ _) (fun s => ?_)
    split
    · exact NoThrow.bind (BinaryHeap.swap_nothrow_binary _ _ _) (fun h2 => ih _ _)
    · exact NoThrow.ok _

theorem BinaryHeap.heapify_nothrow_binary (b : BinaryHeap) (index : Int) :
    NoThrow (b.heapify_down index) := by
  unfold BinaryHeap.heapify_down
  exact BinaryHeap.down_nothrow_binary _ _ _

/-- The method `BinaryHeap::pop` throws exactly when the heap array is
empty. -/
theorem BinaryHeap.pop_throws_iff_binary (b : BinaryHeap) :
    b.pop = .error .runtime_error ↔ b.heap = [] := by
  constructor
  · intro hp
    by_contra hne
    revert hp
    show NoThrow b.pop
    unfold BinaryHeap.pop
    split
    · rename_i heq
      exact absurd heq hne
    · refine NoThrow.bind (setAt_nothrow _ _ _) (fun vti => ?_)
      dsimp only
      split
      · refine NoThrow.bind (setAt_nothrow _ _ _) (fun y => ?_)
        split
        · exact NoThrow.bind (BinaryHeap.heapify_nothrow_binary _ _) (fun h2 => NoThrow.ok _)
        · exact NoThrow.ok _
      · refine NoThrow.bind (NoThrow.ok _) (fun y => ?_)
        split
        · exact NoThrow.bind (BinaryHeap.heapify_nothrow_binary _ _) (fun h2 => NoThrow.ok _)
        · exact NoThrow.ok _
  · intro he
    unfold BinaryHeap.pop
    rw [he]

/-! ### `FibonacciHeap` -/

theorem FibonacciHeap.deref_nothrow (h : FibonacciHeap) (p : Nat) : NoThrow (h.deref p) := by
  unfold FibonacciHeap.deref
  split
  · exact NoThrow.ok _
  · intro hh; cases hh

theorem FibonacciHeap.store_nothrow (h : FibonacciHeap) (p : Nat) (f : Node → Node) :
    NoThrow (h.store p f) := by
  unfold FibonacciHeap.store
  exact NoThrow.bind (FibonacciHeap.deref_nothrow _ _) (fun n => NoThrow.ok _)

theorem FibonacciHeap.insert_after_min_nothrow (h : FibonacciHeap) (x : Nat) :
    NoThrow (h.insert_after_min x) := by
  unfold FibonacciHeap.insert_after_min
  split
  · intro hh; cases hh
  · refine NoThrow.bind (FibonacciHeap.store_nothrow _ _ _) (fun h1 => ?_)
    refine NoThrow.bind (FibonacciHeap.deref_nothrow _ _) (fun mn => ?_)
    refine NoThrow.bind (FibonacciHeap.store_nothrow _ _ _) (fun h2 => ?_)
    refine NoThrow.bind (FibonacciHeap.deref_nothrow _ _) (fun mn2 => ?_)
    refine NoThrow.bind (FibonacciHeap.store_nothrow _ _ _) (fun h3 => ?_)
    exact FibonacciHeap.store_nothrow _ _ _

theorem FibonacciHeap.link_nothrow (h : FibonacciHeap) (y x : Nat) : NoThrow (h.link y x) := by
  unfold FibonacciHeap.link
  refine NoThrow.bind (FibonacciHeap.deref_nothrow _ _) (fun yn => ?_)
  refine NoThrow.bind (FibonacciHeap.store_nothrow _ _ _) (fun h1 => ?_)
  refine NoThrow.bind (FibonacciHeap.deref_nothrow _ _) (fun yn2 => ?_)
  refine NoThrow.bind (FibonacciHeap.store_nothrow _ _ _) (fun h2 => ?_)
  refine NoThrow.bind (FibonacciHeap.store_nothrow _ _ _) (fun h3 => ?_)
  refine NoThrow.bind (FibonacciHeap.deref_nothrow _ _) (fun xn => ?_)
  dsimp only
  split
  · refine NoThrow.bind (FibonacciHeap.store_nothrow _ _ _) (fun h5 => ?_)
    refine NoThrow.bind (FibonacciHeap.store_nothrow _ _ _) (fun h6 => ?_)
    refine NoThrow.bind (FibonacciHeap.store_nothrow _ _ _) (fun h7 => ?_)
    refine NoThrow.bind (FibonacciHeap.store_nothrow _ _ _) (fun h8 => ?_)
    exact FibonacciHeap.store_nothrow _ _ _
  · refine NoThrow.bind (FibonacciHeap.store_nothrow _ _ _) (fun h5 => ?_)
    refine NoThrow.bind (FibonacciHeap.deref_nothrow _ _) (fun cn => ?_)
    refine NoThrow.bind (FibonacciHeap.store_nothrow _ _ _) (fun h6 => ?_)
    refine NoThrow.bind (FibonacciHeap.deref_nothrow _ _) (fun cn2 => ?_)
    refine NoThrow.bind (FibonacciHeap.store_nothrow _ _ _) (fun h7 => ?_)
    refine NoThrow.bind (FibonacciHeap.store_nothrow _ _ _) (fun h8 => ?_)
    refine NoThrow.bind (FibonacciHeap.store_nothrow _ _ _) (fun h9 => ?_)
    exact FibonacciHeap.store_nothrow _ _ _

theorem FibonacciHeap.collect_roots_nothrow :
    ∀ (fuel : Nat) (h : FibonacciHeap) (m current : Nat) (roots : List Nat),
      NoThrow (FibonacciHeap.collect_roots fuel h m current roots) := by
  intro fuel
  induction fuel with
  | zero =>
    intro h m current roots hh
    simp [FibonacciHeap.collect_roots] at hh
  | succ fuel ih =>
    intro h m current roots
    rw [FibonacciHeap.collect_roots]
    refine NoThrow.bind (FibonacciHeap.deref_nothrow _ _) (fun c => ?_)
    split
    · exact ih _ _ _ _
    · exact NoThrow.ok _

theorem FibonacciHeap.consolidate_while_nothrow :
    ∀ (fuel : Nat) (h : FibonacciHeap) (A : List (Option Nat)) (x : Nat) (d : Int),
      NoThrow (FibonacciHeap.consolidate_while fuel h A x d) := by
  intro fuel
  induction fuel with
  | zero =>
    intro h A x d hh
    simp [FibonacciHeap.consolidate_while] at hh
  | succ fuel ih =>
    intro h A x d
    rw [FibonacciHeap.consolidate_while]
    refine NoThrow.bind (at?_nothrow _ _) (fun Ad => ?_)
    split
    · exact NoThrow.bind (setAt_nothrow _ _ _) (fun A1 => NoThrow.ok _)
    · refine NoThrow.bind (FibonacciHeap.deref_nothrow _ _) (fun xn => ?_)
      refine NoThrow.bind (FibonacciHeap.deref_nothrow _ _) (fun yn => ?_)
      refine NoThrow.bind (FibonacciHeap.link_nothrow _ _ _) (fun h1 => ?_)
      refine NoThrow.bind (setAt_nothrow _ _ _) (fun A1 => ?_)
      exact ih _ _ _ _

theorem FibonacciHeap.consolidate_roots_nothrow :
    ∀ (roots : List Nat) (h : FibonacciHeap) (A : List (Option Nat)),
      NoThrow (FibonacciHeap.consolidate_roots roots h A) := by
  intro roots
  induction roots with
  | nil => intro h A; exact NoThrow.ok _
  | cons w roots ih =>
    intro h A
    rw [FibonacciHeap.consolidate_roots]
    refine NoThrow.bind (FibonacciHeap.deref_nothrow _ _) (fun xn => ?_)
    refine NoThrow.bind (FibonacciHeap.consolidate_while_nothrow _ _ _ _ _) (fun r => ?_)
    exact ih _ _

theorem FibonacciHeap.rebuild_roots_nothrow :
    ∀ (A : List (Option Nat)) (h : FibonacciHeap), NoThrow (FibonacciHeap.rebuild_roots A h) := by
  intro A
  induction A with
  | nil => intro h; exact NoThrow.ok _
  | cons a A ih =>
    intro h
    cases a with
    | none =>
      rw [FibonacciHeap.rebuild_roots]
      exact ih _
    | some a =>
      rw [FibonacciHeap.rebuild_roots]
      split
      · refine NoThrow.bind (FibonacciHeap.store_nothrow _ _ _) (fun h1 => ?_)
        refine NoThrow.bind (FibonacciHeap.store_nothrow _ _ _) (fun h2 => ?_)
        exact ih _
      · refine NoThrow.bind (FibonacciHeap.insert_after_min_nothrow _ _) (fun h1 => ?_)
        refine NoThrow.bind (FibonacciHeap.deref_nothrow _ _) (fun an => ?_)
        refine NoThrow.bind (FibonacciHeap.deref_nothrow _ _) (fun mn => ?_)
        exact ih _

theorem FibonacciHeap.consolidate_nothrow (h : FibonacciHeap) : NoThrow h.consolidate := by
  unfold FibonacciHeap.consolidate
  split
  · exact NoThrow.ok _
  · split
    · intro hh; cases hh
    · refine NoThrow.bind (FibonacciHeap.collect_roots_nothrow _ _ _ _ _) (fun roots => ?_)
      refine NoThrow.bind (FibonacciHeap.consolidate_roots_nothrow _ _ _) (fun r => ?_)
      exact FibonacciHeap.rebuild_roots_nothrow _ _

theorem FibonacciHeap.pop_children_nothrow :
    ∀ (fuel : Nat) (h : FibonacciHeap) (z child : Nat),
      NoThrow (FibonacciHeap.pop_children fuel h z child) := by
  intro fuel
  induction fuel with
  | zero =>
    intro h z child hh
    simp [FibonacciHeap.pop_children] at hh
  | succ fuel ih =>
    intro h z child
    rw [FibonacciHeap.pop_children]
    refine NoThrow.bind (FibonacciHeap.deref_nothrow _ _) (fun c => ?_)
    refine NoThrow.bind (FibonacciHeap.store_nothrow _ _ _) (fun h1 => ?_)
    refine NoThrow.bind (FibonacciHeap.insert_after_min_nothrow _ _) (fun h2 => ?_)
    refine NoThrow.bind (FibonacciHeap.deref_nothrow _ _) (fun zn => ?_)
    split
    · exact ih _ _ _
    · exact NoThrow.ok _

/-- The method `FibonacciHeap::pop` throws exactly when `min_node` is null. -/
theorem FibonacciHeap.pop_throws_iff_fibonacci (h : FibonacciHeap) :
    h.pop = .error .runtime_error ↔ h.min_node = none := by
  constructor
  · intro hp
    by_contra hne
    revert hp
    show NoThrow h.pop
    unfold FibonacciHeap.pop
    split
    · rename_i heq
      exact absurd heq hne
    · rename_i o z heq
      refine NoThrow.bind (FibonacciHeap.deref_nothrow _ _) (fun zn => ?_)
      refine NoThrow.bind (setAt_nothrow _ _ _) (fun tab => ?_)
      have hk : ∀ hB : FibonacciHeap, NoThrow (do
          let zn1 ← hB.deref z
          let h ← hB.store zn1.left (fun n => { n with right := zn1.right })
          let zn2 ← h.deref z
          let h ← h.store zn2.right (fun n => { n with left := zn2.left })
          let zn3 ← h.deref z
          let h ← if z = zn3.right then Except.ok { h with min_node := none }
            else FibonacciHeap.consolidate { h with min_node := some zn3.right }
          let h := { h with mem := h.mem.set z none }
          Except.ok ((zn.key, zn.vertex), { h with size := wrap32 (h.size - 1) })) := by
        intro hB
        refine NoThrow.bind (FibonacciHeap.deref_nothrow _ _) (fun zn1 => ?_)
        refine NoThrow.bind (FibonacciHeap.store_nothrow _ _ _) (fun h2 => ?_)
        refine NoThrow.bind (FibonacciHeap.deref_nothrow _ _) (fun zn2 => ?_)
        refine NoThrow.bind (FibonacciHeap.store_nothrow _ _ _) (fun h3 => ?_)
        refine NoThrow.bind (FibonacciHeap.deref_nothrow _ _) (fun zn3 => ?_)
        dsimp only
        split
        · exact NoThrow.bind (NoThrow.ok _) (fun h4 => NoThrow.ok _)
        · exact NoThrow.bind (FibonacciHeap.consolidate_nothrow _) (fun h4 => NoThrow.ok _)
      dsimp only
      split
      · exact NoThrow.bind (FibonacciHeap.pop_children_nothrow _ _ _ _) (fun hB => hk hB)
      · exact NoThrow.bind (NoThrow.ok _) (fun hB => hk hB)
  · intro he
    unfold FibonacciHeap.pop
    rw [he]

/-! ## `OptimizedRadixHeap`: the counter `size_` and the `throw` of `pop` -/

theorem sum_lengths_set {α : Type} :
    ∀ (l : List (List α)) (i : Nat) (q q' : List α), l[i]? = some q →
      ((l.set i q').map List.length).sum + q.length = (l.map List.length).sum + q'.length := by
  intro l
  induction l with
  | nil => intro i q q' h; simp at h
  | cons a l ih =>
    intro i q q' h
    cases i with
    | zero =>
      have h' : a = q := by simpa using h
      rw [h', List.set_cons_zero, List.map_cons, List.map_cons, List.sum_cons, List.sum_cons]
      omega
    | succ i =>
      have h' : l[i]? = some q := by simpa using h
      have := ih i q q' h'
      rw [List.set_cons_succ, List.map_cons, List.map_cons, List.sum_cons, List.sum_cons]
      omega

theorem at?_get {α : Type} {l : List α} {i : Int} {a : α} (h : at? l i = .ok a) :
    l[i.toNat]? = some a := (at?_ok l i a h).2

theorem setAt_get {α : Type} {l l1 : List α} {i : Int} {a : α} (h : setAt l i a = .ok l1) :
    l1 = l.set i.toNat a := by
  unfold setAt at h
  split at h
  · cases h; rfl
  · cases h

/-- The statement `buckets[bucket].push(item)` adds one entry. -/
theorem OptimizedRadixHeap.bucket_push_count {buckets b1 : List (List (Int × Nat))} {bucket : Int}
    {item : Int × Nat} (h : OptimizedRadixHeap.bucket_push buckets bucket item = .ok b1) :
    b1.length = buckets.length ∧
      (b1.map List.length).sum = (buckets.map List.length).sum + 1 := by
  unfold OptimizedRadixHeap.bucket_push at h
  cases hq : at? buckets bucket with
  | error e => rw [hq] at h; cases h
  | ok q =>
    rw [hq] at h
    simp only [ok_bind] at h
    have e := setAt_get h
    rw [e]
    refine ⟨by simp, ?_⟩
    have := sum_lengths_set buckets bucket.toNat q (q ++ [item]) (at?_get hq)
    rw [List.length_append, List.length_singleton] at this
    omega

theorem OptimizedRadixHeap.bucket_push_nothrow (buckets : List (List (Int × Nat))) (bucket : Int)
    (item : Int × Nat) : NoThrow (OptimizedRadixHeap.bucket_push buckets bucket item) := by
  unfold OptimizedRadixHeap.bucket_push
  exact NoThrow.bind (at?_nothrow _ _) (fun q => setAt_nothrow _ _ _)

theorem OptimizedRadixHeap.first_nonempty_nothrow :
    ∀ (l : List (List (Int × Nat))) (bucket : Int),
      NoThrow (OptimizedRadixHeap.first_nonempty l bucket) := by
  intro l
  induction l with
  | nil => intro bucket h; simp [OptimizedRadixHeap.first_nonempty] at h
  | cons q l ih =>
    intro bucket
    rw [OptimizedRadixHeap.first_nonempty]
    split
    · exact ih _
    · exact NoThrow.ok _

theorem OptimizedRadixHeap.findMinInBucket_nothrow (h : OptimizedRadixHeap) (bucket : Int) :
    NoThrow (h.findMinInBucket bucket) := by
  unfold OptimizedRadixHeap.findMinInBucket
  exact NoThrow.bind (at?_nothrow _ _) (fun q => NoThrow.ok _)

theorem OptimizedRadixHeap.redistribute_nothrow (gnuc : Bool) :
    ∀ (fuel : Nat) (h : OptimizedRadixHeap) (bucket : Int),
      NoThrow (OptimizedRadixHeap.redistribute gnuc fuel h bucket) := by
  intro fuel
  induction fuel with
  | zero => intro h bucket hh; simp [OptimizedRadixHeap.redistribute] at hh
  | succ fuel ih =>
    intro h bucket
    rw [OptimizedRadixHeap.redistribute]
    refine NoThrow.bind (at?_nothrow _ _) (fun q => ?_)
    split
    · exact NoThrow.ok _
    · refine NoThrow.bind (setAt_nothrow _ _ _) (fun b1 => ?_)
      refine NoThrow.bind (OptimizedRadixHeap.bucket_push_nothrow _ _ _) (fun b2 => ?_)
      exact ih _ _

/-- A `redistribute` that returns has kept `size_`, `last_deleted`, the number
of buckets and the number of entries. -/
theorem OptimizedRadixHeap.redistribute_count (gnuc : Bool) :
    ∀ (fuel : Nat) (h h1 : OptimizedRadixHeap) (bucket : Int),
      OptimizedRadixHeap.redistribute gnuc fuel h bucket = .ok h1 →
      h1.size_ = h.size_ ∧ h1.last_deleted = h.last_deleted ∧
        h1.buckets.length = h.buckets.length ∧
        (h1.buckets.map List.length).sum = (h.buckets.map List.length).sum := by
  intro fuel
  induction fuel with
  | zero => intro h h1 bucket hh; simp [OptimizedRadixHeap.redistribute] at hh
  | succ fuel ih =>
    intro h h1 bucket hr
    rw [OptimizedRadixHeap.redistribute] at hr
    cases hq : at? h.buckets bucket with
    | error e => rw [hq] at hr; cases hr
    | ok q =>
      rw [hq] at hr
      simp only [ok_bind] at hr
      cases q with
      | nil =>
        simp only at hr
        cases hr
        exact ⟨rfl, rfl, rfl, rfl⟩
      | cons item rest =>
        simp only at hr
        cases hs : setAt h.buckets bucket rest with
        | error e => rw [hs] at hr; cases hr
        | ok b1 =>
          rw [hs] at hr
          simp only [ok_bind] at hr
          cases hb : OptimizedRadixHeap.bucket_push b1
              (OptimizedRadixHeap.fastFindBucket gnuc { h with buckets := b1 } item.1) item with
          | error e => rw [hb] at hr; cases hr
          | ok b2 =>
            rw [hb] at hr
            simp only [ok_bind] at hr
            obtain ⟨e1, e2, e3, e4⟩ := ih _ _ _ hr
            obtain ⟨f1, f2⟩ := OptimizedRadixHeap.bucket_push_count hb
            have g := setAt_get hs
            have g2 := sum_lengths_set h.buckets bucket.toNat (item :: rest) rest (at?_get hq)
            rw [← g] at g2
            have g3 : b1.length = h.buckets.length := by rw [g]; simp
            simp only [List.length_cons] at g2
            refine ⟨e1, e2, ?_, ?_⟩
            · rw [e3]
              show b2.length = _
              omega
            · rw [e4]
              show (b2.map List.length).sum = _
              omega

/-- The method `pop` throws only when `empty()` holds at the call. -/
theorem OptimizedRadixHeap.pop_throws_empty (gnuc : Bool) :
    ∀ (fuel : Nat) (h : OptimizedRadixHeap),
      OptimizedRadixHeap.pop gnuc fuel h = .error .runtime_error → h.empty = true := by
  intro fuel
  induction fuel with
  | zero => intro h hh; simp [OptimizedRadixHeap.pop] at hh
  | succ fuel ih =>
    intro h hp
    by_contra hne
    have hne2 : h.empty = false := by simpa using hne
    revert hp
    show NoThrow _
    rw [OptimizedRadixHeap.pop]
    simp only [hne2, Bool.false_eq_true, if_false]
    refine NoThrow.bind (OptimizedRadixHeap.first_nonempty_nothrow _ _) (fun bucket => ?_)
    split
    · refine NoThrow.bind (OptimizedRadixHeap.findMinInBucket_nothrow _ _) (fun m => ?_)
      intro hh
      cases hr : OptimizedRadixHeap.redistribute gnuc fuel { h with last_deleted := m } bucket with
      | error e =>
        rw [hr, error_bind] at hh
        cases hh
        exact OptimizedRadixHeap.redistribute_nothrow gnuc fuel _ bucket hr
      | ok h2 =>
        rw [hr] at hh
        simp only [ok_bind] at hh
        have h3 := ih h2 hh
        obtain ⟨e1, _⟩ := OptimizedRadixHeap.redistribute_count gnuc fuel _ _ _ hr
        unfold OptimizedRadixHeap.empty at h3 hne2
        rw [e1] at h3
        rw [h3] at hne2
        cases hne2
    · refine NoThrow.bind (at?_nothrow _ _) (fun q => ?_)
      split
      · intro hh; cases hh
      · exact NoThrow.bind (setAt_nothrow _ _ _) (fun b1 => NoThrow.ok _)

/-- The method `pop` throws exactly when `empty()` holds at the call. -/
theorem OptimizedRadixHeap.pop_throws_iff_radix (gnuc : Bool) (fuel : Nat)
    (h : OptimizedRadixHeap) :
    OptimizedRadixHeap.pop gnuc (fuel + 1) h = .error .runtime_error ↔ h.empty = true := by
  constructor
  · exact OptimizedRadixHeap.pop_throws_empty gnuc _ h
  · intro he
    rw [OptimizedRadixHeap.pop]
    simp [he]

/-- A call of `pop` that ends with a `throw` was made with `empty()` true. -/
theorem OptimizedRadixHeap.pop_exit_thrown (gnuc : Bool) :
    ∀ (fuel : Nat) (h s : OptimizedRadixHeap),
      OptimizedRadixHeap.pop_exit gnuc fuel h = .ok (.thrown s) → h.empty = true := by
  intro fuel
  induction fuel with
  | zero => intro h s hh; simp [OptimizedRadixHeap.pop_exit] at hh
  | succ fuel ih =>
    intro h s hp
    by_contra hne
    have hne2 : h.empty = false := by simpa using hne
    rw [OptimizedRadixHeap.pop_exit] at hp
    simp only [hne2, Bool.false_eq_true, if_false] at hp
    cases hf : OptimizedRadixHeap.first_nonempty h.buckets 0 with
    | error e => rw [hf] at hp; cases hp
    | ok bucket =>
      rw [hf] at hp
      simp only [ok_bind] at hp
      split at hp
      · cases hm : h.findMinInBucket bucket with
        | error e => rw [hm] at hp; cases hp
        | ok m =>
          rw [hm] at hp
          simp only [ok_bind] at hp
          cases hr : OptimizedRadixHeap.redistribute gnuc fuel { h with last_deleted := m }
              bucket with
          | error e => rw [hr] at hp; cases hp
          | ok h2 =>
            rw [hr] at hp
            simp only [ok_bind] at hp
            have h3 := ih h2 s hp
            obtain ⟨e1, _⟩ := OptimizedRadixHeap.redistribute_count gnuc fuel _ _ _ hr
            unfold OptimizedRadixHeap.empty at h3 hne2
            rw [e1] at h3
            rw [h3] at hne2
            cases hne2
      · cases hq : at? h.buckets 0 with
        | error e => rw [hq] at hp; cases hp
        | ok q =>
          rw [hq] at hp
          simp only [ok_bind] at hp
          cases q with
          | nil => cases hp
          | cons item rest =>
            simp only at hp
            cases hs : setAt h.buckets 0 rest with
            | error e => rw [hs] at hp; cases hp
            | ok b1 => rw [hs] at hp; cases hp

theorem OptimizedRadixHeap.pop_exit_empty (gnuc : Bool) (fuel : Nat) (h : OptimizedRadixHeap)
    (he : h.empty = true) :
    OptimizedRadixHeap.pop_exit gnuc (fuel + 1) h = .ok (.thrown h) := by
  rw [OptimizedRadixHeap.pop_exit]
  simp [he]

/-- The counter stays right under `push`. -/
theorem OptimizedRadixHeap.Counted.push_counted {gnuc : Bool} {h h1 : OptimizedRadixHeap}
    {item : Int × Nat} (hc : h.Counted) (hp : h.push gnuc item = .ok h1) : h1.Counted := by
  unfold OptimizedRadixHeap.push at hp
  dsimp only at hp
  cases hb : OptimizedRadixHeap.bucket_push h.buckets
      (OptimizedRadixHeap.fastFindBucket gnuc h item.1) item with
  | error e => rw [hb] at hp; cases hp
  | ok b1 =>
    rw [hb] at hp
    cases hp
    obtain ⟨f1, f2⟩ := OptimizedRadixHeap.bucket_push_count hb
    exact ⟨f1.trans hc.len, by show h.size_ + 1 = _; rw [f2, hc.count]⟩

/-- The counter stays right under `pop`, which removes one entry. -/
theorem OptimizedRadixHeap.Counted.pop_counted (gnuc : Bool) :
    ∀ (fuel : Nat) (h h1 : OptimizedRadixHeap) (item : Int × Nat), h.Counted →
      OptimizedRadixHeap.pop gnuc fuel h = .ok (item, h1) →
      h1.Counted ∧ h1.size_ + 1 = h.size_ := by
  intro fuel
  induction fuel with
  | zero => intro h h1 item hc hh; simp [OptimizedRadixHeap.pop] at hh
  | succ fuel ih =>
    intro h h1 item hc hp
    rw [OptimizedRadixHeap.pop] at hp
    split at hp
    · cases hp
    · rename_i hne
      cases hf : OptimizedRadixHeap.first_nonempty h.buckets 0 with
      | error e => rw [hf] at hp; cases hp
      | ok bucket =>
        rw [hf] at hp
        simp only [ok_bind] at hp
        split at hp
        · cases hm : h.findMinInBucket bucket with
          | error e => rw [hm] at hp; cases hp
          | ok m =>
            rw [hm] at hp
            simp only [ok_bind] at hp
            cases hr : OptimizedRadixHeap.redistribute gnuc fuel { h with last_deleted := m }
                bucket with
            | error e => rw [hr] at hp; cases hp
            | ok h2 =>
              rw [hr] at hp
              simp only [ok_bind] at hp
              obtain ⟨e1, _, e3, e4⟩ := OptimizedRadixHeap.redistribute_count gnuc fuel _ _ _ hr
              have hc2 : h2.Counted := ⟨e3.trans hc.len, by rw [e1, e4]; exact hc.count⟩
              obtain ⟨g1, g2⟩ := ih h2 h1 item hc2 hp
              exact ⟨g1, by rw [g2, e1]⟩
        · cases hq : at? h.buckets 0 with
          | error e => rw [hq] at hp; cases hp
          | ok q =>
            rw [hq] at hp
            simp only [ok_bind] at hp
            cases q with
            | nil => cases hp
            | cons it rest =>
              simp only at hp
              cases hs : setAt h.buckets 0 rest with
              | error e => rw [hs] at hp; cases hp
              | ok b1 =>
                rw [hs] at hp
                cases hp
                have g := setAt_get hs
                have g2 := sum_lengths_set h.buckets 0 (item :: rest) rest (at?_get hq)
                simp only [Int.toNat_zero] at g
                rw [← g] at g2
                simp only [List.length_cons] at g2
                have hcnt := hc.count
                have hl : b1.length = BUCKETS := by rw [g]; simp [hc.len]
                refine ⟨⟨hl, ?_⟩, ?_⟩
                · dsimp only
                  omega
                · dsimp only
                  omega

/-- Every reachable state of an `OptimizedRadixHeap` has `BUCKETS` buckets and
a counter `size_` equal to the number of entries they hold. -/
theorem OptimizedRadixHeap.Reachable.counted {gnuc : Bool} {h : OptimizedRadixHeap}
    (hr : OptimizedRadixHeap.Reachable gnuc h) : h.Counted := by
  induction hr with
  | init =>
    refine ⟨by simp [OptimizedRadixHeap.new], ?_⟩
    simp [OptimizedRadixHeap.new]
  | push h h1 item _ hp ih => exact ih.push_counted hp
  | pop h h1 fuel item _ hp ih =>
    exact (OptimizedRadixHeap.Counted.pop_counted gnuc fuel h h1 item ih hp).1

/-- The counter `size_` is zero exactly when every bucket is empty. -/
theorem OptimizedRadixHeap.Counted.empty_iff {h : OptimizedRadixHeap} (hc : h.Counted) :
    h.empty = true ↔ ∀ q ∈ h.buckets, q = [] := by
  unfold OptimizedRadixHeap.empty
  rw [beq_iff_eq, hc.count, List.sum_eq_zero_iff]
  constructor
  · intro hz q hq
    have := hz q.length (List.mem_map.2 ⟨q, hq, rfl⟩)
    exact List.length_eq_zero.1 this
  · intro hz x hx
    obtain ⟨q, hq, e⟩ := List.mem_map.1 hx
    rw [← e, hz q hq]
    rfl

/-! ## `pop` throws exactly on an empty queue -/

theorem DHeap.pop_exit_thrown_iff (h : DHeap) :
    (∃ s, h.pop_exit = .ok (.thrown s)) ↔ h.heap = [] := by
  unfold DHeap.pop_exit
  constructor
  · intro hs
    obtain ⟨s, hs⟩ := hs
    by_contra hne
    have hf : h.heap.isEmpty = false := by
      cases hh : h.heap with
      | nil => exact absurd hh hne
      | cons a l => rfl
    rw [hf] at hs
    simp only [Bool.false_eq_true, if_false] at hs
    cases hp : h.pop with
    | error e => rw [hp] at hs; cases hs
    | ok r => rw [hp] at hs; cases hs
  · intro he
    rw [he]
    exact ⟨h, rfl⟩

theorem BinaryHeap.pop_exit_thrown_binary (b : BinaryHeap) :
    (∃ s, b.pop_exit = .ok (.thrown s)) ↔ b.heap = [] := by
  unfold BinaryHeap.pop_exit
  constructor
  · intro hs
    obtain ⟨s, hs⟩ := hs
    by_contra hne
    have hf : b.heap.isEmpty = false := by
      cases hh : b.heap with
      | nil => exact absurd hh hne
      | cons a l => rfl
    rw [hf] at hs
    simp only [Bool.false_eq_true, if_false] at hs
    cases hp : b.pop with
    | error e => rw [hp] at hs; cases hs
    | ok r => rw [hp] at hs; cases hs
  · intro he
    rw [he]
    exact ⟨b, rfl⟩

theorem FibonacciHeap.pop_exit_thrown_fibonacci (h : FibonacciHeap) :
    (∃ s, h.pop_exit = .ok (.thrown s)) ↔ h.min_node = none := by
  unfold FibonacciHeap.pop_exit
  constructor
  · intro hs
    obtain ⟨s, hs⟩ := hs
    cases hm : h.min_node with
    | none => rfl
    | some m =>
      rw [hm] at hs
      simp only at hs
      cases hp : h.pop with
      | error e => rw [hp] at hs; cases hs
      | ok r => rw [hp] at hs; cases hs
  · intro he
    rw [he]
    exact ⟨h, rfl⟩

theorem isEmpty_iff_nil {α : Type} (l : List α) : l.isEmpty = true ↔ l = [] := by
  cases l with
  | nil => simp
  | cons a l => simp

/-- C13: for each of `DHeap`, `BinaryHeap`, `FibonacciHeap` and
`OptimizedRadixHeap` (under either body of `fastFindBucket`), in every state
reachable from a fresh queue by calls of its public operations: `pop` throws
`std::runtime_error` exactly when `empty()` is true; `empty()` is true exactly
when the queue holds no entry (the heap array is empty, the free store holds no
node, every bucket is empty); and a call of `pop` that throws is one that
leaves the queue in the state it was called in. -/
theorem pop_throws_exactly_when_empty :
    (∀ (n : Nat) (d : Int) (h : DHeap), DHeap.Reachable n d h →
      (h.pop = .error .runtime_error ↔ h.empty = true) ∧
      (h.empty = true ↔ h.heap = []) ∧
      (h.pop = .error .runtime_error ↔ ∃ s, h.pop_exit = .ok (.thrown s)) ∧
      (∀ s, h.pop_exit = .ok (.thrown s) → s = h)) ∧
    (∀ (n : Nat) (b : BinaryHeap), BinaryHeap.Reachable n b →
      (b.pop = .error .runtime_error ↔ b.empty = true) ∧
      (b.empty = true ↔ b.heap = []) ∧
      (b.pop = .error .runtime_error ↔ ∃ s, b.pop_exit = .ok (.thrown s)) ∧
      (∀ s, b.pop_exit = .ok (.thrown s) → s = b)) ∧
    (∀ (n : Nat) (h : FibonacciHeap), FibonacciHeap.Reachable n h →
      (h.pop = .error .runtime_error ↔ h.empty = true) ∧
      (h.empty = true ↔ ∀ (a : Nat) (nd : Node), h.mem[a]? ≠ some (some nd)) ∧
      (h.pop = .error .runtime_error ↔ ∃ s, h.pop_exit = .ok (.thrown s)) ∧
      (∀ s, h.pop_exit = .ok (.thrown s) → s = h)) ∧
    (∀ (gnuc : Bool) (h : OptimizedRadixHeap), OptimizedRadixHeap.Reachable gnuc h →
      ∀ fuel : Nat,
      (h.pop gnuc (fuel + 1) = .error .runtime_error ↔ h.empty = true) ∧
      (h.empty = true ↔ ∀ q ∈ h.buckets, q = []) ∧
      (h.pop gnuc (fuel + 1) = .error .runtime_error ↔
        ∃ s, h.pop_exit gnuc (fuel + 1) = .ok (.thrown s)) ∧
      (∀ s, h.pop_exit gnuc (fuel + 1) = .ok (.thrown s) → s = h)) := by
  refine ⟨?_, ?_, ?_, ?_⟩
  · intro n d h _
    have he : h.empty = true ↔ h.heap = [] := isEmpty_iff_nil _
    refine ⟨by rw [he]; exact DHeap.pop_throws_iff h, he, ?_, ?_⟩
    · rw [DHeap.pop_throws_iff, DHeap.pop_exit_thrown_iff]
    · intro s hs
      have hnil := (DHeap.pop_exit_thrown_iff h).1 ⟨s, hs⟩
      unfold DHeap.pop_exit at hs
      rw [hnil] at hs
      cases hs
      rfl
  · intro n b _
    have he : b.empty = true ↔ b.heap = [] := isEmpty_iff_nil _
    refine ⟨by rw [he]; exact BinaryHeap.pop_throws_iff_binary b, he, ?_, ?_⟩
    · rw [BinaryHeap.pop_throws_iff_binary, BinaryHeap.pop_exit_thrown_binary]
    · intro s hs
      have hnil := (BinaryHeap.pop_exit_thrown_binary b).1 ⟨s, hs⟩
      unfold BinaryHeap.pop_exit at hs
      rw [hnil] at hs
      cases hs
      rfl
  · intro n h hr
    have hinv := hr.inv_fibonacci
    have he : h.empty = true ↔ h.min_node = none := by
      unfold FibonacciHeap.empty
      cases h.min_node <;> simp
    refine ⟨by rw [he]; exact FibonacciHeap.pop_throws_iff_fibonacci h, ?_, ?_, ?_⟩
    · rw [he]
      constructor
      · intro hmin a nd ha
        have := hinv.no_node hmin a
        rw [FibonacciHeap.view_of_mem ha] at this
        cases this
      · intro hno
        cases hmin : h.min_node with
        | none => rfl
        | some m =>
          obtain ⟨mn, _, hm, _⟩ := hinv.anchor hmin
          exact absurd (FibonacciHeap.view_some hm).1 (hno m mn)
    · rw [FibonacciHeap.pop_throws_iff_fibonacci, FibonacciHeap.pop_exit_thrown_fibonacci]
    · intro s hs
      have hnil := (FibonacciHeap.pop_exit_thrown_fibonacci h).1 ⟨s, hs⟩
      unfold FibonacciHeap.pop_exit at hs
      rw [hnil] at hs
      cases hs
      rfl
  · intro gnuc h hr fuel
    have hthrown : ∀ s, h.pop_exit gnuc (fuel + 1) = .ok (.thrown s) → s = h := by
      intro s hs
      have he := OptimizedRadixHeap.pop_exit_thrown gnuc _ h s hs
      rw [OptimizedRadixHeap.pop_exit_empty gnuc fuel h he] at hs
      cases hs
      rfl
    refine ⟨OptimizedRadixHeap.pop_throws_iff_radix gnuc fuel h, hr.counted.empty_iff, ?_,
      hthrown⟩
    rw [OptimizedRadixHeap.pop_throws_iff_radix]
    constructor
    · intro he
      exact ⟨h, OptimizedRadixHeap.pop_exit_empty gnuc fuel h he⟩
    · intro hs
      obtain ⟨s, hs⟩ := hs
      exact OptimizedRadixHeap.pop_exit_thrown gnuc _ h s hs

/-- C13, witness: `pop` throws on the fresh `DHeap(3, 3)`, `BinaryHeap(3)`,
`FibonacciHeap(4)` and `OptimizedRadixHeap`, and does not throw on
`sampleFibonacciHeap`, which is not empty. -/
theorem pop_throws_exactly_when_empty_witness :
    (DHeap.new 3 3).pop = .error .runtime_error ∧
    (BinaryHeap.new 3).pop = .error .runtime_error ∧
    (FibonacciHeap.new 4).pop = .error .runtime_error ∧
    OptimizedRadixHeap.new.pop true 1 = .error .runtime_error ∧
    sampleFibonacciHeap.pop ≠ .error .runtime_error :=
  ⟨(pop_throws_exactly_when_empty.1 3 3 _ DHeap.Reachable.init).1.2 rfl,
   (pop_throws_exactly_when_empty.2.1 3 _ BinaryHeap.Reachable.init).1.2 rfl,
   (pop_throws_exactly_when_empty.2.2.1 4 _ FibonacciHeap.Reachable.init).1.2 rfl,
   ((pop_throws_exactly_when_empty.2.2.2 true _ OptimizedRadixHeap.Reachable.init) 0).1.2 rfl,
   fun hp => Bool.noConfusion
     ((pop_throws_exactly_when_empty.2.2.1 4 _ sampleFibonacciHeap_reachable).1.1 hp)⟩

/-! ## The branching factor of `DHeap` -/

/-- C14: the constructor `DHeap(n, d)` (`n` an `int`) returns for every `d`;
for `d < 2`, zero and negative values included, it returns the very state that
`DHeap(n, 2)` returns, so that every sequence of `push`, `pop` and
`decrease_key` calls runs on it as it does on `DHeap(n, 2)`, and the branching
factor is 2 in every reachable state; for `d ≥ 2` the branching factor is `d` in
the fresh heap and in every reachable state, and `parent` and `first_child`
compute with `d`. -/
theorem dheap_degree_clamped (n : Nat) (hn : n ≤ 2147483647) (d : Int) :
    (d < 2 → DHeap.new n d = DHeap.new n 2 ∧
      (∀ cs : List HeapCall, DHeap.run n cs (DHeap.new n d) = DHeap.run n cs (DHeap.new n 2)) ∧
      (∀ h : DHeap, DHeap.Reachable n d h → h.d = 2)) ∧
    (2 ≤ d → (DHeap.new n d).d = d ∧
      ∀ h : DHeap, DHeap.Reachable n d h → h.d = d ∧
        ∀ i : Int, h.parent i = Int.tdiv (i - 1) d ∧ h.first_child i = wrap32 (d * i + 1)) := by
  constructor
  · intro hd
    have hm : max 2 d = 2 := max_eq_left (by omega)
    have hnew : DHeap.new n d = DHeap.new n 2 := by
      unfold DHeap.new
      rw [hm]
      rfl
    refine ⟨hnew, ?_, ?_⟩
    · intro cs
      rw [hnew]
    · intro h hr
      rw [(hr.consistent_dheap hn).2, hm]
  · intro hd
    have hm : max 2 d = d := max_eq_right hd
    refine ⟨hm, ?_⟩
    intro h hr
    have he : h.d = d := by rw [(hr.consistent_dheap hn).2, hm]
    refine ⟨he, ?_⟩
    intro i
    unfold DHeap.parent DHeap.first_child
    rw [he]
    exact ⟨rfl, rfl⟩

/-- C14, witness: `DHeap(3, 0)` and `DHeap(3, -5)` are `DHeap(3, 2)`, and
`sampleDHeap`, a state of `DHeap(3, 3)`, has the branching factor 3. -/
theorem dheap_degree_clamped_witness :
    DHeap.new 3 0 = DHeap.new 3 2 ∧ DHeap.new 3 (-5) = DHeap.new 3 2 ∧ sampleDHeap.d = 3 :=
  ⟨((dheap_degree_clamped 3 (by decide) 0).1 (by decide)).1,
   ((dheap_degree_clamped 3 (by decide) (-5)).1 (by decide)).1,
   (((dheap_degree_clamped 3 (by decide) 3).2 (by decide)).2 sampleDHeap
      sampleDHeap_reachable).1⟩

/-! ## `Graph::addEdge` -/

theorem emplace_back_ok {adj : List (List (Nat × Int))} {u : Nat} {l : List (Nat × Int)}
    (e : Nat × Int) (h : adj[u]? = some l) : emplace_back adj u e = .ok (adj.set u (l ++ [e])) := by
  unfold emplace_back
  rw [h]

/-- One `addEdge` call with both vertices in range, whatever the counter `E`
holds. -/
theorem Graph.addEdge_any (g : Graph) (u v : Nat) (w : Int) (hu : u < g.adj.length)
    (hv : v < g.adj.length) :
    ∃ g1, g.addEdge u v w = .ok g1 ∧ g1.V = g.V ∧ g1.getE = wrap32 (g.getE + 1) ∧
      g1.adj.length = g.adj.length ∧
      (∀ x : Nat, g1.adj[x]? = (g.adj[x]?).map (fun l =>
        l ++ (if x = u then [(v, w)] else []) ++ (if x = v then [(u, w)] else []))) ∧
      (g1.adj.map List.length).sum = (g.adj.map List.length).sum + 2 := by
  obtain ⟨lu, hlu⟩ := get?_some_of_lt g.adj u hu
  have hv2 : v < (g.adj.set u (lu ++ [(v, w)])).length := by simpa using hv
  obtain ⟨lv, hlv⟩ := get?_some_of_lt (g.adj.set u (lu ++ [(v, w)])) v hv2
  unfold Graph.addEdge
  rw [emplace_back_ok _ hlu]
  simp only [ok_bind]
  rw [emplace_back_ok _ hlv]
  simp only [ok_bind]
  refine ⟨_, rfl, rfl, rfl, by simp, ?_, ?_⟩
  · intro x
    show ((g.adj.set u (lu ++ [(v, w)])).set v (lv ++ [(u, w)]))[x]? = _
    by_cases hxv : x = v
    · rw [hxv, get?_set_same _ _ _ hv2]
      by_cases hvu : v = u
      · rw [hvu] at hlv ⊢
        rw [get?_set_same _ _ _ hu] at hlv
        cases hlv
        rw [hlu]
        simp
      · rw [get?_set_other _ _ _ _ (Ne.symm hvu)] at hlv
        rw [hlv]
        simp [hvu]
    · rw [get?_set_other _ _ _ _ (Ne.symm hxv)]
      by_cases hxu : x = u
      · rw [hxu, get?_set_same _ _ _ hu, hlu]
        have : ¬ u = v := fun e => hxv (hxu.trans e)
        simp [this]
      · rw [get?_set_other _ _ _ _ (Ne.symm hxu)]
        cases g.adj[x]? with
        | none => rfl
        | some l => simp [hxu, hxv]
  · show (((g.adj.set u (lu ++ [(v, w)])).set v (lv ++ [(u, w)])).map List.length).sum = _
    have h1 := sum_lengths_set g.adj u lu (lu ++ [(v, w)]) hlu
    have h2 := sum_lengths_set (g.adj.set u (lu ++ [(v, w)])) v lv (lv ++ [(u, w)]) hlv
    rw [List.length_append, List.length_singleton] at h1 h2
    omega

/-- One `addEdge` call with both vertices in range and a counter below
`INT_MAX`. -/
theorem Graph.addEdge_spec (g : Graph) (u v : Nat) (w : Int) (hu : u < g.adj.length)
    (hv : v < g.adj.length) (hE : -2147483648 ≤ g.E ∧ g.E < 2147483647) :
    ∃ g1, g.addEdge u v w = .ok g1 ∧ g1.V = g.V ∧ g1.getE = g.getE + 1 ∧
      g1.adj.length = g.adj.length ∧
      (∀ x : Nat, g1.adj[x]? = (g.adj[x]?).map (fun l =>
        l ++ (if x = u then [(v, w)] else []) ++ (if x = v then [(u, w)] else []))) ∧
      (g1.adj.map List.length).sum = (g.adj.map List.length).sum + 2 := by
  obtain ⟨g1, e1, e2, e3, e4, e5, e6⟩ := Graph.addEdge_any g u v w hu hv
  refine ⟨g1, e1, e2, ?_, e4, e5, e6⟩
  rw [e3]
  show wrap32 (g.E + 1) = g.E + 1
  exact wrap32_of_range _ (by omega) (by omega)

/-- A graph built by at most `INT_MAX` `addEdge` calls. -/
theorem Graph.build_spec (n : Nat) :
    ∀ (edges : List (Nat × Nat × Int)) (g : Graph), g.adj.length = n → 0 ≤ g.E →
      g.E + edges.length ≤ 2147483647 → (∀ e ∈ edges, e.1 < n ∧ e.2.1 < n) →
      ∃ g1, edges.foldlM (fun g e => g.addEdge e.1 e.2.1 e.2.2) g = .ok g1 ∧
        g1.V = g.V ∧ g1.adj.length = n ∧ g1.getE = g.getE + edges.length ∧
        ((g1.adj.map List.length).sum : Int) =
          (g.adj.map List.length).sum + 2 * edges.length := by
  intro edges
  induction edges with
  | nil =>
    intro g hl _ _ _
    exact ⟨g, rfl, rfl, hl, by simp, by simp⟩
  | cons e edges ih =>
    intro g hl hE0 hE hin
    simp only [List.length_cons, Nat.cast_add, Nat.cast_one] at hE
    obtain ⟨hu, hv⟩ := hin e (List.mem_cons_self _ _)
    obtain ⟨g1, e1, e2, e3, e4, _, e6⟩ := Graph.addEdge_spec g e.1 e.2.1 e.2.2
      (by rw [hl]; exact hu) (by rw [hl]; exact hv) ⟨by omega, by omega⟩
    have e3' : g1.E = g.E + 1 := e3
    obtain ⟨g2, f1, f2, f3, f4, f5⟩ := ih g1 (e4.trans hl) (by omega) (by omega)
      (fun x hx => hin x (List.mem_cons_of_mem _ hx))
    refine ⟨g2, ?_, f2.trans e2, f3, ?_, ?_⟩
    · rw [List.foldlM_cons, e1]
      exact f1
    · rw [f4, e3]
      simp only [List.length_cons, Nat.cast_add, Nat.cast_one]
      omega
    · rw [f5, e6]
      simp only [List.length_cons, Nat.cast_add, Nat.cast_one]
      omega

/-- C15, as amended: for every `Graph`, all vertices `u`, `v` in range
(`u = v` allowed) and every weight `w`, `addEdge(u, v, w)` returns, appends
`(v, w)` to the end of `adj[u]` and `(u, w)` to the end of `adj[v]`, leaves
every other adjacency list, their number and `V` unchanged, and makes the total
length of the adjacency lists 2 larger, whatever the counter `E` holds; while
`E` is below `INT_MAX` the call increases `getE()` by exactly 1.  Hence after
any sequence of at most `INT_MAX` `addEdge` calls with vertices in range on a
fresh graph, `getE()` is the number of calls and the total length of all
adjacency lists is `2 * getE()`. -/
theorem graph_addEdge_appends (g : Graph) (u v : Nat) (w : Int) (hu : u < g.adj.length)
    (hv : v < g.adj.length) :
    (∃ g1, g.addEdge u v w = .ok g1 ∧ g1.V = g.V ∧ g1.adj.length = g.adj.length ∧
      (∀ x : Nat, g1.adj[x]? = (g.adj[x]?).map (fun l =>
        l ++ (if x = u then [(v, w)] else []) ++ (if x = v then [(u, w)] else []))) ∧
      (g1.getAdjList.map List.length).sum = (g.getAdjList.map List.length).sum + 2 ∧
      (-2147483648 ≤ g.getE → g.getE < 2147483647 → g1.getE = g.getE + 1)) ∧
    (∀ (n : Nat) (edges : List (Nat × Nat × Int)), edges.length ≤ 2147483647 →
      (∀ e ∈ edges, e.1 < n ∧ e.2.1 < n) →
      ∃ g2, Graph.build n edges = .ok g2 ∧ g2.getV = n ∧ g2.getE = edges.length ∧
        ((g2.getAdjList.map List.length).sum : Int) = 2 * g2.getE) := by
  constructor
  · obtain ⟨g1, e1, e2, e3, e4, e5, e6⟩ := Graph.addEdge_any g u v w hu hv
    refine ⟨g1, e1, e2, e4, e5, e6, ?_⟩
    intro h1 h2
    rw [e3]
    exact wrap32_of_range _ (by omega) (by omega)
  · intro n edges hlen hin
    obtain ⟨g2, f1, f2, f3, f4, f5⟩ := Graph.build_spec n edges (Graph.new n)
      (by simp [Graph.new]) (by simp [Graph.new]) (by simp [Graph.new]; omega) hin
    refine ⟨g2, f1, f2, ?_, ?_⟩
    · rw [f4]
      simp [Graph.new, Graph.getE]
    · show ((g2.adj.map List.length).sum : Int) = 2 * g2.getE
      rw [f5, f4]
      simp [Graph.new, Graph.getE]

/-- C15, witness: on `exampleBuilt`, the graph the six `addEdge` calls of
`exampleGraph` build, `addEdge(4, 0, 9)` appends `(0, 9)` to `adj[4]` and
`(4, 9)` to `adj[0]` and leaves the list of vertex 1 as it was, and the
self-loop `addEdge(2, 2, 6)` appends `(2, 6)` twice to `adj[2]`; either call
makes `getE()` 7. -/
theorem graph_addEdge_appends_witness :
    exampleGraph = .ok exampleBuilt ∧
    (∃ g1, exampleBuilt.addEdge 4 0 9 = .ok g1 ∧ g1.V = 5 ∧ g1.adj.length = 5 ∧
      g1.adj[4]? = some [(3, 3), (0, 9)] ∧ g1.adj[0]? = some [(1, 4), (2, 1), (4, 9)] ∧
      g1.adj[1]? = some [(0, 4), (2, 2), (3, 1)] ∧
      (g1.getAdjList.map List.length).sum = 14 ∧ g1.getE = 7) ∧
    (∃ g1, exampleBuilt.addEdge 2 2 6 = .ok g1 ∧
      g1.adj[2]? = some [(0, 1), (1, 2), (3, 5), (2, 6), (2, 6)] ∧ g1.getE = 7) := by
  refine ⟨by decide, ?_, ?_⟩
  · obtain ⟨g1, e1, e2, e3, e4, e5, e6⟩ :=
      (graph_addEdge_appends exampleBuilt 4 0 9 (by decide) (by decide)).1
    exact ⟨g1, e1, e2, e3, by rw [e4 4]; rfl, by rw [e4 0]; rfl, by rw [e4 1]; rfl,
      by rw [e5]; rfl, by rw [e6 (by decide) (by decide)]; rfl⟩
  · obtain ⟨g1, e1, _, _, e4, _, e6⟩ :=
      (graph_addEdge_appends exampleBuilt 2 2 6 (by decide) (by decide)).1
    exact ⟨g1, e1, by rw [e4 2]; rfl, by rw [e6 (by decide) (by decide)]; rfl⟩

/-- The state of a graph of one vertex after `k` calls `addEdge(0, 0, 0)`. -/
theorem Graph.loops_spec :
    ∀ (k : Nat) (E : Int) (l : List (Nat × Int)), 0 ≤ E → E + k ≤ 2147483647 →
      (List.replicate k ((0, 0, 0) : Nat × Nat × Int)).foldlM
          (fun g e => g.addEdge e.1 e.2.1 e.2.2) ({ V := 1, E := E, adj := [l] } : Graph) =
        .ok { V := 1, E := E + k, adj := [l ++ List.replicate (2 * k) (0, 0)] } := by
  intro k
  induction k with
  | zero =>
    intro E l _ _
    simp only [List.replicate_zero, List.foldlM_nil, Nat.cast_zero, add_zero, Nat.mul_zero,
      List.append_nil]
    rfl
  | succ k ih =>
    intro E l hE0 hE
    simp only [Nat.cast_add, Nat.cast_one] at hE
    rw [List.replicate_succ, List.foldlM_cons]
    have h1 : ({ V := 1, E := E, adj := [l] } : Graph).addEdge 0 0 0 =
        .ok { V := 1, E := E + 1, adj := [l ++ [(0, 0)] ++ [(0, 0)]] } := by
      unfold Graph.addEdge emplace_back
      simp only [List.getElem?_cons_zero, ok_bind, List.set_cons_zero]
      rw [wrap32_of_range _ (by omega) (by omega)]
    rw [h1]
    simp only [ok_bind]
    rw [ih (E + 1) _ (by omega) (by omega)]
    have h2 : l ++ [(0, 0)] ++ [(0, 0)] ++ List.replicate (2 * k) ((0, 0) : Nat × Int) =
        l ++ List.replicate (2 * (k + 1)) (0, 0) := by
      rw [show 2 * (k + 1) = 2 * k + 1 + 1 by ring, List.replicate_succ, List.replicate_succ]
      simp
    rw [h2]
    have h3 : E + 1 + (k : Int) = E + ((k : Int) + 1) := by ring
    simp only [Nat.cast_add, Nat.cast_one, h3]

theorem Graph.getE_eq (g : Graph) : g.getE = g.E := rfl

/-- The state of a graph of one vertex after `k` calls `addEdge(0, 0, 0)` and
one more. -/
theorem Graph.loops_then_one (k : Nat) (hk : (k : Int) ≤ 2147483647) :
    ∃ g g1 : Graph, Graph.build 1 (List.replicate k (0, 0, 0)) = .ok g ∧
      g.getE = k ∧ g.addEdge 0 0 0 = .ok g1 ∧ g1.getE = wrap32 ((k : Int) + 1) ∧
      (g1.getAdjList.map List.length).sum = 2 * k + 2 := by
  have hb := Graph.loops_spec k 0 [] (le_refl _) (by omega)
  rw [zero_add, List.nil_append] at hb
  have h2 : ∀ (E : Int) (l : List (Nat × Int)), (⟨1, E, [l]⟩ : Graph).addEdge 0 0 0 =
      .ok ⟨1, wrap32 (E + 1), [l ++ [(0, 0)] ++ [(0, 0)]]⟩ := by
    intro E l
    unfold Graph.addEdge emplace_back
    simp only [List.getElem?_cons_zero, ok_bind, List.set_cons_zero]
  refine ⟨_, _, hb, ?_, h2 _ _, ?_, ?_⟩
  · rw [Graph.getE_eq]
  · rw [Graph.getE_eq]
  · simp only [Graph.getAdjList, List.map_cons, List.map_nil, List.sum_cons, List.sum_nil,
      List.length_append, List.length_replicate, List.length_singleton]
    omega

/-- C15, counterexample to the claim as stated (every graph, any sequence of
calls): after `INT_MAX` calls `addEdge(0, 0, 0)` on the fresh graph of one
vertex, `getE()` is `INT_MAX`; one more call makes it `INT_MIN`, not
`INT_MAX + 1`, while the adjacency lists hold `2 * INT_MAX + 2` pairs. -/
theorem graph_edge_count_wraps :
    ∃ g g1 : Graph, Graph.build 1 (List.replicate 2147483647 (0, 0, 0)) = .ok g ∧
      g.getE = 2147483647 ∧ g.addEdge 0 0 0 = .ok g1 ∧ g1.getE = -2147483648 ∧
      g1.getE ≠ g.getE + 1 ∧
      (g1.getAdjList.map List.length).sum = 4294967296 ∧
      ((g1.getAdjList.map List.length).sum : Int) ≠ 2 * g1.getE := by
  obtain ⟨g, g1, h1, h2, h3, h4, h5⟩ := Graph.loops_then_one 2147483647 (by norm_num)
  have hw : wrap32 (((2147483647 : Nat) : Int) + 1) = -2147483648 := by
    unfold wrap32
    norm_num
  rw [hw] at h4
  have h2' : g.getE = 2147483647 := by rw [h2]; norm_num
  refine ⟨g, g1, h1, h2', h3, h4, ?_, ?_, ?_⟩
  · rw [h4, h2']
    norm_num
  · rw [h5]
  · rw [h5, h4]
    norm_num

/-! ## The calls of `dijkstraRadixHeap` -/

theorem OptimizedRadixHeap.push_last_deleted {gnuc : Bool} {h h1 : OptimizedRadixHeap}
    {item : Int × Nat} (hp : h.push gnuc item = .ok h1) : h1.last_deleted = h.last_deleted := by
  unfold OptimizedRadixHeap.push at hp
  dsimp only at hp
  cases hb : OptimizedRadixHeap.bucket_push h.buckets
      (OptimizedRadixHeap.fastFindBucket gnuc h item.1) item with
  | error f => rw [hb, error_bind] at hp; cases hp
  | ok b =>
    rw [hb, ok_bind] at hp
    cases hp
    rfl

theorem OptimizedRadixHeap.pop_last_deleted (gnuc : Bool) :
    ∀ (fuel : Nat) (h h1 : OptimizedRadixHeap) (item : Int × Nat),
      h.pop gnuc fuel = .ok (item, h1) → h1.last_deleted = item.1 := by
  intro fuel
  induction fuel with
  | zero => intro h h1 item hp; cases hp
  | succ n ih =>
    intro h h1 item hp
    rw [OptimizedRadixHeap.pop] at hp
    split at hp
    · cases hp
    · cases hf : OptimizedRadixHeap.first_nonempty h.buckets 0 with
      | error f => rw [hf, error_bind] at hp; cases hp
      | ok bucket =>
        rw [hf, ok_bind] at hp
        split at hp
        · cases hm : OptimizedRadixHeap.findMinInBucket h bucket with
          | error f => rw [hm, error_bind] at hp; cases hp
          | ok m =>
            rw [hm, ok_bind] at hp
            dsimp only at hp
            cases hr : OptimizedRadixHeap.redistribute gnuc n { h with last_deleted := m } bucket with
            | error f => rw [hr, error_bind] at hp; cases hp
            | ok h2 =>
              rw [hr, ok_bind] at hp
              exact ih h2 h1 item hp
        · cases hq : at? h.buckets 0 with
          | error f => rw [hq, error_bind] at hp; cases hp
          | ok q =>
            rw [hq, ok_bind] at hp
            cases q with
            | nil => cases hp
            | cons it rest =>
              dsimp only at hp
              cases hs : setAt h.buckets 0 rest with
              | error f => rw [hs, error_bind] at hp; cases hp
              | ok b =>
                rw [hs, ok_bind] at hp
                cases hp
                rfl

theorem at?_setAt {l l1 : List Int} {i j : Nat} {x a : Int}
    (hs : setAt l (i : Int) x = .ok l1) (ha : at? l1 (j : Int) = .ok a) :
    (j = i ∧ a = x) ∨ at? l (j : Int) = .ok a := by
  obtain ⟨_, hlt, rfl⟩ := setAt_ok _ _ _ _ hs
  have hg := at?_get ha
  simp only [Int.toNat_ofNat] at hlt hg
  by_cases hji : j = i
  · subst hji
    rw [List.getElem?_set_self hlt] at hg
    left
    exact ⟨rfl, (Option.some.inj hg).symm⟩
  · right
    rw [List.getElem?_set_ne (fun h => hji h.symm)] at hg
    exact at?_nat _ _ _ hg

theorem relax_radix_events_pushes (gnuc : Bool) (u : Nat) :
    ∀ (edges : List (Nat × Int)) (dist : List Int) (rh : OptimizedRadixHeap),
      (∀ e ∈ edges, 0 ≤ e.2) →
      (∀ du, at? dist u = .ok du → rh.last_deleted ≤ du) →
      (∀ du w, RadixEvent.add du w ∈ relax_radix_events gnuc u edges dist rh →
        -2147483648 ≤ du + w ∧ du + w ≤ 2147483647) →
      ∀ k v ld, RadixEvent.push k v ld ∈ relax_radix_events gnuc u edges dist rh → ld ≤ k := by
  intro edges
  induction edges with
  | nil =>
    intro dist rh _ _ _ k v ld hm
    rw [relax_radix_events] at hm
    cases hm
  | cons e edges ih =>
    obtain ⟨v0, w0⟩ := e
    intro dist rh hw hld hov k v ld hm
    have hw0 : 0 ≤ w0 := hw (v0, w0) (List.mem_cons_self _ _)
    have hwt : ∀ e ∈ edges, 0 ≤ e.2 := fun e he => hw e (List.mem_cons_of_mem _ he)
    rw [relax_radix_events] at hm hov
    cases hdv : at? dist v0 with
    | error f => rw [hdv] at hm; cases hm
    | ok dv =>
      rw [hdv] at hm hov
      dsimp only at hm hov
      cases hdu : at? dist u with
      | error f => rw [hdu] at hm; cases hm
      | ok du =>
        rw [hdu] at hm hov
        dsimp only at hm hov
        have hadd := hov du w0 (List.mem_cons_self _ _)
        have hx : wrap32 (du + w0) = du + w0 := wrap32_of_range _ hadd.1 (by omega)
        have hle := hld du hdu
        rw [hx] at hm hov
        rcases List.mem_cons.1 hm with h0 | hm
        · cases h0
        have hov1 : ∀ du1 w, RadixEvent.add du1 w ∈
            (if dv > du + w0 then
              match setAt dist v0 (du + w0) with
              | .error _ => []
              | .ok dist1 =>
                match at? dist1 v0 with
                | .error _ => []
                | .ok dv1 =>
                  RadixEvent.push dv1 v0 rh.last_deleted ::
                    (match rh.push gnuc (dv1, v0) with
                    | .error _ => []
                    | .ok rh1 => relax_radix_events gnuc u edges dist1 rh1)
            else relax_radix_events gnuc u edges dist rh) →
            -2147483648 ≤ du1 + w ∧ du1 + w ≤ 2147483647 :=
          fun du1 w hmem => hov du1 w (List.mem_cons_of_mem _ hmem)
        clear hov
        by_cases hc : dv > du + w0
        · rw [if_pos hc] at hm hov1
          cases hs : setAt dist v0 (du + w0) with
          | error f => rw [hs] at hm; cases hm
          | ok dist1 =>
            rw [hs] at hm hov1
            dsimp only at hm hov1
            cases hd1 : at? dist1 v0 with
            | error f => rw [hd1] at hm; cases hm
            | ok dv1 =>
              rw [hd1] at hm hov1
              dsimp only at hm hov1
              have hdv1 : dv1 = du + w0 := by
                rcases at?_setAt hs hd1 with h | h
                · exact h.2
                · rw [hdv] at h
                  obtain ⟨_, hlt, rfl⟩ := setAt_ok _ _ _ _ hs
                  have hg := at?_get hd1
                  simp only [Int.toNat_ofNat] at hlt hg
                  rw [List.getElem?_set_self hlt] at hg
                  exact (Option.some.inj hg).symm
              rcases List.mem_cons.1 hm with h0 | hm
              · cases h0
                omega
              cases hp : rh.push gnuc (dv1, v0) with
              | error f => rw [hp] at hm; cases hm
              | ok rh1 =>
                rw [hp] at hm hov1
                dsimp only at hm hov1
                refine ih dist1 rh1 hwt ?_ (fun du1 w hmem => hov1 du1 w (List.mem_cons_of_mem _ hmem))
                  k v ld hm
                intro du1 h1
                rw [OptimizedRadixHeap.push_last_deleted hp]
                rcases at?_setAt hs h1 with h | h
                · rw [h.2]; omega
                · rw [hdu] at h
                  cases h
                  exact hle
        · rw [if_neg hc] at hm hov1
          exact ih dist rh hwt hld hov1 k v ld hm

theorem loop_radix_events_pushes (gnuc : Bool) (adj : List (List (Nat × Int)))
    (hw : ∀ l ∈ adj, ∀ e ∈ l, 0 ≤ e.2) :
    ∀ (fuel : Nat) (dist : List Int) (rh : OptimizedRadixHeap),
      (∀ du w, RadixEvent.add du w ∈ loop_radix_events gnuc adj fuel dist rh →
        -2147483648 ≤ du + w ∧ du + w ≤ 2147483647) →
      ∀ k v ld, RadixEvent.push k v ld ∈ loop_radix_events gnuc adj fuel dist rh → ld ≤ k := by
  intro fuel
  induction fuel with
  | zero =>
    intro dist rh _ k v ld hm
    rw [loop_radix_events] at hm
    cases hm
  | succ n ih =>
    intro dist rh hov k v ld hm
    rw [loop_radix_events] at hm hov
    by_cases he : rh.empty = true
    · rw [if_pos he] at hm; cases hm
    · rw [if_neg he] at hm hov
      cases hp : rh.pop gnuc n with
      | error f => rw [hp] at hm; cases hm
      | ok r =>
        obtain ⟨current, rh1⟩ := r
        rw [hp] at hm hov
        dsimp only at hm hov
        have hld := OptimizedRadixHeap.pop_last_deleted gnuc n rh rh1 current hp
        rcases List.mem_cons.1 hm with h0 | hm
        · cases h0
        have hov1 := fun du w hmem => hov du w (List.mem_cons_of_mem _ hmem)
        clear hov
        cases hdu : at? dist current.2 with
        | error f => rw [hdu] at hm; cases hm
        | ok du =>
          rw [hdu] at hm hov1
          dsimp only at hm hov1
          by_cases hc : current.1 > du
          · rw [if_pos hc] at hm hov1
            exact ih dist rh1 hov1 k v ld hm
          · rw [if_neg hc] at hm hov1
            cases ha : at? adj current.2 with
            | error f => rw [ha] at hm; cases hm
            | ok edges =>
              rw [ha] at hm hov1
              dsimp only at hm hov1
              have hedges : ∀ e ∈ edges, 0 ≤ e.2 :=
                hw edges ((mem_iff_get? _ _).2 ⟨_, at?_get ha⟩)
              rcases List.mem_append.1 hm with hm | hm
              · refine relax_radix_events_pushes gnuc current.2 edges dist rh1 hedges ?_
                  (fun du1 w hmem => hov1 du1 w (List.mem_append_left _ hmem)) k v ld hm
                intro du1 h1
                rw [hdu] at h1
                cases h1
                rw [hld]
                omega
              · cases hr : relax_radix gnuc current.2 edges dist rh1 with
                | error f => rw [hr] at hm; cases hm
                | ok r2 =>
                  obtain ⟨dist2, rh2⟩ := r2
                  rw [hr] at hm hov1
                  dsimp only at hm hov1
                  exact ih dist2 rh2
                    (fun du1 w hmem => hov1 du1 w (List.mem_append_right _ hmem)) k v ld hm

/-- C16: in a run of `dijkstraRadixHeap` (either body of `fastFindBucket`, any
fuel, any source) on a graph whose edge weights are not negative and in which
no sum `dist[u] + weight` leaves the range of `int`, every call
`rh.push({key, v})` is made with `key` greater than or equal to the value
`last_deleted` has when the call is made. -/
theorem radix_push_not_below_last_deleted (gnuc : Bool) (fuel : Nat) (graph : Graph)
    (src : Nat) (hw : ∀ l ∈ graph.getAdjList, ∀ e ∈ l, 0 ≤ e.2)
    (hov : ∀ du w, RadixEvent.add du w ∈ dijkstraRadixHeap_events gnuc fuel graph src →
      -2147483648 ≤ du + w ∧ du + w ≤ 2147483647) :
    ∀ key v last_deleted,
      RadixEvent.push key v last_deleted ∈ dijkstraRadixHeap_events gnuc fuel graph src →
      last_deleted ≤ key := by
  intro key v ld hm
  unfold dijkstraRadixHeap_events at hm hov
  cases hs : setAt (List.replicate graph.getV INT_MAX) (src : Int) 0 with
  | error f => rw [hs] at hm; cases hm
  | ok dist =>
    rw [hs] at hm hov
    dsimp only at hm hov
    rcases List.mem_cons.1 hm with h0 | hm
    · cases h0
      exact le_refl _
    cases hp : OptimizedRadixHeap.new.push gnuc (0, src) with
    | error f => rw [hp] at hm; cases hm
    | ok rh =>
      rw [hp] at hm hov
      dsimp only at hm hov
      exact loop_radix_events_pushes gnuc graph.getAdjList hw fuel dist rh
        (fun du w hmem => hov du w (List.mem_cons_of_mem _ hmem)) key v ld hm

/-- C16, witness: the run on the graph of the first scenario from source 0
with the fallback body of `fastFindBucket`. -/
theorem radix_push_not_below_last_deleted_witness :
    exampleGraph = .ok exampleBuilt ∧
    RadixEvent.pushes (dijkstraRadixHeap_events false 20 exampleBuilt 0) =
      [(0, 0), (4, 1), (1, 2), (3, 1), (6, 3), (4, 3), (7, 4)] ∧
    ∀ key v last_deleted,
      RadixEvent.push key v last_deleted ∈ dijkstraRadixHeap_events false 20 exampleBuilt 0 →
      last_deleted ≤ key :=
  ⟨by decide!, by decide!,
    radix_push_not_below_last_deleted false 20 exampleBuilt 0 (by decide!) (by
      intro du w hm
      have he : dijkstraRadixHeap_events false 20 exampleBuilt 0 =
          [.push 0 0 0, .pop 0 0, .add 0 4, .push 4 1 0, .add 0 1, .push 1 2 0, .pop 1 2,
            .add 1 1, .add 1 2, .push 3 1 1, .add 1 5, .push 6 3 1, .pop 3 1, .add 3 4,
            .add 3 2, .add 3 1, .push 4 3 3, .pop 4 3, .add 4 1, .add 4 5, .add 4 3,
            .push 7 4 4, .pop 7 4, .add 7 3, .pop 4 1, .pop 6 3] := by decide!
      rw [he] at hm
      simp only [List.mem_cons, RadixEvent.add.injEq, List.mem_nil_iff, or_false,
        false_or, reduceCtorEq] at hm
      omega)⟩

/-- C17 (the code at the failing input): `dijkstraRadixHeap` with the
`__GNUC__` body of `fastFindBucket`, on the graph of the first scenario from
source 0.  The run returns `[0, 3, 1, 4, 7]`; its queue calls are the listed
ones.  The second `pop` returns vertex 1 with key 4 although `(1, 2)` is in the
queue, and after the third `pop` has returned vertex 2 the call
`rh.push({3, 1})` pushes vertex 1 again; vertices 3 and 4 are likewise pushed
again after they were popped. -/
theorem radix_binding_pushes_popped_vertex :
    exampleGraph = .ok exampleBuilt ∧
    dijkstraRadixHeap true 20 exampleBuilt 0 = .ok [0, 3, 1, 4, 7] ∧
    dijkstraRadixHeap_events true 20 exampleBuilt 0 =
      [.push 0 0 0, .pop 0 0, .add 0 4, .push 4 1 0, .add 0 1, .push 1 2 0,
        .pop 4 1, .add 4 4, .add 4 2, .add 4 1, .push 5 3 4,
        .pop 1 2, .add 1 1, .add 1 2, .push 3 1 1, .add 1 5,
        .pop 5 3, .add 5 1, .add 5 5, .add 5 3, .push 8 4 5,
        .pop 3 1, .add 3 4, .add 3 2, .add 3 1, .push 4 3 3,
        .pop 8 4, .add 8 3,
        .pop 4 3, .add 4 1, .add 4 5, .add 4 3, .push 7 4 4,
        .pop 7 4, .add 7 3] ∧
    (∃ (before between after : List RadixEvent),
      dijkstraRadixHeap_events true 20 exampleBuilt 0 =
        before ++ RadixEvent.pop 4 1 :: (between ++ RadixEvent.push 3 1 1 :: after)) ∧
    RadixEvent.pops (dijkstraRadixHeap_events true 20 exampleBuilt 0) =
      [(0, 0), (4, 1), (1, 2), (5, 3), (3, 1), (8, 4), (4, 3), (7, 4)] ∧
    RadixEvent.pushes (dijkstraRadixHeap_events true 20 exampleBuilt 0) =
      [(0, 0), (4, 1), (1, 2), (5, 3), (3, 1), (8, 4), (4, 3), (7, 4)] := by
  have he : dijkstraRadixHeap_events true 20 exampleBuilt 0 =
      [.push 0 0 0, .pop 0 0, .add 0 4, .push 4 1 0, .add 0 1, .push 1 2 0,
        .pop 4 1, .add 4 4, .add 4 2, .add 4 1, .push 5 3 4,
        .pop 1 2, .add 1 1, .add 1 2, .push 3 1 1, .add 1 5,
        .pop 5 3, .add 5 1, .add 5 5, .add 5 3, .push 8 4 5,
        .pop 3 1, .add 3 4, .add 3 2, .add 3 1, .push 4 3 3,
        .pop 8 4, .add 8 3,
        .pop 4 3, .add 4 1, .add 4 5, .add 4 3, .push 7 4 4,
        .pop 7 4, .add 7 3] := by decide!
  refine ⟨by decide!, by decide!, he, ?_, ?_, ?_⟩
  · exact ⟨[.push 0 0 0, .pop 0 0, .add 0 4, .push 4 1 0, .add 0 1, .push 1 2 0],
      [.add 4 4, .add 4 2, .add 4 1, .push 5 3 4, .pop 1 2, .add 1 1, .add 1 2],
      [.add 1 5,
        .pop 5 3, .add 5 1, .add 5 5, .add 5 3, .push 8 4 5,
        .pop 3 1, .add 3 4, .add 3 2, .add 3 1, .push 4 3 3,
        .pop 8 4, .add 8 3,
        .pop 4 3, .add 4 1, .add 4 5, .add 4 3, .push 7 4 4,
        .pop 7 4, .add 7 3], he⟩
  · rw [he]; rfl
  · rw [he]; rfl

/-! ## `OptimizedRadixHeap::fastFindBucket` -/

/-- The loop `while (diff >>= 1) msb++` counts up to the position of the
highest set bit of `diff`. -/
theorem OptimizedRadixHeap.msb_loop_log :
    ∀ (fuel diff msb : Nat), diff < 2 ^ (fuel + 1) →
      OptimizedRadixHeap.msb_loop fuel diff msb = msb + Nat.log 2 diff := by
  intro fuel
  induction fuel with
  | zero =>
    intro diff msb hd
    rw [OptimizedRadixHeap.msb_loop, Nat.log_of_lt (by omega)]
    rfl
  | succ f ih =>
    intro diff msb hd
    rw [OptimizedRadixHeap.msb_loop]
    by_cases hz : diff / 2 ≠ 0
    · rw [if_pos hz]
      have h2 : 2 ≤ diff := by omega
      have hlt : diff / 2 < 2 ^ (f + 1) := by
        have : 2 ^ (f + 1 + 1) = 2 * 2 ^ (f + 1) := by rw [pow_succ]; omega
        omega
      rw [ih (diff / 2) (msb + 1) hlt, Nat.log_of_one_lt_of_le (by omega) h2]
      omega
    · rw [if_neg hz, Nat.log_of_lt (by omega)]
      rfl

/-- The difference `key - last_deleted` as the `unsigned` of the code. -/
theorem OptimizedRadixHeap.diff_eq {ld key : Int} (h0 : 0 ≤ ld) (hk : key ≤ 2147483647)
    (hlt : ld < key) :
    ((key - ld) % 4294967296).toNat = (key - ld).toNat ∧ (key - ld).toNat < 2 ^ 31 ∧
      (key - ld).toNat ≠ 0 := by
  have h1 : (key - ld) % 4294967296 = key - ld := Int.emod_eq_of_lt (by omega) (by omega)
  rw [h1]
  refine ⟨rfl, ?_, ?_⟩
  · have : (2 : Nat) ^ 31 = 2147483648 := by norm_num
    omega
  · omega

/-- C18 (the code on the claim's domain): for `0 <= last_deleted` and
`key <= INT_MAX`, the `__GNUC__` body of `fastFindBucket` returns 0 for every
key, also for a key above `last_deleted`, and `push` stores every entry in
bucket 0.  The fallback body returns 0 for `key <= last_deleted` and
`1 + floor(log2(key - last_deleted))` otherwise, and `push` stores the entry
in the bucket `fastFindBucket` names. -/
theorem radix_gnuc_bucket_is_zero (h : OptimizedRadixHeap) (key : Int)
    (h0 : 0 ≤ h.last_deleted) (hk : key ≤ 2147483647) :
    OptimizedRadixHeap.fastFindBucket true h key = 0 ∧
    (∀ (v : Nat) (h1 : OptimizedRadixHeap), h.push true (key, v) = .ok h1 →
      ∃ q, h.buckets[0]? = some q ∧ h1.buckets = h.buckets.set 0 (q ++ [(key, v)])) ∧
    OptimizedRadixHeap.fastFindBucket false h key =
      (if key ≤ h.last_deleted then 0
       else 1 + ((Nat.log 2 (key - h.last_deleted).toNat : Nat) : Int)) ∧
    (∀ (gnuc : Bool) (v : Nat) (h1 : OptimizedRadixHeap), h.push gnuc (key, v) = .ok h1 →
      ∃ q, h.buckets[(OptimizedRadixHeap.fastFindBucket gnuc h key).toNat]? = some q ∧
        h1.buckets = h.buckets.set (OptimizedRadixHeap.fastFindBucket gnuc h key).toNat
          (q ++ [(key, v)])) := by
  have hpush : ∀ (gnuc : Bool) (v : Nat) (h1 : OptimizedRadixHeap),
      h.push gnuc (key, v) = .ok h1 →
      ∃ q, h.buckets[(OptimizedRadixHeap.fastFindBucket gnuc h key).toNat]? = some q ∧
        h1.buckets = h.buckets.set (OptimizedRadixHeap.fastFindBucket gnuc h key).toNat
          (q ++ [(key, v)]) := by
    intro gnuc v h1 hp
    unfold OptimizedRadixHeap.push OptimizedRadixHeap.bucket_push at hp
    dsimp only at hp
    cases hq : at? h.buckets (OptimizedRadixHeap.fastFindBucket gnuc h key) with
    | error f => rw [hq] at hp; simp only [error_bind] at hp; cases hp
    | ok q =>
      rw [hq] at hp
      simp only [ok_bind] at hp
      cases hs : setAt h.buckets (OptimizedRadixHeap.fastFindBucket gnuc h key)
          (q ++ [(key, v)]) with
      | error f => rw [hs, error_bind] at hp; cases hp
      | ok b =>
        rw [hs, ok_bind] at hp
        cases hp
        exact ⟨q, at?_get hq, setAt_get hs⟩
  have hg : OptimizedRadixHeap.fastFindBucket true h key = 0 := by
    unfold OptimizedRadixHeap.fastFindBucket
    by_cases hc : key ≤ h.last_deleted
    · rw [if_pos hc]
    · rw [if_neg hc]
      obtain ⟨e, hlt, hne⟩ := OptimizedRadixHeap.diff_eq h0 hk (by omega)
      dsimp only
      rw [e, if_pos rfl, if_pos]
      unfold OptimizedRadixHeap.builtin_clz
      rw [OptimizedRadixHeap.msb_loop_log 32 _ 0 (lt_trans hlt (by norm_num))]
      have := Nat.log_lt_of_lt_pow hne hlt
      omega
  refine ⟨hg, ?_, ?_, hpush⟩
  · intro v h1 hp
    have := hpush true v h1 hp
    rw [hg] at this
    exact this
  · unfold OptimizedRadixHeap.fastFindBucket
    by_cases hc : key ≤ h.last_deleted
    · rw [if_pos hc, if_pos hc]
    · rw [if_neg hc, if_neg hc]
      obtain ⟨e, hlt, _⟩ := OptimizedRadixHeap.diff_eq h0 hk (by omega)
      dsimp only
      rw [e, if_neg (by decide)]
      rw [OptimizedRadixHeap.msb_loop_log 32 _ 0 (lt_trans hlt (by norm_num))]
      push_cast
      omega

/-- C18, at the failing input: on a fresh heap (`last_deleted = 0`) the
`__GNUC__` body puts key 5 in bucket 0 and `push({5, 7})` appends the entry to
bucket 0, while `1 + floor(log2(5 - 0))` is 3, the bucket the fallback body
names. -/
theorem radix_gnuc_bucket_is_zero_witness :
    OptimizedRadixHeap.fastFindBucket true OptimizedRadixHeap.new 5 = 0 ∧
    OptimizedRadixHeap.fastFindBucket false OptimizedRadixHeap.new 5 = 3 ∧
    1 + ((Nat.log 2 5 : Nat) : Int) = 3 ∧
    (OptimizedRadixHeap.new.push true (5, 7)).map (fun h => h.buckets.take 4) =
      .ok [[(5, 7)], [], [], []] ∧
    (OptimizedRadixHeap.new.push false (5, 7)).map (fun h => h.buckets.take 4) =
      .ok [[], [], [], [(5, 7)]] :=
  ⟨(radix_gnuc_bucket_is_zero OptimizedRadixHeap.new 5 (by decide) (by decide)).1,
    by decide!, by
      have : Nat.log 2 5 = 2 := by
        rw [Nat.log_eq_iff (Or.inl (by decide))]
        decide
      rw [this]
      rfl,
    by decide!, by decide!⟩

/-! ## `OptimizedRadixHeap::redistribute` -/

/-- The state `radixBefore` is reached by `push({0,0})`, `pop()`,
`push({4,1})`, `push({3,2})`, `pop()`, `push({10,3})`; no key is negative and
every push is made with a key that is not below `last_deleted`. -/
theorem radixBefore_monotone : OptimizedRadixHeap.Monotone false radixBefore := by
  have s0 : OptimizedRadixHeap.Monotone false OptimizedRadixHeap.new :=
    OptimizedRadixHeap.Monotone.init
  have s1 := OptimizedRadixHeap.Monotone.push OptimizedRadixHeap.new radixFirst (0, 0) s0
    (by decide) (by decide) (by decide!)
  have s2 := OptimizedRadixHeap.Monotone.pop radixFirst OptimizedRadixHeap.new 2 (0, 0) s1
    (by decide!)
  have s3 := OptimizedRadixHeap.Monotone.push OptimizedRadixHeap.new
    ⟨0, [[], [], [], [(4, 1)]] ++ List.replicate 29 [], 1⟩ (4, 1) s2
    (by decide) (by decide) (by decide!)
  have s4 := OptimizedRadixHeap.Monotone.push _ radixSecond (3, 2) s3
    (by decide) (by decide) (by decide!)
  have s5 := OptimizedRadixHeap.Monotone.pop radixSecond
    ⟨3, [[], [], [], [(4, 1)]] ++ List.replicate 29 [], 1⟩ 4 (3, 2) s4 (by decide!)
  exact OptimizedRadixHeap.Monotone.push _ radixBefore (10, 3) s5
    (by decide) (by decide) (by decide!)

/-- C19 (the code at the failing input), with the fallback body of
`fastFindBucket`.  The state `radixBefore` (`last_deleted = 3`, bucket 3 holds
`(4,1)` and `(10,3)`, the other buckets are empty) is reachable with
non-negative keys and pushes at or above `last_deleted`; its first non-empty
bucket is 3 and the minimum key of that bucket is 4.  With `last_deleted = 4`
the bucket of key 10 is again 3: after two iterations of the loop of
`redistribute(3)` the state is `radixStuck`, where `(4,1)` is in bucket 0 and
`(10,3)` is in bucket 3, and every further iteration takes `(10,3)` out of
bucket 3 and pushes it back.  So `redistribute(3)` returns for no fuel, and
neither does `pop`. -/
theorem radix_redistribute_refills_bucket :
    OptimizedRadixHeap.Monotone false radixBefore ∧
    OptimizedRadixHeap.first_nonempty radixBefore.buckets 0 = .ok 3 ∧
    at? radixBefore.buckets 3 = .ok [(4, 1), (10, 3)] ∧
    OptimizedRadixHeap.findMinInBucket radixBefore 3 = .ok 4 ∧
    OptimizedRadixHeap.fastFindBucket false { radixBefore with last_deleted := 4 } 4 = 0 ∧
    OptimizedRadixHeap.fastFindBucket false { radixBefore with last_deleted := 4 } 10 = 3 ∧
    (∀ fuel : Nat,
      OptimizedRadixHeap.redistribute false (fuel + 2) { radixBefore with last_deleted := 4 } 3 =
        OptimizedRadixHeap.redistribute false fuel radixStuck 3) ∧
    at? radixStuck.buckets 0 = .ok [(4, 1)] ∧
    at? radixStuck.buckets 3 = .ok [(10, 3)] ∧
    (∀ fuel : Nat,
      OptimizedRadixHeap.redistribute false (fuel + 1) radixStuck 3 =
        OptimizedRadixHeap.redistribute false fuel radixStuck 3) ∧
    (∀ fuel : Nat,
      OptimizedRadixHeap.redistribute false fuel { radixBefore with last_deleted := 4 } 3 =
        .error .out_of_fuel) ∧
    (∀ fuel : Nat, OptimizedRadixHeap.pop false fuel radixBefore = .error .out_of_fuel) := by
  refine ⟨radixBefore_monotone, by decide!, by decide!, by decide!, by decide!, by decide!,
    ?_, by decide!, by decide!, radixStuck_step, ?_, radixBefore_pop_never⟩
  · intro fuel
    rw [radixBefore_step, radixStuck_step]
  · intro fuel
    cases fuel with
    | zero => rfl
    | succ n => rw [radixBefore_step, radixStuck_never]

/-! ## Heap order of `FibonacciHeap` -/

theorem FibonacciHeap.mem_of_view {h : FibonacciHeap} {a : Nat} {n : Node}
    (hv : h.view none a = some n) : h.mem[a]? = some (some n) := by
  unfold FibonacciHeap.view at hv
  rw [if_neg (by simp)] at hv
  cases hm : h.mem[a]? with
  | none => rw [hm] at hv; cases hv
  | some o =>
    rw [hm] at hv
    cases o with
    | none => cases hv
    | some n1 =>
      have : n1 = n := Option.some.inj hv
      rw [this]

/-- C20: in every state of a `FibonacciHeap` over `n` vertices reachable from
the empty heap by `push`, `pop` and `decrease_key` calls, a node whose `parent`
field is not null has a parent node in the free store, and its key is greater
than or equal to the key of that parent. -/
theorem fibonacci_heap_order_invariant (n : Nat) (h : FibonacciHeap)
    (hr : FibonacciHeap.Reachable n h) (a p : Nat) (nd : Node)
    (ha : h.mem[a]? = some (some nd)) (hp : nd.parent = some p) :
    ∃ pn : Node, h.mem[p]? = some (some pn) ∧ pn.key ≤ nd.key := by
  have hinv := hr.inv_fibonacci
  have hnode := FibonacciHeap.view_of_mem ha
  obtain ⟨pn, hpn⟩ := hinv.forest.parent_live hnode hp
  exact ⟨pn, FibonacciHeap.mem_of_view hpn, hinv.order a p nd pn hnode hp hpn⟩

/-- C20, witness: in `sampleFibonacciHeap` the node of vertex 2 (key 8) is the
child of the node of vertex 0 (key 5). -/
theorem fibonacci_heap_order_invariant_witness :
    ∃ pn : Node, sampleFibonacciHeap.mem[0]? = some (some pn) ∧ pn.key ≤ 8 :=
  fibonacci_heap_order_invariant 4 sampleFibonacciHeap sampleFibonacciHeap_reachable 2 0
    { key := 8, vertex := 2, degree := 0, marked := false, parent := some 0,
      child := none, left := 2, right := 2 } (by decide) rfl

/-! ## The vertex map of `DHeap` -/

/-- C21: in every state of a `DHeap(n, d)` (`n` an `int`, any `d`) reachable
from the empty heap by `push`, `pop` and `decrease_key` calls, the vector
`vertex_to_index` has one entry per vertex and agrees with the heap array:
the vertex in slot `i` has the map entry `i`; a map entry is `-1` or a slot
below `heap.size()` that holds that vertex; and no vertex is in two slots. -/
theorem dheap_vertex_map_consistent (n : Nat) (hn : n ≤ 2147483647) (d : Int) (h : DHeap)
    (hr : DHeap.Reachable n d h) :
    h.vertex_to_index.length = n ∧
    (∀ (i : Nat) (e : Int × Nat), h.heap[i]? = some e →
      h.vertex_to_index[e.2]? = some (i : Int)) ∧
    (∀ (v : Nat) (x : Int), h.vertex_to_index[v]? = some x →
      x = -1 ∨ ∃ (i : Nat) (e : Int × Nat), x = (i : Int) ∧ i < h.heap.length ∧
        h.heap[i]? = some e ∧ e.2 = v) ∧
    (∀ (i j : Nat) (a b : Int × Nat), h.heap[i]? = some a → h.heap[j]? = some b →
      a.2 = b.2 → i = j) := by
  have hc := (hr.consistent_dheap hn).1.indexed
  refine ⟨hc.len, hc.slot, ?_, fun i j a b hi hj hv => hc.inj hi hj hv⟩
  intro v x hv
  rcases hc.back v x hv with h1 | ⟨i, e, h1, h2, h3⟩
  · exact Or.inl h1
  · exact Or.inr ⟨i, e, h1, get?_lt _ _ _ h2, h2, h3⟩

/-- C21, witness: `wideDHeap4`, a `DHeap(4, INT_MAX)` after four pushes and a
`pop`, holds the vertices 3, 1, 2 in the slots 0, 1, 2 and its map is
`[-1, 1, 2, 0]`. -/
theorem dheap_vertex_map_consistent_witness :
    wideDHeap4.vertex_to_index.length = 4 ∧
    (∀ (i : Nat) (e : Int × Nat), wideDHeap4.heap[i]? = some e →
      wideDHeap4.vertex_to_index[e.2]? = some (i : Int)) ∧
    (∀ (v : Nat) (x : Int), wideDHeap4.vertex_to_index[v]? = some x →
      x = -1 ∨ ∃ (i : Nat) (e : Int × Nat), x = (i : Int) ∧ i < wideDHeap4.heap.length ∧
        wideDHeap4.heap[i]? = some e ∧ e.2 = v) ∧
    (∀ (i j : Nat) (a b : Int × Nat), wideDHeap4.heap[i]? = some a →
      wideDHeap4.heap[j]? = some b → a.2 = b.2 → i = j) :=
  dheap_vertex_map_consistent 4 (by decide) 2147483647 wideDHeap4 wideDHeap4_reachable

/-! ## Termination of `OptimizedRadixHeap::pop` -/

theorem OptimizedRadixHeap.Bounded.reachable {gnuc : Bool} {h : OptimizedRadixHeap}
    (hb : OptimizedRadixHeap.Bounded gnuc h) : OptimizedRadixHeap.Reachable gnuc h := by
  induction hb with
  | init => exact OptimizedRadixHeap.Reachable.init
  | push h h1 item _ _ _ hp ih => exact OptimizedRadixHeap.Reachable.push h h1 item ih hp
  | pop h h1 fuel item _ hp ih => exact OptimizedRadixHeap.Reachable.pop h h1 fuel item ih hp

/-- The scan `while (buckets[bucket].empty()) bucket++` stops inside the
vector when a bucket at or after its start is not empty. -/
theorem OptimizedRadixHeap.first_nonempty_found :
    ∀ (l : List (List (Int × Nat))) (k : Int), (∃ q ∈ l, q ≠ []) →
      ∃ b, OptimizedRadixHeap.first_nonempty l k = .ok b ∧ k ≤ b ∧ b < k + l.length ∧
        ∃ q, l[(b - k).toNat]? = some q ∧ q ≠ [] := by
  intro l
  induction l with
  | nil => intro k ⟨q, hq, _⟩; cases hq
  | cons a l ih =>
    intro k hex
    rw [OptimizedRadixHeap.first_nonempty]
    cases a with
    | nil =>
      obtain ⟨q, hq, hne⟩ := hex
      have hq2 : q ∈ l := by
        rcases List.mem_cons.1 hq with e | e
        · exact absurd e hne
        · exact e
      obtain ⟨b, e1, e2, e3, q1, e4, e5⟩ := ih (k + 1) ⟨q, hq2, hne⟩
      refine ⟨b, ?_, by omega, ?_, q1, ?_, e5⟩
      · rw [if_pos (show ([] : List (Int × Nat)).isEmpty = true from rfl)]; exact e1
      · rw [List.length_cons]; push_cast; omega
      · have hb : (b - k).toNat = (b - (k + 1)).toNat + 1 := by omega
        rw [hb, List.getElem?_cons_succ]
        exact e4
    | cons x xs =>
      refine ⟨k, ?_, le_refl _, ?_, x :: xs, ?_, by simp⟩
      · rw [if_neg (by simp)]
      · rw [List.length_cons]; push_cast; omega
      · rw [sub_self]; simp

/-- In a state whose counter is right and not zero the scan of `pop` stops at
a bucket below `BUCKETS`. -/
theorem OptimizedRadixHeap.Counted.scan_stops {h : OptimizedRadixHeap} (hc : h.Counted)
    (hs : 0 < h.size_) :
    ∃ b, OptimizedRadixHeap.first_nonempty h.buckets 0 = .ok b ∧ 0 ≤ b ∧ b < 33 ∧
      ∃ q, h.buckets[b.toNat]? = some q ∧ q ≠ [] := by
  have hne : ¬ ∀ q ∈ h.buckets, q = [] := by
    intro hall
    have := hc.empty_iff.2 hall
    unfold OptimizedRadixHeap.empty at this
    rw [beq_iff_eq] at this
    omega
  have hex : ∃ q ∈ h.buckets, q ≠ [] := by
    by_contra hno
    apply hne
    intro q hq
    by_contra hq2
    exact hno ⟨q, hq, hq2⟩
  obtain ⟨b, e1, e2, e3, q, e4, e5⟩ := OptimizedRadixHeap.first_nonempty_found h.buckets 0 hex
  refine ⟨b, e1, e2, ?_, q, ?_, e5⟩
  · have := hc.len
    unfold BUCKETS at this
    rw [this] at e3
    omega
  · rw [sub_zero] at e4
    exact e4

/-- The `__GNUC__` body of `fastFindBucket` on keys of the range of `int`. -/
theorem OptimizedRadixHeap.fastFindBucket_gnuc (h : OptimizedRadixHeap) (key : Int)
    (h0 : 0 ≤ h.last_deleted) (hk : key ≤ 2147483647) :
    OptimizedRadixHeap.fastFindBucket true h key = 0 := by
  unfold OptimizedRadixHeap.fastFindBucket
  by_cases hc : key ≤ h.last_deleted
  · rw [if_pos hc]
  · rw [if_neg hc]
    obtain ⟨e, hlt, hne⟩ := OptimizedRadixHeap.diff_eq h0 hk (by omega)
    dsimp only
    rw [e, if_pos rfl, if_pos]
    unfold OptimizedRadixHeap.builtin_clz
    rw [OptimizedRadixHeap.msb_loop_log 32 _ 0 (lt_trans hlt (by norm_num))]
    have := Nat.log_lt_of_lt_pow hne hlt
    omega

theorem OptimizedRadixHeap.Flat.push_flat {h h1 : OptimizedRadixHeap} {item : Int × Nat}
    (hf : h.Flat) (h0 : 0 ≤ item.1) (hk : item.1 ≤ 2147483647)
    (hp : h.push true item = .ok h1) : h1.Flat := by
  unfold OptimizedRadixHeap.push at hp
  dsimp only at hp
  rw [OptimizedRadixHeap.fastFindBucket_gnuc h item.1 hf.last hk] at hp
  unfold OptimizedRadixHeap.bucket_push at hp
  cases hq : at? h.buckets 0 with
  | error e => rw [hq] at hp; simp only [error_bind] at hp; cases hp
  | ok q =>
    rw [hq] at hp
    simp only [ok_bind] at hp
    cases hs : setAt h.buckets 0 (q ++ [item]) with
    | error e => rw [hs, error_bind] at hp; cases hp
    | ok b =>
      rw [hs, ok_bind] at hp
      cases hp
      have hb := setAt_get hs
      have hq0 := at?_get hq
      simp only [Int.toNat_zero] at hb hq0
      refine ⟨hf.last, ?_, ?_⟩
      · intro i q1 hi hq1
        show q1 = []
        have hq1' : b[i]? = some q1 := hq1
        rw [hb, List.getElem?_set_ne (by omega)] at hq1'
        exact hf.rest i q1 hi hq1'
      · intro q1 hq1 e he
        have hq1' : b[0]? = some q1 := hq1
        rw [hb, List.getElem?_set_self (get?_lt _ _ _ hq0)] at hq1'
        cases hq1'
        rcases List.mem_append.1 he with h2 | h2
        · exact hf.keys q hq0 e h2
        · rw [List.mem_singleton] at h2
          rw [h2]
          exact h0

/-- With every entry in bucket 0, `pop` on a heap that is not empty returns
the front of bucket 0 without calling itself. -/
theorem OptimizedRadixHeap.Flat.pop_flat {h : OptimizedRadixHeap} (hf : h.Flat)
    (hc : h.Counted) (hs : 0 < h.size_) (gnuc : Bool) :
    ∃ (item : Int × Nat) (h1 : OptimizedRadixHeap),
      (∀ fuel : Nat, h.pop gnuc (fuel + 1) = .ok (item, h1)) ∧ h1.Flat ∧
        h1.size_ + 1 = h.size_ := by
  obtain ⟨b, e1, e2, e3, q, e4, e5⟩ := hc.scan_stops hs
  have hb0 : b = 0 := by
    by_contra hne
    exact e5 (hf.rest b.toNat q (by omega) e4)
  rw [hb0] at e1 e4
  simp only [Int.toNat_zero] at e4
  cases q with
  | nil => exact absurd rfl e5
  | cons item rest =>
    have hlt := get?_lt _ _ _ e4
    have hemp : h.empty = false := by
      unfold OptimizedRadixHeap.empty
      rw [beq_eq_false_iff_ne]
      omega
    refine ⟨item, ⟨item.1, h.buckets.set 0 rest, h.size_ - 1⟩, ?_, ⟨?_, ?_, ?_⟩, ?_⟩
    · intro fuel
      rw [OptimizedRadixHeap.pop, hemp]
      simp only [Bool.false_eq_true, if_false]
      have ha : at? h.buckets (0 : Int) = .ok (item :: rest) := by
        simpa using at?_nat _ 0 _ e4
      have hst : setAt h.buckets (0 : Int) rest = .ok (h.buckets.set 0 rest) := by
        simpa using setAt_nat h.buckets 0 rest hlt
      rw [e1, ok_bind, if_neg (by decide), ha, ok_bind]
      simp only
      rw [hst, ok_bind]
    · exact hf.keys _ e4 item (List.mem_cons_self _ _)
    · intro i q1 hi hq1
      have hq1' : (h.buckets.set 0 rest)[i]? = some q1 := hq1
      rw [List.getElem?_set_ne (by omega)] at hq1'
      exact hf.rest i q1 hi hq1'
    · intro q1 hq1 e he
      have hq1' : (h.buckets.set 0 rest)[0]? = some q1 := hq1
      rw [List.getElem?_set_self hlt] at hq1'
      cases hq1'
      exact hf.keys _ e4 e (List.mem_cons_of_mem _ he)
    · show h.size_ - 1 + 1 = h.size_
      omega

/-- With the `__GNUC__` body every state reached with keys of the range of
`int` has all its entries in bucket 0. -/
theorem OptimizedRadixHeap.Bounded.flat {h : OptimizedRadixHeap}
    (hb : OptimizedRadixHeap.Bounded true h) : h.Flat := by
  induction hb with
  | init =>
    refine ⟨le_refl _, ?_, ?_⟩
    · intro i q _ hq
      have : q ∈ List.replicate BUCKETS ([] : List (Int × Nat)) :=
        (mem_iff_get? _ _).2 ⟨i, hq⟩
      exact List.eq_of_mem_replicate this
    · intro q hq e he
      have : q ∈ List.replicate BUCKETS ([] : List (Int × Nat)) :=
        (mem_iff_get? _ _).2 ⟨0, hq⟩
      rw [List.eq_of_mem_replicate this] at he
      cases he
  | push h h1 item _ h0 hk hp ih => exact ih.push_flat h0 hk hp
  | pop h h1 fuel item hb0 hp ih =>
    cases fuel with
    | zero => cases hp
    | succ n =>
      have hc := hb0.reachable.counted
      have hs : 0 < h.size_ := by
        by_contra hz
        have he : h.empty = true := by
          unfold OptimizedRadixHeap.empty
          rw [beq_iff_eq]
          omega
        rw [(OptimizedRadixHeap.pop_throws_iff_radix true n h).2 he] at hp
        cases hp
      obtain ⟨item1, h2, e1, e2, _⟩ := ih.pop_flat hc hs true
      rw [e1 n] at hp
      cases hp
      exact e2

/-- C25 (the code on the claim's domain).  For both bodies of
`fastFindBucket`, in every state reachable from a fresh heap by pushes of
keys from 0 to `INT_MAX` and pops, `size()` is the total number of entries in
the buckets, the scan of `pop` for the first non-empty bucket stops below
`BUCKETS` when `size() > 0`, and a `pop` that returns has decreased `size()`
by exactly 1.  With the `__GNUC__` body `pop` on a heap with `size() > 0`
returns without calling itself.  With the fallback body it need not return:
`radixBefore`, reached by `push({0,0})`, `pop()`, `push({4,1})`, `push({3,2})`,
`pop()`, `push({10,3})`, has `size() = 2`, and `pop` returns for no fuel. -/
theorem radix_pop_need_not_terminate :
    (∀ (gnuc : Bool) (h : OptimizedRadixHeap), OptimizedRadixHeap.Bounded gnuc h →
      h.buckets.length = 33 ∧ h.size = (h.buckets.map List.length).sum ∧
      (0 < h.size → ∃ b, OptimizedRadixHeap.first_nonempty h.buckets 0 = .ok b ∧ 0 ≤ b ∧
        b < 33) ∧
      ∀ (fuel : Nat) (item : Int × Nat) (h1 : OptimizedRadixHeap),
        h.pop gnuc fuel = .ok (item, h1) → h1.size + 1 = h.size) ∧
    (∀ h : OptimizedRadixHeap, OptimizedRadixHeap.Bounded true h → 0 < h.size →
      ∃ (item : Int × Nat) (h1 : OptimizedRadixHeap),
        (∀ fuel : Nat, h.pop true (fuel + 1) = .ok (item, h1)) ∧ h1.size + 1 = h.size) ∧
    (OptimizedRadixHeap.Bounded false radixBefore ∧ radixBefore.size = 2 ∧
      ∀ fuel : Nat, OptimizedRadixHeap.pop false fuel radixBefore = .error .out_of_fuel) := by
  refine ⟨?_, ?_, ?_, rfl, radixBefore_pop_never⟩
  · intro gnuc h hb
    have hc := hb.reachable.counted
    refine ⟨hc.len, hc.count, ?_, ?_⟩
    · intro hs
      obtain ⟨b, e1, e2, e3, _⟩ := hc.scan_stops hs
      exact ⟨b, e1, e2, e3⟩
    · intro fuel item h1 hp
      exact (OptimizedRadixHeap.Counted.pop_counted gnuc fuel h h1 item hc hp).2
  · intro h hb hs
    obtain ⟨item, h1, e1, _, e3⟩ := hb.flat.pop_flat hb.reachable.counted hs true
    exact ⟨item, h1, e1, e3⟩
  · have s0 : OptimizedRadixHeap.Bounded false OptimizedRadixHeap.new :=
      OptimizedRadixHeap.Bounded.init
    have s1 := OptimizedRadixHeap.Bounded.push OptimizedRadixHeap.new radixFirst (0, 0) s0
      (by decide) (by decide) (by decide!)
    have s2 := OptimizedRadixHeap.Bounded.pop radixFirst OptimizedRadixHeap.new 2 (0, 0) s1
      (by decide!)
    have s3 := OptimizedRadixHeap.Bounded.push OptimizedRadixHeap.new
      ⟨0, [[], [], [], [(4, 1)]] ++ List.replicate 29 [], 1⟩ (4, 1) s2
      (by decide) (by decide) (by decide!)
    have s4 := OptimizedRadixHeap.Bounded.push _ radixSecond (3, 2) s3
      (by decide) (by decide) (by decide!)
    have s5 := OptimizedRadixHeap.Bounded.pop radixSecond
      ⟨3, [[], [], [], [(4, 1)]] ++ List.replicate 29 [], 1⟩ 4 (3, 2) s4 (by decide!)
    exact OptimizedRadixHeap.Bounded.push _ radixBefore (10, 3) s5
      (by decide) (by decide) (by decide!)

/-! ## The degree array of `FibonacciHeap::consolidate` -/

/-- C24 (the code at the failing input): after the run `fibRun` (33 pushes of
distinct vertices, a pop, 17 `decrease_key` calls, 16 pops, all returning) the
next `pop` calls `consolidate` with `size = 16`, so that `A` has
`ceil(log2(16)) + 1 = 5` entries, and with a root list that holds one node, of
degree 5; the first index at which `consolidate` reads `A` is 5, which is not
below 5, and the call fails there. -/
theorem fibonacci_consolidate_index_past_array :
    ∃ (popped : List (Int × Nat)) (h hc : FibonacciHeap),
      fibRun = .ok (popped, h) ∧ h.pop_to_consolidate = .ok (some hc) ∧
      hc.size = 16 ∧ FibonacciHeap.ceil_log2 hc.size.toNat + 1 = 5 ∧
      hc.consolidate_indices = [5] ∧
      hc.consolidate = .error .out_of_range ∧ h.pop = .error .out_of_range := by
  have h2 : (match fibRun with
    | .ok r =>
      match r.2.pop_to_consolidate with
      | .ok (some hc) => decide (hc.size = 16 ∧
          FibonacciHeap.ceil_log2 hc.size.toNat + 1 = 5 ∧ hc.consolidate_indices = [5] ∧
          hc.consolidate = .error .out_of_range ∧ r.2.pop = .error .out_of_range)
      | _ => false
    | .error _ => false) = true := by decide!
  cases h0 : fibRun with
  | error e =>
    rw [h0] at h2
    simp at h2
  | ok r =>
    rw [h0] at h2
    simp only at h2
    cases h1 : r.2.pop_to_consolidate with
    | error e =>
      rw [h1] at h2
      simp at h2
    | ok o =>
      cases o with
      | none =>
        rw [h1] at h2
        simp at h2
      | some hc =>
        rw [h1] at h2
        exact ⟨r.1, r.2, hc, rfl, h1, of_decide_eq_true h2⟩

/-! ## `BinaryHeap(n)` against `DHeap(n, 2)` -/

theorem BinaryHeap.call_indexed {n : Nat} (hn : n ≤ 2147483647) {b b1 : BinaryHeap}
    {c : QueueCall} {r : QueueResult} (hx : Indexed n b.heap b.vertex_to_index)
    (hc : c.in_range n) (hs : b.call c = .ok (r, b1)) :
    Indexed n b1.heap b1.vertex_to_index := by
  cases c with
  | push key vertex =>
    simp only [BinaryHeap.call] at hs
    cases hp : b.push key vertex with
    | error e => rw [hp, error_bind] at hs; cases hs
    | ok b2 =>
      rw [hp, ok_bind] at hs
      cases hs
      have hv : vertex < n := hc
      exact @BinaryHeap.step_indexed n hn b b1 (.push key vertex) hx
        (by simp only [BinaryHeap.step, hv, if_true, hp])
  | pop =>
    simp only [BinaryHeap.call, BinaryHeap.pop_exit] at hs
    split at hs
    · simp only [ok_bind] at hs
      cases hs
      exact hx
    · cases hp : b.pop with
      | error e => rw [hp] at hs; simp only [error_bind] at hs; cases hs
      | ok r2 =>
        rw [hp] at hs
        simp only [ok_bind] at hs
        cases hs
        exact @BinaryHeap.step_indexed n hn b r2.2 .pop hx (by simp only [BinaryHeap.step, hp])
  | decrease_key vertex new_key =>
    simp only [BinaryHeap.call] at hs
    cases hp : b.decrease_key vertex new_key with
    | error e => rw [hp, error_bind] at hs; cases hs
    | ok b2 =>
      rw [hp, ok_bind] at hs
      cases hs
      have hv : vertex < n := hc
      exact @BinaryHeap.step_indexed n hn b b1 (.decrease_key vertex new_key) hx
        (by simp only [BinaryHeap.step, hv, if_true, hp])
  | empty =>
    simp only [BinaryHeap.call] at hs
    cases hs
    exact hx

/-- One call gives the same result on a `BinaryHeap` and on the `DHeap` with
factor 2 and the same vectors, and leaves the same vectors. -/
theorem BinaryHeap.call_sim {n : Nat} (hn : 2 * n < 2147483647) {b : BinaryHeap}
    (hx : Indexed n b.heap b.vertex_to_index) (c : QueueCall) :
    (b.call c).map (fun r => (r.1, r.2.toDHeap)) = b.toDHeap.call c := by
  have hlen := hx.length_le
  cases c with
  | push key vertex =>
    simp only [BinaryHeap.call, DHeap.call]
    rw [← BinaryHeap.push_sim]
    cases b.push key vertex with
    | error e => rfl
    | ok b1 => rfl
  | pop =>
    simp only [BinaryHeap.call, DHeap.call, BinaryHeap.pop_exit, DHeap.pop_exit]
    have hh : b.toDHeap.heap = b.heap := rfl
    rw [hh]
    split
    · rfl
    · rw [← BinaryHeap.pop_sim b (by omega)]
      cases b.pop with
      | error e => rfl
      | ok r => rfl
  | decrease_key vertex new_key =>
    simp only [BinaryHeap.call, DHeap.call]
    rw [← BinaryHeap.decrease_key_sim]
    cases b.decrease_key vertex new_key with
    | error e => rfl
    | ok b1 => rfl
  | empty => rfl

theorem BinaryHeap.calls_sim {n : Nat} (hn : 2 * n < 2147483647) :
    ∀ (cs : List QueueCall) (b : BinaryHeap), Indexed n b.heap b.vertex_to_index →
      (∀ c ∈ cs, c.in_range n) →
      (BinaryHeap.calls cs b).map (fun r => (r.1, r.2.toDHeap)) =
        DHeap.calls cs b.toDHeap := by
  intro cs
  induction cs with
  | nil => intro b _ _; rfl
  | cons c cs ih =>
    intro b hx hcs
    rw [BinaryHeap.calls, DHeap.calls, ← BinaryHeap.call_sim hn hx c]
    cases hc : b.call c with
    | error e => rfl
    | ok r =>
      obtain ⟨r1, b1⟩ := r
      have hx1 := BinaryHeap.call_indexed (by omega) hx (hcs c (List.mem_cons_self _ _)) hc
      have := ih b1 hx1 (fun c1 h1 => hcs c1 (List.mem_cons_of_mem _ h1))
      show Except.map _ (BinaryHeap.calls cs b1 >>= _) = (DHeap.calls cs b1.toDHeap >>= _)
      rw [← this]
      cases BinaryHeap.calls cs b1 with
      | error e => rfl
      | ok rs => rfl

/-- C23, for heaps whose index arithmetic stays within `int`
(`2 * n < INT_MAX`): every sequence of `push`, `pop`, `decrease_key` and
`empty` calls with vertices below `n` gives, on `BinaryHeap(n)` and on
`DHeap(n, 2)`, the same results in the same order (the pair returned or the
exception raised by each `pop`, the answer of each `empty`), fails or returns
alike, and leaves the same `heap` and `vertex_to_index` vectors; applied to the
prefixes of a sequence, the vectors are the same after every call. -/
theorem binary_heap_is_dheap_of_degree_two (n : Nat) (hn : 2 * n < 2147483647)
    (cs : List QueueCall) (hcs : ∀ c ∈ cs, c.in_range n) :
    (BinaryHeap.calls cs (BinaryHeap.new n)).map (fun r => (r.1, r.2.toDHeap)) =
      DHeap.calls cs (DHeap.new n 2) ∧
    (∀ (rs : List QueueResult) (h : DHeap), DHeap.calls cs (DHeap.new n 2) = .ok (rs, h) →
      ∃ b : BinaryHeap, BinaryHeap.calls cs (BinaryHeap.new n) = .ok (rs, b) ∧
        b.heap = h.heap ∧ b.vertex_to_index = h.vertex_to_index) := by
  have hx : Indexed n (BinaryHeap.new n).heap (BinaryHeap.new n).vertex_to_index :=
    (DHeap.Consistent.fresh n 2).indexed
  have hsim := BinaryHeap.calls_sim hn cs (BinaryHeap.new n) hx hcs
  have h0 : (BinaryHeap.new n).toDHeap = DHeap.new n 2 := rfl
  rw [h0] at hsim
  refine ⟨hsim, ?_⟩
  intro rs h hd
  rw [hd] at hsim
  cases hb : BinaryHeap.calls cs (BinaryHeap.new n) with
  | error e => rw [hb] at hsim; cases hsim
  | ok r =>
    rw [hb] at hsim
    have := Except.ok.inj hsim
    obtain ⟨r1, b⟩ := r
    cases this
    exact ⟨b, rfl, rfl, rfl⟩

/-- C23, witness: `push(5, 0)`, `push(3, 1)`, `empty()`, `pop()`,
`decrease_key(0, 1)`, `pop()`, `pop()` on `BinaryHeap(3)` and `DHeap(3, 2)`. -/
theorem binary_heap_is_dheap_of_degree_two_witness :
    DHeap.calls [.push 5 0, .push 3 1, .empty, .pop, .decrease_key 0 1, .pop, .pop]
        (DHeap.new 3 2) =
      .ok ([.done, .done, .answer false, .popped (3, 1), .done, .popped (1, 0), .raised],
        ⟨2, [], [-1, -1, -1]⟩) ∧
    (BinaryHeap.calls [.push 5 0, .push 3 1, .empty, .pop, .decrease_key 0 1, .pop, .pop]
        (BinaryHeap.new 3)).map (fun r => (r.1, r.2.toDHeap)) =
      DHeap.calls [.push 5 0, .push 3 1, .empty, .pop, .decrease_key 0 1, .pop, .pop]
        (DHeap.new 3 2) :=
  ⟨by decide!,
    (binary_heap_is_dheap_of_degree_two 3 (by decide)
      [.push 5 0, .push 3 1, .empty, .pop, .decrease_key 0 1, .pop, .pop]
      (by
        intro c hc
        simp only [List.mem_cons, List.mem_nil_iff, or_false] at hc
        rcases hc with h | h | h | h | h | h | h <;> rw [h] <;>
          simp [QueueCall.in_range])).1⟩

/-! ## `BinaryHeap` and `DHeap` on a heap of more than `2^30` entries -/

theorem wrap32_high (x : Int) (h1 : 2147483648 ≤ x) (h2 : x < 4294967296) :
    wrap32 x = x - 4294967296 := by
  unfold wrap32
  omega

theorem BinaryHeap.calls_append :
    ∀ (l1 l2 : List QueueCall) (b : BinaryHeap),
      BinaryHeap.calls (l1 ++ l2) b =
        (BinaryHeap.calls l1 b >>= fun r1 =>
          BinaryHeap.calls l2 r1.2 >>= fun r2 => .ok (r1.1 ++ r2.1, r2.2)) := by
  intro l1
  induction l1 with
  | nil =>
    intro l2 b
    rw [List.nil_append, BinaryHeap.calls, ok_bind]
    cases BinaryHeap.calls l2 b with
    | error e => rfl
    | ok r => rfl
  | cons c l1 ih =>
    intro l2 b
    rw [List.cons_append, BinaryHeap.calls, BinaryHeap.calls]
    cases b.call c with
    | error e => rfl
    | ok r =>
      simp only [ok_bind]
      rw [ih l2 r.2]
      cases BinaryHeap.calls l1 r.2 with
      | error e => rfl
      | ok r1 =>
        simp only [ok_bind]
        cases BinaryHeap.calls l2 r1.2 with
        | error e => rfl
        | ok r2 => rfl

theorem DHeap.calls_append_dheap :
    ∀ (l1 l2 : List QueueCall) (h : DHeap),
      DHeap.calls (l1 ++ l2) h =
        (DHeap.calls l1 h >>= fun r1 =>
          DHeap.calls l2 r1.2 >>= fun r2 => .ok (r1.1 ++ r2.1, r2.2)) := by
  intro l1
  induction l1 with
  | nil =>
    intro l2 h
    rw [List.nil_append, DHeap.calls, ok_bind]
    cases DHeap.calls l2 h with
    | error e => rfl
    | ok r => rfl
  | cons c l1 ih =>
    intro l2 h
    rw [List.cons_append, DHeap.calls, DHeap.calls]
    cases h.call c with
    | error e => rfl
    | ok r =>
      simp only [ok_bind]
      rw [ih l2 r.2]
      cases DHeap.calls l1 r.2 with
      | error e => rfl
      | ok r1 =>
        simp only [ok_bind]
        cases DHeap.calls l2 r1.2 with
        | error e => rfl
        | ok r2 => rfl

theorem sortedHeap_get (key : Nat → Int) (n k j : Nat) (hj : j < k) :
    (sortedHeap key n k).heap[j]? = some (key j, j) := by
  unfold sortedHeap
  simp [hj]

theorem sortedHeap_length (key : Nat → Int) (n k : Nat) :
    (sortedHeap key n k).heap.length = k := by
  unfold sortedHeap
  simp

/-- A `push` whose key is not below the key of the parent slot appends the
entry. -/
theorem BinaryHeap.push_sorted (key : Nat → Int) (n k : Nat) (hk : k < n)
    (hn : n ≤ 2147483647) (ho : 0 < k → ¬ key k < key ((k - 1) / 2)) :
    (sortedHeap key n k).push (key k) k = .ok (sortedHeap key n (k + 1)) := by
  have hv : (sortedHeap key n k).vertex_to_index[k]? = some (-1) := by
    unfold sortedHeap
    simp only
    rw [List.getElem?_append_right (by simp)]
    simp only [List.length_map, List.length_range, Nat.sub_self]
    have e : n - k = (n - (k + 1)) + 1 := by omega
    rw [e, List.replicate_succ]
    simp
  have hvl : k < (sortedHeap key n k).vertex_to_index.length := get?_lt _ _ _ hv
  unfold BinaryHeap.push
  rw [at?_nat _ _ _ hv]
  simp only [ok_bind]
  rw [if_neg (by simp)]
  have hlen : ((sortedHeap key n k).heap ++ [(key k, k)]).length = k + 1 := by
    rw [List.length_append, sortedHeap_length]
    rfl
  have hw : wrap32 ((((sortedHeap key n k).heap ++ [(key k, k)]).length : Int) - 1) =
      (k : Int) := by
    rw [hlen, wrap32_of_range] <;> push_cast <;> omega
  rw [hw, setAt_nat _ _ _ hvl]
  simp only [ok_bind]
  have hheap : (sortedHeap key n k).heap ++ [(key k, k)] = (sortedHeap key n (k + 1)).heap := by
    unfold sortedHeap
    simp only
    rw [List.range_succ, List.map_append]
    rfl
  have hvti : (sortedHeap key n k).vertex_to_index.set k (k : Int) =
      (sortedHeap key n (k + 1)).vertex_to_index := by
    unfold sortedHeap
    simp only
    have e : n - k = (n - (k + 1)) + 1 := by omega
    rw [List.set_append_right _ _ (by simp), e, List.replicate_succ, List.range_succ,
      List.map_append, List.append_assoc]
    simp
  rw [hheap, hvti]
  have hst : ({ heap := (sortedHeap key n (k + 1)).heap,
                vertex_to_index := (sortedHeap key n (k + 1)).vertex_to_index } : BinaryHeap) =
      sortedHeap key n (k + 1) := rfl
  rw [hst]
  unfold BinaryHeap.heapify_up
  rw [Int.toNat_ofNat]
  cases k with
  | zero =>
    rw [BinaryHeap.heapify_up_loop]
    rw [if_neg (by simp)]
  | succ k' =>
    rw [BinaryHeap.heapify_up_loop]
    rw [if_pos (by push_cast; omega)]
    have hp : Int.tdiv (((k' + 1 : Nat) : Int) - 1) 2 = (((k' + 1 - 1) / 2 : Nat) : Int) := by
      have : (((k' + 1 : Nat) : Int) - 1) = ((k' : Nat) : Int) := by push_cast; omega
      rw [this, Nat.add_sub_cancel]
      exact (Int.ofNat_tdiv k' 2).symm
    simp only
    rw [hp, at?_nat _ _ _ (sortedHeap_get key n (k' + 1 + 1) (k' + 1) (by omega)),
      at?_nat _ _ _ (sortedHeap_get key n (k' + 1 + 1) ((k' + 1 - 1) / 2) (by omega))]
    simp only [ok_bind]
    rw [if_neg (ho (by omega))]

theorem sortedHeap_zero (key : Nat → Int) (n : Nat) :
    sortedHeap key n 0 = BinaryHeap.new n := rfl

theorem pushCalls_succ (key : Nat → Int) (k : Nat) :
    pushCalls key (k + 1) = pushCalls key k ++ [QueueCall.push (key k) k] := by
  unfold pushCalls
  rw [List.range_succ, List.map_append]
  rfl

/-- The pushes of `pushCalls` on a `BinaryHeap(n)` when no key is below the
key of the parent slot. -/
theorem BinaryHeap.calls_pushes (key : Nat → Int) (n : Nat) (hn : n ≤ 2147483647)
    (ho : ∀ j, 0 < j → j < n → ¬ key j < key ((j - 1) / 2)) :
    ∀ k, k ≤ n → BinaryHeap.calls (pushCalls key k) (BinaryHeap.new n) =
      .ok (List.replicate k QueueResult.done, sortedHeap key n k) := by
  intro k
  induction k with
  | zero => intro _; rfl
  | succ k ih =>
    intro hk
    rw [pushCalls_succ, BinaryHeap.calls_append, ih (by omega), ok_bind]
    simp only [BinaryHeap.calls, BinaryHeap.call]
    rw [BinaryHeap.push_sorted key n k (by omega) hn (fun h0 => ho k h0 (by omega))]
    simp only [ok_bind]
    rw [List.replicate_succ']

/-- The pushes of `pushCalls` on a `DHeap(n, 2)`. -/
theorem DHeap.calls_pushes_dheap (key : Nat → Int) (n : Nat) (hn : n ≤ 2147483647)
    (ho : ∀ j, 0 < j → j < n → ¬ key j < key ((j - 1) / 2)) :
    ∀ k, k ≤ n → DHeap.calls (pushCalls key k) (DHeap.new n 2) =
      .ok (List.replicate k QueueResult.done, (sortedHeap key n k).toDHeap) := by
  intro k
  induction k with
  | zero => intro _; rfl
  | succ k ih =>
    intro hk
    rw [pushCalls_succ, DHeap.calls_append_dheap, ih (by omega), ok_bind]
    simp only [DHeap.calls, DHeap.call]
    rw [← BinaryHeap.push_sim,
      BinaryHeap.push_sorted key n k (by omega) hn (fun h0 => ho k h0 (by omega))]
    simp only [Except.map, ok_bind]
    rw [List.replicate_succ']

theorem sortedHeap_indexed (key : Nat → Int) (n k : Nat) (hk : k ≤ n) :
    Indexed n (sortedHeap key n k).heap (sortedHeap key n k).vertex_to_index := by
  refine ⟨?_, ?_, ?_⟩
  · unfold sortedHeap
    simp
    omega
  · intro i e hi
    have hik : i < k := by
      have := get?_lt _ _ _ hi
      rw [sortedHeap_length] at this
      exact this
    rw [sortedHeap_get key n k i hik] at hi
    cases hi
    unfold sortedHeap
    simp only
    rw [List.getElem?_append_left (by simpa using hik)]
    simp [hik]
  · intro v x hv
    unfold sortedHeap at hv
    simp only at hv
    by_cases hvk : v < k
    · rw [List.getElem?_append_left (by simpa using hvk)] at hv
      simp [hvk] at hv
      right
      exact ⟨v, (key v, v), hv.symm, sortedHeap_get key n k v hvk, rfl⟩
    · rw [List.getElem?_append_right (by simpa using hvk)] at hv
      left
      rw [List.getElem?_replicate] at hv
      split at hv
      · exact (Option.some.inj hv).symm
      · cases hv

/-- The steps of `BinaryHeap::pop` before `heapify_down(0)`, on a heap of at
least two entries. -/
theorem BinaryHeap.pop_unfold (b : BinaryHeap) (min : Int × Nat) (rest : List (Int × Nat))
    (hb : b.heap = min :: rest) (hr : rest ≠ []) (hm : min.2 < b.vertex_to_index.length)
    (hl : (rest.getLast hr).2 < b.vertex_to_index.length) :
    b.pop = (BinaryHeap.heapify_down
      ⟨(rest.getLast hr :: rest).dropLast,
        (b.vertex_to_index.set min.2 (-1)).set (rest.getLast hr).2 0⟩ 0 >>=
      fun h => .ok (min, h)) := by
  have hpos : 0 < rest.length := List.length_pos.2 hr
  unfold BinaryHeap.pop
  split
  · rename_i heq
    rw [hb] at heq
    cases heq
  · rename_i min1 rest1 heq
    rw [hb] at heq
    cases heq
    rw [setAt_nat _ _ _ hm]
    simp only [ok_bind]
    rw [if_pos (by omega), if_pos (by omega), List.getLast_cons hr,
      setAt_nat _ _ _ (by rw [List.length_set]; exact hl)]
    simp only [ok_bind]
    rw [if_pos]
    intro hnil
    have := congrArg List.length hnil
    rw [List.length_dropLast, List.length_cons, List.length_nil] at this
    omega

/-- The steps of `DHeap::pop` before `heapify_down(0)`, on a heap of at least
two entries. -/
theorem DHeap.pop_unfold_dheap (h : DHeap) (min : Int × Nat) (rest : List (Int × Nat))
    (hb : h.heap = min :: rest) (hr : rest ≠ []) (hm : min.2 < h.vertex_to_index.length)
    (hl : (rest.getLast hr).2 < h.vertex_to_index.length) :
    h.pop = (DHeap.heapify_down
      ⟨h.d, (rest.getLast hr :: rest).dropLast,
        (h.vertex_to_index.set min.2 (-1)).set (rest.getLast hr).2 0⟩ 0 >>=
      fun h1 => .ok (min, h1)) := by
  have hpos : 0 < rest.length := List.length_pos.2 hr
  unfold DHeap.pop
  split
  · rename_i heq
    rw [hb] at heq
    cases heq
  · rename_i min1 rest1 heq
    rw [hb] at heq
    cases heq
    rw [setAt_nat _ _ _ hm]
    simp only [ok_bind]
    rw [if_pos (by omega), if_pos (by omega), List.getLast_cons hr,
      setAt_nat _ _ _ (by rw [List.length_set]; exact hl)]
    simp only [ok_bind]
    rw [if_pos]
    intro hnil
    have := congrArg List.length hnil
    rw [List.length_dropLast, List.length_cons, List.length_nil] at this
    omega

theorem BinaryHeap.pick_child_negative (heap : List (Int × Nat)) (c s : Int) (hc : c < 0) :
    BinaryHeap.pick_child heap c s = .ok s := by
  unfold BinaryHeap.pick_child BinaryHeap.below_size
  have : decide (0 ≤ c) = false := by
    rw [decide_eq_false_iff_not]
    omega
  rw [this]
  rfl

theorem BinaryHeap.pick_child_at (heap : List (Int × Nat)) (c s : Nat) (ec es : Int × Nat)
    (hc : heap[c]? = some ec) (hs : heap[s]? = some es) :
    BinaryHeap.pick_child heap (c : Int) (s : Int) =
      .ok (if ec.1 < es.1 then (c : Int) else (s : Int)) := by
  have hcl := get?_lt _ _ _ hc
  unfold BinaryHeap.pick_child BinaryHeap.below_size
  have h1 : decide (0 ≤ (c : Int)) = true := by
    rw [decide_eq_true_iff]
    omega
  have h2 : decide ((c : Int) < (heap.length : Int)) = true := by
    rw [decide_eq_true_iff]
    omega
  rw [h1, h2]
  simp only [Bool.and_self, if_true]
  rw [at?_nat _ _ _ hc, at?_nat _ _ _ hs]
  rfl

/-- The two child tests of `BinaryHeap::heapify_down` against the `for` loop
of `DHeap::heapify_down` with `d = 2`, at a slot whose child indices are within
`int`. -/
theorem BinaryHeap.pick_children_local (heap : List (Int × Nat)) (i : Nat)
    (hil : i < heap.length) (h3 : 2 * i + 3 < 2147483648) (hlen : heap.length ≤ 2147483647) :
    (BinaryHeap.pick_child heap (wrap32 (2 * (i : Int) + 1)) (i : Int) >>=
      fun s => BinaryHeap.pick_child heap (wrap32 (2 * (i : Int) + 2)) s) =
    DHeap.smallest_loop heap
      (min (wrap32 (wrap32 (2 * (i : Int) + 1) + 2)) (wrap32 (heap.length : Int)) -
        wrap32 (2 * (i : Int) + 1)).toNat (wrap32 (2 * (i : Int) + 1)) (i : Int) := by
  have hw1 : wrap32 (2 * (i : Int) + 1) = ((2 * i + 1 : Nat) : Int) := by
    rw [wrap32_of_range] <;> push_cast <;> omega
  have hw2 : wrap32 (2 * (i : Int) + 2) = ((2 * i + 2 : Nat) : Int) := by
    rw [wrap32_of_range] <;> push_cast <;> omega
  have hw3 : wrap32 (((2 * i + 1 : Nat) : Int) + 2) = ((2 * i + 3 : Nat) : Int) := by
    rw [wrap32_of_range] <;> push_cast <;> omega
  have hw4 : wrap32 (heap.length : Int) = (heap.length : Int) := by
    rw [wrap32_of_range] <;> omega
  rw [hw1, hw2, hw3, hw4]
  have hcount : (min (((2 * i + 3 : Nat) : Int)) (heap.length : Int) -
      ((2 * i + 1 : Nat) : Int)).toNat = min (2 * i + 3) heap.length - (2 * i + 1) := by
    clear hw1 hw2 hw3 hw4
    omega
  rw [hcount]
  clear hw1 hw2 hw3 hw4 hcount
  obtain ⟨b, hb⟩ := get?_some_of_lt heap i hil
  by_cases h1 : heap.length ≤ 2 * i + 1
  · have hc : min (2 * i + 3) heap.length - (2 * i + 1) = 0 := by omega
    rw [hc]
    have hb1 : BinaryHeap.below_size ((2 * i + 1 : Nat) : Int) heap = false := by
      simp [BinaryHeap.below_size]; omega
    have hb2 : BinaryHeap.below_size ((2 * i + 2 : Nat) : Int) heap = false := by
      simp [BinaryHeap.below_size]; omega
    simp only [BinaryHeap.pick_child, hb1, hb2, DHeap.smallest_loop, Bool.false_eq_true,
      if_false, ok_bind]
  · obtain ⟨a, ha⟩ := get?_some_of_lt heap (2 * i + 1) (by omega)
    have hb1 : BinaryHeap.below_size ((2 * i + 1 : Nat) : Int) heap = true := by
      simp [BinaryHeap.below_size]; omega
    by_cases h2 : heap.length ≤ 2 * i + 2
    · have hc : min (2 * i + 3) heap.length - (2 * i + 1) = 1 := by omega
      rw [hc]
      have hb2 : BinaryHeap.below_size ((2 * i + 2 : Nat) : Int) heap = false := by
        simp [BinaryHeap.below_size]; omega
      simp only [BinaryHeap.pick_child, hb1, hb2, DHeap.smallest_loop, if_true,
        at?_nat _ _ _ ha, at?_nat _ _ _ hb, ok_bind, Bool.false_eq_true, if_false]
    · obtain ⟨a2, ha2⟩ := get?_some_of_lt heap (2 * i + 2) (by omega)
      have hc : min (2 * i + 3) heap.length - (2 * i + 1) = 2 := by omega
      rw [hc]
      have hb2 : BinaryHeap.below_size ((2 * i + 2 : Nat) : Int) heap = true := by
        simp [BinaryHeap.below_size]; omega
      have hcast : (((2 * i + 1 : Nat) : Int) + 1) = ((2 * i + 2 : Nat) : Int) := by
        push_cast; omega
      simp only [BinaryHeap.pick_child, hb1, hb2, DHeap.smallest_loop, if_true,
        at?_nat _ _ _ ha, at?_nat _ _ _ hb, at?_nat _ _ _ ha2, ok_bind, hcast]

/-- At a slot from `2^30` on, the child indices wrap below 0:
`BinaryHeap::heapify_down` finds no child below `heap.size()` and returns,
`DHeap::heapify_down` reads `heap[child]` at a negative index. -/
theorem sink_bottom (b : BinaryHeap) (a f : Nat) (ha : 1073741824 ≤ a)
    (hal : a < b.heap.length) (hlen : b.heap.length ≤ 2147483647) :
    b.heapify_down_loop (f + 1) (a : Int) = .ok b ∧
      b.toDHeap.heapify_down_loop (f + 1) (a : Int) = .error .out_of_range := by
  have hw1 : wrap32 (2 * (a : Int) + 1) = 2 * (a : Int) + 1 - 4294967296 :=
    wrap32_high _ (by omega) (by omega)
  have hw2 : wrap32 (2 * (a : Int) + 2) = 2 * (a : Int) + 2 - 4294967296 :=
    wrap32_high _ (by omega) (by omega)
  constructor
  · rw [BinaryHeap.heapify_down_loop]
    rw [hw1, hw2, BinaryHeap.pick_child_negative _ _ _ (by omega), ok_bind,
      BinaryHeap.pick_child_negative _ _ _ (by omega), ok_bind, if_neg (by simp)]
  · rw [DHeap.heapify_down_loop]
    have hfc : b.toDHeap.first_child (a : Int) = wrap32 (2 * (a : Int) + 1) := rfl
    have hd : b.toDHeap.d = 2 := rfl
    have hh : b.toDHeap.heap = b.heap := rfl
    rw [hfc, hd, hh, hw1]
    have hw3 : wrap32 (2 * (a : Int) + 1 - 4294967296 + 2) =
        2 * (a : Int) + 1 - 4294967296 + 2 := wrap32_of_range _ (by omega) (by omega)
    have hw4 : wrap32 (b.heap.length : Int) = (b.heap.length : Int) :=
      wrap32_of_range _ (by omega) (by omega)
    rw [hw3, hw4]
    have hc : (min (2 * (a : Int) + 1 - 4294967296 + 2) (b.heap.length : Int) -
        (2 * (a : Int) + 1 - 4294967296)).toNat = 2 := by
      clear hw1 hw2 hw3 hw4
      omega
    rw [hc, DHeap.smallest_loop]
    have hat : at? b.heap (2 * (a : Int) + 1 - 4294967296) = .error .out_of_range := by
      unfold at?
      rw [if_neg (by omega)]
    rw [hat]
    rfl

/-- An entry that `heapify_down` moves along the slots of a list, see
`sinksAlong`, reaches a slot from `2^30` on: `BinaryHeap::heapify_down`
returns, `DHeap::heapify_down` with `d = 2` reads outside the array. -/
theorem sink_descent (key : Nat → Int) (len n : Nat) (xk : Int) (hlen : len ≤ 2147483647) :
    ∀ (chain : List Nat) (a f : Nat) (b : BinaryHeap) (x : Int × Nat),
      sinksAlong key len xk a chain = true → chain.length + 1 ≤ f →
      b.heap.length = len → Indexed n b.heap b.vertex_to_index →
      b.heap[a]? = some x → x.1 = xk →
      (∀ j, a < j → j < len → ∃ e, b.heap[j]? = some e ∧ e.1 = key j) →
      (∃ b1, b.heapify_down_loop f (a : Int) = .ok b1) ∧
        b.toDHeap.heapify_down_loop f (a : Int) = .error .out_of_range := by
  intro chain
  induction chain with
  | nil =>
    intro a f b x hs hf hl _ _ _ _
    simp only [sinksAlong, Bool.and_eq_true, decide_eq_true_eq] at hs
    obtain ⟨f1, rfl⟩ : ∃ f1, f = f1 + 1 := ⟨f - 1, by simp at hf; omega⟩
    have := sink_bottom b a f1 hs.1 (by rw [hl]; exact hs.2) (by rw [hl]; exact hlen)
    exact ⟨⟨b, this.1⟩, this.2⟩
  | cons s rest ih =>
    intro a f b x hs hf hl hx ha hxk hlater
    simp only [sinksAlong, Bool.and_eq_true, Bool.or_eq_true, decide_eq_true_eq,
      Bool.not_eq_true', decide_eq_false_iff_not] at hs
    obtain ⟨⟨⟨h3, h2l⟩, hcase⟩, hrest⟩ := hs
    obtain ⟨f1, rfl⟩ : ∃ f1, f = f1 + 1 := ⟨f - 1, by simp at hf; omega⟩
    obtain ⟨e1, he1, hk1⟩ := hlater (2 * a + 1) (by omega) (by omega)
    obtain ⟨e2, he2, hk2⟩ := hlater (2 * a + 2) (by omega) (by omega)
    have hw1 : wrap32 (2 * (a : Int) + 1) = ((2 * a + 1 : Nat) : Int) := by
      rw [wrap32_of_range] <;> push_cast <;> omega
    have hw2 : wrap32 (2 * (a : Int) + 2) = ((2 * a + 2 : Nat) : Int) := by
      rw [wrap32_of_range] <;> push_cast <;> omega
    have hpick : (BinaryHeap.pick_child b.heap (wrap32 (2 * (a : Int) + 1)) (a : Int) >>=
        fun s1 => BinaryHeap.pick_child b.heap (wrap32 (2 * (a : Int) + 2)) s1) =
        .ok (s : Int) := by
      rw [hw1, hw2, BinaryHeap.pick_child_at _ (2 * a + 1) a e1 x he1 ha]
      rcases hcase with ⟨⟨hs1, hlt⟩, hnr⟩ | ⟨⟨hs2, hnl⟩, hr⟩
      · rw [if_pos (by rw [hk1, hxk]; exact hlt), ok_bind,
          BinaryHeap.pick_child_at _ (2 * a + 2) (2 * a + 1) e2 e1 he2 he1,
          if_neg (by rw [hk1, hk2]; exact hnr), hs1]
      · rw [if_neg (by rw [hk1, hxk]; exact hnl), ok_bind,
          BinaryHeap.pick_child_at _ (2 * a + 2) a e2 x he2 ha,
          if_pos (by rw [hk2, hxk]; exact hr), hs2]
    have hsr : a < s ∧ s < len := by
      rcases hcase with ⟨⟨hs1, _⟩, _⟩ | ⟨⟨hs2, _⟩, _⟩ <;> omega
    obtain ⟨es, hes, _⟩ := hlater s hsr.1 hsr.2
    have hsa : a ≠ s := by omega
    have hswD := DHeap.swap_entries_eq b.toDHeap n a s x es hx hsa ha hes
    obtain ⟨b1, hb1⟩ : ∃ b1 : BinaryHeap, b1 = ⟨(b.heap.set a es).set s x,
        (b.vertex_to_index.set es.2 (a : Int)).set x.2 (s : Int)⟩ := ⟨_, rfl⟩
    have hb1D : b.toDHeap.swap_entries (a : Int) (s : Int) = .ok b1.toDHeap := by
      rw [hswD, hb1]
      rfl
    have hswB : b.swap_entries (a : Int) (s : Int) = .ok b1 := by
      have hsim := BinaryHeap.swap_entries_sim b (a : Int) (s : Int)
      rw [hb1D] at hsim
      cases hb : b.swap_entries (a : Int) (s : Int) with
      | error e => rw [hb] at hsim; cases hsim
      | ok b2 =>
        rw [hb] at hsim
        rw [BinaryHeap.toDHeap_inj b2 b1 (Except.ok.inj hsim)]
    have hI1 : Indexed n b1.heap b1.vertex_to_index := by
      rw [hb1]
      exact hx.swap_indexed hsa ha hes
    have hget : ∀ k, b1.heap[k]? =
        if k = s then some x else if k = a then some es else b.heap[k]? := by
      intro k
      rw [hb1]
      exact swapped_get? b.heap a s k x es hsa ha hes
    have hl1 : b1.heap.length = len := by
      rw [hb1]
      simp only [List.length_set]
      exact hl
    obtain ⟨⟨b2, hb2⟩, hd2⟩ := ih s f1 b1 x hrest (by simp at hf; omega) hl1 hI1
      (by rw [hget s, if_pos rfl]) hxk
      (fun j hj hjl => by
        rw [hget j, if_neg (by omega), if_neg (by omega)]
        exact hlater j (by omega) hjl)
    have hne : (s : Int) ≠ (a : Int) := by omega
    constructor
    · refine ⟨b2, ?_⟩
      rw [BinaryHeap.heapify_down_loop, ← bind_assoc, hpick, ok_bind, if_pos hne, hswB, ok_bind]
      exact hb2
    · rw [DHeap.heapify_down_loop]
      have hfc : b.toDHeap.first_child (a : Int) = wrap32 (2 * (a : Int) + 1) := rfl
      have hd : b.toDHeap.d = 2 := rfl
      have hh : b.toDHeap.heap = b.heap := rfl
      rw [hfc, hd, hh, ← BinaryHeap.pick_children_local b.heap a (by omega) h3 (by omega), hpick,
        ok_bind, if_pos hne, hb1D, ok_bind]
      exact hd2

theorem pathKey_order (path : List Nat) (hord : ∀ j ∈ path, 0 < j → (j - 1) / 2 ∈ path)
    (j : Nat) (hj : 0 < j) : ¬ pathKey path j < pathKey path ((j - 1) / 2) := by
  unfold pathKey
  by_cases h1 : j ∈ path
  · rw [if_pos h1, if_pos (hord j h1 hj)]
    decide
  · rw [if_neg h1]
    split <;> decide

/-- The calls `pushCalls` with the keys `pathKey path`, followed by `pop()`,
on `BinaryHeap(N)` and on `DHeap(N, 2)`, when the last entry pushed sinks to a
slot from `2^30` on. -/
theorem sink_diverges (path chain : List Nat) (N : Nat) (hN : 2 ≤ N) (hN2 : N ≤ 2147483647)
    (hord : ∀ j ∈ path, 0 < j → (j - 1) / 2 ∈ path) (hlast : N - 1 ∉ path)
    (hch : chain.length < N)
    (hsink : sinksAlong (pathKey path) (N - 1) 1 0 chain = true) :
    (∃ b, BinaryHeap.calls (pushCalls (pathKey path) N ++ [QueueCall.pop]) (BinaryHeap.new N) =
        .ok (List.replicate N QueueResult.done ++ [QueueResult.popped (pathKey path 0, 0)],
          b)) ∧
      DHeap.calls (pushCalls (pathKey path) N ++ [QueueCall.pop]) (DHeap.new N 2) =
        .error .out_of_range := by
  have ho : ∀ j, 0 < j → j < N → ¬ pathKey path j < pathKey path ((j - 1) / 2) :=
    fun j hj _ => pathKey_order path hord j hj
  have hB := BinaryHeap.calls_pushes (pathKey path) N hN2 ho N (le_refl _)
  have hD := DHeap.calls_pushes_dheap (pathKey path) N hN2 ho N (le_refl _)
  have hxB := sortedHeap_indexed (pathKey path) N N (le_refl _)
  have hlenB := sortedHeap_length (pathKey path) N N
  have hgetB := sortedHeap_get (pathKey path) N N
  obtain ⟨B, hBdef⟩ : ∃ B, B = sortedHeap (pathKey path) N N := ⟨_, rfl⟩
  rw [← hBdef] at hB hD hxB hlenB hgetB
  clear hBdef
  cases hheap : B.heap with
  | nil => rw [hheap] at hlenB; simp at hlenB; omega
  | cons min rest =>
    rw [hheap] at hxB hlenB hgetB
    have hrl : rest.length = N - 1 := by
      rw [List.length_cons] at hlenB
      omega
    have hr : rest ≠ [] := by
      intro e
      rw [e] at hrl
      simp at hrl
      omega
    have hmin : min = (pathKey path 0, 0) := by
      have := hgetB 0 (by omega)
      simpa using this
    have hlastE : rest.getLast hr = (pathKey path (N - 1), N - 1) := by
      have h1 := getLast_slot min rest hr
      rw [hrl, hgetB (N - 1) (by omega)] at h1
      exact (Option.some.inj h1).symm
    have h0 : (min :: rest)[0]? = some min := by simp
    have hml := hxB.vertex_lt h0
    have hll := hxB.vertex_lt (getLast_slot min rest hr)
    have hmove := hxB.pop_move hr
    have hdl := dropLast_moved min rest hr
    obtain ⟨b1, hb1⟩ : ∃ b1 : BinaryHeap, b1 = ⟨(rest.getLast hr :: rest).dropLast,
        (B.vertex_to_index.set min.2 (-1)).set (rest.getLast hr).2 0⟩ := ⟨_, rfl⟩
    have hb1len : b1.heap.length = N - 1 := by
      rw [hb1]
      simp only [List.length_dropLast, List.length_cons]
      omega
    have hdesc := sink_descent (pathKey path) (N - 1) N 1 (by omega) chain 0 (b1.heap.length + 1)
      b1 (rest.getLast hr) hsink (by omega) hb1len (by rw [hb1]; exact hmove)
      (by
        rw [hb1]
        show ((rest.getLast hr :: rest).dropLast)[0]? = _
        rw [hdl 0, if_pos (by omega), if_pos rfl])
      (by
        rw [hlastE]
        unfold pathKey
        rw [if_neg hlast])
      (by
        intro j hj hjl
        refine ⟨(pathKey path j, j), ?_, rfl⟩
        rw [hb1]
        show ((rest.getLast hr :: rest).dropLast)[j]? = _
        rw [hdl j, if_pos (by omega), if_neg (by omega)]
        exact hgetB j (by omega))
    obtain ⟨⟨b2, hb2⟩, hd2⟩ := hdesc
    have hemp : B.heap.isEmpty = false := by rw [hheap]; rfl
    have hpopB : B.pop = .ok (min, b2) := by
      rw [BinaryHeap.pop_unfold B min rest hheap hr hml hll, ← hb1]
      unfold BinaryHeap.heapify_down
      simp only [Nat.cast_zero] at hb2
      rw [hb2]
      rfl
    have hpopD : B.toDHeap.pop = .error .out_of_range := by
      rw [DHeap.pop_unfold_dheap B.toDHeap min rest hheap hr hml hll]
      have e : (⟨B.toDHeap.d, (rest.getLast hr :: rest).dropLast,
          (B.toDHeap.vertex_to_index.set min.2 (-1)).set (rest.getLast hr).2 0⟩ : DHeap) =
          b1.toDHeap := by
        rw [hb1]
        rfl
      rw [e]
      unfold DHeap.heapify_down
      simp only [Nat.cast_zero] at hd2
      have e2 : b1.toDHeap.heap.length = b1.heap.length := rfl
      rw [e2, hd2]
      rfl
    constructor
    · refine ⟨b2, ?_⟩
      rw [BinaryHeap.calls_append, hB, ok_bind]
      simp only [BinaryHeap.calls, BinaryHeap.call, BinaryHeap.pop_exit, hemp, hpopB,
        Bool.false_eq_true, if_false, ok_bind]
      rw [hmin]
    · rw [DHeap.calls_append_dheap, hD, ok_bind]
      have hempD : B.toDHeap.heap.isEmpty = false := hemp
      simp only [DHeap.calls, DHeap.call, DHeap.pop_exit, hempD, hpopD,
        Bool.false_eq_true, if_false, error_bind]

theorem pushCalls_in_range (key : Nat → Int) (N : Nat) :
    ∀ c ∈ pushCalls key N ++ [QueueCall.pop], c.in_range N := by
  intro c hc
  rcases List.mem_append.1 hc with h | h
  · unfold pushCalls at h
    obtain ⟨j, hj, e⟩ := List.mem_map.1 h
    rw [← e]
    exact List.mem_range.1 hj
  · rw [List.mem_singleton] at h
    rw [h]
    trivial

/-- C23, counterexample: `BinaryHeap(n)` and `DHeap(n, 2)` with
`n = 2^30 + 2`.  The calls `sinkCalls` push the vertices `0, ..., 2^30 + 1`,
with key 0 for the vertices of `sinkPath` and key 1 for the others, so that no
push swaps and vertex `j` is in slot `j`, and then call `pop()`.  `pop` moves
the last entry, of key 1, to slot 0, and `heapify_down` moves it down the slots
of `sinkPath` to slot `2^30`, where `2 * index + 1` is above `INT_MAX`.
`BinaryHeap::pop` returns `(0, 0)`; `DHeap::pop` reads `heap[child]` at a
negative index. -/
theorem binary_heap_differs_from_dheap_past_two_pow_30 :
    (∀ c ∈ sinkCalls, c.in_range 1073741826) ∧
    (∃ b, BinaryHeap.calls sinkCalls (BinaryHeap.new 1073741826) =
      .ok (List.replicate 1073741826 QueueResult.done ++ [QueueResult.popped (0, 0)], b)) ∧
    DHeap.calls sinkCalls (DHeap.new 1073741826 2) = .error .out_of_range := by
  have h := sink_diverges sinkPath sinkPath.tail 1073741826 (by decide) (by decide)
    (by decide) (by decide) (by decide) (by decide)
  have hk : pathKey sinkPath 0 = 0 := by decide
  rw [hk] at h
  exact ⟨pushCalls_in_range (pathKey sinkPath) 1073741826, h.1, h.2⟩

/-! ## The `degree` fields in `FibonacciHeap::consolidate` -/

theorem bind_ok_inv {α β : Type} {x : Except Fault α} {f : α → Except Fault β} {b : β}
    (h : (x >>= f) = .ok b) : ∃ a, x = .ok a ∧ f a = .ok b := by
  cases x with
  | error e => rw [error_bind] at h; cases h
  | ok a => exact ⟨a, rfl, by rw [ok_bind] at h; exact h⟩

theorem FibonacciHeap.deref_view {h : FibonacciHeap} {p : Nat} {n : Node}
    (hd : h.deref p = .ok n) : h.view none p = some n := by
  unfold FibonacciHeap.deref at hd
  cases hm : h.mem[p]? with
  | none => rw [hm] at hd; cases hd
  | some o =>
    cases o with
    | none => rw [hm] at hd; cases hd
    | some n1 =>
      rw [hm] at hd
      cases hd
      exact FibonacciHeap.view_of_mem hm

/-- An assignment to fields of the node at `p`, read back. -/
theorem FibonacciHeap.store_view {h h1 : FibonacciHeap} {p : Nat} {f : Node → Node}
    (hs : h.store p f = .ok h1) :
    ∃ n, h.view none p = some n ∧ h1.mem.length = h.mem.length ∧
      ∀ a, h1.view none a = if a = p then some (f n) else h.view none a := by
  cases hd : h.deref p with
  | error e =>
    unfold FibonacciHeap.store at hs
    rw [hd, error_bind] at hs
    cases hs
  | ok n =>
    have hv := FibonacciHeap.deref_view hd
    rw [FibonacciHeap.store_ok f hv] at hs
    cases hs
    exact ⟨n, hv, by simp, FibonacciHeap.view_put _ hv⟩

/-- An assignment that leaves the value `π` of the node as it is leaves the
map of `π` as it is. -/
theorem FibonacciHeap.store_keeps {α : Type} (π : Node → α) {h h1 : FibonacciHeap} {p : Nat}
    {f : Node → Node} (hs : h.store p f = .ok h1) (hf : ∀ n, π (f n) = π n) (a : Nat) :
    (h1.view none a).map π = (h.view none a).map π := by
  obtain ⟨n, hn, _, hv⟩ := FibonacciHeap.store_view hs
  rw [hv a]
  split
  · rename_i hap
    rw [hap, hn]
    show some (π (f n)) = some (π n)
    rw [hf n]
  · rfl

/-- The four assignments that splice a node into the root list keep the
`degree` and `parent` fields. -/
theorem FibonacciHeap.insert_after_min_keeps {α : Type} (π : Node → α)
    (hl : ∀ (n : Node) (v : Nat), π { n with left := v } = π n)
    (hr : ∀ (n : Node) (v : Nat), π { n with right := v } = π n)
    {h h1 : FibonacciHeap} {x : Nat} (hs : h.insert_after_min x = .ok h1) (a : Nat) :
    (h1.view none a).map π = (h.view none a).map π := by
  unfold FibonacciHeap.insert_after_min at hs
  cases hm : h.min_node with
  | none => rw [hm] at hs; cases hs
  | some m =>
    rw [hm] at hs
    simp only at hs
    obtain ⟨h2, e2, hs⟩ := bind_ok_inv hs
    obtain ⟨mn, _, hs⟩ := bind_ok_inv hs
    obtain ⟨h3, e3, hs⟩ := bind_ok_inv hs
    obtain ⟨mn2, _, hs⟩ := bind_ok_inv hs
    obtain ⟨h4, e4, hs⟩ := bind_ok_inv hs
    rw [FibonacciHeap.store_keeps π hs (fun n => hr n _) a,
      FibonacciHeap.store_keeps π e4 (fun n => hl n _) a,
      FibonacciHeap.store_keeps π e3 (fun n => hr n _) a,
      FibonacciHeap.store_keeps π e2 (fun n => hl n _) a]

/-- The call `link(y, x)` changes the `degree` field of `x` only, which it
increments. -/
theorem FibonacciHeap.link_degree {h h1 : FibonacciHeap} {x y : Nat}
    (hs : h.link y x = .ok h1) (a : Nat) :
    degreeOf (h1.view none) a =
      if a = x then (degreeOf (h.view none) x).map (fun d => wrap32 (d + 1))
      else degreeOf (h.view none) a := by
  unfold FibonacciHeap.link at hs
  obtain ⟨yn, _, hs⟩ := bind_ok_inv hs
  obtain ⟨h2, e2, hs⟩ := bind_ok_inv hs
  obtain ⟨yn2, _, hs⟩ := bind_ok_inv hs
  obtain ⟨h3, e3, hs⟩ := bind_ok_inv hs
  obtain ⟨h4, e4, hs⟩ := bind_ok_inv hs
  obtain ⟨xn, _, hs⟩ := bind_ok_inv hs
  have k2 := fun b => FibonacciHeap.store_keeps (fun n => n.degree) e2 (fun _ => rfl) b
  have k3 := fun b => FibonacciHeap.store_keeps (fun n => n.degree) e3 (fun _ => rfl) b
  have k4 := fun b => FibonacciHeap.store_keeps (fun n => n.degree) e4 (fun _ => rfl) b
  have hfin : ∀ (h5 : FibonacciHeap),
      (∀ b, (h5.view none b).map (fun n => n.degree) =
        (h4.view none b).map (fun n => n.degree)) →
      (do
        let h ← h5.store x (fun n => { n with degree := wrap32 (n.degree + 1) })
        h.store y (fun n => { n with marked := false })) = Except.ok h1 →
      degreeOf (h1.view none) a =
        if a = x then (degreeOf (h.view none) x).map (fun d => wrap32 (d + 1))
        else degreeOf (h.view none) a := by
    intro h5 k5 hs
    obtain ⟨h6, e6, hs⟩ := bind_ok_inv hs
    have k7 := fun b => FibonacciHeap.store_keeps (fun n => n.degree) hs (fun _ => rfl) b
    have k05 : ∀ b, degreeOf (h5.view none) b = degreeOf (h.view none) b := by
      intro b
      unfold degreeOf
      rw [k5 b, k4 b, k3 b, k2 b]
    obtain ⟨n5, hn5, _, hv6⟩ := FibonacciHeap.store_view e6
    show (h1.view none a).map (fun n => n.degree) = _
    rw [k7 a, hv6 a]
    split
    · rw [← k05 x]
      unfold degreeOf
      rw [hn5]
      rfl
    · exact k05 a
  dsimp only at hs
  cases hc : xn.child with
  | none =>
    rw [hc] at hs
    simp only at hs
    obtain ⟨g1, f1, hs⟩ := bind_ok_inv hs
    obtain ⟨g2, f2, hs⟩ := bind_ok_inv hs
    obtain ⟨g3, f3, hs⟩ := bind_ok_inv hs
    refine hfin g3 ?_ hs
    intro b
    rw [FibonacciHeap.store_keeps (fun n => n.degree) f3 (fun _ => rfl) b,
      FibonacciHeap.store_keeps (fun n => n.degree) f2 (fun _ => rfl) b,
      FibonacciHeap.store_keeps (fun n => n.degree) f1 (fun _ => rfl) b]
  | some c =>
    rw [hc] at hs
    simp only at hs
    obtain ⟨g1, f1, hs⟩ := bind_ok_inv hs
    obtain ⟨cn, _, hs⟩ := bind_ok_inv hs
    obtain ⟨g2, f2, hs⟩ := bind_ok_inv hs
    obtain ⟨cn2, _, hs⟩ := bind_ok_inv hs
    obtain ⟨g3, f3, hs⟩ := bind_ok_inv hs
    obtain ⟨g4, f4, hs⟩ := bind_ok_inv hs
    refine hfin g4 ?_ hs
    intro b
    rw [FibonacciHeap.store_keeps (fun n => n.degree) f4 (fun _ => rfl) b,
      FibonacciHeap.store_keeps (fun n => n.degree) f3 (fun _ => rfl) b,
      FibonacciHeap.store_keeps (fun n => n.degree) f2 (fun _ => rfl) b,
      FibonacciHeap.store_keeps (fun n => n.degree) f1 (fun _ => rfl) b]

/-- The loop `while (A[d])` of `consolidate` for a root `x` of degree `d` that
is not in the array: afterwards every entry of the array still has the degree
of its slot, and the only new entry is one of `x` and the old entries. -/
theorem FibonacciHeap.consolidate_while_degree :
    ∀ (fuel : Nat) (h h1 : FibonacciHeap) (A A1 : List (Option Nat)) (x : Nat) (d : Int),
      DegSlot (h.view none) A → degreeOf (h.view none) x = some d →
      (∀ i : Nat, A[i]? ≠ some (some x)) → A.length ≤ 2147483647 →
      FibonacciHeap.consolidate_while fuel h A x d = .ok (h1, A1) →
      DegSlot (h1.view none) A1 ∧ A1.length = A.length := by
  intro fuel
  induction fuel with
  | zero =>
    intro h h1 A A1 x d _ _ _ _ hc
    simp [FibonacciHeap.consolidate_while] at hc
  | succ fuel ih =>
    intro h h1 A A1 x d hslot hdx hxA hlen hc
    unfold FibonacciHeap.consolidate_while at hc
    obtain ⟨Ad, hAd, hc⟩ := bind_ok_inv hc
    obtain ⟨hd0, hAi⟩ := at?_ok A d Ad hAd
    have hdl := get?_lt _ _ _ hAi
    have hdn : ((d.toNat : Nat) : Int) = d := Int.toNat_of_nonneg hd0
    cases Ad with
    | none =>
      simp only at hc
      obtain ⟨A2, hA2, hc⟩ := bind_ok_inv hc
      cases hc
      have e := setAt_get hA2
      rw [e]
      refine ⟨?_, by simp⟩
      intro i a hi
      by_cases hdi : d.toNat = i
      · rw [← hdi, List.getElem?_set_self hdl] at hi
        have : x = a := Option.some.inj (Option.some.inj hi)
        rw [← this, ← hdi, hdn]
        exact hdx
      · rw [List.getElem?_set_ne hdi] at hi
        exact hslot i a hi
    | some y =>
      simp only at hc
      obtain ⟨xn, hxn, hc⟩ := bind_ok_inv hc
      obtain ⟨yn, hyn, hc⟩ := bind_ok_inv hc
      obtain ⟨h2, hl, hc⟩ := bind_ok_inv hc
      obtain ⟨A2, hA2, hc⟩ := bind_ok_inv hc
      have e := setAt_get hA2
      have hxy : y ≠ x := by
        intro exy
        rw [exy] at hAi
        exact hxA _ hAi
      have hdy : degreeOf (h.view none) y = some d := by
        rw [← hdn]
        exact hslot _ y hAi
      have hw : wrap32 (d + 1) = d + 1 := wrap32_of_range _ (by omega) (by omega)
      have hdeg := FibonacciHeap.link_degree hl
      have hyonly : ∀ i : Nat, A[i]? = some (some y) → i = d.toNat := by
        intro i hi
        have h1 := hslot i y hi
        rw [hdy] at h1
        have := Option.some.inj h1
        omega
      have hA2get : ∀ (i a : Nat), A2[i]? = some (some a) →
          A[i]? = some (some a) ∧ a ≠ y ∧ a ≠ x := by
        intro i a hi
        rw [e] at hi
        by_cases hne : d.toNat = i
        · rw [← hne, List.getElem?_set_self hdl] at hi
          cases hi
        · rw [List.getElem?_set_ne hne] at hi
          refine ⟨hi, ?_, ?_⟩
          · intro eay
            rw [eay] at hi
            exact hne (hyonly i hi).symm
          · intro eax
            rw [eax] at hi
            exact hxA i hi
      have hx1 : ∀ (x1 : Nat), (x1 = x ∨ x1 = y) →
          (∀ a, degreeOf (h2.view none) a =
            if a = x1 then (degreeOf (h.view none) x1).map (fun d => wrap32 (d + 1))
            else degreeOf (h.view none) a) →
          FibonacciHeap.consolidate_while fuel h2 A2 x1 (wrap32 (d + 1)) = .ok (h1, A1) →
          DegSlot (h1.view none) A1 ∧ A1.length = A.length := by
        intro x1 hx1 hdeg1 hrec
        have hd1 : degreeOf (h.view none) x1 = some d := by
          rcases hx1 with e1 | e1 <;> rw [e1]
          · exact hdx
          · exact hdy
        have := ih h2 h1 A2 A1 x1 (wrap32 (d + 1)) ?_ ?_ ?_ ?_ hrec
        · refine ⟨this.1, this.2.trans ?_⟩
          rw [e]
          simp
        · intro i a hi
          obtain ⟨g1, g2, g3⟩ := hA2get i a hi
          rw [hdeg1 a, if_neg (by rcases hx1 with e1 | e1 <;> rw [e1] <;> assumption)]
          exact hslot i a g1
        · rw [hdeg1 x1, if_pos rfl, hd1]
          rfl
        · intro i hi
          obtain ⟨_, g2, g3⟩ := hA2get i x1 hi
          rcases hx1 with e1 | e1
          · exact g3 e1
          · exact g2 e1
        · rw [e]
          simp
          exact hlen
      by_cases hk : xn.key > yn.key
      · rw [if_pos hk, if_pos hk] at hl
        rw [if_pos hk] at hc
        exact hx1 y (Or.inr rfl) (FibonacciHeap.link_degree hl) hc
      · rw [if_neg hk, if_neg hk] at hl
        rw [if_neg hk] at hc
        exact hx1 x (Or.inl rfl) (FibonacciHeap.link_degree hl) hc

/-- The loop `for (Node* w : roots)` of `consolidate` leaves every entry of
the degree array with the degree of its slot. -/
theorem FibonacciHeap.consolidate_roots_degree {dead : Option Nat} :
    ∀ (roots : List Nat) (h h1 : FibonacciHeap) (A A1 : List (Option Nat)),
      Pending (h.view dead) A roots → DegSlot (h.view none) A → A.length ≤ 2147483647 →
      FibonacciHeap.consolidate_roots roots h A = .ok (h1, A1) →
      DegSlot (h1.view none) A1 := by
  intro roots
  induction roots with
  | nil =>
    intro h h1 A A1 _ hs _ hc
    simp only [FibonacciHeap.consolidate_roots] at hc
    cases hc
    exact hs
  | cons w roots ih =>
    intro h h1 A A1 hp hs hlen hc
    simp only [FibonacciHeap.consolidate_roots] at hc
    obtain ⟨xn, hxn, hc⟩ := bind_ok_inv hc
    obtain ⟨r, hcw, hc⟩ := bind_ok_inv hc
    obtain ⟨h2, A2⟩ := r
    simp only at hc
    obtain ⟨_, hp2, _⟩ := FibonacciHeap.consolidate_while_spec (A.length + 1) h h2 A A2 w
      xn.degree roots hp hcw
    have hwA : ∀ i : Nat, A[i]? ≠ some (some w) := by
      intro i hi
      exact hp.disj w ((mem_iff_get? _ _).2 ⟨i, hi⟩) (List.mem_cons_self w roots)
    have hdw : degreeOf (h.view none) w = some xn.degree := by
      unfold degreeOf
      rw [FibonacciHeap.deref_view hxn]
      rfl
    obtain ⟨hs2, hl2⟩ := FibonacciHeap.consolidate_while_degree (A.length + 1) h h2 A A2 w
      xn.degree hs hdw hwA hlen hcw
    exact ih h2 h1 A2 A1 hp2 hs2 (by rw [hl2]; exact hlen) hc

/-- The last loop of `consolidate` changes `left` and `right` fields only. -/
theorem FibonacciHeap.rebuild_roots_keeps {α : Type} (π : Node → α)
    (hl : ∀ (n : Node) (v : Nat), π { n with left := v } = π n)
    (hr : ∀ (n : Node) (v : Nat), π { n with right := v } = π n) :
    ∀ (A : List (Option Nat)) (h h1 : FibonacciHeap),
      FibonacciHeap.rebuild_roots A h = .ok h1 →
      ∀ a, (h1.view none a).map π = (h.view none a).map π := by
  intro A
  induction A with
  | nil =>
    intro h h1 hc a
    simp only [FibonacciHeap.rebuild_roots] at hc
    cases hc
    rfl
  | cons o A ih =>
    intro h h1 hc a
    cases o with
    | none =>
      simp only [FibonacciHeap.rebuild_roots] at hc
      exact ih h h1 hc a
    | some x =>
      simp only [FibonacciHeap.rebuild_roots] at hc
      cases hm : h.min_node with
      | none =>
        rw [hm] at hc
        simp only at hc
        obtain ⟨h2, e2, hc⟩ := bind_ok_inv hc
        obtain ⟨h3, e3, hc⟩ := bind_ok_inv hc
        rw [ih h3 h1 hc a, FibonacciHeap.store_keeps π e3 (fun n => hl n _) a,
          FibonacciHeap.store_keeps π e2 (fun n => hr n _) a]
        rfl
      | some m =>
        rw [hm] at hc
        simp only at hc
        obtain ⟨h2, e2, hc⟩ := bind_ok_inv hc
        obtain ⟨an, _, hc⟩ := bind_ok_inv hc
        obtain ⟨mn, _, hc⟩ := bind_ok_inv hc
        rw [ih _ h1 hc a]
        have : ∀ (H : FibonacciHeap), H.mem = h2.mem →
            (H.view none a).map π = (h.view none a).map π := by
          intro H hH
          rw [FibonacciHeap.view_congr hH none]
          exact FibonacciHeap.insert_after_min_keeps π hl hr e2 a
        split
        · exact this _ rfl
        · exact this _ rfl

theorem FibonacciHeap.ceil_log2_loop_le :
    ∀ (fuel n k p : Nat), FibonacciHeap.ceil_log2_loop fuel n k p ≤ k + fuel := by
  intro fuel
  induction fuel with
  | zero => intro n k p; rw [FibonacciHeap.ceil_log2_loop]; omega
  | succ fuel ih =>
    intro n k p
    rw [FibonacciHeap.ceil_log2_loop]
    split
    · omega
    · have := ih n (k + 1) (2 * p)
      omega

/-- The nodes of a view are nodes of the free store. -/
theorem FibonacciHeap.view_weaken {h : FibonacciHeap} {dead : Option Nat} {a : Nat} {n : Node}
    (hv : h.view dead a = some n) : h.view none a = some n :=
  FibonacciHeap.view_of_mem (FibonacciHeap.view_some hv).1

/-- A change of the free store that keeps the `degree` and `parent` fields
keeps the degrees of the parentless nodes apart. -/
theorem RootDegrees.keep {h h1 : FibonacciHeap} {dead : Option Nat}
    (hk : ∀ a, (h1.view none a).map (fun n => (n.degree, n.parent)) =
      (h.view none a).map (fun n => (n.degree, n.parent)))
    (hd : RootDegrees (h.view dead)) : RootDegrees (h1.view dead) := by
  have hback : ∀ (a : Nat) (n1 : Node), h1.view dead a = some n1 →
      ∃ n, h.view dead a = some n ∧ n.degree = n1.degree ∧ n.parent = n1.parent := by
    intro a n1 ha
    obtain ⟨hm, hda⟩ := FibonacciHeap.view_some ha
    have h1v := FibonacciHeap.view_of_mem hm
    have := hk a
    rw [h1v] at this
    cases hv : h.view none a with
    | none => rw [hv] at this; cases this
    | some n =>
      rw [hv] at this
      have e : (n1.degree, n1.parent) = (n.degree, n.parent) := Option.some.inj this
      refine ⟨n, ?_, (congrArg Prod.fst e).symm, (congrArg Prod.snd e).symm⟩
      unfold FibonacciHeap.view at hv ⊢
      rw [if_neg (by simp)] at hv
      rw [if_neg hda]
      exact hv
  intro a b na nb ha hb hpa hpb hdeg
  obtain ⟨na0, ha0, e1, e2⟩ := hback a na ha
  obtain ⟨nb0, hb0, e3, e4⟩ := hback b nb hb
  exact hd a b na0 nb0 ha0 hb0 (e2.trans hpa) (e4.trans hpb) (by rw [e1, e3]; exact hdeg)

/-- What `consolidate` leaves: no two roots have the same degree. -/
theorem FibonacciHeap.consolidate_root_degrees {h h1 : FibonacciHeap} {dead : Option Nat}
    {m : Nat} (hmin : h.min_node = some m) (hf : Forest (h.view dead) none)
    (ho : HeapOrder (h.view dead)) (hr : RingOk (grp (h.view dead) none) (some m))
    (hc : h.consolidate = .ok h1) : RootDegrees (h1.view dead) := by
  unfold FibonacciHeap.consolidate at hc
  rw [hmin] at hc
  simp only at hc
  by_cases hsz : h.size ≤ 0
  · rw [if_pos hsz] at hc; cases hc
  · rw [if_neg hsz] at hc
    obtain ⟨L, hcol, hc⟩ := bind_ok_inv hc
    obtain ⟨r, hcr, hc⟩ := bind_ok_inv hc
    obtain ⟨h2, A2⟩ := r
    simp only at hc
    obtain ⟨hnd, hL⟩ := FibonacciHeap.collect_roots_spec hr _ L hcol
    have hnoA : ∀ a : Nat, some a ∉
        List.replicate (FibonacciHeap.ceil_log2 h.size.toNat + 1) (none : Option Nat) := by
      intro a hm1
      have := List.eq_of_mem_replicate hm1
      cases this
    have hp : Pending (h.view dead)
        (List.replicate (FibonacciHeap.ceil_log2 h.size.toNat + 1) none) L := by
      refine ⟨hf, ho, hr.toRingLR, ?_, ?_, hnd, ?_⟩
      · intro a
        rw [← hL a]
        constructor
        · exact Or.inr
        · rintro (e | e)
          · exact absurd e (hnoA a)
          · exact e
      · intro i j a hi _
        exact absurd ((mem_iff_get? _ _).2 ⟨i, hi⟩) (hnoA a)
      · intro a ha
        exact absurd ha (hnoA a)
    have hs0 : DegSlot (h.view none)
        (List.replicate (FibonacciHeap.ceil_log2 h.size.toNat + 1) none) := by
      intro i a hi
      exact absurd ((mem_iff_get? _ _).2 ⟨i, hi⟩) (hnoA a)
    have hlen : (List.replicate (FibonacciHeap.ceil_log2 h.size.toNat + 1)
        (none : Option Nat)).length ≤ 2147483647 := by
      rw [List.length_replicate]
      have := FibonacciHeap.ceil_log2_loop_le 64 h.size.toNat 0 1
      unfold FibonacciHeap.ceil_log2
      omega
    obtain ⟨_, hp2, _⟩ := FibonacciHeap.consolidate_roots_spec L h h2 _ A2 hp hcr
    have hs2 := FibonacciHeap.consolidate_roots_degree L h h2 _ A2 hp hs0 hlen hcr
    have hd2 : RootDegrees (h2.view dead) := by
      intro a b na nb ha hb hpa hpb hdeg
      have hma : some a ∈ A2 := by
        have := (hp2.part a).1 (by rw [parentOf_of_some ha, hpa])
        rcases this with e | e
        · exact e
        · cases e
      have hmb : some b ∈ A2 := by
        have := (hp2.part b).1 (by rw [parentOf_of_some hb, hpb])
        rcases this with e | e
        · exact e
        · cases e
      obtain ⟨i, hi⟩ := (mem_iff_get? _ _).1 hma
      obtain ⟨j, hj⟩ := (mem_iff_get? _ _).1 hmb
      have h1 := hs2 i a hi
      have h2' := hs2 j b hj
      unfold degreeOf at h1 h2'
      rw [FibonacciHeap.view_weaken ha] at h1
      rw [FibonacciHeap.view_weaken hb] at h2'
      have e1 : na.degree = (i : Int) := Option.some.inj h1
      have e2 : nb.degree = (j : Int) := Option.some.inj h2'
      have hij : i = j := by omega
      rw [hij, hj] at hi
      exact (Option.some.inj (Option.some.inj hi)).symm
    have hk := FibonacciHeap.rebuild_roots_keeps (fun n => (n.degree, n.parent))
      (fun _ _ => rfl) (fun _ _ => rfl) A2 _ h1 hc
    exact RootDegrees.keep (h := h2) (fun a => hk a) hd2

/-! ## The roots after `FibonacciHeap::pop` -/

/-- The second half of `pop`, see `FibonacciHeap.pop_finish`: afterwards no
two roots have the same degree, and the nodes other than `z` are the nodes of
before, with their keys and vertices. -/
theorem FibonacciHeap.pop_finish_roots {σ0 : Nat → Option Node}
    {hB : FibonacciHeap} {z : Nat} {res : Int × Nat} {r : (Int × Nat) × FibonacciHeap}
    (K : ∀ a, kv (hB.view none) a = kv σ0 a)
    (hf : Forest (hB.view none) (some z)) (ho : HeapOrder (hB.view none))
    (hroots : RingOk (grp (hB.view none) none) (some z))
    (hempty : ∀ a, grp (hB.view none) (some z) a = none)
    (hfin : (do
      let zn ← hB.deref z
      let h ← hB.store zn.left (fun n => { n with right := zn.right })
      let zn ← h.deref z
      let h ← h.store zn.right (fun n => { n with left := zn.left })
      let zn ← h.deref z
      let h ← if z = zn.right then Except.ok { h with min_node := none }
        else FibonacciHeap.consolidate { h with min_node := some zn.right }
      let h := { h with mem := h.mem.set z none }
      Except.ok (res, { h with size := wrap32 (h.size - 1) })) = .ok r) :
    RootDegrees (r.2.view none) ∧
      ∀ a, kv (r.2.view none) a = if a = z then none else kv σ0 a := by
  obtain ⟨⟨zl, zr⟩, hzg⟩ := hroots.anchor_in z rfl
  obtain ⟨zn, hzn, hznp, e⟩ := grp_some hzg
  have hzl : zn.left = zl := (congrArg Prod.fst e).symm
  have hzr : zn.right = zr := (congrArg Prod.snd e).symm
  obtain ⟨ll, hlg⟩ := hroots.left_ok z zl zr hzg
  obtain ⟨ln, hln, hlp, _⟩ := grp_some hlg
  obtain ⟨rr, hrg⟩ := hroots.right_ok z zl zr hzg
  obtain ⟨rn, hrn, hrp, _⟩ := grp_some hrg
  rw [← hzl] at hln
  rw [← hzr] at hrn
  obtain ⟨h2, e2, fr2, R, L, P, C, K2⟩ := FibonacciHeap.unlink_fields hzn hln hrn
  rw [e2] at hfin
  obtain ⟨zn2, hzn2, _⟩ := live_of_kv (K2 z) hzn
  have hzn2r : zn2.right = zn.right := by
    have := R z
    rw [rightOf_of_some hzn2, rightOf_of_some hzn] at this
    split at this <;> exact Option.some.inj this
  rw [FibonacciHeap.deref_ok hzn2] at hfin
  simp only [ok_bind] at hfin
  rw [hzn2r] at hfin
  have hPz : parentOf (hB.view none) z = some none := by rw [parentOf_of_some hzn, hznp]
  have hkv1 : ∀ (H : FibonacciHeap), (∀ a, kv (H.view (some z)) a = kv (h2.view (some z)) a) →
      ∀ a, kv (H.view (some z)) a = if a = z then none else kv σ0 a := by
    intro H hH a
    rw [hH a]
    have := map_view_dead (fun n => (n.key, n.vertex)) h2 z a
    rw [show kv (h2.view (some z)) a = _ from this]
    split
    · rfl
    · exact (K2 a).trans (K a)
  by_cases hself : z = zn.right
  · rw [if_pos hself] at hfin
    cases hfin
    have hz' : grp (hB.view none) none z = some (zl, z) := by
      rw [hzg, ← hzr, ← hself]
    have hdead : ∀ a, h2.view (some z) a = none := by
      intro a
      rw [FibonacciHeap.view_dead]
      split
      · rfl
      · rename_i haz
        cases hs : hB.view none a with
        | none => exact dead_of_kv (K2 a) hs
        | some n => exact absurd (hf.lone hroots hz' hempty a n hs) haz
    have hv1 : ∀ (H : FibonacciHeap), H.mem = h2.mem.set z none →
        H.view none = h2.view (some z) :=
      fun H hH => funext (FibonacciHeap.view_erase hH)
    constructor
    · intro a b na nb ha
      have : (FibonacciHeap.view { h2 with mem := h2.mem.set z none } none) a = none := by
        rw [hv1 _ rfl]
        exact hdead a
      have ha' : (FibonacciHeap.view { h2 with mem := h2.mem.set z none } none) a = some na := ha
      rw [this] at ha'
      cases ha'
    · intro a
      show kv (FibonacciHeap.view { h2 with mem := h2.mem.set z none } none) a = _
      rw [hv1 _ rfl]
      exact hkv1 h2 (fun _ => rfl) a
  · rw [if_neg hself] at hfin
    cases hcon : FibonacciHeap.consolidate { h2 with min_node := some zn.right } with
    | error e' => rw [hcon] at hfin; cases hfin
    | ok y =>
      rw [hcon] at hfin
      simp only [ok_bind] at hfin
      cases hfin
      have hPC : ∀ a, parentOf (h2.view (some z)) a =
          if a = z then none else parentOf (hB.view none) a := by
        intro a
        rw [show parentOf (h2.view (some z)) a = _ from map_view_dead _ h2 z a]
        split
        · rfl
        · exact P a
      have hRC : ∀ a, rightOf (h2.view (some z)) a =
          if a = z then none else if a = zn.left then some zn.right
          else rightOf (hB.view none) a := by
        intro a
        rw [show rightOf (h2.view (some z)) a = _ from map_view_dead _ h2 z a]
        split
        · rfl
        · exact R a
      have hLC : ∀ a, leftOf (h2.view (some z)) a =
          if a = z then none else if a = zn.right then some zn.left
          else leftOf (hB.view none) a := by
        intro a
        rw [show leftOf (h2.view (some z)) a = _ from map_view_dead _ h2 z a]
        split
        · rfl
        · exact L a
      have hCC : ∀ a, childPtr (h2.view (some z)) a =
          if a = z then none else childPtr (hB.view none) a := by
        intro a
        rw [show childPtr (h2.view (some z)) a = _ from map_view_dead _ h2 z a]
        split
        · rfl
        · exact C a
      have hKC : ∀ a, kv (h2.view (some z)) a =
          if a = z then none else kv (hB.view none) a := by
        intro a
        rw [show kv (h2.view (some z)) a = _ from map_view_dead _ h2 z a]
        split
        · rfl
        · exact K2 a
      have hPl : parentOf (hB.view none) zn.left = some none := by
        rw [parentOf_of_some hln, hlp]
      have hPr : parentOf (hB.view none) zn.right = some none := by
        rw [parentOf_of_some hrn, hrp]
      have hnoz : ∀ a, parentOf (hB.view none) a ≠ some (some z) :=
        fun a => parentOf_of_grp_none (hempty a)
      have hfC : Forest (h2.view (some z)) none := by
        refine ⟨?_, ?_⟩
        · intro p _
          by_cases hpz : p = z
          · rw [hpz]
            have hc0 : childOf (h2.view (some z)) z = none := by
              apply childOf_of_none
              rw [FibonacciHeap.view_dead, if_pos rfl]
            rw [hc0]
            apply RingOk.of_empty_map
            intro a
            apply grp_fields_none
            rw [hPC a]
            split
            · simp
            · exact hnoz a
          · refine keep_group (hf.groups p (fun e' => hpz (Option.some.inj e').symm)) ?_ ?_
            · apply childOf_ptr
              rw [hCC p, if_neg hpz]
            · intro a ha
              have haz : a ≠ z := by
                intro e'
                rw [e'] at ha
                cases ha with
                | inl h0 => rw [hPz] at h0; cases h0
                | inr h0 => rw [hPC z, if_pos rfl] at h0; cases h0
              have hpa : parentOf (hB.view none) a = some (some p) := by
                cases ha with
                | inl h0 => exact h0
                | inr h0 => rw [hPC a, if_neg haz] at h0; exact h0
              have hal : a ≠ zn.left := by
                intro e'; rw [e', hPl] at hpa; cases hpa
              have har : a ≠ zn.right := by
                intro e'; rw [e', hPr] at hpa; cases hpa
              refine ⟨by rw [hPC a, if_neg haz], ?_, ?_⟩
              · rw [hLC a, if_neg haz, if_neg har]
              · rw [hRC a, if_neg haz, if_neg hal]
        · intro a n' ha
          have haz : a ≠ z := by
            intro e'
            rw [e', FibonacciHeap.view_dead, if_pos rfl] at ha
            cases ha
          have hk := hKC a
          rw [if_neg haz] at hk
          obtain ⟨n, hn, _⟩ := live_of_kv hk.symm ha
          exact Rooted.erase_rooted (fun b hbz => by rw [hPC b, if_neg hbz]) hnoz
            (hf.rooted a n hn) haz
      have hoC : HeapOrder (h2.view (some z)) := by
        intro a p n' pn' ha hp hpn
        have haz : a ≠ z := by
          intro e'
          rw [e', FibonacciHeap.view_dead, if_pos rfl] at ha
          cases ha
        have hpz : p ≠ z := by
          intro e'
          rw [e', FibonacciHeap.view_dead, if_pos rfl] at hpn
          cases hpn
        have hka := hKC a
        rw [if_neg haz] at hka
        have hkp := hKC p
        rw [if_neg hpz] at hkp
        obtain ⟨n, hn, hk1, _⟩ := live_of_kv hka.symm ha
        obtain ⟨pn, hpn0, hk2, _⟩ := live_of_kv hkp.symm hpn
        rw [← hk1, ← hk2]
        have hP := hPC a
        rw [if_neg haz, parentOf_of_some ha, hp, parentOf_of_some hn] at hP
        exact ho a p n pn hn (Option.some.inj hP).symm hpn0
      have hrC : RingOk (grp (h2.view (some z)) none) (some zn.right) := by
        have := @unlink_group _ (h2.view (some z)) _ _ _ _ _ hroots hzg
          (by rw [hPC z, if_pos rfl]; simp)
          (fun a haz => by rw [hPC a, if_neg haz])
          (fun a haz _ => by rw [hRC a, if_neg haz, hzl, hzr])
          (fun a haz _ => by rw [hLC a, if_neg haz, hzl, hzr])
        rw [if_neg (fun e' => hself (by rw [hzr, e'])), if_pos rfl, ← hzr] at this
        exact this
      obtain ⟨_, _, _, _, _, _, _, K3⟩ :=
        @FibonacciHeap.consolidate_spec
          { h2 with min_node := some zn.right } _ (some z) _ rfl hfC hoC hrC hcon
      have hdg := @FibonacciHeap.consolidate_root_degrees
          { h2 with min_node := some zn.right } _ (some z) _ rfl hfC hoC hrC hcon
      have hv1 : ∀ (H : FibonacciHeap), H.mem = y.mem.set z none →
          H.view none = y.view (some z) :=
        fun H hH => funext (FibonacciHeap.view_erase hH)
      constructor
      · show RootDegrees (FibonacciHeap.view { y with mem := y.mem.set z none } none)
        rw [hv1 _ rfl]
        exact hdg
      · intro a
        show kv (FibonacciHeap.view { y with mem := y.mem.set z none } none) a = _
        rw [hv1 _ rfl]
        exact hkv1 y K3 a

/-- A `pop` that returns, see `FibonacciHeap.Inv.pop`: afterwards no two roots
have the same degree, and the nodes other than the one removed are the nodes
of before, with their keys and vertices. -/
theorem FibonacciHeap.pop_roots {N : Nat} {h : FibonacciHeap}
    {r : (Int × Nat) × FibonacciHeap} (hinv : h.Inv N) (hp : h.pop = .ok r) :
    ∃ z, h.min_node = some z ∧ RootDegrees (r.2.view none) ∧
      ∀ a, kv (r.2.view none) a = if a = z then none else kv (h.view none) a := by
  unfold FibonacciHeap.pop at hp
  cases hmin : h.min_node with
  | none => rw [hmin] at hp; cases hp
  | some z =>
    rw [hmin] at hp
    simp only at hp
    have hroots : RingOk (grp (h.view none) none) (some z) := hmin ▸ hinv.roots
    obtain ⟨zn, _, hzn, hznp, _⟩ := hinv.anchor hmin
    have hzv : zn.vertex = z := by
      cases hinv.tabled.2 z with
      | inl e =>
        obtain ⟨_, n, e2, e3⟩ := e
        rw [hzn] at e2; cases e2
        exact e3
      | inr e => rw [hzn] at e; cases e.2
    rw [FibonacciHeap.deref_ok hzn] at hp
    simp only [ok_bind] at hp
    cases hs : setAt h.node_table (zn.vertex : Int) none with
    | error e => rw [hs] at hp; cases hp
    | ok tab1 =>
      rw [hs] at hp
      simp only [ok_bind] at hp
      obtain ⟨_, _, htab1⟩ := setAt_ok _ _ _ _ hs
      rw [Int.toNat_ofNat, hzv] at htab1
      have hPz : parentOf (h.view none) z = some none := by rw [parentOf_of_some hzn, hznp]
      have hord : ∀ (σ' : Nat → Option Node), (∀ a, kv σ' a = kv (h.view none) a) →
          (∀ a, parentOf σ' a = parentOf (h.view none) a ∨ parentOf σ' a = some none) →
          HeapOrder σ' := by
        intro σ' K P
        refine HeapOrder.of_kept (v := z) ?_ K P ?_
        · intro a p n pn _ ha hpar hpn
          exact hinv.order a p n pn ha hpar hpn
        · cases P z with
          | inl e => rw [e, hPz]
          | inr e => exact e
      cases hc : zn.child with
      | none =>
        rw [hc] at hp
        simp only [ok_bind] at hp
        refine ⟨z, rfl, @FibonacciHeap.pop_finish_roots (h.view none)
          { min_node := some z, size := h.size, node_table := tab1, mem := h.mem } _ _ _
          (fun _ => rfl) (hinv.forest.weaken _) hinv.order hroots ?_ hp⟩
        exact hinv.forest.childless (by simp) (by rw [childOf_of_some hzn, hc])
      | some c0 =>
        rw [hc] at hp
        simp only at hp
        cases hpc : FibonacciHeap.pop_children (h.mem.length + 1)
            { min_node := some z, size := h.size, node_table := tab1, mem := h.mem } z c0 with
        | error e => rw [hpc] at hp; cases hp
        | ok hB =>
          rw [hpc] at hp
          simp only [ok_bind] at hp
          have hgz : RingOk (grp (h.view none) (some z)) (some c0) := by
            have := hinv.forest.groups z (by simp)
            rw [childOf_of_some hzn, hc] at this
            exact this
          obtain ⟨fr, hfB, hrB, heB, KB, PB⟩ := @FibonacciHeap.pop_children_spec none _ _
            _ { min_node := some z, size := h.size, node_table := tab1, mem := h.mem } hB c0
            rfl (hinv.forest.weaken _) hroots
            (by
              show childPtr (h.view none) z = _
              rw [childPtr_of_some hzn, hc])
            (RingPath.start hgz) hpc
          exact ⟨z, rfl, @FibonacciHeap.pop_finish_roots (h.view none) _ _ _ _ KB hfB
            (hord _ KB PB) hrB heB hp⟩

theorem fourRootsFibonacciHeap_reachable :
    FibonacciHeap.Reachable 4 fourRootsFibonacciHeap :=
  FibonacciHeap.Reachable.run_fibonacci [.push 5 0, .push 3 1, .push 8 2, .push 1 3]
    (FibonacciHeap.new 4) fourRootsFibonacciHeap FibonacciHeap.Reachable.init (by decide!)

/-- In every state of a `FibonacciHeap` over `n` vertices reachable from the
empty heap by `push`, `pop` and `decrease_key` calls, a `pop` that returns and
leaves the heap non-empty leaves it as follows.  No two parentless nodes
(roots) have the same `degree`.  The removed node was `min_node`; every other
node of before, in particular every root and every child of the removed node,
is still there with its key and vertex, and following its parent fields ends
at a root.  `min_node` is a root, its key is less than or equal to the key of
every root, and every root is reached from it by following `right` fields: the
roots are the root list. -/
theorem FibonacciHeap.pop_returned_roots (n : Nat) (h : FibonacciHeap)
    (hr : FibonacciHeap.Reachable n h) (r : (Int × Nat) × FibonacciHeap)
    (hp : h.pop = .ok r) (hne : r.2.empty = false) :
    (∀ (a b : Nat) (na nb : Node), r.2.mem[a]? = some (some na) →
      r.2.mem[b]? = some (some nb) → na.parent = none → nb.parent = none →
      na.degree = nb.degree → a = b) ∧
    (∃ z : Nat, h.min_node = some z ∧ r.2.mem[z]? = some none ∧
      ∀ (a : Nat) (nd : Node), a ≠ z → h.mem[a]? = some (some nd) →
        ∃ nd1 : Node, r.2.mem[a]? = some (some nd1) ∧ nd1.key = nd.key ∧
          nd1.vertex = nd.vertex ∧ Rooted (r.2.view none) a) ∧
    (∃ (m : Nat) (mn : Node), r.2.min_node = some m ∧ r.2.mem[m]? = some (some mn) ∧
      mn.parent = none ∧
      ∀ (a : Nat) (na : Node), r.2.mem[a]? = some (some na) → na.parent = none →
        mn.key ≤ na.key ∧ RReach (grp (r.2.view none) none) m a) := by
  have hinv := hr.inv_fibonacci
  have hinv1 := hinv.pop hp
  obtain ⟨z, hz, hdeg, hkv⟩ := FibonacciHeap.pop_roots hinv hp
  refine ⟨?_, ⟨z, hz, ?_, ?_⟩, ?_⟩
  · intro a b na nb ha hb hpa hpb hd
    exact hdeg a b na nb (FibonacciHeap.view_of_mem ha) (FibonacciHeap.view_of_mem hb)
      hpa hpb hd
  · obtain ⟨zn, _, hzn, _, _⟩ := hinv.anchor hz
    have hzl : z < r.2.mem.length := by
      have := FibonacciHeap.view_lt hzn
      rw [hinv1.mem_len, ← hinv.mem_len]
      exact this
    have hzk := hkv z
    rw [if_pos rfl] at hzk
    have hzv := kv_none hzk
    obtain ⟨o, ho⟩ := get?_some_of_lt r.2.mem z hzl
    cases o with
    | none => exact ho
    | some nz =>
      rw [FibonacciHeap.view_of_mem ho] at hzv
      cases hzv
  · intro a nd haz ha
    have hk := hkv a
    rw [if_neg haz] at hk
    obtain ⟨nd1, h1, h2, h3⟩ := live_of_kv hk (FibonacciHeap.view_of_mem ha)
    exact ⟨nd1, FibonacciHeap.mem_of_view h1, h2, h3, hinv1.forest.rooted a nd1 h1⟩
  · cases hm : r.2.min_node with
    | none =>
      unfold FibonacciHeap.empty at hne
      rw [hm] at hne
      cases hne
    | some m =>
      obtain ⟨mn, _, hmn, hmp, _⟩ := hinv1.anchor hm
      refine ⟨m, mn, rfl, FibonacciHeap.mem_of_view hmn, hmp, ?_⟩
      intro a na ha hpa
      have hav := FibonacciHeap.view_of_mem ha
      refine ⟨hinv1.min_le m a mn na hm hmn hav hpa, ?_⟩
      obtain ⟨c, hc, hreach⟩ := hinv1.roots.reach a _ (grp_member hav hpa)
      rw [hm] at hc
      cases hc
      exact hreach

/-- A pop that returns: `pop` on `fourRootsFibonacciHeap` returns `(1, 3)` and
leaves `sampleFibonacciHeap`, whose roots are the nodes of the vertices 1
(degree 0) and 0 (degree 1); the node of vertex 2 is the child of the node of
vertex 0. -/
theorem fourRootsFibonacciHeap_pop_roots :
    fourRootsFibonacciHeap.pop = .ok ((1, 3), sampleFibonacciHeap) ∧
    (∀ (a b : Nat) (na nb : Node), sampleFibonacciHeap.mem[a]? = some (some na) →
      sampleFibonacciHeap.mem[b]? = some (some nb) → na.parent = none → nb.parent = none →
      na.degree = nb.degree → a = b) :=
  ⟨by decide!,
    (FibonacciHeap.pop_returned_roots 4 fourRootsFibonacciHeap
      fourRootsFibonacciHeap_reachable ((1, 3), sampleFibonacciHeap) (by decide!)
      (by decide)).1⟩

/-- The state `fibRun` leaves is the state after the calls `fibCalls` on
`FibonacciHeap(33)`; it holds 16 nodes, and its `pop` gets as far as
`consolidate`, which fails. -/
theorem fibRun_pop_fails :
    ∃ (popped : List (Int × Nat)) (h hc : FibonacciHeap), fibRun = .ok (popped, h) ∧
      FibonacciHeap.run 33 fibCalls (FibonacciHeap.new 33) = some h ∧
      h.empty = false ∧ h.size = 16 ∧ h.pop_to_consolidate = .ok (some hc) ∧
      hc.consolidate = .error .out_of_range ∧ h.pop = .error .out_of_range := by
  have h2 : (match fibRun with
    | .ok r =>
      match r.2.pop_to_consolidate with
      | .ok (some hc) => decide (
          FibonacciHeap.run 33 fibCalls (FibonacciHeap.new 33) = some r.2 ∧
          r.2.empty = false ∧ r.2.size = 16 ∧
          hc.consolidate = .error .out_of_range ∧ r.2.pop = .error .out_of_range)
      | _ => false
    | .error _ => false) = true := by decide!
  cases h0 : fibRun with
  | error e =>
    rw [h0] at h2
    simp at h2
  | ok r =>
    rw [h0] at h2
    simp only at h2
    cases h1 : r.2.pop_to_consolidate with
    | error e =>
      rw [h1] at h2
      simp at h2
    | ok o =>
      cases o with
      | none =>
        rw [h1] at h2
        simp at h2
      | some hc =>
        rw [h1] at h2
        obtain ⟨e1, e2, e3, e4, e5⟩ := of_decide_eq_true h2
        exact ⟨r.1, r.2, hc, rfl, e1, e2, e3, h1, e4, e5⟩

/-- C22 (the code at the failing input): the state `fibRun` leaves is a
reachable state of `FibonacciHeap(33)`, the one after the calls `fibCalls`
(33 pushes of distinct vertices, a pop, 17 `decrease_key` calls, 16 pops, all
returning).  It holds 16 nodes, so its `pop` should leave a heap of 15 nodes
with a consolidated root list; instead `pop` calls `consolidate`, which reads
`A[5]` in a vector of 5 entries, and `pop` does not return: no root list is
left.  For the pops that do return the claim holds: in every reachable state, a
`pop` that returns and leaves the heap non-empty leaves no two parentless
nodes (roots) of the same `degree`, keeps every node other than the removed
`min_node` with its key and vertex below a root, and leaves `min_node` at a
root of least key from which every root is reached along `right` fields. -/
theorem fibonacci_pop_leaves_no_root_list :
    (∃ (popped : List (Int × Nat)) (h hc : FibonacciHeap), fibRun = .ok (popped, h) ∧
      FibonacciHeap.run 33 fibCalls (FibonacciHeap.new 33) = some h ∧
      FibonacciHeap.Reachable 33 h ∧ h.empty = false ∧ h.size = 16 ∧
      h.pop_to_consolidate = .ok (some hc) ∧ hc.consolidate = .error .out_of_range ∧
      h.pop = .error .out_of_range) ∧
    (∀ (n : Nat) (h : FibonacciHeap), FibonacciHeap.Reachable n h →
      ∀ r : (Int × Nat) × FibonacciHeap, h.pop = .ok r → r.2.empty = false →
      (∀ (a b : Nat) (na nb : Node), r.2.mem[a]? = some (some na) →
        r.2.mem[b]? = some (some nb) → na.parent = none → nb.parent = none →
        na.degree = nb.degree → a = b) ∧
      (∃ z : Nat, h.min_node = some z ∧ r.2.mem[z]? = some none ∧
        ∀ (a : Nat) (nd : Node), a ≠ z → h.mem[a]? = some (some nd) →
          ∃ nd1 : Node, r.2.mem[a]? = some (some nd1) ∧ nd1.key = nd.key ∧
            nd1.vertex = nd.vertex ∧ Rooted (r.2.view none) a) ∧
      (∃ (m : Nat) (mn : Node), r.2.min_node = some m ∧ r.2.mem[m]? = some (some mn) ∧
        mn.parent = none ∧
        ∀ (a : Nat) (na : Node), r.2.mem[a]? = some (some na) → na.parent = none →
          mn.key ≤ na.key ∧ RReach (grp (r.2.view none) none) m a)) := by
  constructor
  · obtain ⟨popped, h, hc, e0, e1, e2, e3, e4, e5, e6⟩ := fibRun_pop_fails
    exact ⟨popped, h, hc, e0, e1,
      FibonacciHeap.Reachable.run_fibonacci fibCalls (FibonacciHeap.new 33) h
        FibonacciHeap.Reachable.init e1, e2, e3, e4, e5, e6⟩
  · intro n h hr r hp hne
    exact FibonacciHeap.pop_returned_roots n h hr r hp hne

/-! ## Heap order of `BinaryHeap`, whatever the number of vertices

`push` and `decrease_key` keep heap order for every branching factor and every
number of vertices.  `BinaryHeap::heapify_down` keeps it too: a child index
that has left the range of `int` fails the unsigned test against `heap.size()`,
and it does so at a slot that has no child. -/

/-- A `push` returns and keeps the vertex map and heap order, whatever the
branching factor. -/
theorem DHeap.push_keeps_order (n D : Nat) (hD : 2 ≤ D) (hn : n ≤ 2147483647) (h : DHeap)
    (hd : h.d = (D : Int)) (hx : Indexed n h.heap h.vertex_to_index) (ho : Ordered D h.heap)
    (k : Int) (v : Nat) (hv : v < n) :
    ∃ h1, h.push k v = .ok h1 ∧ h1.d = h.d ∧ Indexed n h1.heap h1.vertex_to_index ∧
      Ordered D h1.heap := by
  obtain ⟨x, hxv⟩ := get?_some_of_lt h.vertex_to_index v (by rw [hx.len]; exact hv)
  by_cases hx0 : x = -1
  · subst hx0
    have hvl := get?_lt _ _ _ hxv
    have hx1 := hx.append k hxv
    have hlen := hx1.length_le
    simp only [List.length_append, List.length_singleton] at hlen
    have hw : wrap32 (((h.heap ++ [(k, v)]).length : Int) - 1) = (h.heap.length : Int) := by
      rw [wrap32_of_range] <;> simp <;> omega
    unfold DHeap.push
    rw [at?_nat _ _ _ hxv]
    simp only [ok_bind, ne_eq, not_true_eq_false, if_false, hw]
    rw [setAt_nat _ _ _ hvl]
    simp only [ok_bind]
    have hu : UpInv D (h.heap ++ [(k, v)]) h.heap.length := by
      constructor
      · intro j e p hj0 hjl he hp
        have hjl2 := get?_lt _ _ _ he
        simp at hjl2
        have hjlt : j < h.heap.length := by omega
        have hpl := parent_lt D j hD hj0
        rw [List.getElem?_append_left hjlt] at he
        rw [List.getElem?_append_left (by omega)] at hp
        exact ho j e p hj0 he hp
      · intro j e g hj0 _ hjp he _
        have hjl2 := get?_lt _ _ _ he
        simp at hjl2
        have hpl := parent_lt D j hD hj0
        omega
    obtain ⟨h2, e1, e2, e3, e4, _⟩ := DHeap.heapify_up_spec n D hD h.heap.length
      { h with heap := h.heap ++ [(k, v)],
               vertex_to_index := h.vertex_to_index.set v (h.heap.length : Int) }
      hd hx1 (by simp) hu
    exact ⟨h2, e1, e2, e3, e4⟩
  · exact ⟨h, DHeap.push_present h k v x hxv hx0, rfl, hx, ho⟩

/-- A `decrease_key` returns and keeps the vertex map and heap order, whatever
the branching factor. -/
theorem DHeap.decrease_key_keeps_order (n D : Nat) (hD : 2 ≤ D) (h : DHeap)
    (hd : h.d = (D : Int)) (hx : Indexed n h.heap h.vertex_to_index) (ho : Ordered D h.heap)
    (k : Int) (v : Nat) (hv : v < n) :
    ∃ h1, h.decrease_key v k = .ok h1 ∧ h1.d = h.d ∧ Indexed n h1.heap h1.vertex_to_index ∧
      Ordered D h1.heap := by
  obtain ⟨x, hx1⟩ := get?_some_of_lt h.vertex_to_index v (by rw [hx.len]; exact hv)
  rcases hx.back v x hx1 with hx2 | ⟨i, e, hx2, h2, _⟩
  · subst hx2
    exact ⟨h, DHeap.decrease_key_absent h v k hx1, rfl, hx, ho⟩
  · subst hx2
    by_cases hk : e.1 < k
    · exact ⟨h, DHeap.decrease_key_larger h v k i e hx1 h2 hk, rfl, hx, ho⟩
    · have hil := get?_lt _ _ _ h2
      unfold DHeap.decrease_key
      rw [at?_nat _ _ _ hx1]
      have hi : ¬ ((i : Int) = -1) := by omega
      simp only [ok_bind, hi, if_false]
      rw [at?_nat _ _ _ h2]
      have hk2 : ¬ (k > e.1) := by omega
      simp only [ok_bind, hk2, if_false]
      rw [setAt_nat _ _ _ hil]
      simp only [ok_bind]
      have hu : UpInv D (h.heap.set i (k, e.2)) i := by
        constructor
        · intro j e1 p hj0 hji he hp
          rw [get?_set_other _ _ _ _ (Ne.symm hji)] at he
          by_cases hq : i = (j - 1) / D
          · rw [← hq, get?_set_same _ _ _ hil] at hp
            cases hp
            have := ho j e1 e hj0 he (by rw [← hq]; exact h2)
            simp only
            omega
          · rw [get?_set_other _ _ _ _ hq] at hp
            exact ho j e1 p hj0 he hp
        · intro j e1 g hj0 hi0 hjp he hg
          have hpl := parent_lt D i hD hi0
          have hjl := parent_lt D j hD hj0
          rw [get?_set_other _ _ _ _ (by omega)] at he hg
          have hg1 := ho i e g hi0 h2 hg
          have hg2 := ho j e1 e hj0 he (by rw [hjp]; exact h2)
          omega
      obtain ⟨h4, e1, e2, e3, e4, _⟩ := DHeap.heapify_up_spec n D hD i
        { h with heap := h.heap.set i (k, e.2) } hd (hx.rekey k h2) (by simpa using hil) hu
      exact ⟨h4, e1, e2, e3, e4⟩

/-- A `decrease_key` with the key the vertex already has changes nothing when
the array is in heap order. -/
theorem DHeap.decrease_key_same (D : Nat) (hD : 2 ≤ D) (h : DHeap) (hd : h.d = (D : Int))
    (ho : Ordered D h.heap) (v : Nat) (k : Int) (i : Nat) (e : Int × Nat)
    (h1 : h.vertex_to_index[v]? = some (i : Int)) (h2 : h.heap[i]? = some e) (h3 : k = e.1) :
    h.decrease_key v k = .ok h := by
  have hil := get?_lt _ _ _ h2
  unfold DHeap.decrease_key
  rw [at?_nat _ _ _ h1]
  have hi : ¬ ((i : Int) = -1) := by omega
  simp only [ok_bind, hi, if_false]
  rw [at?_nat _ _ _ h2]
  have hk : ¬ (k > e.1) := by omega
  simp only [ok_bind, hk, if_false]
  rw [setAt_nat _ _ _ hil]
  simp only [ok_bind]
  have hset : h.heap.set i (k, e.2) = h.heap := by
    subst h3
    apply List.ext_getElem?
    intro j
    by_cases hji : i = j
    · subst hji
      rw [get?_set_same _ _ _ hil, h2]
    · rw [get?_set_other _ _ _ _ hji]
  rw [hset]
  exact DHeap.heapify_up_ordered D hD i h hd ho hil

theorem BinaryHeap.decrease_key_of_sim {b : BinaryHeap} {k : Int} {v : Nat} {h1 : DHeap}
    (hp : b.toDHeap.decrease_key v k = .ok h1) :
    ∃ b1, b.decrease_key v k = .ok b1 ∧ b1.toDHeap = h1 := by
  have hsim := BinaryHeap.decrease_key_sim b v k
  rw [hp] at hsim
  cases hb : b.decrease_key v k with
  | error e => rw [hb] at hsim; cases hsim
  | ok b1 =>
    rw [hb] at hsim
    exact ⟨b1, rfl, Except.ok.inj hsim⟩

/-- The exchange of two slots of a `BinaryHeap` with a consistent vertex map. -/
theorem BinaryHeap.swap_entries_eq_binary (b : BinaryHeap) (n i j : Nat) (a c : Int × Nat)
    (hx : Indexed n b.heap b.vertex_to_index) (hij : i ≠ j)
    (hi : b.heap[i]? = some a) (hj : b.heap[j]? = some c) :
    b.swap_entries (i : Int) (j : Int) =
      .ok { heap := (b.heap.set i c).set j a,
            vertex_to_index := (b.vertex_to_index.set c.2 i).set a.2 j } := by
  have h1 := DHeap.swap_entries_eq b.toDHeap n i j a c hx hij hi hj
  have hsim := BinaryHeap.swap_entries_sim b (i : Int) (j : Int)
  rw [h1] at hsim
  cases hb : b.swap_entries (i : Int) (j : Int) with
  | error e => rw [hb] at hsim; cases hsim
  | ok b1 =>
    rw [hb] at hsim
    have h2 := Except.ok.inj hsim
    rw [BinaryHeap.toDHeap_inj b1
      { heap := (b.heap.set i c).set j a,
        vertex_to_index := (b.vertex_to_index.set c.2 i).set a.2 j } h2]

/-- The two child tests of `BinaryHeap::heapify_down` at slot `i` of an array
of at most `INT_MAX` entries: they return `i` or a child of `i` that is in the
array, whose key is the least among `i` and its children. -/
theorem BinaryHeap.pick_children_spec (heap : List (Int × Nat)) (i : Nat)
    (hil : i < heap.length) (hlen : heap.length ≤ 2147483647) :
    ∃ s1 : Nat, (BinaryHeap.pick_child heap (wrap32 (2 * (i : Int) + 1)) (i : Int) >>=
        fun s => BinaryHeap.pick_child heap (wrap32 (2 * (i : Int) + 2)) s) = .ok (s1 : Int) ∧
      (s1 = i ∨ (2 * i + 1 ≤ s1 ∧ s1 < 2 * i + 3 ∧ s1 < heap.length)) ∧
      (∀ (t : Nat) (e es : Int × Nat), 2 * i + 1 ≤ t → t < 2 * i + 3 → heap[t]? = some e →
        heap[s1]? = some es → es.1 ≤ e.1) ∧
      (∀ (e es : Int × Nat), heap[i]? = some e → heap[s1]? = some es →
        es.1 ≤ e.1 ∧ (s1 ≠ i → es.1 < e.1)) := by
  by_cases h3 : 2 * i + 3 < 2147483648
  · rw [BinaryHeap.pick_children_local heap i hil h3 hlen]
    have hw1 : wrap32 (2 * (i : Int) + 1) = ((2 * i + 1 : Nat) : Int) := by
      rw [wrap32_of_range] <;> push_cast <;> omega
    have hw3 : wrap32 (((2 * i + 1 : Nat) : Int) + 2) = ((2 * i + 3 : Nat) : Int) := by
      rw [wrap32_of_range] <;> push_cast <;> omega
    have hw4 : wrap32 (heap.length : Int) = (heap.length : Int) := by
      rw [wrap32_of_range] <;> omega
    rw [hw1, hw3, hw4]
    have hcount : (min (((2 * i + 3 : Nat) : Int)) (heap.length : Int) -
        ((2 * i + 1 : Nat) : Int)).toNat = min (2 * i + 3) heap.length - (2 * i + 1) := by
      clear hw1 hw3 hw4
      omega
    rw [hcount]
    clear hw1 hw3 hw4 hcount
    obtain ⟨s, e1, e2, e3, e4⟩ := DHeap.smallest_loop_spec heap
      (min (2 * i + 3) heap.length - (2 * i + 1)) (2 * i + 1) i
      (fun t h1 h2 => by omega) hil
    refine ⟨s, e1, ?_, ?_, e4⟩
    · rcases e2 with h | h
      · exact Or.inl h
      · exact Or.inr ⟨by omega, by omega, by omega⟩
    · intro t e es h1 h2 ht hs
      have htl := get?_lt _ _ _ ht
      exact e3 t e es h1 (by omega) ht hs
  · have hi31 : (i : Int) < 2147483647 := by omega
    have h1 : BinaryHeap.pick_child heap (wrap32 (2 * (i : Int) + 1)) (i : Int) =
        .ok (i : Int) := by
      by_cases h4 : 2 * i + 1 = 2147483647
      · have hw : wrap32 (2 * (i : Int) + 1) = 2147483647 := by
          rw [wrap32_of_range] <;> omega
        rw [hw]
        unfold BinaryHeap.pick_child BinaryHeap.below_size
        have hd2 : decide ((2147483647 : Int) < (heap.length : Int)) = false := by
          rw [decide_eq_false_iff_not]
          omega
        rw [hd2, Bool.and_false]
        rfl
      · apply BinaryHeap.pick_child_negative
        rw [wrap32_high (2 * (i : Int) + 1) (by omega) (by omega)]
        omega
    have h2 : BinaryHeap.pick_child heap (wrap32 (2 * (i : Int) + 2)) (i : Int) =
        .ok (i : Int) := by
      apply BinaryHeap.pick_child_negative
      rw [wrap32_high (2 * (i : Int) + 2) (by omega) (by omega)]
      omega
    rw [h1, ok_bind, h2]
    refine ⟨i, rfl, Or.inl rfl, ?_, ?_⟩
    · intro t e es h5 _ ht _
      have htl := get?_lt _ _ _ ht
      omega
    · intro e es h5 h6
      rw [h5] at h6
      cases h6
      exact ⟨le_refl _, fun h => absurd rfl h⟩

/-- The loop of `BinaryHeap::heapify_down` returns and restores heap order in
an array of at most `INT_MAX` entries. -/
theorem BinaryHeap.down_loop_ordered (n : Nat) (hn : n ≤ 2147483647) :
    ∀ (fuel i : Nat) (b : BinaryHeap), b.heap.length ≤ fuel + i →
      Indexed n b.heap b.vertex_to_index → i < b.heap.length → DownInv 2 b.heap i →
      ∃ b1, b.heapify_down_loop fuel (i : Int) = .ok b1 ∧
        Indexed n b1.heap b1.vertex_to_index ∧ Ordered 2 b1.heap ∧ b1.heap.Perm b.heap := by
  intro fuel
  induction fuel with
  | zero =>
    intro i b hf _ hil _
    omega
  | succ fuel ih =>
    intro i b hf hx hil hu
    have hlen := hx.length_le
    obtain ⟨s, e1, e2, e3, e4⟩ := BinaryHeap.pick_children_spec b.heap i hil (by omega)
    obtain ⟨a, ha⟩ := get?_some_of_lt b.heap i hil
    rw [BinaryHeap.heapify_down_loop]
    rw [← bind_assoc, e1]
    simp only [ok_bind]
    by_cases hsi : s = i
    · subst hsi
      simp only [ne_eq, not_true_eq_false, if_false]
      refine ⟨b, rfl, hx, ?_, List.Perm.refl _⟩
      intro j e p hj0 he hp
      by_cases hq : (j - 1) / 2 = s
      · rw [hq] at hp
        have hr := (child_iff 2 s j (by decide)).1 ⟨hj0, hq⟩
        exact e3 j e p hr.1 (by omega) he hp
      · exact hu.1 j e p hj0 hq he hp
    · have hsr : 2 * i + 1 ≤ s ∧ s < 2 * i + 3 ∧ s < b.heap.length := by
        rcases e2 with h0 | h0
        · exact absurd h0 hsi
        · exact h0
      obtain ⟨c, hc⟩ := get?_some_of_lt b.heap s hsr.2.2
      have hpar := (child_iff 2 i s (by decide)).2 ⟨hsr.1, by omega⟩
      have his : i < s := by omega
      have hcast : ((s : Int) ≠ (i : Int)) := by omega
      simp only [ne_eq, hcast, not_false_eq_true, if_true]
      rw [BinaryHeap.swap_entries_eq_binary b n i s a c hx (by omega) ha hc]
      simp only [ok_bind]
      have hca := (e4 a c ha hc).2 hsi
      have hmin : ∀ (t : Nat) (e : Int × Nat), 0 < t → (t - 1) / 2 = i → b.heap[t]? = some e →
          c.1 ≤ e.1 := by
        intro t e ht0 htq hte
        have hr := (child_iff 2 i t (by decide)).1 ⟨ht0, htq⟩
        exact e3 t e c hr.1 (by omega) hte hc
      obtain ⟨b1, f1, f3, f4, f5⟩ := ih s
        { heap := (b.heap.set i c).set s a,
          vertex_to_index := (b.vertex_to_index.set c.2 i).set a.2 (s : Nat) }
        (by simp; omega) (hx.swap_indexed (by omega) ha hc) (by simp; omega)
        (DownInv.swap_down (by decide) hu hpar.2 hpar.1 ha hc hca hmin)
      exact ⟨b1, f1, f3, f4, f5.trans (swap_perm _ _ _ _ _ (by omega) ha hc)⟩

/-- A `pop` of a non-empty `BinaryHeap` over at most `INT_MAX` vertices returns
and keeps the vertex map and heap order. -/
theorem BinaryHeap.pop_keeps_order {n : Nat} (hn : n ≤ 2147483647) {b : BinaryHeap}
    (hx : Indexed n b.heap b.vertex_to_index) (ho : Ordered 2 b.heap) (hne : b.heap ≠ []) :
    ∃ e b1, b.pop = .ok (e, b1) ∧ Indexed n b1.heap b1.vertex_to_index ∧
      Ordered 2 b1.heap := by
  unfold BinaryHeap.pop
  split
  · rename_i heq
    exact absurd heq hne
  · rename_i min rest heq
    rw [heq] at hx ho
    have h0 : (min :: rest)[0]? = some min := by simp
    have hml := hx.vertex_lt h0
    rw [setAt_nat _ _ _ hml]
    simp only [ok_bind]
    by_cases hr : rest = []
    · subst hr
      simp only [List.length_nil, Nat.zero_add, gt_iff_lt, Nat.lt_irrefl, if_false, ok_bind,
        List.dropLast_single, ne_eq, not_true_eq_false]
      refine ⟨min, _, rfl, hx.pop_single, ?_⟩
      intro i e p _ hi _
      simp at hi
    · have hm : 0 < rest.length := List.length_pos.2 hr
      have hlast : (min :: rest).getLast (List.cons_ne_nil _ _) = rest.getLast hr :=
        List.getLast_cons hr
      have hgl := getLast_slot min rest hr
      have hll := hx.vertex_lt hgl
      have hcond : rest.length + 1 > 1 := by omega
      simp only [hcond, if_true, hlast]
      rw [setAt_nat _ _ _ (by simpa using hll)]
      simp only [ok_bind]
      have hg0 := dropLast_moved min rest hr
      have hne0 : (rest.getLast hr :: rest).dropLast ≠ [] := by
        intro hh
        have := hg0 0
        rw [hh] at this
        simp [hm] at this
      simp only [ne_eq, hne0, not_false_eq_true, if_true]
      have hu : DownInv 2 (rest.getLast hr :: rest).dropLast 0 := by
        constructor
        · intro j e p hj0 hq he hp
          rw [hg0] at he hp
          have hpl := parent_lt 2 j (by decide) hj0
          by_cases hjl : j < rest.length
          · have hj0' : j ≠ 0 := by omega
            have hpl2 : (j - 1) / 2 < rest.length := by omega
            simp only [hjl, hj0', hpl2, hq, if_true, if_false] at he hp
            exact ho j e p hj0 he hp
          · simp only [hjl, if_false] at he
            cases he
        · intro j e g _ h00
          omega
      obtain ⟨b4, e1, e3, e4, _⟩ := BinaryHeap.down_loop_ordered n hn
        ((rest.getLast hr :: rest).dropLast.length + 1) 0
        { heap := (rest.getLast hr :: rest).dropLast,
          vertex_to_index := (b.vertex_to_index.set min.2 (-1)).set (rest.getLast hr).2 0 }
        (by simp) (hx.pop_move hr) (List.length_pos.2 hne0) hu
      have e1' : BinaryHeap.heapify_down
          { heap := (rest.getLast hr :: rest).dropLast,
            vertex_to_index := (b.vertex_to_index.set min.2 (-1)).set (rest.getLast hr).2 0 } 0 =
          .ok b4 := e1
      rw [e1']
      exact ⟨min, b4, rfl, e3, e4⟩

/-- A call of `BinaryHeap` that returns keeps heap order. -/
theorem BinaryHeap.step_ordered {n : Nat} (hn : n ≤ 2147483647) {b b1 : BinaryHeap}
    {c : HeapCall} (hx : Indexed n b.heap b.vertex_to_index) (ho : Ordered 2 b.heap)
    (hs : BinaryHeap.step n b c = some b1) : Ordered 2 b1.heap := by
  cases c with
  | push key vertex =>
    simp only [BinaryHeap.step] at hs
    by_cases hv : vertex < n
    · simp only [hv, if_true] at hs
      obtain ⟨h1, e1, _, _, e4⟩ := DHeap.push_keeps_order n 2 (by decide) hn b.toDHeap rfl hx ho
        key vertex hv
      obtain ⟨b2, e5, e6⟩ := BinaryHeap.push_of_sim e1
      rw [e5] at hs
      cases hs
      rw [← e6] at e4
      exact e4
    · simp [hv] at hs
  | pop =>
    simp only [BinaryHeap.step] at hs
    by_cases hne : b.heap = []
    · have hp : b.pop = .error .runtime_error := by
        unfold BinaryHeap.pop
        rw [hne]
      rw [hp] at hs
      cases hs
    · obtain ⟨e, b2, e1, _, e3⟩ := BinaryHeap.pop_keeps_order hn hx ho hne
      rw [e1] at hs
      cases hs
      exact e3
  | decrease_key vertex new_key =>
    simp only [BinaryHeap.step] at hs
    by_cases hv : vertex < n
    · simp only [hv, if_true] at hs
      obtain ⟨h1, e1, _, _, e4⟩ := DHeap.decrease_key_keeps_order n 2 (by decide) b.toDHeap rfl
        hx ho new_key vertex hv
      obtain ⟨b2, e5, e6⟩ := BinaryHeap.decrease_key_of_sim e1
      rw [e5] at hs
      cases hs
      rw [← e6] at e4
      exact e4
    · simp [hv] at hs

/-- Every reachable state of a `BinaryHeap(n)` is in heap order. -/
theorem BinaryHeap.Reachable.ordered_binary {n : Nat} (hn : n ≤ 2147483647) {b : BinaryHeap}
    (hr : BinaryHeap.Reachable n b) : Ordered 2 b.heap := by
  induction hr with
  | init =>
    intro i e p _ hi _
    simp [BinaryHeap.new] at hi
  | step b b1 c hr0 hstep ih =>
    exact BinaryHeap.step_ordered hn (hr0.indexed_binary hn) ih hstep

/-! ## `decrease_key` without effect -/

/-- C9, as amended: in every reachable state of a `DHeap(n, d)`, whatever `d`,
and of a `BinaryHeap(n)` (`n` an `int`), `decrease_key(v, k)` returns and
leaves the heap array and the vertex map unchanged whenever `v` is not in the
heap or `k` is strictly larger than the current key of `v`.  When `k` equals
the current key of `v`, `decrease_key(v, k)` returns and leaves the state
unchanged in every reachable state of a `BinaryHeap(n)`, and in every
reachable state of a `DHeap(n, d)` whose index arithmetic stays within `int`
(`max(2, d) * n < INT_MAX`). -/
theorem decrease_key_without_effect (n : Nat) (hn : n ≤ 2147483647) (d : Int) (v : Nat)
    (hv : v < n) (k : Int) :
    (∀ h : DHeap, DHeap.Reachable n d h →
      ((∀ e ∈ h.heap, e.2 ≠ v) ∨ ∃ c, (c, v) ∈ h.heap ∧ c < k) →
      h.decrease_key v k = .ok h) ∧
    (max 2 d * n < 2147483647 → ∀ h : DHeap, DHeap.Reachable n d h → (k, v) ∈ h.heap →
      h.decrease_key v k = .ok h) ∧
    (∀ b : BinaryHeap, BinaryHeap.Reachable n b →
      ((∀ e ∈ b.heap, e.2 ≠ v) ∨ ∃ c, (c, v) ∈ b.heap ∧ c ≤ k) →
      b.decrease_key v k = .ok b) := by
  refine ⟨?_, ?_, ?_⟩
  · intro h hr hc
    have hx := (hr.consistent_dheap hn).1.indexed
    rcases hc with hab | ⟨c, hin, hck⟩
    · exact DHeap.decrease_key_absent h v k ((hx.absent_iff hv).2 hab)
    · obtain ⟨i, hi1, hi2⟩ := hx.present hin
      exact DHeap.decrease_key_larger h v k i (c, v) hi1 hi2 hck
  · intro hs h hr hin
    have hI := hr.inv_dheap hs
    obtain ⟨i, hi1, hi2⟩ := hI.indexed.present hin
    exact DHeap.decrease_key_equal n h hI v k i (k, v) hi1 hi2 rfl
  · intro b hr hc
    have hx := hr.indexed_binary hn
    have ho := hr.ordered_binary hn
    have h5 : b.toDHeap.decrease_key v k = .ok b.toDHeap := by
      rcases hc with hab | ⟨c, hin, hck⟩
      · exact DHeap.decrease_key_absent b.toDHeap v k ((hx.absent_iff hv).2 hab)
      · obtain ⟨i, hi1, hi2⟩ := hx.present hin
        by_cases hlt : c < k
        · exact DHeap.decrease_key_larger b.toDHeap v k i (c, v) hi1 hi2 hlt
        · exact DHeap.decrease_key_same 2 (by decide) b.toDHeap rfl ho v k i (c, v) hi1 hi2
            (by simp; omega)
    obtain ⟨b1, e1, e2⟩ := BinaryHeap.decrease_key_of_sim h5
    rw [e1, BinaryHeap.toDHeap_inj b1 b e2]

/-- C9, witness: in `sampleBinaryHeap` and `sampleDHeap` vertex 0 has key 5,
and `decrease_key(0, 5)` changes nothing; in `wideDHeap`, a state of
`DHeap(3, INT_MAX)`, vertex 1 has key 2 and vertex 0 is not in the heap, and
neither `decrease_key(1, 3)` nor `decrease_key(0, 0)` changes anything. -/
theorem decrease_key_without_effect_witness :
    sampleBinaryHeap.decrease_key 0 5 = .ok sampleBinaryHeap ∧
    sampleDHeap.decrease_key 0 5 = .ok sampleDHeap ∧
    wideDHeap.decrease_key 1 3 = .ok wideDHeap ∧
    wideDHeap.decrease_key 0 0 = .ok wideDHeap :=
  ⟨(decrease_key_without_effect 3 (by decide) 3 0 (by decide) 5).2.2 sampleBinaryHeap
      sampleBinaryHeap_reachable (Or.inr ⟨5, by decide, by decide⟩),
   (decrease_key_without_effect 3 (by decide) 3 0 (by decide) 5).2.1 (by decide) sampleDHeap
      sampleDHeap_reachable (by decide),
   (decrease_key_without_effect 3 (by decide) 2147483647 1 (by decide) 3).1 wideDHeap
      wideDHeap_reachable (Or.inr ⟨2, by decide, by decide⟩),
   (decrease_key_without_effect 3 (by decide) 2147483647 0 (by decide) 0).1 wideDHeap
      wideDHeap_reachable (Or.inl (by decide))⟩

end DijkHeap
